import Mathlib

/-! # Embree kernels: a verification development

Shallow embedding of parts of the Embree ray tracing kernels and proofs about
them.  The definitions come first, the theorems follow; each part names the
source file it embeds.
-/

set_option autoImplicit false

/-! ## Three-dimensional vectors -/

/-- A vector with three components (`Vec3<T>`). -/
structure Vec3 (K : Type) where
  x : K
  y : K
  z : K
  deriving DecidableEq

namespace Vec3

variable {K : Type}

instance [Add K] : Add (Vec3 K) := ⟨fun a b => ⟨a.x + b.x, a.y + b.y, a.z + b.z⟩⟩

instance [Sub K] : Sub (Vec3 K) := ⟨fun a b => ⟨a.x - b.x, a.y - b.y, a.z - b.z⟩⟩

/-- Cross product. -/
def cross [Mul K] [Sub K] (a b : Vec3 K) : Vec3 K :=
  ⟨a.y * b.z - a.z * b.y, a.z * b.x - a.x * b.z, a.x * b.y - a.y * b.x⟩

/-- Dot product. -/
def dot [Mul K] [Add K] (a b : Vec3 K) : K := a.x * b.x + a.y * b.y + a.z * b.z

/-- Scaling of a vector. -/
def smul [Mul K] (s : K) (a : Vec3 K) : Vec3 K := ⟨s * a.x, s * a.y, s * a.z⟩

/-- Component-wise product. -/
def mul [Mul K] (a b : Vec3 K) : Vec3 K := ⟨a.x * b.x, a.y * b.y, a.z * b.z⟩

/-- Component-wise application of a function. -/
def map {L : Type} (f : K → L) (a : Vec3 K) : Vec3 L := ⟨f a.x, f a.y, f a.z⟩

end Vec3

/-! ## Values with infinities and NaN

Several kernels rely on the special values of IEEE arithmetic: the empty box
has the corners `+inf` and `-inf`, stack distances start at `+inf`, and
`inf * 0` is NaN, which compares false with everything.  `FVal K` adds these
values to exact numbers of an ordered commutative ring `K`; finite values are computed
exactly, the special values follow the IEEE rules. -/

/-- A number of `K`, `+inf`, `-inf` or NaN. -/
inductive FVal (K : Type) where
  | nan : FVal K
  | ninf : FVal K
  | fin (x : K) : FVal K
  | pinf : FVal K
  deriving DecidableEq

namespace FVal

variable {K : Type} [LinearOrderedCommRing K]

/-- The infinity with the sign of `x` when `s` is true, with the opposite sign
when `s` is false; NaN for `x = 0`. -/
def infTimes (s : Bool) (x : K) : FVal K :=
  if 0 < x then (if s then pinf else ninf)
  else if x < 0 then (if s then ninf else pinf)
  else nan

/-- Addition. -/
def add : FVal K → FVal K → FVal K
  | nan, _ => nan
  | _, nan => nan
  | fin a, fin b => fin (a + b)
  | pinf, ninf => nan
  | ninf, pinf => nan
  | pinf, _ => pinf
  | _, pinf => pinf
  | ninf, _ => ninf
  | _, ninf => ninf

/-- Negation. -/
def neg : FVal K → FVal K
  | nan => nan
  | ninf => pinf
  | fin a => fin (-a)
  | pinf => ninf

/-- Subtraction. -/
def sub (a b : FVal K) : FVal K := add a (neg b)

/-- Multiplication. -/
def mul : FVal K → FVal K → FVal K
  | nan, _ => nan
  | _, nan => nan
  | fin a, fin b => fin (a * b)
  | pinf, fin b => infTimes true b
  | ninf, fin b => infTimes false b
  | fin a, pinf => infTimes true a
  | fin a, ninf => infTimes false a
  | pinf, pinf => pinf
  | ninf, ninf => pinf
  | pinf, ninf => ninf
  | ninf, pinf => ninf

instance : Add (FVal K) := ⟨add⟩

instance : Sub (FVal K) := ⟨sub⟩

instance : Mul (FVal K) := ⟨mul⟩

/-- The comparison `a < b`; false when either side is NaN. -/
def lt : FVal K → FVal K → Bool
  | nan, _ => false
  | _, nan => false
  | ninf, ninf => false
  | ninf, _ => true
  | fin _, ninf => false
  | fin a, fin b => decide (a < b)
  | fin _, pinf => true
  | pinf, _ => false

/-- The comparison `a <= b`; false when either side is NaN. -/
def le : FVal K → FVal K → Bool
  | nan, _ => false
  | _, nan => false
  | ninf, _ => true
  | fin _, ninf => false
  | fin a, fin b => decide (a ≤ b)
  | fin _, pinf => true
  | pinf, pinf => true
  | pinf, _ => false

/-- The comparison `a == b`; false when either side is NaN. -/
def eq : FVal K → FVal K → Bool
  | ninf, ninf => true
  | fin a, fin b => decide (a = b)
  | pinf, pinf => true
  | _, _ => false

/-- The SIMD minimum `min(a,b) = a < b ? a : b`. -/
def min (a b : FVal K) : FVal K := if lt a b then a else b

/-- The SIMD maximum `max(a,b) = a > b ? a : b`. -/
def max (a b : FVal K) : FVal K := if lt b a then a else b

/-- The value is NaN. -/
def isNaN : FVal K → Bool
  | nan => true
  | _ => false

/-- Conversion of an integer (`ssef(ssei)`). -/
def ofInt (n : Int) : FVal K := fin (n : K)

end FVal

/-! ## Axis-aligned boxes -/

/-- Modelled from the spec: `BBox3fa` (the box type is not part of the sources).
An axis-aligned box is its lower and upper corner; the three components are
the lanes `0`, `1`, `2`. -/
structure BBox (K : Type) where
  lower : Fin 3 → FVal K
  upper : Fin 3 → FVal K

namespace BBox

variable {K : Type} [LinearOrderedCommRing K]

/-- Modelled from the spec: the empty box, `min = +inf` and `max = -inf`, the
identity of `extend`. -/
def empty : BBox K := ⟨fun _ => FVal.pinf, fun _ => FVal.ninf⟩

/-- Modelled from the spec: `extend`, the box-extend operation, takes the
minimum of the lower corners and the maximum of the upper corners. -/
def extend (a b : BBox K) : BBox K :=
  ⟨fun d => FVal.min (a.lower d) (b.lower d), fun d => FVal.max (a.upper d) (b.upper d)⟩

/-- Modelled from the spec: `extend` by a point. -/
def extendPoint (a : BBox K) (p : Fin 3 → FVal K) : BBox K :=
  ⟨fun d => FVal.min (a.lower d) (p d), fun d => FVal.max (a.upper d) (p d)⟩

/-- Modelled from the spec: `halfArea`, half the surface area of a box with the
extent `d = upper - lower`: `d.x*(d.y+d.z)+d.y*d.z`. -/
def halfArea (b : BBox K) : FVal K :=
  (b.upper 0 - b.lower 0) * ((b.upper 1 - b.lower 1) + (b.upper 2 - b.lower 2))
    + (b.upper 1 - b.lower 1) * (b.upper 2 - b.lower 2)

end BBox

/-! ## Single precision

The kernels compute in binary32.  Where a statement depends on the rounding,
the arithmetic is evaluated over the rational numbers with the rounding
`Binary32.rn` applied to the result of every operation. -/

namespace Binary32

/-- Number of binary digits of `n`, found by halving at most `fuel` times. -/
def bitLength : Nat → Nat → Nat
  | 0, _ => 0
  | fuel + 1, n => if n = 0 then 0 else bitLength fuel (n / 2) + 1

/-- The exponent `e` with `2 ^ e <= x < 2 ^ (e + 1)` of a number `x > 0`. -/
def exponent (x : ℚ) : Int :=
  let g : Int := (bitLength x.num.natAbs x.num.natAbs : Int) - (bitLength x.den x.den : Int)
  if (2 : ℚ) ^ g ≤ x then g else g - 1

/-- The integer nearest to `x`, the even one of the two when `x` lies half way
between them. -/
def roundEven (x : ℚ) : Int :=
  if x - ⌊x⌋ < 1 / 2 then ⌊x⌋
  else if 1 / 2 < x - ⌊x⌋ then ⌊x⌋ + 1
  else if ⌊x⌋ % 2 = 0 then ⌊x⌋ else ⌊x⌋ + 1

/-- Rounding of a number `x >= 0` to 24 significant binary digits, and to a
multiple of `2 ^ (-149)` below `2 ^ (-126)`. -/
def rnPos (x : ℚ) : ℚ :=
  if x = 0 then 0
  else (roundEven (x / (2 : ℚ) ^ (max (exponent x) (-126) - 23)) : ℚ)
    * (2 : ℚ) ^ (max (exponent x) (-126) - 23)

/-- Rounding to the nearest binary32 number, ties to even.  There is no largest
number: the overflow to an infinity is added by `round`. -/
def rn (x : ℚ) : ℚ := if x < 0 then -rnPos (-x) else rnPos x

/-- Rounding to binary32 with overflow: a result of magnitude `2 ^ 128` or more
is an infinity. -/
def round (x : ℚ) : FVal ℚ :=
  if (2 : ℚ) ^ 128 ≤ rn x then FVal.pinf
  else if rn x ≤ -(2 : ℚ) ^ 128 then FVal.ninf
  else FVal.fin (rn x)

/-- The reciprocal in binary32: the quotient `1 / x` rounded; the reciprocal
of zero is `+inf` (the sign of a zero is not modelled) and that of an infinity
is zero. -/
def rcp : FVal ℚ → FVal ℚ
  | FVal.fin x => if x = 0 then FVal.pinf else round (1 / x)
  | FVal.pinf => FVal.fin 0
  | FVal.ninf => FVal.fin 0
  | FVal.nan => FVal.nan

end Binary32

/-! ## BVH4Hair node references (kernels/xeon/bvh4hair/bvh4hair.h)

A `NodeRef` is one machine word (`size_t`, 64 bit).  Addresses and words are
natural numbers; the bitwise operators are those of `Nat`, complement and
subtraction are taken modulo `2 ^ 64`. -/

namespace BVH4Hair

/-- Width of `size_t` in bits. -/
def sizeBits : Nat := 64

/-- Number of address bits the nodes and primitives are aligned to
(`static const size_t alignment = 4`). -/
def alignment : Nat := 4

/-- Mask of the tag bits: `(1 << alignment)-1`. -/
def align_mask : Nat := (1 <<< alignment) - 1

/-- Mask of the bits that store the number of items per leaf:
`(1 << (alignment-1))-1`. -/
def items_mask : Nat := (1 <<< (alignment - 1)) - 1

/-- Bitwise complement of a `size_t` value (`~x`). -/
def notSz (x : Nat) : Nat := (2 ^ sizeBits - 1) ^^^ x

/-- Subtraction of `size_t` values, wrapping modulo `2 ^ 64`. -/
def subSz (a b : Nat) : Nat := (a + 2 ^ sizeBits - b) % 2 ^ sizeBits

/-- Empty node (`static const size_t emptyNode = 2`). -/
def emptyNode : Nat := 2

/-- Invalid node, the traversal marker:
`(((size_t)-1) & (~items_mask)) | 2`. -/
def invalidNode : Nat := ((2 ^ sizeBits - 1) &&& notSz items_mask) ||| 2

/-- Maximal number of primitive blocks in a leaf: `items_mask-2`. -/
def maxLeafBlocks : Nat := items_mask - 2

/-- Pointer that points to a node or a list of primitives. -/
structure NodeRef where
  ptr : Nat
  deriving DecidableEq

namespace NodeRef

/-- Checks if this is a leaf: `(ptr & align_mask) > 1`. -/
def isLeaf (r : NodeRef) : Bool := decide ((r.ptr &&& align_mask) > 1)

/-- Checks if this is a node: `(ptr & align_mask) <= 1`. -/
def isNode (r : NodeRef) : Bool := decide ((r.ptr &&& align_mask) ≤ 1)

/-- Checks if this is a node with aligned bounding boxes:
`(ptr & align_mask) == 0`. -/
def isAlignedNode (r : NodeRef) : Bool := decide ((r.ptr &&& align_mask) = 0)

/-- Checks if this is a node with unaligned bounding boxes:
`(ptr & align_mask) == 1`. -/
def isUnalignedNode (r : NodeRef) : Bool := decide ((r.ptr &&& align_mask) = 1)

/-- Returns the node pointer: `ptr & ~align_mask`. -/
def node (r : NodeRef) : Nat := r.ptr &&& notSz align_mask

/-- Returns the aligned node pointer: `(AlignedNode*)ptr`. -/
def alignedNode (r : NodeRef) : Nat := r.ptr

/-- Returns the unaligned node pointer: `ptr & ~align_mask`. -/
def unalignedNode (r : NodeRef) : Nat := r.ptr &&& notSz align_mask

/-- Returns the leaf pointer `ptr & ~align_mask` together with the item count
`num = (ptr & items_mask)-2`. -/
def leaf (r : NodeRef) : Nat × Nat :=
  (r.ptr &&& notSz align_mask, subSz (r.ptr &&& items_mask) 2)

end NodeRef

/-- Encodes an aligned node: `NodeRef((size_t) node)`. -/
def encodeNodeAligned (node : Nat) : NodeRef := ⟨node⟩

/-- Encodes an unaligned node: `NodeRef(((size_t) node) | 1)`. -/
def encodeNodeUnaligned (node : Nat) : NodeRef := ⟨node ||| 1⟩

/-- Encodes a leaf: `NodeRef((size_t)data | (2+min(num,maxLeafBlocks)))`. -/
def encodeLeaf (data num : Nat) : NodeRef := ⟨data ||| (2 + min num maxLeafBlocks)⟩

end BVH4Hair

/-! ### BVH4Hair nodes: the references to the children -/

namespace BVH4Hair

/-- Branching width of the tree (`static const size_t N = BVH4HAIR_WIDTH`,
with `BVH4HAIR_WIDTH` defined as 4). -/
abbrev N : Nat := 4

/-- Base node structure: `NodeRef children[N]`. -/
structure Node where
  children : Fin N → NodeRef

namespace Node

/-- Clears the node: `for (size_t i=0; i<N; i++) children[i] = emptyNode`. -/
def clear (n : Node) : Node :=
  (List.finRange N).foldl
    (fun n i => { n with children := Function.update n.children i ⟨emptyNode⟩ }) n

/-- Sets the ID of a child: `children[i] = childID`; the index type holds the
assertion `i < N`. -/
def set (n : Node) (i : Fin N) (childID : NodeRef) : Node :=
  { n with children := Function.update n.children i childID }

/-- Returns the reference to the specified child. -/
def child (n : Node) (i : Fin N) : NodeRef := n.children i

end Node

end BVH4Hair

/-! ### BVH4Hair nodes with unaligned bounds (uncompressed, `BVH4HAIR_COMPRESSION 0`)

The math headers with `LinearSpace3fa`, `AffineSpace3fa` and `BBox3fa` are not
part of the sources.  Numbers are the elements of an ordered field `K`,
computed exactly. -/

namespace BVH4Hair

variable {K : Type} [LinearOrderedField K]

/-- Modelled from the spec: `LinearSpace3fa`, a linear map given by its three
column vectors (the math headers are not part of the sources). -/
structure LinearSpace3 (K : Type) where
  vx : Vec3 K
  vy : Vec3 K
  vz : Vec3 K

/-- Modelled from the spec: `AffineSpace3fa`, the affine map `x -> l*x + p`
(the math headers are not part of the sources). -/
structure AffineSpace3 (K : Type) where
  l : LinearSpace3 K
  p : Vec3 K

/-- Modelled from the spec: the scaling `LinearSpace3::scale(s)`, the diagonal
matrix of the components of `s`. -/
def LinearSpace3.scale (s : Vec3 K) : LinearSpace3 K :=
  ⟨⟨s.x, 0, 0⟩, ⟨0, s.y, 0⟩, ⟨0, 0, s.z⟩⟩

/-- Modelled from the spec: the product of a linear map and a vector,
`v.x*vx + v.y*vy + v.z*vz`. -/
def LinearSpace3.mulVec (a : LinearSpace3 K) (v : Vec3 K) : Vec3 K :=
  Vec3.smul v.x a.vx + Vec3.smul v.y a.vy + Vec3.smul v.z a.vz

/-- Modelled from the spec: the product of two linear maps, column by
column. -/
def LinearSpace3.mul (a b : LinearSpace3 K) : LinearSpace3 K :=
  ⟨a.mulVec b.vx, a.mulVec b.vy, a.mulVec b.vz⟩

/-- Modelled from the spec: the conversion of a linear map to an affine map,
with the translation zero. -/
def AffineSpace3.ofLinear (l : LinearSpace3 K) : AffineSpace3 K := ⟨l, ⟨0, 0, 0⟩⟩

/-- Modelled from the spec: the scaling `AffineSpace3fa::scale(s)`. -/
def AffineSpace3.scale (s : Vec3 K) : AffineSpace3 K :=
  AffineSpace3.ofLinear (LinearSpace3.scale s)

/-- Modelled from the spec: the product `a*b` of two affine maps, the map
`x -> a(b(x))`: `AffineSpace(a.l*b.l, a.l*b.p + a.p)`. -/
def AffineSpace3.mul (a b : AffineSpace3 K) : AffineSpace3 K :=
  ⟨a.l.mul b.l, a.l.mulVec b.p + a.p⟩

/-- Modelled from the spec: `xfmPoint(m, x)`, the image `l*x + p` of a point. -/
def xfmPoint (m : AffineSpace3 K) (x : Vec3 K) : Vec3 K := m.l.mulVec x + m.p

/-- Modelled from the spec: `BBox3fa`, a box with finite corners. -/
structure BBox3 (K : Type) where
  lower : Vec3 K
  upper : Vec3 K

/-- Non-axis aligned bounds (`NAABBox3fa`): `space` is the transformation,
`bounds` the bounds in the transformed space. -/
structure NAABBox3fa (K : Type) where
  space : LinearSpace3 K
  bounds : BBox3 K

/-- Node with unaligned bounds.  The member `naabb` of type `AffineSpaceSOA4`
holds one affine map per child, component by component: `naabb.l.vx.x[i]` is
`(naabb i).l.vx.x`. -/
structure UnalignedNode (K : Type) extends Node where
  naabb : Fin N → AffineSpace3 K

/-- The function `UnalignedNode::set(i, b, childID)`. -/
def UnalignedNode.set (n : UnalignedNode K) (i : Fin N) (b : NAABBox3fa K)
    (childID : NodeRef) : UnalignedNode K :=
  let space : AffineSpace3 K := AffineSpace3.ofLinear b.space
  let space : AffineSpace3 K := { space with p := space.p - b.bounds.lower }
  let space : AffineSpace3 K :=
    (AffineSpace3.scale
      (Vec3.map (fun x => 1 / x)
        (Vec3.map (fun x => max (1 / 10 ^ 19) x) (b.bounds.upper - b.bounds.lower)))).mul space
  { toNode := n.toNode.set i childID
    naabb := Function.update n.naabb i
      { l := { vx := ⟨space.l.vx.x, space.l.vx.y, space.l.vx.z⟩
               vy := ⟨space.l.vy.x, space.l.vy.y, space.l.vy.z⟩
               vz := ⟨space.l.vz.x, space.l.vz.y, space.l.vz.z⟩ }
        p := ⟨space.p.x, space.p.y, space.p.z⟩ } }

/-- The point `y` lies in the box, bounds included. -/
def BBox3.contains (b : BBox3 K) (y : Vec3 K) : Prop :=
  (b.lower.x ≤ y.x ∧ y.x ≤ b.upper.x) ∧ (b.lower.y ≤ y.y ∧ y.y ≤ b.upper.y)
    ∧ (b.lower.z ≤ y.z ∧ y.z ≤ b.upper.z)

/-- The point `y` lies in the cube `[0,1]^3`. -/
def inUnitCube (y : Vec3 K) : Prop :=
  (0 ≤ y.x ∧ y.x ≤ 1) ∧ (0 ≤ y.y ∧ y.y ≤ 1) ∧ (0 ≤ y.z ∧ y.z ≤ 1)

/-- The component-wise quotient `(y - lower) / (upper - lower)`. -/
def normalized (b : BBox3 K) (y : Vec3 K) : Vec3 K :=
  ⟨(y.x - b.lower.x) / (b.upper.x - b.lower.x), (y.y - b.lower.y) / (b.upper.y - b.lower.y),
    (y.z - b.lower.z) / (b.upper.z - b.lower.z)⟩

/-- A box in a space sheared along x: `vx = (1,0,0)`, `vy = (1,1,0)`,
`vz = (0,0,1)`, with the bounds `[1,3] x [0,4] x [2,3]`. -/
def shearedBox : NAABBox3fa ℚ :=
  ⟨⟨⟨1, 0, 0⟩, ⟨1, 1, 0⟩, ⟨0, 0, 1⟩⟩, ⟨⟨1, 0, 2⟩, ⟨3, 4, 3⟩⟩⟩

/-- A node whose children are all `emptyNode` and whose maps are all the
identity. -/
def plainNode : UnalignedNode ℚ :=
  { children := fun _ => ⟨emptyNode⟩
    naabb := fun _ => ⟨⟨⟨1, 0, 0⟩, ⟨0, 1, 0⟩, ⟨0, 0, 1⟩⟩, ⟨0, 0, 0⟩⟩ }

end BVH4Hair

/-! ## Single-ray Pluecker triangle intersector
(kernels/xeon/geometry/triangle_intersector_pluecker.h, `intersect` and
`occluded` for one ray and `N` triangles)

The kernel computes in single precision.  This embedding computes exactly,
over an arbitrary linearly ordered field `K` (for instance `ℚ` or `ℝ`); the
kernel with a rounding applied to the result of every operation follows as
`Pluecker.Rounded`, and is this one when the rounding is the identity.  The `N`
SIMD lanes of `tri_v0`, `tri_v1`, `tri_v2`, `tri_geomIDs`, `tri_primIDs` are a
list with one entry per lane; a SIMD mask is a list of booleans. -/

namespace Pluecker

variable {K : Type} [LinearOrderedField K]

/-- A single ray with its current hit (`Ray`). -/
structure Ray (K : Type) where
  org : Vec3 K
  dir : Vec3 K
  tnear : K
  tfar : K
  time : K
  mask : Nat
  Ng : Vec3 K
  u : K
  v : K
  geomID : Int
  primID : Int

/-- One lane of a triangle batch: the three vertices, the IDs and the mask of
the triangle. -/
structure TriLane (K : Type) where
  v0 : Vec3 K
  v1 : Vec3 K
  v2 : Vec3 K
  geomID : Int
  primID : Int
  mask : Nat

/-- Compile-time switches of the kernel. -/
structure Config where
  /-- Set when `RTCORE_BACKFACE_CULLING` is defined. -/
  backfaceCulling : Bool
  /-- Set when `RTCORE_RAY_MASK` is defined. -/
  rayMask : Bool
  /-- Set when `RTCORE_INTERSECTION_FILTER` is defined. -/
  intersectionFilter : Bool

/-- The filter callbacks of the scene (geometry/filter.h is not part of the
sources, so they are parameters).  A geometry is named by its ID
(`scene->get(geomID)`); a `run...` function receives the ray and the candidate
hit `u v t Ng geomID primID` and returns its verdict with the ray it leaves. -/
structure Filters (K : Type) where
  hasIntersectionFilter1 : Int → Bool
  runIntersectionFilter1 : Int → Ray K → K → K → K → Vec3 K → Int → Int → Bool × Ray K
  hasOcclusionFilter1 : Int → Bool
  runOcclusionFilter1 : Int → Ray K → K → K → K → Vec3 K → Int → Int → Bool × Ray K

/-- The operation `x ^ sgnDen` with `sgnDen = signmsk(den)`: flips the sign of
`x` when the sign bit of `den` is set. -/
def xorSign (x den : K) : K := if den < 0 then -x else x

/-- The values the kernel computes in one lane. -/
structure LaneCalc (K : Type) where
  Ng : Vec3 K
  den : K
  absDen : K
  U : K
  V : K
  W : K
  T : K

/-- The per-lane computation shared by `intersect` and `occluded`: vertices
relative to the ray origin, edges, geometry normal, denominator, edge values
and depth value. -/
def laneCalc (ray : Ray K) (tri : TriLane K) : LaneCalc K :=
  let O := ray.org
  let D := ray.dir
  let v0 := tri.v0 - O
  let v1 := tri.v1 - O
  let v2 := tri.v2 - O
  let e0 := v2 - v0
  let e1 := v0 - v1
  let e2 := v1 - v2
  let Ng1 := Vec3.cross e1 e0
  let Ng := Ng1 + Ng1
  let den := Vec3.dot Ng D
  { Ng := Ng
    den := den
    absDen := |den|
    U := xorSign (Vec3.dot (Vec3.cross (v2 + v0) e0) D) den
    V := xorSign (Vec3.dot (Vec3.cross (v0 + v1) e1) D) den
    W := xorSign (Vec3.dot (Vec3.cross (v1 + v2) e2) D) den
    T := xorSign (Vec3.dot v0 Ng) den }

/-- The edge tests `(U >= 0) & (V >= 0) & (W >= 0)` of one lane. -/
def edgeTest (c : LaneCalc K) : Bool :=
  decide (c.U ≥ 0) && decide (c.V ≥ 0) && decide (c.W ≥ 0)

/-- The depth test `(T >= absDen*tnear) & (absDen*tfar >= T)` of one lane. -/
def depthTest (ray : Ray K) (c : LaneCalc K) : Bool :=
  decide (c.T ≥ c.absDen * ray.tnear) && decide (c.absDen * ray.tfar ≥ c.T)

/-- The test on the denominator: `den > 0` with backface culling, `den != 0`
without. -/
def denTest (cfg : Config) (c : LaneCalc K) : Bool :=
  if cfg.backfaceCulling then decide (c.den > 0) else decide (c.den ≠ 0)

/-- The ray masking test `(tri_mask & ray.mask) != 0` of one lane. -/
def maskTest (ray : Ray K) (tri : TriLane K) : Bool :=
  decide (tri.mask &&& ray.mask ≠ 0)

/-- The SIMD reduction `none(valid)`: no lane is set. -/
def none (valid : List Bool) : Bool := valid.all (fun b => !b)

/-- Lane-wise `&` of two masks. -/
def maskAnd (a b : List Bool) : List Bool := List.zipWith (fun x y => x && y) a b

/-- Modelled from the spec: `select_min(valid, t)` of the SIMD library, which is
not part of the sources.  The spec has it select the minimum `t` among the
valid lanes; the index returned is that of the first valid lane whose `t` is
less than or equal to the `t` of every valid lane (the number of lanes when
no lane is valid). -/
def select_min : List Bool → List K → Nat
  | [], _ => 0
  | _, [] => 0
  | b :: bs, x :: xs =>
    if b && (bs.zip xs).all (fun p => !p.1 || decide (x ≤ p.2)) then 0
    else select_min bs xs + 1

/-- The hit information of one lane: `u = U / absDen`, `v = V / absDen`,
`t = T / absDen`, the normal and the IDs. -/
structure LaneHit (K : Type) where
  u : K
  v : K
  t : K
  Ng : Vec3 K
  geomID : Int
  primID : Int

/-- Hit information of a lane from its computed values. -/
def laneHit (tri : TriLane K) (c : LaneCalc K) : LaneHit K :=
  { u := c.U / c.absDen
    v := c.V / c.absDen
    t := c.T / c.absDen
    Ng := c.Ng
    geomID := tri.geomID
    primID := tri.primID }

/-- The block "update hit information" of `intersect`. -/
def updateHit (ray : Ray K) (h : LaneHit K) : Ray K :=
  { ray with
    u := h.u
    v := h.v
    tfar := h.t
    Ng := h.Ng
    geomID := h.geomID
    primID := h.primID }

/-- The loop `while (true)` of `intersect` that is compiled with
`RTCORE_INTERSECTION_FILTER`.  `i` is the selected lane.  Every pass that
continues clears one set lane of `valid`, so `fuel` equal to the number of
lanes is never used up. -/
def intersectFilterLoop (flt : Filters K) (hits : List (LaneHit K)) :
    Nat → List Bool → Nat → Ray K → Ray K
  | 0, _, _, ray => ray
  | fuel + 1, valid, i, ray =>
    match hits.get? i with
    | Option.none => ray
    | some h =>
      if !flt.hasIntersectionFilter1 h.geomID then updateHit ray h
      else
        let r := flt.runIntersectionFilter1 h.geomID ray h.u h.v h.t h.Ng h.geomID h.primID
        if r.1 then r.2
        else
          let valid1 := valid.set i false
          if none valid1 then r.2
          else intersectFilterLoop flt hits fuel valid1
            (select_min valid1 (hits.map (fun l => l.t))) r.2

/-- Intersect a ray with the triangles of a batch and update the hit
(`embree::isa::intersect`, one ray, `N` triangles). -/
def intersect (cfg : Config) (flt : Filters K) (ray : Ray K) (tris : List (TriLane K)) :
    Ray K :=
  let cs := tris.map (laneCalc ray)
  /- perform edge tests -/
  let valid := cs.map edgeTest
  if none valid then ray else
  /- perform depth test -/
  let valid := maskAnd valid (cs.map (depthTest ray))
  if none valid then ray else
  /- perform backface culling -/
  let valid := maskAnd valid (cs.map (denTest cfg))
  if none valid then ray else
  /- ray masking test -/
  let valid := if cfg.rayMask then maskAnd valid (tris.map (maskTest ray)) else valid
  if cfg.rayMask && none valid then ray else
  /- calculate hit information -/
  let hits := List.zipWith laneHit tris cs
  let i := select_min valid (hits.map (fun l => l.t))
  if cfg.intersectionFilter then
    intersectFilterLoop flt hits tris.length valid i ray
  else
    match hits.get? i with
    | Option.none => ray
    | some h => updateHit ray h

/-- The scan `__bsf(m)`: index of the lowest set lane of a mask. -/
def bsf (m : List Bool) : Nat := m.indexOf true

/-- The operation `__btc(m,i)`: complements lane `i` of a mask. -/
def btc (m : List Bool) (i : Nat) : List Bool :=
  match m.get? i with
  | Option.none => m
  | some b => m.set i (!b)

/-- The loop `while (true)` of `occluded` that is compiled with
`RTCORE_INTERSECTION_FILTER`: the lanes of `m` are offered to the occlusion
filter in index order.  Every pass that continues clears one set lane of `m`. -/
def occludedFilterLoop (flt : Filters K) (hits : List (LaneHit K)) :
    Nat → List Bool → Nat → Ray K → Bool × Ray K
  | 0, _, _, ray => (false, ray)
  | fuel + 1, m, i, ray =>
    match hits.get? i with
    | Option.none => (true, ray)
    | some h =>
      if !flt.hasOcclusionFilter1 h.geomID then (true, ray)
      else
        let r := flt.runOcclusionFilter1 h.geomID ray h.u h.v h.t h.Ng h.geomID h.primID
        if r.1 then (true, r.2)
        else
          let m1 := btc m i
          if none m1 then (false, r.2)
          else occludedFilterLoop flt hits fuel m1 (bsf m1) r.2

/-- Test if the ray is occluded by one of the triangles
(`embree::isa::occluded`, one ray, `N` triangles).  The ray is passed by
reference, so the result carries the ray the filters leave. -/
def occluded (cfg : Config) (flt : Filters K) (ray : Ray K) (tris : List (TriLane K)) :
    Bool × Ray K :=
  let cs := tris.map (laneCalc ray)
  /- perform edge tests -/
  let valid := cs.map edgeTest
  if none valid then (false, ray) else
  /- perform depth test -/
  let valid := maskAnd valid (cs.map (depthTest ray))
  if none valid then (false, ray) else
  /- perform backface culling -/
  let valid := maskAnd valid (cs.map (denTest cfg))
  if none valid then (false, ray) else
  /- ray masking test -/
  let valid := if cfg.rayMask then maskAnd valid (tris.map (maskTest ray)) else valid
  if cfg.rayMask && none valid then (false, ray) else
  /- intersection filter test -/
  if cfg.intersectionFilter then
    occludedFilterLoop flt (List.zipWith laneHit tris cs) tris.length valid (bsf valid) ray
  else (true, ray)

end Pluecker

/-! ### Vocabulary for the statements about the Pluecker kernel -/

namespace Pluecker

variable {K : Type} [LinearOrderedField K]

/-- The lane of `tri` passes all tests of the kernel: its bit in the final mask
`valid` (edge tests, depth test, test on the denominator and, when compiled
in, the ray mask test). -/
def lanePasses (cfg : Config) (ray : Ray K) (tri : TriLane K) : Bool :=
  edgeTest (laneCalc ray tri) && depthTest ray (laneCalc ray tri)
    && denTest cfg (laneCalc ray tri) && (!cfg.rayMask || maskTest ray tri)

/-- The hit information the kernel computes for the lane of `tri`. -/
def hitOf (ray : Ray K) (tri : TriLane K) : LaneHit K := laneHit tri (laneCalc ray tri)

/-- The point `p` lies in the closed triangle `v0 v1 v2`: it is a convex
combination of the three vertices. -/
def inClosedTriangle (tri : TriLane K) (p : Vec3 K) : Prop :=
  ∃ a b c : K, 0 ≤ a ∧ 0 ≤ b ∧ 0 ≤ c ∧ a + b + c = 1 ∧
    p = Vec3.smul a tri.v0 + Vec3.smul b tri.v1 + Vec3.smul c tri.v2

/-- No intersection filter takes part in `intersect` on this batch: the filter
code is compiled out, or no geometry of the batch has a filter installed. -/
def noIntersectionFilter (cfg : Config) (flt : Filters K) (tris : List (TriLane K)) : Prop :=
  cfg.intersectionFilter = false ∨ ∀ tri ∈ tris, flt.hasIntersectionFilter1 tri.geomID = false

/-- No occlusion filter takes part in `occluded` on this batch. -/
def noOcclusionFilter (cfg : Config) (flt : Filters K) (tris : List (TriLane K)) : Prop :=
  cfg.intersectionFilter = false ∨ ∀ tri ∈ tris, flt.hasOcclusionFilter1 tri.geomID = false

/-- Modelled from the spec: the intersection filter of a geometry is a callback
"given hit candidate, return accept/reject".  Each filter that can run on the
batch either accepts the candidate, which leaves the candidate recorded in the
ray, or rejects it, which leaves the ray as it was.  Holds trivially when the
filter code is compiled out or no geometry of the batch has a filter. -/
def acceptRejectFilter (cfg : Config) (flt : Filters K) (tris : List (TriLane K)) : Prop :=
  cfg.intersectionFilter = true → ∀ tri ∈ tris, flt.hasIntersectionFilter1 tri.geomID = true →
    ∀ (r : Ray K) (h : LaneHit K),
      flt.runIntersectionFilter1 tri.geomID r h.u h.v h.t h.Ng h.geomID h.primID
        = (true, updateHit r h)
      ∨ flt.runIntersectionFilter1 tri.geomID r h.u h.v h.t h.Ng h.geomID h.primID = (false, r)

end Pluecker

/-! ### Edges of a triangle as the kernel walks them -/

namespace Pluecker

variable {K : Type} [LinearOrderedField K]

/-- The un-normalised Pluecker edge value the kernel computes for the directed
edge from `p` to `q`: `dot(cross(q+p,q-p),D)` on the vertices relative to the
ray origin.  With `e0 = v2-v0`, `e1 = v0-v1`, `e2 = v1-v2` the kernel computes
it for the edges `v0 -> v2` (`U`), `v1 -> v0` (`V`) and `v2 -> v1` (`W`). -/
def edgeValue (ray : Ray K) (p q : Vec3 K) : K :=
  Vec3.dot (Vec3.cross ((q - ray.org) + (p - ray.org)) ((q - ray.org) - (p - ray.org))) ray.dir

/-- The directed edges of a triangle in the order of the edge values `U`, `V`,
`W` of the kernel. -/
def triEdges (tri : TriLane K) : List (Vec3 K × Vec3 K) :=
  [(tri.v0, tri.v2), (tri.v1, tri.v0), (tri.v2, tri.v1)]

/-- The un-normalised edge values of a lane in the order `U`, `V`, `W`. -/
def rawEdgeValues (ray : Ray K) (tri : TriLane K) : List K :=
  (triEdges tri).map (fun e => edgeValue ray e.1 e.2)

end Pluecker

/-! ### Concrete data for the Pluecker kernel -/

namespace Pluecker

/-- A ray from the origin along the z axis with the interval `[0, 100]` and no
hit recorded. -/
def sampleRay : Ray ℚ :=
  { org := ⟨0, 0, 0⟩, dir := ⟨0, 0, 1⟩, tnear := 0, tfar := 100, time := 0, mask := 1,
    Ng := ⟨0, 0, 0⟩, u := 0, v := 0, geomID := -1, primID := -1 }

/-- A triangle in the plane `z = 5` that `sampleRay` hits. -/
def sampleTriFar : TriLane ℚ :=
  { v0 := ⟨-1, -1, 5⟩, v1 := ⟨3, -1, 5⟩, v2 := ⟨-1, 3, 5⟩, geomID := 7, primID := 3, mask := 1 }

/-- A triangle in the plane `z = 4` that `sampleRay` hits. -/
def sampleTriNear : TriLane ℚ :=
  { v0 := ⟨-1, -1, 4⟩, v1 := ⟨-1, 3, 4⟩, v2 := ⟨3, -1, 4⟩, geomID := 8, primID := 4, mask := 1 }

/-- The neighbour of `sampleTriFar` across its edge `v1 v2`; the shared edge
is stored with the same vertices and walked in the opposite direction. -/
def sampleTriNeighbour : TriLane ℚ :=
  { v0 := ⟨3, -1, 5⟩, v1 := ⟨3, 3, 5⟩, v2 := ⟨-1, 3, 5⟩, geomID := 7, primID := 9, mask := 1 }

/-- A ray from the origin through `(1, 1, 5)`, the midpoint of the edge shared
by `sampleTriFar` and `sampleTriNeighbour`. -/
def sampleEdgeRay : Ray ℚ :=
  { org := ⟨0, 0, 0⟩, dir := ⟨1, 1, 5⟩, tnear := 0, tfar := 100, time := 0, mask := 1,
    Ng := ⟨0, 0, 0⟩, u := 0, v := 0, geomID := -1, primID := -1 }

/-- A scene without filters. -/
def sampleFilters : Filters ℚ :=
  { hasIntersectionFilter1 := fun _ => false
    runIntersectionFilter1 := fun _ r _ _ _ _ _ _ => (true, r)
    hasOcclusionFilter1 := fun _ => false
    runOcclusionFilter1 := fun _ r _ _ _ _ _ _ => (true, r) }

/-- The build without backface culling, ray masks and intersection filters. -/
def plainConfig : Config :=
  { backfaceCulling := false, rayMask := false, intersectionFilter := false }

/-- A scene whose geometry 8 carries an intersection filter that rejects every
candidate; the other geometries have no filter. -/
def vetoFilters : Filters ℚ :=
  { hasIntersectionFilter1 := fun g => decide (g = 8)
    runIntersectionFilter1 := fun _ r _ _ _ _ _ _ => (false, r)
    hasOcclusionFilter1 := fun _ => false
    runOcclusionFilter1 := fun _ r _ _ _ _ _ _ => (true, r) }

/-- The build with intersection filters, without backface culling and ray
masks. -/
def filterConfig : Config :=
  { backfaceCulling := false, rayMask := false, intersectionFilter := true }

end Pluecker

/-! ### The filter loop of `intersect` with the offered candidates recorded -/

namespace Pluecker

variable {K : Type} [LinearOrderedField K]

/-- What happened to a candidate the filter loop selected: its geometry has no
filter and the hit was recorded, or the filter accepted it, or the filter
rejected it. -/
inductive Verdict where
  | unfiltered : Verdict
  | accepted : Verdict
  | rejected : Verdict
  deriving DecidableEq

/-- The loop `while (true)` of `intersect` as in `intersectFilterLoop`, with
the list of the lanes it selects, in the order of selection, each with what
happened to the candidate.  The ray of the result is that of
`intersectFilterLoop`. -/
def intersectFilterTrace (flt : Filters K) (hits : List (LaneHit K)) :
    Nat → List Bool → Nat → Ray K → List (Nat × Verdict) × Ray K
  | 0, _, _, ray => ([], ray)
  | fuel + 1, valid, i, ray =>
    match hits.get? i with
    | Option.none => ([], ray)
    | some h =>
      if !flt.hasIntersectionFilter1 h.geomID then ([(i, Verdict.unfiltered)], updateHit ray h)
      else
        let r := flt.runIntersectionFilter1 h.geomID ray h.u h.v h.t h.Ng h.geomID h.primID
        if r.1 then ([(i, Verdict.accepted)], r.2)
        else
          let valid1 := valid.set i false
          if none valid1 then ([(i, Verdict.rejected)], r.2)
          else
            let rest := intersectFilterTrace flt hits fuel valid1
              (select_min valid1 (hits.map (fun l => l.t))) r.2
            ((i, Verdict.rejected) :: rest.1, rest.2)

/-- The distance `t[i]` of lane `i`. -/
def laneDist (hits : List (LaneHit K)) (i : Nat) : K := (hits.map (fun l => l.t)).getD i 0

/-- What one offered candidate does to the ray: the kernel writes the hit of an
unfiltered lane; for a filtered lane the ray is what the filter callback leaves
of it. -/
def replayStep (flt : Filters K) (hits : List (LaneHit K)) (ray : Ray K) (e : Nat × Verdict) :
    Ray K :=
  match hits.get? e.1 with
  | Option.none => ray
  | some h =>
    match e.2 with
    | Verdict.unfiltered => updateHit ray h
    | _ => (flt.runIntersectionFilter1 h.geomID ray h.u h.v h.t h.Ng h.geomID h.primID).2

/-- The verdicts of a list of offered candidates are those of the filters: the
geometry of an unfiltered candidate has no filter, and the filter of an
accepted or rejected candidate returns that verdict on the ray as the
candidates before it left it. -/
def verdictsOk (flt : Filters K) (hits : List (LaneHit K)) : Ray K → List (Nat × Verdict) → Prop
  | _, [] => True
  | ray, e :: es =>
    (∃ h, hits.get? e.1 = some h ∧
      match e.2 with
      | Verdict.unfiltered => flt.hasIntersectionFilter1 h.geomID = false
      | Verdict.accepted => flt.hasIntersectionFilter1 h.geomID = true
          ∧ (flt.runIntersectionFilter1 h.geomID ray h.u h.v h.t h.Ng h.geomID h.primID).1
            = true
      | Verdict.rejected => flt.hasIntersectionFilter1 h.geomID = true
          ∧ (flt.runIntersectionFilter1 h.geomID ray h.u h.v h.t h.Ng h.geomID h.primID).1
            = false)
    ∧ verdictsOk flt hits (replayStep flt hits ray e) es

end Pluecker

namespace Pluecker

variable {K : Type} [LinearOrderedField K]

/-- The run of the filter loop inside `intersect` on a batch, with `fuel`
passes allowed: the final mask `valid`, the hit information of the lanes and
the first selected lane are those `intersect` computes. -/
def filterRun (cfg : Config) (flt : Filters K) (ray : Ray K) (tris : List (TriLane K))
    (fuel : Nat) : List (Nat × Verdict) × Ray K :=
  intersectFilterTrace flt (tris.map (hitOf ray)) fuel (tris.map (lanePasses cfg ray))
    (select_min (tris.map (lanePasses cfg ray)) ((tris.map (hitOf ray)).map (fun l => l.t))) ray

/-- Lane `j` of the batch passes all tests of the kernel. -/
def passingLane (cfg : Config) (ray : Ray K) (tris : List (TriLane K)) (j : Nat) : Prop :=
  (tris.map (lanePasses cfg ray)).get? j = some true

end Pluecker

/-! ### The Pluecker kernel in rounded arithmetic

The same kernel with a rounding `fl` applied to the result of every arithmetic
operation, in the order in which the source writes the operations: `fl` is
`Binary32.rn` for the arithmetic of the machine and the identity for exact
arithmetic.  The sign operations `abs` and `^ sgnDen` and the comparisons are
exact in both. -/

namespace Pluecker.Rounded

variable {K : Type} [LinearOrderedField K]

/-- The sum of two vectors. -/
def add (fl : K → K) (a b : Vec3 K) : Vec3 K := ⟨fl (a.x + b.x), fl (a.y + b.y), fl (a.z + b.z)⟩

/-- The difference of two vectors. -/
def sub (fl : K → K) (a b : Vec3 K) : Vec3 K := ⟨fl (a.x - b.x), fl (a.y - b.y), fl (a.z - b.z)⟩

/-- Cross product: each component is a difference of two products. -/
def cross (fl : K → K) (a b : Vec3 K) : Vec3 K :=
  ⟨fl (fl (a.y * b.z) - fl (a.z * b.y)), fl (fl (a.z * b.x) - fl (a.x * b.z)),
    fl (fl (a.x * b.y) - fl (a.y * b.x))⟩

/-- Dot product: the three products are added from the left. -/
def dot (fl : K → K) (a b : Vec3 K) : K :=
  fl (fl (fl (a.x * b.x) + fl (a.y * b.y)) + fl (a.z * b.z))

/-- The per-lane computation shared by `intersect` and `occluded`. -/
def laneCalc (fl : K → K) (ray : Ray K) (tri : TriLane K) : LaneCalc K :=
  let O := ray.org
  let D := ray.dir
  let v0 := sub fl tri.v0 O
  let v1 := sub fl tri.v1 O
  let v2 := sub fl tri.v2 O
  let e0 := sub fl v2 v0
  let e1 := sub fl v0 v1
  let e2 := sub fl v1 v2
  let Ng1 := cross fl e1 e0
  let Ng := add fl Ng1 Ng1
  let den := dot fl Ng D
  { Ng := Ng
    den := den
    absDen := |den|
    U := xorSign (dot fl (cross fl (add fl v2 v0) e0) D) den
    V := xorSign (dot fl (cross fl (add fl v0 v1) e1) D) den
    W := xorSign (dot fl (cross fl (add fl v1 v2) e2) D) den
    T := xorSign (dot fl v0 Ng) den }

/-- The depth test `(T >= absDen*tnear) & (absDen*tfar >= T)` of one lane. -/
def depthTest (fl : K → K) (ray : Ray K) (c : LaneCalc K) : Bool :=
  decide (c.T ≥ fl (c.absDen * ray.tnear)) && decide (fl (c.absDen * ray.tfar) ≥ c.T)

/-- Hit information of a lane from its computed values: `u = U / absDen`,
`v = V / absDen`, `t = T / absDen`. -/
def laneHit (fl : K → K) (tri : TriLane K) (c : LaneCalc K) : LaneHit K :=
  { u := fl (c.U / c.absDen)
    v := fl (c.V / c.absDen)
    t := fl (c.T / c.absDen)
    Ng := c.Ng
    geomID := tri.geomID
    primID := tri.primID }

/-- Intersect a ray with the triangles of a batch and update the hit
(`embree::isa::intersect`, one ray, `N` triangles). -/
def intersect (fl : K → K) (cfg : Config) (flt : Filters K) (ray : Ray K)
    (tris : List (TriLane K)) : Ray K :=
  let cs := tris.map (laneCalc fl ray)
  /- perform edge tests -/
  let valid := cs.map edgeTest
  if none valid then ray else
  /- perform depth test -/
  let valid := maskAnd valid (cs.map (depthTest fl ray))
  if none valid then ray else
  /- perform backface culling -/
  let valid := maskAnd valid (cs.map (denTest cfg))
  if none valid then ray else
  /- ray masking test -/
  let valid := if cfg.rayMask then maskAnd valid (tris.map (maskTest ray)) else valid
  if cfg.rayMask && none valid then ray else
  /- calculate hit information -/
  let hits := List.zipWith (laneHit fl) tris cs
  let i := select_min valid (hits.map (fun l => l.t))
  if cfg.intersectionFilter then
    intersectFilterLoop flt hits tris.length valid i ray
  else
    match hits.get? i with
    | Option.none => ray
    | some h => updateHit ray h

/-- The lane of `tri` passes all tests of the kernel. -/
def lanePasses (fl : K → K) (cfg : Config) (ray : Ray K) (tri : TriLane K) : Bool :=
  edgeTest (laneCalc fl ray tri) && depthTest fl ray (laneCalc fl ray tri)
    && denTest cfg (laneCalc fl ray tri) && (!cfg.rayMask || maskTest ray tri)

/-- The hit information the kernel computes for the lane of `tri`. -/
def hitOf (fl : K → K) (ray : Ray K) (tri : TriLane K) : LaneHit K :=
  laneHit fl tri (laneCalc fl ray tri)

/-- The un-normalised Pluecker edge value the kernel computes for the directed
edge from `p` to `q`: `dot(cross(q+p,q-p),D)` on the vertices relative to the
ray origin. -/
def edgeValue (fl : K → K) (ray : Ray K) (p q : Vec3 K) : K :=
  dot fl (cross fl (add fl (sub fl q ray.org) (sub fl p ray.org))
    (sub fl (sub fl q ray.org) (sub fl p ray.org))) ray.dir

/-- The un-normalised edge values of a lane in the order `U`, `V`, `W`. -/
def rawEdgeValues (fl : K → K) (ray : Ray K) (tri : TriLane K) : List K :=
  (triEdges tri).map (fun e => edgeValue fl ray e.1 e.2)

end Pluecker.Rounded

/-! ### Concrete data for the Pluecker kernel in binary32 -/

namespace Pluecker

/-- A ray from the origin along `(0, 0, d)` with `d = 9515737 / 2 ^ 23`
(`1.1343642473220825`) and `tfar = 15497397 / 2 ^ 23` (`1.8474336862564087`),
both binary32 numbers. -/
def ulpRay : Ray ℚ :=
  { org := ⟨0, 0, 0⟩, dir := ⟨0, 0, 9515737 / 8388608⟩, tnear := 0
    tfar := 15497397 / 8388608, time := 0, mask := 1
    Ng := ⟨0, 0, 0⟩, u := 0, v := 0, geomID := -1, primID := -1 }

/-- A triangle in the plane `z = 8789847 / 2 ^ 22`, the binary32 product of the
`d` and the `tfar` of `ulpRay`, around the point where `ulpRay` meets that
plane. -/
def ulpTri : TriLane ℚ :=
  { v0 := ⟨-1, -1, 8789847 / 4194304⟩, v1 := ⟨3, -1, 8789847 / 4194304⟩
    v2 := ⟨-1, 3, 8789847 / 4194304⟩, geomID := 7, primID := 3, mask := 1 }

/-- A scene whose geometry 8 carries an intersection filter that accepts every
candidate and stores `1000` in `tfar` of the ray it is given; the other
geometries have no filter. -/
def growFilters : Filters ℚ :=
  { hasIntersectionFilter1 := fun g => decide (g = 8)
    runIntersectionFilter1 := fun _ r u v _ Ng geomID primID =>
      (true, { r with u := u, v := v, tfar := 1000, Ng := Ng, geomID := geomID
                      primID := primID })
    hasOcclusionFilter1 := fun _ => false
    runOcclusionFilter1 := fun _ r _ _ _ _ _ _ => (true, r) }

/-- A ray from the origin through `(-467, 138, -309)`, the midpoint of the edge
from `(-370, -482, -601)` to `(-564, 758, -17)`. -/
def silRay : Ray ℚ :=
  { org := ⟨0, 0, 0⟩, dir := ⟨-467, 138, -309⟩, tnear := 0, tfar := 100, time := 0, mask := 1
    Ng := ⟨0, 0, 0⟩, u := 0, v := 0, geomID := -1, primID := -1 }

/-- A triangle with the edge from `(-370, -482, -601)` to `(-564, 758, -17)`,
which `silRay` sees from the front. -/
def silTri1 : TriLane ℚ :=
  { v0 := ⟨-370, -482, -601⟩, v1 := ⟨-173, 601, -527⟩, v2 := ⟨-564, 758, -17⟩
    geomID := 7, primID := 0, mask := 1 }

/-- The neighbour of `silTri1` across that edge, stored with the same two
vertices and walked in the opposite direction; `silRay` sees it from the
back. -/
def silTri2 : TriLane ℚ :=
  { v0 := ⟨-564, 758, -17⟩, v1 := ⟨-155, 548, -476⟩, v2 := ⟨-370, -482, -601⟩
    geomID := 7, primID := 1, mask := 1 }

end Pluecker

/-! ## Object partition heuristic
(kernels/xeon/bvh4hair/heuristic_object_partition.cpp)

The header of the heuristic, the primitive type `Bezier1`, `PrimInfo` and the
block lists are not part of the sources.  The number of bins `BINS`, the
function `blocks`, the capacity of a primitive block and the queries on a
primitive are parameters.  SIMD values `ssef`/`ssei` are functions of the lane
`Fin 3` (the fourth lane is padding); arrays indexed by the bin are functions
of the index. -/

namespace ObjectPartition

/-- Wrap-around of 32-bit signed integer arithmetic. -/
def wrap32 (x : Int) : Int := (x + 2 ^ 31) % 2 ^ 32 - 2 ^ 31

variable {K : Type} [LinearOrderedCommRing K] [FloorRing K]

/-- Modelled from the spec: the `floor` of the bin mapping
(`floor((centroid - bbox_min) * scale)`), `floori` of the SIMD library,
converted to a 32-bit integer; a value outside the range of `int`, an infinity
or NaN converts to `-2 ^ 31`. -/
def floori : FVal K → Int
  | FVal.fin x => if -2 ^ 31 ≤ ⌊x⌋ ∧ ⌊x⌋ < 2 ^ 31 then ⌊x⌋ else -2 ^ 31
  | _ => -2 ^ 31

/-- Lane-wise `clamp(i, lo, hi) = max(lo, min(i, hi))`. -/
def clamp (i lo hi : Int) : Int := max lo (min i hi)

/-- The queries the heuristic makes on a primitive of type `P` (`Bezier1`), for
a space of type `S` (`LinearSpace3fa`). -/
structure PrimOps (P S K : Type) where
  /-- The call `prim.bounds()`. -/
  bounds : P → BBox K
  /-- The call `prim.center()`. -/
  center : P → Fin 3 → FVal K
  /-- The call `prim.bounds(space)`. -/
  boundsIn : S → P → BBox K
  /-- The call `prim.center(space)`. -/
  centerIn : S → P → Fin 3 → FVal K

/-- Mapping of centroids to bins (`ObjectPartition::Mapping`). -/
structure Mapping (S K : Type) where
  space : S
  ofs : Fin 3 → FVal K
  scale : Fin 3 → FVal K

namespace Mapping

variable {S : Type}

/-- Unclamped bin of a point: `floori((ssef(p)-ofs)*scale)`. -/
def bin_unsafe (m : Mapping S K) (p : Fin 3 → FVal K) : Fin 3 → Int :=
  fun d => floori ((p d - m.ofs d) * m.scale d)

/-- Bin of a point: `clamp(i,ssei(0),ssei(BINS-1))` of the unclamped bin. -/
def bin (BINS : Nat) (m : Mapping S K) (p : Fin 3 → FVal K) : Fin 3 → Int :=
  fun d => clamp (floori ((p d - m.ofs d) * m.scale d)) 0 ((BINS : Int) - 1)

/-- Marks a dimension of zero centroid extent: `scale[dim] == 0.0f`. -/
def invalid (m : Mapping S K) (dim : Fin 3) : Bool := FVal.eq (m.scale dim) (FVal.fin 0)

end Mapping

/-- The result of the heuristic (`ObjectPartition::Split`): cost, dimension,
position and mapping. -/
structure Split (S K : Type) where
  sah : FVal K
  dim : Int
  pos : Int
  mapping : Mapping S K

/-- The bin table (`ObjectPartition::BinInfo`): `bounds[i][dim]` and
`counts[i][dim]` for the bins `i < BINS`. -/
structure BinInfo (K : Type) where
  bounds : Nat → Fin 3 → BBox K
  counts : Nat → Fin 3 → Int

namespace BinInfo

variable {S P : Type}

/-- The constructor `BinInfo()`: empty bounds and zero counts. -/
def new : BinInfo K := ⟨fun _ _ => BBox.empty, fun _ _ => 0⟩

/-- One pass of the loop of `bin(prims, N, mapping)`: bins one primitive in
each of the three dimensions. -/
def binPrim (BINS : Nat) (ops : PrimOps P S K) (mapping : Mapping S K) (b : BinInfo K)
    (prim : P) : BinInfo K :=
  let cbounds := ops.boundsIn mapping.space prim
  let center := ops.centerIn mapping.space prim
  let bin := mapping.bin BINS center
  { counts := fun i d => if i = (bin d).toNat then wrap32 (b.counts i d + 1) else b.counts i d
    bounds := fun i d =>
      if i = (bin d).toNat then (b.bounds i d).extend cbounds else b.bounds i d }

/-- The loop of `bin(prims, N, mapping)` over an array of primitives. -/
def bin (BINS : Nat) (ops : PrimOps P S K) (mapping : Mapping S K) (b : BinInfo K)
    (prims : List P) : BinInfo K :=
  prims.foldl (binPrim BINS ops mapping) b

/-- The loop of `bin(prims, mapping)` over the blocks of a list. -/
def binList (BINS : Nat) (ops : PrimOps P S K) (mapping : Mapping S K) (b : BinInfo K)
    (prims : List (List P)) : BinInfo K :=
  prims.foldl (bin BINS ops mapping) b

/-- Merging of two bin tables (`merge`). -/
def merge (BINS : Nat) (b other : BinInfo K) : BinInfo K :=
  { counts := fun i d => if i < BINS then wrap32 (b.counts i d + other.counts i d)
      else b.counts i d
    bounds := fun i d => if i < BINS then (b.bounds i d).extend (other.bounds i d)
      else b.bounds i d }

/-- State of the sweep from right to left of `best`: the running `count` and
boxes `bx`, `by`, `bz`, and the arrays `rAreas` and `rCounts`. -/
structure SweepR (K : Type) where
  count : Fin 3 → Int
  box : Fin 3 → BBox K
  rAreas : Nat → Fin 3 → FVal K
  rCounts : Nat → Fin 3 → Int

/-- The state before the sweep from right to left; the arrays are not
initialised in the source, the value chosen here is never read. -/
def sweepRightInit : SweepR K :=
  ⟨fun _ => 0, fun _ => BBox.empty, fun _ _ => FVal.nan, fun _ _ => 0⟩

/-- One pass of the loop `for (size_t i=BINS-1; i>0; i--)`. -/
def sweepRightStep (b : BinInfo K) (s : SweepR K) (i : Nat) : SweepR K :=
  let count : Fin 3 → Int := fun d => wrap32 (s.count d + b.counts i d)
  let box : Fin 3 → BBox K := fun d => (s.box d).extend (b.bounds i d)
  { count := count
    box := box
    rCounts := fun j d => if j = i then count d else s.rCounts j d
    rAreas := fun j d => if j = i then BBox.halfArea (box d) else s.rAreas j d }

/-- The state after the first `k` passes of the sweep from right to left, the
passes `i = BINS-1, ..., BINS-k`. -/
def sweepRightAfter (BINS : Nat) (b : BinInfo K) : Nat → SweepR K
  | 0 => sweepRightInit
  | k + 1 => sweepRightStep b (sweepRightAfter BINS b k) (BINS - 1 - k)

/-- The sweep from right to left: the passes `i = BINS-1, ..., 1`. -/
def sweepRight (BINS : Nat) (b : BinInfo K) : SweepR K := sweepRightAfter BINS b (BINS - 1)

/-- State of the sweep from left to right of `best`: the running `count` and
boxes, `vbestSAH` and `vbestPos`. -/
structure SweepL (K : Type) where
  count : Fin 3 → Int
  box : Fin 3 → BBox K
  vbestSAH : Fin 3 → FVal K
  vbestPos : Fin 3 → Int

/-- The state before the sweep from left to right. -/
def sweepLeftInit : SweepL K :=
  ⟨fun _ => 0, fun _ => BBox.empty, fun _ => FVal.pinf, fun _ => 0⟩

/-- The cost `sah` computed in pass `i` of the sweep from left to right, from
the running count and boxes after the update of that pass. -/
def sahOf (blocks : Int → Int) (r : SweepR K) (count : Fin 3 → Int) (box : Fin 3 → BBox K)
    (i : Nat) : Fin 3 → FVal K :=
  fun d =>
    let lArea := BBox.halfArea (box d)
    let rArea := r.rAreas i d
    let lCount := blocks (count d)
    let rCount := blocks (r.rCounts i d)
    lArea * FVal.ofInt lCount + rArea * FVal.ofInt rCount

/-- One pass of the loop `for (size_t i=1; i<BINS; i++, ii+=1)`. -/
def sweepLeftStep (blocks : Int → Int) (b : BinInfo K) (r : SweepR K) (s : SweepL K)
    (i : Nat) : SweepL K :=
  let count : Fin 3 → Int := fun d => wrap32 (s.count d + b.counts (i - 1) d)
  let box : Fin 3 → BBox K := fun d => (s.box d).extend (b.bounds (i - 1) d)
  let sah := sahOf blocks r count box i
  { count := count
    box := box
    vbestPos := fun d => if FVal.lt (sah d) (s.vbestSAH d) then (i : Int) else s.vbestPos d
    vbestSAH := fun d => if FVal.lt (sah d) (s.vbestSAH d) then sah d else s.vbestSAH d }

/-- The state after the passes `i = 1, ..., k` of the sweep from left to
right. -/
def sweepLeftAfter (blocks : Int → Int) (b : BinInfo K) (r : SweepR K) : Nat → SweepL K
  | 0 => sweepLeftInit
  | k + 1 => sweepLeftStep blocks b r (sweepLeftAfter blocks b r k) (k + 1)

/-- The sweep from left to right: the passes `i = 1, ..., BINS-1`. -/
def sweepLeft (BINS : Nat) (blocks : Int → Int) (b : BinInfo K) (r : SweepR K) : SweepL K :=
  sweepLeftAfter blocks b r (BINS - 1)

/-- The running best of the search for the best dimension. -/
structure BestDim (K : Type) where
  bestSAH : FVal K
  bestDim : Int
  bestPos : Int

/-- One pass of the loop `for (size_t dim=0; dim<3; dim++)`. -/
def bestDimStep (mapping : Mapping S K) (s : SweepL K) (acc : BestDim K) (dim : Fin 3) :
    BestDim K :=
  /- ignore zero sized dimensions -/
  if mapping.invalid dim then acc
  /- test if this is a better dimension -/
  else if FVal.lt (s.vbestSAH dim) acc.bestSAH && s.vbestPos dim != 0 then
    { bestDim := (dim.val : Int), bestPos := s.vbestPos dim, bestSAH := s.vbestSAH dim }
  else acc

/-- The best split of a bin table (`ObjectPartition::BinInfo::best`). -/
def best (BINS : Nat) (blocks : Int → Int) (b : BinInfo K) (mapping : Mapping S K) :
    Split S K :=
  let r := sweepRight BINS b
  let s := sweepLeft BINS blocks b r
  let res := [(0 : Fin 3), 1, 2].foldl (bestDimStep mapping s) ⟨FVal.pinf, -1, 0⟩
  { sah := res.bestSAH, dim := res.bestDim, pos := res.bestPos, mapping := mapping }

end BinInfo

/-- Modelled from the spec: `PrimInfo` (not part of the sources), the count of
a set of primitives with the union of their bounds and of their centroids,
the subject of the total-count and total-bounds-union checks. -/
structure PrimInfo (K : Type) where
  num : Nat
  geomBounds : BBox K
  centBounds : BBox K

namespace PrimInfo

/-- Modelled from the spec: the empty `PrimInfo`. -/
def empty : PrimInfo K := ⟨0, BBox.empty, BBox.empty⟩

/-- Modelled from the spec: `add(bounds, center)` counts one primitive and
extends the two boxes. -/
def add (i : PrimInfo K) (bounds : BBox K) (center : Fin 3 → FVal K) : PrimInfo K :=
  ⟨i.num + 1, i.geomBounds.extend bounds, i.centBounds.extendPoint center⟩

end PrimInfo

/-- Modelled from the spec: a list of primitive blocks (`BezierRefList`, not part
of the sources).  A block is the list of its items in the order of insertion;
`insert` puts a block in front, `take` removes the front block. -/
abbrev BlockList (P : Type) := List (List P)

/-- Modelled from the spec: `block->insert(prim)` on the front block of a list;
it fails (and changes nothing) when the block holds `blockSize` items. -/
def insertFront {P : Type} (blockSize : Nat) (l : BlockList P) (prim : P) :
    Bool × BlockList P :=
  match l with
  | [] => (false, [])
  | blk :: rest =>
    if blk.length < blockSize then (true, (blk ++ [prim]) :: rest) else (false, blk :: rest)

/-- The statements `if (likely(block->insert(prim))) continue;
block = list.insert(alloc.malloc(threadIndex)); block->insert(prim);` of
`split`, for the list whose front block is the current block. -/
def insertPrim {P : Type} (blockSize : Nat) (l : BlockList P) (prim : P) : BlockList P :=
  if (insertFront blockSize l prim).1 then (insertFront blockSize l prim).2
  else (insertFront blockSize ([] :: l) prim).2

/-- The output of `split`: the two lists with their `PrimInfo`. -/
structure SplitOut (P K : Type) where
  lprims : BlockList P
  linfo : PrimInfo K
  rprims : BlockList P
  rinfo : PrimInfo K

namespace Split

variable {S P : Type}

/-- The index of a dimension `dim` in `{0,1,2}`. -/
def dimIndex (dim : Int) : Option (Fin 3) :=
  if dim = 0 then some 0 else if dim = 1 then some 1 else if dim = 2 then some 2
  else Option.none

/-- The body of the inner loop of `split` for one primitive. -/
def splitPrim (ops : PrimOps P S K) (blockSize : Nat) (s : Split S K) (d : Fin 3)
    (o : SplitOut P K) (prim : P) : SplitOut P K :=
  let center := ops.centerIn s.mapping.space prim
  let bin := s.mapping.bin_unsafe center
  if bin d < s.pos then
    { o with
      linfo := o.linfo.add (ops.bounds prim) (ops.center prim)
      lprims := insertPrim blockSize o.lprims prim }
  else
    { o with
      rinfo := o.rinfo.add (ops.bounds prim) (ops.center prim)
      rprims := insertPrim blockSize o.rprims prim }

/-- The loop `while (BezierRefList::item* block = prims.take())` of `split`:
returns what is left of the input list with the output. -/
def splitLoop (ops : PrimOps P S K) (blockSize : Nat) (s : Split S K) (d : Fin 3) :
    BlockList P → SplitOut P K → BlockList P × SplitOut P K
  | [], o => ([], o)
  | block :: rest, o => splitLoop ops blockSize s d rest (block.foldl (splitPrim ops blockSize s d) o)

/-- Splitting of a list of primitives into two lists
(`ObjectPartition::Split::split`).  The result is the input list as the
function leaves it and the output; there is no result when `dim` is not a
dimension. -/
def split (ops : PrimOps P S K) (blockSize : Nat) (s : Split S K) (prims : BlockList P)
    (lprims_o : BlockList P) (linfo_o : PrimInfo K) (rprims_o : BlockList P)
    (rinfo_o : PrimInfo K) : Option (BlockList P × SplitOut P K) :=
  match dimIndex s.dim with
  | Option.none => Option.none
  | some d =>
    some (splitLoop ops blockSize s d prims
      { lprims := [] :: lprims_o, linfo := linfo_o, rprims := [] :: rprims_o, rinfo := rinfo_o })

end Split

end ObjectPartition

/-! ### Vocabulary for the statements about the heuristic -/

namespace ObjectPartition

variable {K : Type} [LinearOrderedCommRing K]

/-- The bins `pos, ..., BINS-1`, from the right. -/
def rightBins (BINS pos : Nat) : List Nat := (List.range' pos (BINS - pos)).reverse

/-- Bounds of the left side of the candidate `(d, pos)`: the union of the bins
`0, ..., pos-1` of dimension `d`. -/
def leftBox (b : BinInfo K) (d : Fin 3) (pos : Nat) : BBox K :=
  (List.range pos).foldl (fun acc j => acc.extend (b.bounds j d)) BBox.empty

/-- Bounds of the right side of the candidate `(d, pos)`: the union of the bins
`pos, ..., BINS-1` of dimension `d`. -/
def rightBox (BINS : Nat) (b : BinInfo K) (d : Fin 3) (pos : Nat) : BBox K :=
  (rightBins BINS pos).foldl (fun acc j => acc.extend (b.bounds j d)) BBox.empty

/-- Number of primitives left of the candidate `(d, pos)`, as a 32-bit
integer. -/
def leftCount (b : BinInfo K) (d : Fin 3) (pos : Nat) : Int :=
  wrap32 ((List.range pos).map (fun j => b.counts j d)).sum

/-- Number of primitives right of the candidate `(d, pos)`, as a 32-bit
integer. -/
def rightCount (BINS : Nat) (b : BinInfo K) (d : Fin 3) (pos : Nat) : Int :=
  wrap32 ((rightBins BINS pos).map (fun j => b.counts j d)).sum

/-- Cost of the candidate `(d, pos)`:
`leftArea*blocks(leftCount) + rightArea*blocks(rightCount)`. -/
def candidateCost (BINS : Nat) (blocks : Int → Int) (b : BinInfo K) (d : Fin 3) (pos : Nat) :
    FVal K :=
  BBox.halfArea (leftBox b d pos) * FVal.ofInt (blocks (leftCount b d pos))
    + BBox.halfArea (rightBox BINS b d pos) * FVal.ofInt (blocks (rightCount BINS b d pos))

/-- No corner coordinate of the box is NaN. -/
def noNaN (b : BBox K) : Prop :=
  ∀ d, FVal.isNaN (b.lower d) = false ∧ FVal.isNaN (b.upper d) = false

/-- The union of a list of boxes, taken from the left. -/
def unionAll (l : List (BBox K)) : BBox K := l.foldl BBox.extend BBox.empty

/-- The test `bin[dim] < pos` of `split` on a primitive: the primitive goes to
the left list. -/
def goesLeft {S P : Type} [FloorRing K] (ops : PrimOps P S K) (s : Split S K) (d : Fin 3)
    (prim : P) : Bool :=
  decide (s.mapping.bin_unsafe (ops.centerIn s.mapping.space prim) d < s.pos)

/-- The `PrimInfo` of a list of primitives added to `i` one after the other. -/
def infoOf {S P : Type} (ops : PrimOps P S K) (i : PrimInfo K) (l : List P) : PrimInfo K :=
  l.foldl (fun acc p => acc.add (ops.bounds p) (ops.center p)) i

/-- A leaf-packing factor of four primitives per block: `(a+3) >> 2`. -/
def sampleBlocks (a : Int) : Int := (a + 3) / 4

/-- A bin table with one primitive in bin 5 and one in bin 7 of every
dimension; all other bins are empty. -/
def sampleBins : BinInfo ℤ :=
  { counts := fun i _ => if i = 5 ∨ i = 7 then 1 else 0
    bounds := fun i _ =>
      if i = 5 then ⟨fun _ => FVal.fin 0, fun _ => FVal.fin 1⟩
      else if i = 7 then ⟨fun _ => FVal.fin 2, fun _ => FVal.fin 3⟩
      else BBox.empty }

/-- A mapping with non-zero scale in every dimension. -/
def sampleMapping : Mapping Unit ℤ := ⟨(), fun _ => FVal.fin 0, fun _ => FVal.fin 4⟩

/-- A primitive type for examples: the primitive `c` is the unit cube with the
lower corner `(c, c, c)`, its centre is taken at the lower corner. -/
def sampleOps : PrimOps ℤ Unit ℤ :=
  { bounds := fun c => ⟨fun _ => FVal.fin c, fun _ => FVal.fin (c + 1)⟩
    center := fun c _ => FVal.fin c
    boundsIn := fun _ c => ⟨fun _ => FVal.fin c, fun _ => FVal.fin (c + 1)⟩
    centerIn := fun _ c _ => FVal.fin c }

/-- A split of dimension 0 at position 6 under `sampleMapping`. -/
def sampleSplit : Split Unit ℤ := ⟨FVal.fin 6, 0, 6, sampleMapping⟩

end ObjectPartition

/-! ### The mapping constructor, `find` and `find_parallel` -/

namespace BBox

variable {K : Type} [LinearOrderedCommRing K]

/-- Modelled from the spec: `size()` of a box, the extent `upper - lower`. -/
def size (b : BBox K) : Fin 3 → FVal K := fun d => b.upper d - b.lower d

end BBox

namespace ObjectPartition

variable {K : Type} [LinearOrderedCommRing K] [FloorRing K] {S P : Type}

/-- The constructor `Mapping(centBounds, space)`.  The reciprocal `rcp` of the
SIMD library and the constant `binScale = ssef(BINS * 0.99f)` are parameters;
`diag != 0.0f` is true for NaN. -/
def Mapping.new (rcp : FVal K → FVal K) (binScale : FVal K) (centBounds : BBox K) (space : S) :
    Mapping S K :=
  let diag := centBounds.size
  { space := space
    scale := fun d =>
      if !FVal.eq (diag d) (FVal.fin 0) then rcp (diag d) * binScale else FVal.fin 0
    ofs := centBounds.lower }

/-- One pass of the loops that calculate the geometry and centroid bounds; the
pair is `(geomBounds, centBounds)`. -/
def boundStep (ops : PrimOps P S K) (space : S) (acc : BBox K × BBox K) (prim : P) :
    BBox K × BBox K :=
  (acc.1.extend (ops.boundsIn space prim), acc.2.extendPoint (ops.centerIn space prim))

/-- The serial search for the best split (`ObjectPartition::find`).  The
iterator `block_iterator_unsafe` visits the items of the blocks in the order of
the list. -/
def find (BINS : Nat) (blocks : Int → Int) (rcp : FVal K → FVal K) (binScale : FVal K)
    (ops : PrimOps P S K) (prims : BlockList P) (space : S) : Split S K :=
  /- calculate geometry and centroid bounds -/
  let b := prims.flatten.foldl (boundStep ops space) (BBox.empty, BBox.empty)
  let centBounds := b.2
  let binner : BinInfo K := BinInfo.new
  let mapping := Mapping.new rcp binScale centBounds space
  let binner := binner.binList BINS ops mapping prims
  binner.best BINS blocks mapping

/-- One instance of `task_bound_parallel`: the bounds of the blocks `taken`
from the shared iterator `iter0`, then `extend_atomic` on the shared pair
`(geomBounds, centBounds)`. -/
def task_bound_parallel (ops : PrimOps P S K) (space : S) (taken : List (List P))
    (shared : BBox K × BBox K) : BBox K × BBox K :=
  let b := taken.foldl (fun acc block => block.foldl (boundStep ops space) acc)
    (BBox.empty, BBox.empty)
  (shared.1.extend b.1, shared.2.extend b.2)

/-- One instance of `task_bin_parallel`: bins the blocks `taken` from the
shared iterator `iter1` into the table of the task. -/
def task_bin_parallel (BINS : Nat) (ops : PrimOps P S K) (mapping : Mapping S K)
    (taken : List (List P)) (binner : BinInfo K) : BinInfo K :=
  taken.foldl (fun b block => b.bin BINS ops mapping block) binner

/-- The parallel search for the best split (`ObjectPartition::find_parallel`,
the constructor of `TaskBinParallel`).  `maxTasks` is the capacity
`sizeof(binners)/sizeof(BinInfo)`.  The task scheduler is not part of the
sources; a run of `executeTask` is given by what its task instances took from
the shared block iterator: `boundSched` lists, for the instances of
`task_bound_parallel` in the order of their `extend_atomic`, the blocks each
took from `iter0`, and `binSched` lists, by task index, the blocks each
instance of `task_bin_parallel` took from `iter1`. -/
def find_parallel (BINS : Nat) (blocks : Int → Int) (rcp : FVal K → FVal K)
    (binScale : FVal K) (ops : PrimOps P S K) (maxTasks threadCount : Nat)
    (boundSched binSched : List (List (List P))) (space : S) : Split S K :=
  /- parallel calculation of centroid bounds -/
  let numTasks := min maxTasks threadCount
  let b := boundSched.foldl (fun shared taken => task_bound_parallel ops space taken shared)
    (BBox.empty, BBox.empty)
  let centBounds := b.2
  /- parallel binning -/
  let mapping := Mapping.new rcp binScale centBounds space
  let binners : Nat → BinInfo K := fun k =>
    task_bin_parallel BINS ops mapping (binSched.getD k []) BinInfo.new
  /- reduction of bin informations -/
  let bins := (List.range' 1 (numTasks - 1)).foldl
    (fun bins i => bins.merge BINS (binners i)) (binners 0)
  /- calculation of best split -/
  bins.best BINS blocks mapping

/-- The lists `sched` are a run of `numTasks` task instances over the blocks
`prims`: one entry per instance, and every block of `prims` taken by exactly
one instance. -/
def isSchedule (numTasks : Nat) (sched : List (List (List P))) (prims : BlockList P) : Prop :=
  sched.length = numTasks ∧ List.Perm sched.flatten prims

/-- The box of a single point. -/
def pointBox (c : Fin 3 → FVal K) : BBox K := ⟨c, c⟩

/-- A 32-bit integer: wrapping leaves it as it is. -/
def isInt32 (x : Int) : Prop := wrap32 x = x

/-- The tables hold the same `BINS` entries. -/
def BinInfo.agree (BINS : Nat) (a b : BinInfo K) : Prop :=
  ∀ i < BINS, ∀ d, a.counts i d = b.counts i d ∧ a.bounds i d = b.bounds i d

/-- The counts of the table are 32-bit integers and its bounds hold no NaN. -/
def BinInfo.regular (BINS : Nat) (a : BinInfo K) : Prop :=
  ∀ i < BINS, ∀ d, isInt32 (a.counts i d) ∧ noNaN (a.bounds i d)

end ObjectPartition

/-! ### Vocabulary for the statements about `find` and `split` on a range -/

namespace ObjectPartition

variable {K : Type} [LinearOrderedCommRing K] [FloorRing K] {S P : Type}

/-- The centroid bounds that `find` calculates for a list of blocks. -/
def centBoundsOf (ops : PrimOps P S K) (space : S) (prims : BlockList P) : BBox K :=
  (prims.flatten.foldl (boundStep ops space) (BBox.empty, BBox.empty)).2

/-- The mapping that `find` constructs for a list of blocks. -/
def findMapping (rcp : FVal K → FVal K) (binScale : FVal K) (ops : PrimOps P S K)
    (prims : BlockList P) (space : S) : Mapping S K :=
  Mapping.new rcp binScale (centBoundsOf ops space prims) space

/-- The bin table that `find` fills for a list of blocks. -/
def findBins (BINS : Nat) (rcp : FVal K → FVal K) (binScale : FVal K) (ops : PrimOps P S K)
    (prims : BlockList P) (space : S) : BinInfo K :=
  (BinInfo.new : BinInfo K).binList BINS ops (findMapping rcp binScale ops prims space) prims

/-- The bin of a primitive in dimension `d`, as an index of the tables. -/
def binIndex (BINS : Nat) (ops : PrimOps P S K) (m : Mapping S K) (d : Fin 3) (p : P) : Nat :=
  (m.bin BINS (ops.centerIn m.space p) d).toNat

/-- The centres of the primitives of the list are finite in the space. -/
def finiteCenters (ops : PrimOps P S K) (space : S) (l : List P) : Prop :=
  ∀ p ∈ l, ∀ d, ∃ c : K, ops.centerIn space p d = FVal.fin c

/-- The corners of the box are finite. -/
def finiteBox (b : BBox K) : Prop :=
  ∀ d, ∃ lo hi : K, b.lower d = FVal.fin lo ∧ b.upper d = FVal.fin hi

/-- The scale that the constructor of the mapping computes for a positive
extent `x` of the centroid bounds is a finite number `s >= 0` with
`lo <= x * s < BINS`: the range of the centroids is mapped into `[lo, BINS)`. -/
def scaleInto (BINS : Nat) (lo : K) (rcp : FVal K → FVal K) (binScale : FVal K)
    (centBounds : BBox K) : Prop :=
  ∀ (d : Fin 3) (x : K), centBounds.size d = FVal.fin x → 0 < x →
    ∃ s : K, rcp (FVal.fin x) * binScale = FVal.fin s ∧ 0 ≤ s ∧ lo ≤ x * s ∧ x * s < (BINS : K)

/-- The cost of a split of a range into the lists `left` and `right`, under
the cost function of `best`:
`leftArea*blocks(leftCount) + rightArea*blocks(rightCount)`. -/
def splitCost (blocks : Int → Int) (ops : PrimOps P S K) (space : S) (left right : List P) :
    FVal K :=
  BBox.halfArea (unionAll (left.map (ops.boundsIn space)))
      * FVal.ofInt (blocks (wrap32 (left.length : Int)))
    + BBox.halfArea (unionAll (right.map (ops.boundsIn space)))
      * FVal.ofInt (blocks (wrap32 (right.length : Int)))

/-- The order of two primitives by their centres along the axis `d`. -/
def centerLe (ops : PrimOps P S K) (space : S) (d : Fin 3) (p q : P) : Bool :=
  FVal.le (ops.centerIn space p d) (ops.centerIn space q d)

/-- Insertion of a primitive into a list ordered by the centres along `d`. -/
def insertByCenter (ops : PrimOps P S K) (space : S) (d : Fin 3) (p : P) : List P → List P
  | [] => [p]
  | q :: l =>
    if centerLe ops space d p q then p :: q :: l
    else q :: insertByCenter ops space d p l

/-- Modelled from the spec: the naive median split of a range along the axis
`d`, the first half of the primitives, ordered by centroid along the axis, on
the left and the rest on the right. -/
def medianSplit (ops : PrimOps P S K) (space : S) (d : Fin 3) (l : List P) :
    List P × List P :=
  let sorted := l.foldr (insertByCenter ops space d) []
  (sorted.take (l.length / 2), sorted.drop (l.length / 2))

end ObjectPartition

/-! ### A range with a cheap median split -/

namespace ObjectPartition

/-- The reciprocal, exact on the rational numbers. -/
def exactRcp : FVal ℚ → FVal ℚ
  | FVal.fin a => if a = 0 then FVal.pinf else FVal.fin (1 / a)
  | FVal.pinf => FVal.fin 0
  | FVal.ninf => FVal.fin 0
  | FVal.nan => FVal.nan

/-- The constant `ssef(BINS * 0.99f)` for 16 bins. -/
def binScale16 : FVal ℚ := FVal.fin (16 * (99 / 100))

/-- A box given by its extent along each axis. -/
def boxOf (x0 x1 y0 y1 z0 z1 : ℚ) : BBox ℚ :=
  ⟨fun d => FVal.fin (if d = 0 then x0 else if d = 1 then y0 else z0),
    fun d => FVal.fin (if d = 0 then x1 else if d = 1 then y1 else z1)⟩

/-- Four primitives whose centres lie on the x axis at `0`, `2`, `4` and
`2000`.  The primitives 0 and 1 are small in x and long in y, the primitive 2
is long in x and covers the primitive 3, which is small. -/
def skewOps : PrimOps (Fin 4) Unit ℚ :=
  { bounds := fun p =>
      if p = 0 then boxOf (-1) 1 (-20) 20 (-1) 1
      else if p = 1 then boxOf 1 3 (-20) 20 (-1) 1
      else if p = 2 then boxOf (-1996) 2004 (-1) 1 (-1) 1
      else boxOf 1999 2001 (-1) 1 (-1) 1
    center := fun p d =>
      FVal.fin (if d = 0 then (if p = 0 then 0 else if p = 1 then 2 else if p = 2 then 4
        else 2000) else 0)
    boundsIn := fun _ p =>
      if p = 0 then boxOf (-1) 1 (-20) 20 (-1) 1
      else if p = 1 then boxOf 1 3 (-20) 20 (-1) 1
      else if p = 2 then boxOf (-1996) 2004 (-1) 1 (-1) 1
      else boxOf 1999 2001 (-1) 1 (-1) 1
    centerIn := fun _ p d =>
      FVal.fin (if d = 0 then (if p = 0 then 0 else if p = 1 then 2 else if p = 2 then 4
        else 2000) else 0) }

/-- The four primitives of `skewOps` in one block. -/
def skewPrims : BlockList (Fin 4) := [[0, 1, 2, 3]]

end ObjectPartition

/-! ### Ranges on which the mapping breaks down -/

namespace ObjectPartition

/-- The constant `ssef(BINS * 0.99f)` for 16 bins in binary32. -/
def binScale32 : FVal ℚ := FVal.fin (16 * Binary32.rn (99 / 100))

/-- Two primitives whose centres differ by `2 ^ (-140)` along the x axis: the
primitive 0 is the cube `[-1, 1]^3` with the centre at the origin, the
primitive 1 is the box `[0, 2 ^ (-139)] x [-1, 1] x [-1, 1]` with the centre
`(2 ^ (-140), 0, 0)`.  All numbers are binary32 numbers. -/
def tinyOps : PrimOps (Fin 2) Unit ℚ :=
  { bounds := fun p => if p = 0 then boxOf (-1) 1 (-1) 1 (-1) 1
      else boxOf 0 (1 / 2 ^ 139) (-1) 1 (-1) 1
    center := fun p d => FVal.fin (if d = 0 then (if p = 0 then 0 else 1 / 2 ^ 140) else 0)
    boundsIn := fun _ p => if p = 0 then boxOf (-1) 1 (-1) 1 (-1) 1
      else boxOf 0 (1 / 2 ^ 139) (-1) 1 (-1) 1
    centerIn := fun _ p d =>
      FVal.fin (if d = 0 then (if p = 0 then 0 else 1 / 2 ^ 140) else 0) }

/-- Two primitives, the second of which reaches to infinity along the x axis
and has its centre there: the primitive 0 is the cube `[-1, 1]^3` with the
centre at the origin. -/
def farOps : PrimOps (Fin 2) Unit ℚ :=
  { bounds := fun p => if p = 0 then boxOf (-1) 1 (-1) 1 (-1) 1
      else ⟨fun _ => FVal.fin (-1), fun d => if d = 0 then FVal.pinf else FVal.fin 1⟩
    center := fun p d => if d = 0 ∧ p = 1 then FVal.pinf else FVal.fin 0
    boundsIn := fun _ p => if p = 0 then boxOf (-1) 1 (-1) 1 (-1) 1
      else ⟨fun _ => FVal.fin (-1), fun d => if d = 0 then FVal.pinf else FVal.fin 1⟩
    centerIn := fun _ p d => if d = 0 ∧ p = 1 then FVal.pinf else FVal.fin 0 }

/-- The two primitives of `tinyOps` or of `farOps` in one block. -/
def twoPrims : BlockList (Fin 2) := [[0, 1]]

end ObjectPartition

/-! ## BVH4i chunk traversal for packets of 16 rays
(kernels/xeonphi/bvh4i/bvh4i_intersector16_chunk.cpp,
`BVH4iIntersector16Chunk::intersect`)

A SIMD register of 16 lanes (`mic_f`, `mic_i`, `mic_m`) is a function of the
lane.  Numbers are values of `FVal K`.  The header of `BVH4i`, the ray packet
type, the SIMD math and the leaf intersector (a template parameter) are not
part of the sources: a node reference is modelled by the subtree it refers
to, the reciprocals `rcp` and `rcp_safe` and the leaf intersector are
parameters. -/

namespace BVH4i

variable {K : Type} [LinearOrderedCommRing K]

/-- A SIMD register: one value per lane. -/
abbrev Lanes (α : Type) : Type := Fin 16 → α

/-- The reduction `any(m)` of a mask. -/
def any (m : Lanes Bool) : Bool := (List.finRange 16).any m

/-- The reduction `none(m)` of a mask. -/
def none (m : Lanes Bool) : Bool := !any m

/-- One lane of a ray packet (`Ray16`). -/
structure RayLane (K : Type) where
  org : Vec3 (FVal K)
  dir : Vec3 (FVal K)
  tnear : FVal K
  tfar : FVal K
  time : FVal K
  mask : Nat
  Ng : Vec3 (FVal K)
  u : FVal K
  v : FVal K
  geomID : Int
  primID : Int

/-- A packet of 16 rays. -/
abbrev Ray16 (K : Type) : Type := Lanes (RayLane K)

/-- A triangle with its precomputed normal (`Triangle1`). -/
structure Triangle1 (K : Type) where
  v0 : Vec3 (FVal K)
  v1 : Vec3 (FVal K)
  v2 : Vec3 (FVal K)
  Ng : Vec3 (FVal K)
  geomID : Int
  primID : Int
  mask : Nat

/-- The bounds of one child of a node (`node->lower[i]`, `node->upper[i]`). -/
structure ChildBox (K : Type) where
  lower : Vec3 (FVal K)
  upper : Vec3 (FVal K)

/-- Modelled from the spec: the BVH behind a node reference.  A reference is
either a leaf with its block of triangles or a node with four children and
the bounds of each child. -/
inductive Tree (K : Type) where
  | leaf (tris : List (Triangle1 K)) : Tree K
  | node (box : Fin 4 → ChildBox K) (child : Fin 4 → Tree K) : Tree K

/-- A node reference; `Option.none` is `BVH4i::invalidNode`, the marker at the
bottom of the stack. -/
abbrev NodeRef (K : Type) : Type := Option (Tree K)

/-- The reciprocals of the SIMD math library. -/
structure SimdMath (K : Type) where
  rcp : FVal K → FVal K
  rcp_safe : FVal K → FVal K

/-- Compile-time switches of the leaf intersector. -/
structure Config where
  /-- Set when `__BACKFACE_CULLING__` is defined. -/
  backfaceCulling : Bool
  /-- Set when `USE_RAY_MASK` is non-zero. -/
  rayMask : Bool

/-- The type of a leaf intersector `TriangleIntersector16::intersect(valid_leaf,
ray, tri, items, geometry)`. -/
abbrev LeafIntersector (K : Type) : Type :=
  Lanes Bool → Ray16 K → List (Triangle1 K) → Ray16 K

/-- One pass of the loop over the triangles of a leaf, the copy of the leaf
intersector that the source keeps inline (Moeller-Trumbore test of 16 rays
against one `Triangle1`). -/
def mollerTrumboreStep (cfg : Config) (math : SimdMath K) (valid_leaf : Lanes Bool)
    (ray : Ray16 K) (tri : Triangle1 K) : Ray16 K :=
  /- load vertices and calculate edges -/
  let e1 := tri.v0 - tri.v1
  let e2 := tri.v2 - tri.v0
  /- calculate denominator -/
  let C : Lanes (Vec3 (FVal K)) := fun l => tri.v0 - (ray l).org
  let Ng := tri.Ng
  let den : Lanes (FVal K) := fun l => Vec3.dot Ng (ray l).dir
  let valid : Lanes Bool := fun l =>
    if cfg.backfaceCulling then valid_leaf l && FVal.lt (FVal.fin 0) (den l) else valid_leaf l
  /- perform edge tests -/
  let rcp_den : Lanes (FVal K) := fun l => math.rcp (den l)
  let R : Lanes (Vec3 (FVal K)) := fun l => Vec3.cross (ray l).dir (C l)
  let u : Lanes (FVal K) := fun l => Vec3.dot (R l) e2 * rcp_den l
  let v : Lanes (FVal K) := fun l => Vec3.dot (R l) e1 * rcp_den l
  let valid : Lanes Bool := fun l =>
    valid l && FVal.le (FVal.fin 0) (u l) && FVal.le (FVal.fin 0) (v l)
      && FVal.le (u l + v l) (FVal.fin 1)
  if none valid then ray else
  /- perform depth test -/
  let t : Lanes (FVal K) := fun l => Vec3.dot (C l) Ng * rcp_den l
  let valid : Lanes Bool := fun l =>
    valid l && FVal.le (ray l).tnear (t l) && FVal.le (t l) (ray l).tfar
  /- ray masking test -/
  let valid : Lanes Bool := fun l =>
    if cfg.rayMask then valid l && decide (tri.mask &&& (ray l).mask ≠ 0) else valid l
  if none valid then ray else
  /- update hit information -/
  fun l =>
    if valid l then
      { ray l with
        u := u l
        v := v l
        tfar := t l
        geomID := tri.geomID
        primID := tri.primID
        Ng := Ng }
    else ray l

/-- The leaf intersector kept inline in the source: the loop
`for (size_t i=0; i<items; i++)` over the triangles of a leaf. -/
def mollerTrumbore16 (cfg : Config) (math : SimdMath K) : LeafIntersector K :=
  fun valid_leaf ray tris => tris.foldl (mollerTrumboreStep cfg math valid_leaf) ray

/-- The registers `curNode`, `curDist` and the stack (top first) inside the
loop over the children of a node. -/
structure Trav (K : Type) where
  curNode : NodeRef K
  curDist : Lanes (FVal K)
  stack : List (NodeRef K × Lanes (FVal K))

/-- One pass of the loop `for (unsigned int i=0; i<4; i++)` over the children
of a node. -/
def childStep (rdir org_rdir : Lanes (Vec3 (FVal K))) (ray_tnear ray_tfar : Lanes (FVal K))
    (box : Fin 4 → ChildBox K) (child : Fin 4 → Tree K) (s : Trav K) (i : Fin 4) : Trav K :=
  let lclipMinX : Lanes (FVal K) := fun l => (box i).lower.x * (rdir l).x - (org_rdir l).x
  let lclipMinY : Lanes (FVal K) := fun l => (box i).lower.y * (rdir l).y - (org_rdir l).y
  let lclipMinZ : Lanes (FVal K) := fun l => (box i).lower.z * (rdir l).z - (org_rdir l).z
  let lclipMaxX : Lanes (FVal K) := fun l => (box i).upper.x * (rdir l).x - (org_rdir l).x
  let lclipMaxY : Lanes (FVal K) := fun l => (box i).upper.y * (rdir l).y - (org_rdir l).y
  let lclipMaxZ : Lanes (FVal K) := fun l => (box i).upper.z * (rdir l).z - (org_rdir l).z
  let lnearP : Lanes (FVal K) := fun l =>
    FVal.max (FVal.max (FVal.min (lclipMinX l) (lclipMaxX l))
      (FVal.min (lclipMinY l) (lclipMaxY l))) (FVal.min (lclipMinZ l) (lclipMaxZ l))
  let lfarP : Lanes (FVal K) := fun l =>
    FVal.min (FVal.min (FVal.max (lclipMinX l) (lclipMaxX l))
      (FVal.max (lclipMinY l) (lclipMaxY l))) (FVal.max (lclipMinZ l) (lclipMaxZ l))
  let lhit : Lanes Bool := fun l =>
    FVal.le (FVal.max (lnearP l) (ray_tnear l)) (FVal.min (lfarP l) (ray_tfar l))
  let childDist : Lanes (FVal K) := fun l => if lhit l then lnearP l else FVal.pinf
  let m_child_dist : Lanes Bool := fun l => FVal.lt (childDist l) (s.curDist l)
  /- if we hit the child we choose to continue with that child if it
     is closer than the current next child, or we push it onto the stack -/
  if any lhit then
    /- push cur node onto stack and continue with hit child -/
    if any m_child_dist then
      { curNode := some (child i)
        curDist := childDist
        stack := (s.curNode, s.curDist) :: s.stack }
    /- push hit child onto stack -/
    else { s with stack := (some (child i), childDist) :: s.stack }
  else s

/-- Where the traversal stands: at the head of the outer loop (`pop`), or at
the head of the inner loop with the registers `curNode` and `curDist`. -/
inductive Mode (K : Type) where
  | pop : Mode K
  | descend (curNode : NodeRef K) (curDist : Lanes (FVal K)) : Mode K

/-- The two nested loops `while (1)` of `intersect`.  One unit of `fuel` is
used per pass through a loop head; the result is `Option.none` when the fuel
runs out or a pop finds the stack empty.  The stack is a list, its capacity
`3*BVH4i::maxDepth+1` is not modelled. -/
def traverse (isect : LeafIntersector K) (rdir org_rdir : Lanes (Vec3 (FVal K)))
    (ray_tnear : Lanes (FVal K)) :
    Nat → Mode K → List (NodeRef K × Lanes (FVal K)) → Ray16 K → Lanes (FVal K) →
      Option (Ray16 K)
  | 0, _, _, _, _ => Option.none
  | fuel + 1, Mode.pop, stack, ray, ray_tfar =>
    /- pop next node from stack -/
    match stack with
    | [] => Option.none
    | (curNode, curDist) :: rest =>
      match curNode with
      /- stack empty ? -/
      | Option.none => some ray
      | some _ =>
        /- cull node if behind closest hit point -/
        if none (fun l => FVal.lt (curDist l) (ray_tfar l)) then
          traverse isect rdir org_rdir ray_tnear fuel Mode.pop rest ray ray_tfar
        else
          traverse isect rdir org_rdir ray_tnear fuel (Mode.descend curNode curDist) rest ray
            ray_tfar
  | fuel + 1, Mode.descend curNode curDist, stack, ray, ray_tfar =>
    match curNode with
    /- the marker is tagged as a leaf: leave the inner loop, return if stack is empty -/
    | Option.none => some ray
    /- intersect leaf -/
    | some (Tree.leaf tris) =>
      let valid_leaf : Lanes Bool := fun l => FVal.lt (curDist l) (ray_tfar l)
      let ray1 := isect valid_leaf ray tris
      traverse isect rdir org_rdir ray_tnear fuel Mode.pop stack ray1
        (fun l => if valid_leaf l then (ray1 l).tfar else ray_tfar l)
    | some (Tree.node box child) =>
      /- pop of next node -/
      match stack with
      | [] => Option.none
      | (nextNode, nextDist) :: rest =>
        let s := [(0 : Fin 4), 1, 2, 3].foldl
          (childStep rdir org_rdir ray_tnear ray_tfar box child) ⟨nextNode, nextDist, rest⟩
        traverse isect rdir org_rdir ray_tnear fuel (Mode.descend s.curNode s.curDist) s.stack
          ray ray_tfar

/-- The traversal `BVH4iIntersector16Chunk<TriangleIntersector16>::intersect
(valid_i, bvh, ray)` with the leaf intersector `isect`; `root` is `bvh->root`. -/
def intersect (math : SimdMath K) (isect : LeafIntersector K) (fuel : Nat)
    (valid_i : Lanes Int) (root : Tree K) (ray : Ray16 K) : Option (Ray16 K) :=
  /- load ray -/
  let valid0 : Lanes Bool := fun l => decide (valid_i l ≠ 0)
  let rdir : Lanes (Vec3 (FVal K)) := fun l => Vec3.map math.rcp_safe (ray l).dir
  let org_rdir : Lanes (Vec3 (FVal K)) := fun l => Vec3.mul (ray l).org (rdir l)
  let ray_tnear : Lanes (FVal K) := fun l => if valid0 l then (ray l).tnear else FVal.pinf
  let ray_tfar : Lanes (FVal K) := fun l => if valid0 l then (ray l).tfar else FVal.ninf
  /- allocate stack and push root node -/
  traverse isect rdir org_rdir ray_tnear fuel Mode.pop
    [(some root, ray_tnear), (Option.none, fun _ => FVal.pinf)] ray ray_tfar

/-- The triangles of a tree, leaf by leaf from the first child to the last. -/
def Tree.tris : Tree K → List (Triangle1 K)
  | Tree.leaf ts => ts
  | Tree.node _ child =>
    (child 0).tris ++ (child 1).tris ++ (child 2).tris ++ (child 3).tris

/-- The brute-force scan: the leaf intersector applied to every triangle of the
scene for the lanes active in `valid_i`. -/
def bruteForce (isect : LeafIntersector K) (valid_i : Lanes Int) (root : Tree K)
    (ray : Ray16 K) : Ray16 K :=
  isect (fun l => decide (valid_i l ≠ 0)) ray root.tris

end BVH4i

/-! ### One lane of the leaf intersector, and vocabulary for the statements -/

namespace BVH4i

variable {K : Type} [LinearOrderedCommRing K]

/-- The value `u` the leaf intersector computes in a lane. -/
def laneU (math : SimdMath K) (r : RayLane K) (tri : Triangle1 K) : FVal K :=
  Vec3.dot (Vec3.cross r.dir (tri.v0 - r.org)) (tri.v2 - tri.v0)
    * math.rcp (Vec3.dot tri.Ng r.dir)

/-- The value `v` the leaf intersector computes in a lane. -/
def laneV (math : SimdMath K) (r : RayLane K) (tri : Triangle1 K) : FVal K :=
  Vec3.dot (Vec3.cross r.dir (tri.v0 - r.org)) (tri.v0 - tri.v1)
    * math.rcp (Vec3.dot tri.Ng r.dir)

/-- The value `t` the leaf intersector computes in a lane. -/
def laneT (math : SimdMath K) (r : RayLane K) (tri : Triangle1 K) : FVal K :=
  Vec3.dot (tri.v0 - r.org) tri.Ng * math.rcp (Vec3.dot tri.Ng r.dir)

/-- The tests of the leaf intersector in a lane that do not involve the
interval of the ray: backface culling, the edge tests and the ray mask. -/
def laneEdgeOk (cfg : Config) (math : SimdMath K) (r : RayLane K) (tri : Triangle1 K) : Bool :=
  (!cfg.backfaceCulling || FVal.lt (FVal.fin 0) (Vec3.dot tri.Ng r.dir))
    && FVal.le (FVal.fin 0) (laneU math r tri) && FVal.le (FVal.fin 0) (laneV math r tri)
    && FVal.le (laneU math r tri + laneV math r tri) (FVal.fin 1)
    && (!cfg.rayMask || decide (tri.mask &&& r.mask ≠ 0))

/-- All tests of the leaf intersector in an active lane. -/
def laneAccept (cfg : Config) (math : SimdMath K) (r : RayLane K) (tri : Triangle1 K) : Bool :=
  laneEdgeOk cfg math r tri && FVal.le r.tnear (laneT math r tri)
    && FVal.le (laneT math r tri) r.tfar

/-- The hit the leaf intersector stores in a lane. -/
def laneRecord (math : SimdMath K) (r : RayLane K) (tri : Triangle1 K) : RayLane K :=
  { r with
    u := laneU math r tri
    v := laneV math r tri
    tfar := laneT math r tri
    geomID := tri.geomID
    primID := tri.primID
    Ng := tri.Ng }

/-- The effect of one triangle on an active lane. -/
def laneStep (cfg : Config) (math : SimdMath K) (r : RayLane K) (tri : Triangle1 K) :
    RayLane K :=
  if laneAccept cfg math r tri then laneRecord math r tri else r

/-- The number of loop heads a traversal of the tree can pass through. -/
def Tree.size : Tree K → Nat
  | Tree.leaf _ => 1
  | Tree.node _ child => 1 + ((child 0).size + (child 1).size + (child 2).size + (child 3).size)

/-- The box contains the three vertices of the triangle. -/
def ChildBox.contains (b : ChildBox K) (tri : Triangle1 K) : Prop :=
  ∀ p, p = tri.v0 ∨ p = tri.v1 ∨ p = tri.v2 →
    (FVal.le b.lower.x p.x = true ∧ FVal.le p.x b.upper.x = true)
    ∧ (FVal.le b.lower.y p.y = true ∧ FVal.le p.y b.upper.y = true)
    ∧ (FVal.le b.lower.z p.z = true ∧ FVal.le p.z b.upper.z = true)

/-- Each child box of each node contains all triangles stored below that
child. -/
def Tree.boxesOk : Tree K → Prop
  | Tree.leaf _ => True
  | Tree.node box child =>
    ∀ i : Fin 4, (∀ tri ∈ (child i).tris, (box i).contains tri) ∧ (child i).boxesOk

/-- The vector of `FVal K` with the finite components of `p`. -/
def fvec (p : Vec3 K) : Vec3 (FVal K) := Vec3.map FVal.fin p

/-- The triangle has finite vertices and its stored normal is
`cross(v0-v1, v2-v0)`. -/
def Triangle1.wellFormed (tri : Triangle1 K) : Prop :=
  ∃ a b c : Vec3 K, tri.v0 = fvec a ∧ tri.v1 = fvec b ∧ tri.v2 = fvec c
    ∧ tri.Ng = fvec (Vec3.cross (a - b) (c - a))

/-- The reciprocal `f` is exact at the finite value `x`: the exact inverse for
`x` non-zero, no finite value for `x = 0`. -/
def exactAt (f : FVal K → FVal K) (x : K) : Prop :=
  (x = 0 → ∀ y, f (FVal.fin x) ≠ FVal.fin y) ∧ (x ≠ 0 → ∃ y, f (FVal.fin x) = FVal.fin y ∧ x * y = 1)

end BVH4i

namespace BVH4i

variable {K : Type} [LinearOrderedCommRing K]

/-- The entry distance of the slab test of `childStep` in one lane. -/
def slabNear (b : ChildBox K) (rdir org_rdir : Vec3 (FVal K)) : FVal K :=
  FVal.max (FVal.max
    (FVal.min (b.lower.x * rdir.x - org_rdir.x) (b.upper.x * rdir.x - org_rdir.x))
    (FVal.min (b.lower.y * rdir.y - org_rdir.y) (b.upper.y * rdir.y - org_rdir.y)))
    (FVal.min (b.lower.z * rdir.z - org_rdir.z) (b.upper.z * rdir.z - org_rdir.z))

/-- The exit distance of the slab test of `childStep` in one lane. -/
def slabFar (b : ChildBox K) (rdir org_rdir : Vec3 (FVal K)) : FVal K :=
  FVal.min (FVal.min
    (FVal.max (b.lower.x * rdir.x - org_rdir.x) (b.upper.x * rdir.x - org_rdir.x))
    (FVal.max (b.lower.y * rdir.y - org_rdir.y) (b.upper.y * rdir.y - org_rdir.y)))
    (FVal.max (b.lower.z * rdir.z - org_rdir.z) (b.upper.z * rdir.z - org_rdir.z))

/-- The lane `r` and the triangles `tris` can be reasoned about exactly: origin
and direction are finite, `rcp_safe` is the exact inverse of the three
direction components (which are therefore non-zero), `tfar` is not NaN, every
triangle is well formed and `rcp` is exact at its denominator. -/
def laneExact (math : SimdMath K) (r : RayLane K) (tris : List (Triangle1 K)) : Prop :=
  ∃ o d : Vec3 K, r.org = fvec o ∧ r.dir = fvec d
    ∧ (∃ y, math.rcp_safe (FVal.fin d.x) = FVal.fin y ∧ d.x * y = 1)
    ∧ (∃ y, math.rcp_safe (FVal.fin d.y) = FVal.fin y ∧ d.y * y = 1)
    ∧ (∃ y, math.rcp_safe (FVal.fin d.z) = FVal.fin y ∧ d.z * y = 1)
    ∧ FVal.isNaN r.tfar = false
    ∧ ∀ tri ∈ tris, tri.wellFormed
        ∧ ∀ x, Vec3.dot tri.Ng r.dir = FVal.fin x → exactAt math.rcp x

end BVH4i

namespace BVH4i

variable {K : Type} [LinearOrderedCommRing K]

/-- The triangle is a hit for the lane `r0`: it passes the edge tests and its
distance lies in the interval `[tnear, tfar]` of `r0`. -/
def laneHits (cfg : Config) (math : SimdMath K) (r0 : RayLane K) (tri : Triangle1 K) : Prop :=
  laneEdgeOk cfg math r0 tri = true ∧ FVal.le r0.tnear (laneT math r0 tri) = true
    ∧ FVal.le (laneT math r0 tri) r0.tfar = true

/-- The lane `r` is the lane `r0` or `r0` with the hit of a triangle of `S`
recorded. -/
def laneReach (cfg : Config) (math : SimdMath K) (r0 : RayLane K) (S : List (Triangle1 K))
    (r : RayLane K) : Prop :=
  r = r0 ∨ ∃ tri ∈ S, laneHits cfg math r0 tri ∧ r = laneRecord math r0 tri

/-- The lane `r` is a nearest hit of `r0` among the triangles of `S`: it is
`r0` or a recorded hit, and no hit of `S` is closer than its `tfar`. -/
def laneFinal (cfg : Config) (math : SimdMath K) (r0 : RayLane K) (S : List (Triangle1 K))
    (r : RayLane K) : Prop :=
  laneReach cfg math r0 S r
    ∧ ∀ tri ∈ S, laneHits cfg math r0 tri → FVal.le r.tfar (laneT math r0 tri) = true

/-- Total size of the trees on a stack. -/
def stackSize : List (NodeRef K × Lanes (FVal K)) → Nat
  | [] => 0
  | (Option.none, _) :: rest => stackSize rest
  | (some t, _) :: rest => t.size + stackSize rest

/-- The stack holds the marker `invalidNode`, and the first marker carries the
distance `+inf` in lane `l`. -/
def sentinelOk (l : Fin 16) : List (NodeRef K × Lanes (FVal K)) → Prop
  | [] => False
  | (Option.none, d) :: _ => d l = FVal.pinf
  | (some _, _) :: rest => sentinelOk l rest

/-- The entries of the stack above the first marker. -/
def above : List (NodeRef K × Lanes (FVal K)) → List (Tree K × Lanes (FVal K))
  | [] => []
  | (Option.none, _) :: _ => []
  | (some t, d) :: rest => (t, d) :: above rest

/-- Every tree on the stack is part of the scene `S` and has sound boxes. -/
def stackSound (S : List (Triangle1 K)) (vs : List (NodeRef K × Lanes (FVal K))) : Prop :=
  ∀ e ∈ vs, ∀ t, e.1 = some t → (∀ tri ∈ t.tris, tri ∈ S) ∧ t.boxesOk

/-- Every hit of the lane `r0` in `S` is either no closer than `tfar`, or stored
below an entry above the marker whose distance in lane `l` is at most the
distance of the hit, or stored below one of the children `todo` of the node
`child`. -/
def covered (cfg : Config) (math : SimdMath K) (l : Fin 16) (r0 : RayLane K)
    (S : List (Triangle1 K)) (tfar : FVal K) (vs : List (NodeRef K × Lanes (FVal K)))
    (child : Fin 4 → Tree K) (todo : List (Fin 4)) : Prop :=
  ∀ tri ∈ S, laneHits cfg math r0 tri →
    FVal.le tfar (laneT math r0 tri) = true
    ∨ (∃ e ∈ above vs, tri ∈ e.1.tris ∧ FVal.le (e.2 l) (laneT math r0 tri) = true)
    ∨ (∃ i ∈ todo, tri ∈ (child i).tris)

end BVH4i

namespace BVH4i

variable {K : Type} [LinearOrderedCommRing K]

/-- The values the traversal keeps for lane `l` fit the lane `r0` exactly:
`rdirl` holds the exact inverses of the direction, `org_rdirl` is
`org * rdir`, `tnearl` is the `tnear` of the lane, and the lane and the
triangles of `S` satisfy `laneExact`. -/
def slabCtx (math : SimdMath K) (r0 : RayLane K) (S : List (Triangle1 K))
    (rdirl org_rdirl : Vec3 (FVal K)) (tnearl : FVal K) : Prop :=
  ∃ o d ry : Vec3 K, r0.org = fvec o ∧ r0.dir = fvec d ∧ rdirl = fvec ry
    ∧ org_rdirl = Vec3.mul (fvec o) (fvec ry)
    ∧ d.x * ry.x = 1 ∧ d.y * ry.y = 1 ∧ d.z * ry.z = 1
    ∧ tnearl = r0.tnear ∧ FVal.isNaN r0.tfar = false
    ∧ ∀ tri ∈ S, tri.wellFormed
        ∧ ∀ x, Vec3.dot tri.Ng r0.dir = FVal.fin x → exactAt math.rcp x

end BVH4i

namespace BVH4i

variable {K : Type} [LinearOrderedCommRing K]

/-- The mask `lhit` of `childStep` for the box `b`. -/
def childHit (rdir org_rdir : Lanes (Vec3 (FVal K))) (ray_tnear ray_tfar : Lanes (FVal K))
    (b : ChildBox K) : Lanes Bool := fun l =>
  FVal.le (FVal.max (slabNear b (rdir l) (org_rdir l)) (ray_tnear l))
    (FVal.min (slabFar b (rdir l) (org_rdir l)) (ray_tfar l))

/-- The distances `childDist` of `childStep` for the box `b`. -/
def childDist (rdir org_rdir : Lanes (Vec3 (FVal K))) (ray_tnear ray_tfar : Lanes (FVal K))
    (b : ChildBox K) : Lanes (FVal K) := fun l =>
  if childHit rdir org_rdir ray_tnear ray_tfar b l then slabNear b (rdir l) (org_rdir l)
  else FVal.pinf

/-- The registers and the stack of `Trav` as one list, the registers on top. -/
def Trav.all (s : Trav K) : List (NodeRef K × Lanes (FVal K)) :=
  (s.curNode, s.curDist) :: s.stack

end BVH4i

namespace BVH4i

variable {K : Type} [LinearOrderedCommRing K]

/-- The invariant of the two loops of `traverse` for lane `l`, on the stack
`vs` with the registers on top: `ray_tfar` mirrors the `tfar` of the lane, the
lane is `r0` or a recorded hit, the trees on the stack are sound, every hit of
`r0` is no closer than `tfar` or covered by the stack, and the marker is at the
bottom. -/
def travInv (cfg : Config) (math : SimdMath K) (l : Fin 16) (r0 : RayLane K)
    (S : List (Triangle1 K)) (vs : List (NodeRef K × Lanes (FVal K))) (ray : Ray16 K)
    (ray_tfar : Lanes (FVal K)) : Prop :=
  ray_tfar l = (ray l).tfar ∧ laneReach cfg math r0 S (ray l) ∧ stackSound S vs
    ∧ covered cfg math l r0 S (ray_tfar l) vs (fun _ => Tree.leaf []) [] ∧ sentinelOk l vs

end BVH4i

/-! ### A small scene over the integers -/

namespace BVH4i

/-- Reciprocals that are exact at `1` and `-1` and NaN elsewhere. -/
def unitMath : SimdMath ℤ :=
  { rcp := fun x => match x with
      | FVal.fin a => if a = 1 then FVal.fin 1 else if a = -1 then FVal.fin (-1) else FVal.nan
      | _ => FVal.nan
    rcp_safe := fun x => match x with
      | FVal.fin a => if a = 1 then FVal.fin 1 else if a = -1 then FVal.fin (-1) else FVal.nan
      | _ => FVal.nan }

/-- A triangle in the plane `z = 1` with the corner `(1,1,1)`. -/
def cornerTri : Triangle1 ℤ :=
  { v0 := fvec ⟨1, 1, 1⟩, v1 := fvec ⟨2, 1, 1⟩, v2 := fvec ⟨1, 2, 1⟩, Ng := fvec ⟨0, 0, -1⟩
    geomID := 3, primID := 5, mask := 1 }

/-- Sixteen rays from the origin along `(1,1,1)` with the interval `[0, tfar]`
and no hit recorded; they reach `cornerTri` at `t = 1`. -/
def cornerRay (tfar : ℤ) : Ray16 ℤ := fun _ =>
  { org := fvec ⟨0, 0, 0⟩, dir := fvec ⟨1, 1, 1⟩, tnear := FVal.fin 0, tfar := FVal.fin tfar
    time := FVal.fin 0, mask := 1, Ng := fvec ⟨0, 0, 0⟩, u := FVal.fin 0, v := FVal.fin 0
    geomID := -1, primID := -1 }

/-- The mask `valid_i` with lane 0 active only. -/
def laneZero : Lanes Int := fun l => if l = 0 then -1 else 0

/-- The bounds of an empty child. -/
def emptyBox : ChildBox ℤ := ⟨⟨FVal.pinf, FVal.pinf, FVal.pinf⟩, ⟨FVal.ninf, FVal.ninf, FVal.ninf⟩⟩

/-- A node whose first child is the leaf with `cornerTri`, bounded tightly, and
whose other children are empty. -/
def cornerTree : Tree ℤ :=
  Tree.node (fun i => if i = 0 then ⟨fvec ⟨1, 1, 1⟩, fvec ⟨2, 2, 1⟩⟩ else emptyBox)
    (fun i => if i = 0 then Tree.leaf [cornerTri] else Tree.leaf [])

/-- The leaf intersector without backface culling and without ray masks. -/
def noCulling : Config := ⟨false, false⟩

end BVH4i

/-! ### BVH4i traversal: vocabulary for the culling rule -/

namespace BVH4i

variable {K : Type} [LinearOrderedCommRing K]

/-- The mask `ray_tfar > curDist`, computed as `m_stackDist` for a popped entry
and as `valid_leaf` for a leaf. -/
def closerMask (curDist ray_tfar : Lanes (FVal K)) : Lanes Bool :=
  fun l => FVal.lt (curDist l) (ray_tfar l)

/-- The packet `cornerRay` with `tfar = 1` in lane 0 and `tfar = 2` in the
other lanes. -/
def mixedRay : Ray16 ℤ := fun l => if l = 0 then cornerRay 1 l else cornerRay 2 l

/-- A stack with one entry above the marker: the leaf with `cornerTri` at the
near distance 1 in every lane. -/
def cornerStack : List (NodeRef ℤ × Lanes (FVal ℤ)) :=
  [(some (Tree.leaf [cornerTri]), fun _ => FVal.fin 1), (Option.none, fun _ => FVal.pinf)]

end BVH4i

/-! ### BVH4i traversal: the stack heights and masks of a run

The traversal keeps its stack in two arrays of `3*BVH4i::maxDepth+1` entries
and asserts `sptr_node - stack_node < BVH4i::maxDepth` after each push.  The
model keeps the stack in a list; to state what a run does to the arrays, the
two loops are run again with a record of the stack height at each access and
of the masks of each box test and leaf visit, in the order of execution. -/

namespace BVH4i

variable {K : Type} [LinearOrderedCommRing K]

/-- The reduction `all(m)` of a mask. -/
def all (m : Lanes Bool) : Bool := (List.finRange 16).all m

/-- One step of a run.  `pop`: an entry is read at `sptr_node-1` and removed,
`height` is `sptr_node - stack_node` before.  `push`: an entry is written at
`sptr_node-1` after `sptr_node++`, `height` is `sptr_node - stack_node` after,
the value the assertion tests.  `box`: the mask `lhit` of a box test.  `leaf`:
a leaf visit of `intersect` with its mask and the `ray_tfar` it leaves.
`shadow`: a leaf visit of `occluded` with its mask, the mask the leaf
intersector returned, and `m_terminated` after the visit. -/
inductive Event (K : Type) where
  | pop (height : Nat) : Event K
  | push (height : Nat) : Event K
  | box (lhit : Lanes Bool) : Event K
  | leaf (valid_leaf : Lanes Bool) (ray_tfar : Lanes (FVal K)) : Event K
  | shadow (valid_leaf reported m_terminated : Lanes Bool) : Event K

/-- The loop `for (unsigned int i=0; i<4; i++)` over the children `todo` of a
node with the loop body `step`, and its record: the mask `hit i` of each box
test and the stack height after each push (a pass pushes one entry when a lane
hits the box). -/
def childLoop (step : Trav K → Fin 4 → Trav K) (hit : Fin 4 → Lanes Bool) (s : Trav K) :
    List (Fin 4) → Trav K × List (Event K)
  | [] => (s, [])
  | i :: todo =>
    let r := childLoop step hit (step s i) todo
    (r.1, (if any (hit i) then [Event.box (hit i), Event.push (s.stack.length + 1)]
      else [Event.box (hit i)]) ++ r.2)

/-- The two nested loops of `intersect` as in `traverse`, with the record of
the run.  A pop from the empty list is recorded as `pop 0`. -/
def traverseLog (isect : LeafIntersector K) (rdir org_rdir : Lanes (Vec3 (FVal K)))
    (ray_tnear : Lanes (FVal K)) :
    Nat → Mode K → List (NodeRef K × Lanes (FVal K)) → Ray16 K → Lanes (FVal K) →
      Option (Ray16 K) × List (Event K)
  | 0, _, _, _, _ => (Option.none, [])
  | fuel + 1, Mode.pop, stack, ray, ray_tfar =>
    /- pop next node from stack -/
    match stack with
    | [] => (Option.none, [Event.pop 0])
    | (curNode, curDist) :: rest =>
      match curNode with
      /- stack empty ? -/
      | Option.none => (some ray, [Event.pop (rest.length + 1)])
      | some _ =>
        /- cull node if behind closest hit point -/
        if none (fun l => FVal.lt (curDist l) (ray_tfar l)) then
          let r := traverseLog isect rdir org_rdir ray_tnear fuel Mode.pop rest ray ray_tfar
          (r.1, Event.pop (rest.length + 1) :: r.2)
        else
          let r := traverseLog isect rdir org_rdir ray_tnear fuel (Mode.descend curNode curDist)
            rest ray ray_tfar
          (r.1, Event.pop (rest.length + 1) :: r.2)
  | fuel + 1, Mode.descend curNode curDist, stack, ray, ray_tfar =>
    match curNode with
    | Option.none => (some ray, [])
    /- intersect leaf -/
    | some (Tree.leaf tris) =>
      let valid_leaf : Lanes Bool := fun l => FVal.lt (curDist l) (ray_tfar l)
      let ray1 := isect valid_leaf ray tris
      let ray_tfar1 : Lanes (FVal K) := fun l => if valid_leaf l then (ray1 l).tfar else ray_tfar l
      let r := traverseLog isect rdir org_rdir ray_tnear fuel Mode.pop stack ray1 ray_tfar1
      (r.1, Event.leaf valid_leaf ray_tfar1 :: r.2)
    | some (Tree.node box child) =>
      /- pop of next node -/
      match stack with
      | [] => (Option.none, [Event.pop 0])
      | (nextNode, nextDist) :: rest =>
        let c := childLoop (childStep rdir org_rdir ray_tnear ray_tfar box child)
          (fun i => childHit rdir org_rdir ray_tnear ray_tfar (box i))
          ⟨nextNode, nextDist, rest⟩ [0, 1, 2, 3]
        let r := traverseLog isect rdir org_rdir ray_tnear fuel
          (Mode.descend c.1.curNode c.1.curDist) c.1.stack ray ray_tfar
        (r.1, Event.pop (rest.length + 1) :: (c.2 ++ r.2))

/-- The traversal `intersect` with the record of its run. -/
def intersectLog (math : SimdMath K) (isect : LeafIntersector K) (fuel : Nat)
    (valid_i : Lanes Int) (root : Tree K) (ray : Ray16 K) :
    Option (Ray16 K) × List (Event K) :=
  /- load ray -/
  let valid0 : Lanes Bool := fun l => decide (valid_i l ≠ 0)
  let rdir : Lanes (Vec3 (FVal K)) := fun l => Vec3.map math.rcp_safe (ray l).dir
  let org_rdir : Lanes (Vec3 (FVal K)) := fun l => Vec3.mul (ray l).org (rdir l)
  let ray_tnear : Lanes (FVal K) := fun l => if valid0 l then (ray l).tnear else FVal.pinf
  let ray_tfar : Lanes (FVal K) := fun l => if valid0 l then (ray l).tfar else FVal.ninf
  /- allocate stack and push root node -/
  traverseLog isect rdir org_rdir ray_tnear fuel Mode.pop
    [(some root, ray_tnear), (Option.none, fun _ => FVal.pinf)] ray ray_tfar

/-! ### BVH4i chunk traversal: `BVH4iIntersector16Chunk::occluded` -/

/-- The type of a leaf intersector `TriangleIntersector16::occluded(valid_leaf,
ray, tri, items, geometry)`: the mask of the occluded lanes.  The ray packet
is passed by reference; as in the copy of the loop that the source keeps
inline, the leaf intersector reads it only. -/
abbrev LeafOccluder (K : Type) : Type :=
  Lanes Bool → Ray16 K → List (Triangle1 K) → Lanes Bool

/-- The mask `lhit` of `occluded` for the box `b`:
`le(m_active,max(lnearP,ray_tnear),min(lfarP,ray_tfar))`. -/
def childHitOccluded (m_active : Lanes Bool) (rdir org_rdir : Lanes (Vec3 (FVal K)))
    (ray_tnear ray_tfar : Lanes (FVal K)) (b : ChildBox K) : Lanes Bool := fun l =>
  m_active l && FVal.le (FVal.max (slabNear b (rdir l) (org_rdir l)) (ray_tnear l))
    (FVal.min (slabFar b (rdir l) (org_rdir l)) (ray_tfar l))

/-- One pass of the loop `for (unsigned int i=0; i<4; i++)` over the children
of a node in `occluded`. -/
def childStepOccluded (m_active : Lanes Bool) (rdir org_rdir : Lanes (Vec3 (FVal K)))
    (ray_tnear ray_tfar : Lanes (FVal K)) (box : Fin 4 → ChildBox K) (child : Fin 4 → Tree K)
    (s : Trav K) (i : Fin 4) : Trav K :=
  let lclipMinX : Lanes (FVal K) := fun l => (box i).lower.x * (rdir l).x - (org_rdir l).x
  let lclipMinY : Lanes (FVal K) := fun l => (box i).lower.y * (rdir l).y - (org_rdir l).y
  let lclipMinZ : Lanes (FVal K) := fun l => (box i).lower.z * (rdir l).z - (org_rdir l).z
  let lclipMaxX : Lanes (FVal K) := fun l => (box i).upper.x * (rdir l).x - (org_rdir l).x
  let lclipMaxY : Lanes (FVal K) := fun l => (box i).upper.y * (rdir l).y - (org_rdir l).y
  let lclipMaxZ : Lanes (FVal K) := fun l => (box i).upper.z * (rdir l).z - (org_rdir l).z
  let lnearP : Lanes (FVal K) := fun l =>
    FVal.max (FVal.max (FVal.min (lclipMinX l) (lclipMaxX l))
      (FVal.min (lclipMinY l) (lclipMaxY l))) (FVal.min (lclipMinZ l) (lclipMaxZ l))
  let lfarP : Lanes (FVal K) := fun l =>
    FVal.min (FVal.min (FVal.max (lclipMinX l) (lclipMaxX l))
      (FVal.max (lclipMinY l) (lclipMaxY l))) (FVal.max (lclipMinZ l) (lclipMaxZ l))
  let lhit : Lanes Bool := fun l =>
    m_active l && FVal.le (FVal.max (lnearP l) (ray_tnear l)) (FVal.min (lfarP l) (ray_tfar l))
  let childDist : Lanes (FVal K) := fun l => if lhit l then lnearP l else FVal.pinf
  let m_child_dist : Lanes Bool := fun l => FVal.lt (childDist l) (s.curDist l)
  /- if we hit the child we choose to continue with that child if it
     is closer than the current next child, or we push it onto the stack -/
  if any lhit then
    /- push cur node onto stack and continue with hit child -/
    if any m_child_dist then
      { curNode := some (child i)
        curDist := childDist
        stack := (s.curNode, s.curDist) :: s.stack }
    /- push hit child onto stack -/
    else { s with stack := (some (child i), childDist) :: s.stack }
  else s

/-- The two nested loops `while (1)` of `occluded`, with the record of the
run; the result is `m_terminated` at the exit of the outer loop.  One unit of
`fuel` is used per pass through a loop head.  The mask `m_active` is computed
at the head of the outer loop as `!m_terminated`, and `m_terminated` changes
only at the end of a pass of the outer loop. -/
def occludedLoop (occ : LeafOccluder K) (rdir org_rdir : Lanes (Vec3 (FVal K)))
    (ray_tnear : Lanes (FVal K)) (ray : Ray16 K) :
    Nat → Mode K → List (NodeRef K × Lanes (FVal K)) → Lanes Bool → Lanes (FVal K) →
      Option (Lanes Bool) × List (Event K)
  | 0, _, _, _, _ => (Option.none, [])
  | fuel + 1, Mode.pop, stack, m_terminated, ray_tfar =>
    let m_active : Lanes Bool := fun l => !m_terminated l
    /- pop next node from stack -/
    match stack with
    | [] => (Option.none, [Event.pop 0])
    | (curNode, curDist) :: rest =>
      let m_stackDist : Lanes Bool := fun l => m_active l && FVal.lt (curDist l) (ray_tfar l)
      match curNode with
      /- stack empty ? -/
      | Option.none => (some m_terminated, [Event.pop (rest.length + 1)])
      | some _ =>
        /- cull node if behind closest hit point -/
        if none m_stackDist then
          let r := occludedLoop occ rdir org_rdir ray_tnear ray fuel Mode.pop rest m_terminated
            ray_tfar
          (r.1, Event.pop (rest.length + 1) :: r.2)
        else
          let r := occludedLoop occ rdir org_rdir ray_tnear ray fuel
            (Mode.descend curNode curDist) rest m_terminated ray_tfar
          (r.1, Event.pop (rest.length + 1) :: r.2)
  | fuel + 1, Mode.descend curNode curDist, stack, m_terminated, ray_tfar =>
    let m_active : Lanes Bool := fun l => !m_terminated l
    match curNode with
    /- return if stack is empty -/
    | Option.none => (some m_terminated, [])
    /- intersect leaf -/
    | some (Tree.leaf tris) =>
      let valid_leaf : Lanes Bool := fun l => m_active l && FVal.lt (curDist l) (ray_tfar l)
      let reported := occ valid_leaf ray tris
      let m_terminated1 : Lanes Bool := fun l => m_terminated l || (valid_leaf l && reported l)
      if all m_terminated1 then
        (some m_terminated1, [Event.shadow valid_leaf reported m_terminated1])
      else
        let ray_tfar1 : Lanes (FVal K) := fun l =>
          if m_terminated1 l then FVal.ninf else ray_tfar l
        let r := occludedLoop occ rdir org_rdir ray_tnear ray fuel Mode.pop stack m_terminated1
          ray_tfar1
        (r.1, Event.shadow valid_leaf reported m_terminated1 :: r.2)
    | some (Tree.node box child) =>
      /- pop of next node -/
      match stack with
      | [] => (Option.none, [Event.pop 0])
      | (nextNode, nextDist) :: rest =>
        let c := childLoop (childStepOccluded m_active rdir org_rdir ray_tnear ray_tfar box child)
          (fun i => childHitOccluded m_active rdir org_rdir ray_tnear ray_tfar (box i))
          ⟨nextNode, nextDist, rest⟩ [0, 1, 2, 3]
        let r := occludedLoop occ rdir org_rdir ray_tnear ray fuel
          (Mode.descend c.1.curNode c.1.curDist) c.1.stack m_terminated ray_tfar
        (r.1, Event.pop (rest.length + 1) :: (c.2 ++ r.2))

/-- The traversal `BVH4iIntersector16Chunk<TriangleIntersector16>::occluded
(valid_i, bvh, ray)` with the leaf intersector `occ`, and the record of its
run; `root` is `bvh->root`.  The result is `Option.none` when the fuel runs
out. -/
def occludedLog (math : SimdMath K) (occ : LeafOccluder K) (fuel : Nat)
    (valid_i : Lanes Int) (root : Tree K) (ray : Ray16 K) :
    Option (Ray16 K) × List (Event K) :=
  /- load ray -/
  let valid : Lanes Bool := fun l => decide (valid_i l ≠ 0)
  let m_terminated : Lanes Bool := fun l => !valid l
  let rdir : Lanes (Vec3 (FVal K)) := fun l => Vec3.map math.rcp_safe (ray l).dir
  let org_rdir : Lanes (Vec3 (FVal K)) := fun l => Vec3.mul (ray l).org (rdir l)
  let ray_tnear : Lanes (FVal K) := fun l => if valid l then (ray l).tnear else FVal.pinf
  let ray_tfar : Lanes (FVal K) := fun l => if valid l then (ray l).tfar else FVal.ninf
  /- push root node -/
  let r := occludedLoop occ rdir org_rdir ray_tnear ray fuel Mode.pop
    [(some root, ray_tnear), (Option.none, fun _ => FVal.pinf)] m_terminated ray_tfar
  (r.1.map (fun m_terminated => fun l =>
      if valid l && m_terminated l then { ray l with geomID := 0 } else ray l), r.2)

/-- The traversal `occluded`: the packet it leaves. -/
def occluded (math : SimdMath K) (occ : LeafOccluder K) (fuel : Nat)
    (valid_i : Lanes Int) (root : Tree K) (ray : Ray16 K) : Option (Ray16 K) :=
  (occludedLog math occ fuel valid_i root ray).1

/-- A leaf intersector for `occluded`: it reports the lanes of its mask for
which a triangle of the leaf passes the tests of the Moeller-Trumbore loop. -/
def mollerTrumboreOccluded16 (cfg : Config) (math : SimdMath K) : LeafOccluder K :=
  fun valid_leaf ray tris l => valid_leaf l && tris.any (fun tri => laneAccept cfg math (ray l) tri)

/-- The greatest number of inner nodes on a path from the root to a leaf. -/
def Tree.depth : Tree K → Nat
  | Tree.leaf _ => 0
  | Tree.node _ child =>
    1 + max (max (child 0).depth (child 1).depth) (max (child 2).depth (child 3).depth)

/-- The stack holds the marker `invalidNode`. -/
def hasMarker : List (NodeRef K × Lanes (FVal K)) → Prop
  | [] => False
  | (Option.none, _) :: _ => True
  | (some _, _) :: rest => hasMarker rest

end BVH4i

/-! ### Vocabulary for the statements about a run -/

namespace BVH4i

variable {K : Type} [LinearOrderedCommRing K]

/-- The distances `childDist` of `occluded` for the box `b`. -/
def childDistOccluded (m_active : Lanes Bool) (rdir org_rdir : Lanes (Vec3 (FVal K)))
    (ray_tnear ray_tfar : Lanes (FVal K)) (b : ChildBox K) : Lanes (FVal K) := fun l =>
  if childHitOccluded m_active rdir org_rdir ray_tnear ray_tfar b l
  then slabNear b (rdir l) (org_rdir l) else FVal.pinf

end BVH4i

namespace BVH4i

variable {K : Type} [LinearOrderedCommRing K]

/-- The lane `l` takes no part in the step: it is in no mask of a box test or
leaf visit, and a leaf visit of `intersect` leaves its `ray_tfar` at `-inf`. -/
def Event.quiet (l : Fin 16) : Event K → Prop
  | Event.box lhit => lhit l = false
  | Event.leaf valid_leaf ray_tfar => valid_leaf l = false ∧ ray_tfar l = FVal.ninf
  | Event.shadow valid_leaf _ _ => valid_leaf l = false
  | _ => True

end BVH4i

namespace BVH4i

variable {K : Type} [LinearOrderedCommRing K]

/-- The record of a run of `occluded` keeps its terminated lanes: after a
leaf visit that leaves `m_terminated`, every lane of its mask that the leaf
intersector reported is in `m_terminated`, every lane of `m_terminated` takes
no part in the later steps and is in `m_terminated` after every later leaf
visit, and no step follows when all lanes are in `m_terminated`. -/
def settled : List (Event K) → Prop
  | [] => True
  | Event.shadow valid_leaf reported m_terminated :: post =>
    (∀ l, valid_leaf l = true → reported l = true → m_terminated l = true)
    ∧ (∀ l, m_terminated l = true →
        (∀ e ∈ post, Event.quiet l e)
        ∧ ∀ v rep m, Event.shadow v rep m ∈ post → m l = true)
    ∧ (all m_terminated = true → post = [])
    ∧ settled post
  | _ :: post => settled post

end BVH4i

/-! ### A tree with two chains of full nodes -/

namespace BVH4i

/-- A box that every ray of `cornerRay` enters at distance 1 and leaves at
distance 2. -/
def unitBox : ChildBox ℤ := ⟨fvec ⟨1, 1, 1⟩, fvec ⟨2, 2, 2⟩⟩

/-- A chain of `k` nodes: the last child of each node is the next node of the
chain, the other children are empty leaves; every child has the bounds
`unitBox`. -/
def spine : Nat → Tree ℤ
  | 0 => Tree.leaf []
  | k + 1 => Tree.node (fun _ => unitBox) (fun i => if i = 3 then spine k else Tree.leaf [])

/-- A node whose first and last child are chains of `depth - 1` nodes and
whose other children are empty leaves; every child has the bounds `unitBox`. -/
def twinChain (depth : Nat) : Tree ℤ :=
  Tree.node (fun _ => unitBox)
    (fun i => if i = 0 then spine (depth - 1) else if i = 3 then spine (depth - 1)
      else Tree.leaf [])

/-- The mask `valid_i` with all lanes active. -/
def allLanes : Lanes Int := fun _ => -1

end BVH4i

/-! ### Scenes on which traversal and brute-force scan differ -/

namespace BVH4i

/-- A triangle in the plane `x = 1` with the corner `(1,1,1)`; the rays of
`cornerRay` reach it at `t = 1`, as they reach `cornerTri`. -/
def sideTri : Triangle1 ℤ :=
  { v0 := fvec ⟨1, 1, 1⟩, v1 := fvec ⟨1, 2, 1⟩, v2 := fvec ⟨1, 1, 2⟩, Ng := fvec ⟨-1, 0, 0⟩
    geomID := 4, primID := 6, mask := 1 }

/-- A node with two leaves, `cornerTri` in the first and `sideTri` in the
second, each bounded tightly; the other children are empty. -/
def tieTree : Tree ℤ :=
  Tree.node
    (fun i => if i = 0 then ⟨fvec ⟨1, 1, 1⟩, fvec ⟨2, 2, 1⟩⟩
      else if i = 1 then ⟨fvec ⟨1, 1, 1⟩, fvec ⟨1, 2, 2⟩⟩ else emptyBox)
    (fun i => if i = 0 then Tree.leaf [cornerTri]
      else if i = 1 then Tree.leaf [sideTri] else Tree.leaf [])

/-- Modelled from the spec: the reciprocals of the SIMD math library in
binary32, the rounded quotient `1 / x`; for a zero direction component the
reciprocal is an infinity. -/
def binary32Math : SimdMath ℚ := { rcp := Binary32.rcp, rcp_safe := Binary32.rcp }

/-- A packet of sixteen equal rays from the origin along `dir` with the
interval `[0, 2]` and no hit recorded. -/
def rayAlong (dir : Vec3 ℚ) : Ray16 ℚ := fun _ =>
  { org := fvec ⟨0, 0, 0⟩, dir := fvec dir, tnear := FVal.fin 0, tfar := FVal.fin 2
    time := FVal.fin 0, mask := 1, Ng := fvec ⟨0, 0, 0⟩, u := FVal.fin 0, v := FVal.fin 0
    geomID := -1, primID := -1 }

/-- The bounds of an empty child, over the rational numbers. -/
def emptyBoxQ : ChildBox ℚ :=
  ⟨⟨FVal.pinf, FVal.pinf, FVal.pinf⟩, ⟨FVal.ninf, FVal.ninf, FVal.ninf⟩⟩

/-- A triangle in the plane `x = 1` around the point `(1, 1, 0)`, which the
ray from the origin along `(1, 1, 0)` reaches at `t = 1`. -/
def planeTri : Triangle1 ℚ :=
  { v0 := fvec ⟨1, 0, -1⟩, v1 := fvec ⟨1, 2, -1⟩, v2 := fvec ⟨1, 1, 1⟩, Ng := fvec ⟨-4, 0, 0⟩
    geomID := 3, primID := 5, mask := 1 }

/-- A node whose first child is the leaf with `planeTri`, bounded tightly. -/
def planeTree : Tree ℚ :=
  Tree.node (fun i => if i = 0 then ⟨fvec ⟨1, 0, -1⟩, fvec ⟨1, 2, 1⟩⟩ else emptyBoxQ)
    (fun i => if i = 0 then Tree.leaf [planeTri] else Tree.leaf [])

/-- A triangle in the plane `z = 1` with the corner `(1, 41, 1)`, which the ray
from the origin along `(1, 41, 1)` reaches at `t = 1`. -/
def steepTri : Triangle1 ℚ :=
  { v0 := fvec ⟨1, 41, 1⟩, v1 := fvec ⟨2, 41, 1⟩, v2 := fvec ⟨1, 40, 1⟩, Ng := fvec ⟨0, 0, 1⟩
    geomID := 3, primID := 5, mask := 1 }

/-- A node whose first child is the leaf with `steepTri`, bounded tightly. -/
def steepTree : Tree ℚ :=
  Tree.node (fun i => if i = 0 then ⟨fvec ⟨1, 40, 1⟩, fvec ⟨2, 41, 1⟩⟩ else emptyBoxQ)
    (fun i => if i = 0 then Tree.leaf [steepTri] else Tree.leaf [])

end BVH4i

/-! ## The scene (kernels/common/scene.cpp)

The header `scene.h`, the geometry classes, the acceleration structures
`AccelN` and the task schedulers are not part of the sources.  A scene is a
record of the members the functions of `scene.cpp` read and write; the
acceleration structures are values of a type `A` with the operations of
`AccelOps`; bounds are values of a type `B`, intersector function pointers of
a type `F`, and the data of a geometry other than its ID and state of a type
`D`.  A call returns the scene it leaves together with its result. -/

/-- Modelled from the spec: the error kinds (InvalidOperation, InvalidArgument,
OutOfMemory, Cancelled, UnsupportedConfiguration, with the codes for no error
and an unknown error).  `RTC_INVALID_OPERATION` and `RTC_CANCELLED` are the
codes named in `scene.cpp`. -/
inductive RTCError where
  | RTC_NO_ERROR : RTCError
  | RTC_UNKNOWN_ERROR : RTCError
  | RTC_INVALID_ARGUMENT : RTCError
  | RTC_INVALID_OPERATION : RTCError
  | RTC_OUT_OF_MEMORY : RTCError
  | RTC_UNSUPPORTED_CPU : RTCError
  | RTC_CANCELLED : RTCError
  deriving DecidableEq

/-- The lifecycle states of a geometry (`Geometry::State`). -/
inductive GeometryState where
  | ENABLING : GeometryState
  | ENABLED : GeometryState
  | MODIFIED : GeometryState
  | DISABLING : GeometryState
  | DISABLED : GeometryState
  | ERASING : GeometryState
  deriving DecidableEq

/-- A geometry: its `id`, its `state` and the rest of the object. -/
structure Geometry (D : Type) where
  id : Nat
  state : GeometryState
  data : D
  deriving DecidableEq

/-- The pair of function pointers of one intersector. -/
structure IntersectorN (F : Type) where
  intersect : Option F
  occluded : Option F
  deriving DecidableEq

/-- The intersectors of a scene (`Accel::Intersectors`); `Option.none` is
`NULL`. -/
structure Intersectors (F : Type) where
  intersector1 : IntersectorN F
  intersector4 : IntersectorN F
  intersector8 : IntersectorN F
  intersector16 : IntersectorN F
  deriving DecidableEq

/-- The operations on the acceleration structures `accels` and on a geometry
that `scene.cpp` calls, and the constants of `rtcore.h` it uses.  `build` is
`accels.build(0,0)`: it reads the geometries and returns the structure it
leaves, with the error of the exception that ended it if there was one (the
progress monitor throws `RTC_CANCELLED` from inside the build). -/
structure AccelOps (A B F D : Type) where
  select : A → Nat → Nat → Nat → A
  build : List (Option (Geometry D)) → A → A × Option RTCError
  immutable : A → A
  clear : A → A
  bounds : A → B
  intersectors : A → Intersectors F
  geomImmutable : Geometry D → Geometry D
  RTC_INTERSECT1 : Nat
  RTC_INTERSECT4 : Nat
  RTC_INTERSECT8 : Nat
  RTC_INTERSECT16 : Nat
  RTC_GEOMETRY_STATIC : Nat

/-- The members of `Scene` that the functions of `scene.cpp` modelled here read
or write.  `isStatic` is the value of `isStatic()`, a function of the scene
flags; `usedIDs` holds values of type `int`, the last element is `back()`;
`scheduler` tells whether the pointer `scheduler` is set. -/
structure Scene (A B F D : Type) where
  isStatic : Bool
  aflags : Nat
  numMappedBuffers : Nat
  is_build : Bool
  modified : Bool
  numIntersectionFilters4 : Nat
  numIntersectionFilters8 : Nat
  numIntersectionFilters16 : Nat
  commitCounter : Nat
  progress_monitor_counter : Nat
  scheduler : Bool
  accels : A
  bounds : B
  intersectors : Intersectors F
  geometries : List (Option (Geometry D))
  usedIDs : List Int

namespace Scene

variable {A B F D : Type}

/-- Conversion of a value to `unsigned`. -/
def toUnsigned (x : Int) : Nat := (x % 2 ^ 32).toNat

/-- Conversion of an `unsigned` or `size_t` value to `int`. -/
def toInt (x : Nat) : Int := ((x : Int) + 2 ^ 31) % 2 ^ 32 - 2 ^ 31

/-- The function `Scene::add`: returns the scene and the ID. -/
def add (s : Scene A B F D) (geometry : Geometry D) : Scene A B F D × Nat :=
  match s.usedIDs.getLast? with
  | some id =>
    ({ s with
       usedIDs := s.usedIDs.dropLast
       geometries := s.geometries.set id.toNat (some geometry) }, toUnsigned id)
  | Option.none =>
    ({ s with geometries := s.geometries ++ [some geometry] },
      toUnsigned (((s.geometries ++ [some geometry]).length : Int) - 1))

/-- The function `Scene::remove`. -/
def remove (s : Scene A B F D) (geometry : Geometry D) : Scene A B F D :=
  { s with
    usedIDs := s.usedIDs ++ [toInt geometry.id]
    geometries := s.geometries.set geometry.id Option.none }

/-- Modelled from the spec: the constructor of a geometry registers the object
with `Scene::add` and stores the returned ID in it (`newTriangleMesh` returns
`geom->id` of the new object).  The object in the slot is the one with the ID
set. -/
def construct (s : Scene A B F D) (geometry : Geometry D) : Scene A B F D × Geometry D :=
  let g := { geometry with id := (s.add geometry).2 }
  ((s.add g).1, g)

/-- The function `Scene::updateInterface`. -/
def updateInterface (ops : AccelOps A B F D) (s : Scene A B F D) : Scene A B F D :=
  /- update bounds -/
  let i := ops.intersectors s.accels
  /- enable only algorithms choosen by application -/
  let i := if s.aflags &&& ops.RTC_INTERSECT1 = 0 then
    { i with intersector1 := ⟨Option.none, Option.none⟩ } else i
  let i := if s.aflags &&& ops.RTC_INTERSECT4 = 0 then
    { i with intersector4 := ⟨Option.none, Option.none⟩ } else i
  let i := if s.aflags &&& ops.RTC_INTERSECT8 = 0 then
    { i with intersector8 := ⟨Option.none, Option.none⟩ } else i
  let i := if s.aflags &&& ops.RTC_INTERSECT16 = 0 then
    { i with intersector16 := ⟨Option.none, Option.none⟩ } else i
  { s with
    is_build := true
    bounds := ops.bounds s.accels
    intersectors := i
    /- update commit counter -/
    commitCounter := (s.commitCounter + 1) % 2 ^ 64 }

/-- The state changes of the loop "delete geometry that is scheduled for
delete" on one geometry. -/
def commitState (st : GeometryState) : GeometryState :=
  let st := if st = GeometryState.ENABLING then GeometryState.ENABLED else st
  let st := if st = GeometryState.MODIFIED then GeometryState.ENABLED else st
  if st = GeometryState.DISABLING then GeometryState.DISABLED else st

/-- One pass of the loop "delete geometry that is scheduled for delete" of
`build_task`. -/
def lifecycleStep (s : Scene A B F D) (i : Nat) : Scene A B F D :=
  match s.geometries.getD i Option.none with
  | Option.none => s
  | some geom =>
    let geom := { geom with state := commitState geom.state }
    let s := { s with geometries := s.geometries.set i (some geom) }
    if geom.state = GeometryState.ERASING then s.remove geom else s

/-- The function `Scene::build_task`: the scene it leaves and the error of the
exception that ended it, if any. -/
def build_task (ops : AccelOps A B F D) (s : Scene A B F D) :
    Scene A B F D × Option RTCError :=
  let s := { s with progress_monitor_counter := 0 }
  /- select fast code path if no intersection filter is present -/
  let s := { s with
    accels := ops.select s.accels s.numIntersectionFilters4 s.numIntersectionFilters8
      s.numIntersectionFilters16 }
  /- build all hierarchies of this scene -/
  let r := ops.build s.geometries s.accels
  let s := { s with accels := r.1 }
  match r.2 with
  | some e => (s, some e)
  | Option.none =>
    /- make static geometry immutable -/
    let s := if s.isStatic then
      { s with
        accels := ops.immutable s.accels
        geometries := s.geometries.map (Option.map ops.geomImmutable) }
      else s
    /- delete geometry that is scheduled for delete -/
    let s := (List.range s.geometries.length).foldl lifecycleStep s
    (updateInterface ops s, Option.none)

/-- Modelled from the spec: `ready()` is false while a buffer is still
mapped. -/
def ready (s : Scene A B F D) : Bool := decide (s.numMappedBuffers = 0)

/-- What a call leaves: the scene, the error reported through
`process_error`, and the error of the exception the call propagates. -/
structure Outcome (A B F D : Type) where
  scene : Scene A B F D
  error : Option RTCError
  thrown : Option RTCError

/-- The function `Scene::build` of the `TASKING_TBB` variant, as executed by
one calling thread.  `locked` tells whether `TryLock` obtained the build lock;
a thread that waits for the build of another thread changes nothing itself. -/
def build (ops : AccelOps A B F D) (s : Scene A B F D) (threadIndex threadCount : Nat)
    (locked : Bool) : Outcome A B F D :=
  /- let threads wait for build to finish in rtcCommitThread mode -/
  if threadCount ≠ 0 ∧ threadIndex > 0 then ⟨s, Option.none, Option.none⟩
  /- join hierarchy build -/
  else if !locked then ⟨s, Option.none, Option.none⟩
  else if !s.modified then ⟨s, Option.none, Option.none⟩
  else if !s.ready then ⟨s, some RTCError.RTC_INVALID_OPERATION, Option.none⟩
  else
    match build_task ops s with
    | (s1, Option.none) => ⟨{ s1 with modified := false }, Option.none, Option.none⟩
    | (s1, some e) =>
      ⟨updateInterface ops { s1 with accels := ops.clear s1.accels }, Option.none, some e⟩

/-- The function `Scene::build` of the `TASKING_TBB_INTERNAL` variant, as
executed by one calling thread. -/
def build_internal (ops : AccelOps A B F D) (s : Scene A B F D)
    (threadIndex threadCount : Nat) : Outcome A B F D :=
  let s := if threadCount ≠ 0 then { s with scheduler := true } else s
  if threadCount ≠ 0 ∧ threadIndex > 0 then ⟨s, Option.none, Option.none⟩
  else
    /- allow only one build at a time -/
    let s := { s with progress_monitor_counter := 0 }
    if !s.ready then ⟨s, some RTCError.RTC_INVALID_OPERATION, Option.none⟩
    else
      let r := build_task ops s
      let s := if threadCount ≠ 0 then { r.1 with scheduler := false } else r.1
      ⟨s, Option.none, r.2⟩

/-- The result of a function that creates a geometry: the scene, the returned
ID, and the error code and message passed to `process_error`. -/
structure Created (A B F D : Type) where
  scene : Scene A B F D
  id : Nat
  error : Option RTCError
  message : Option String

/-- The value `-1` returned as `unsigned`. -/
def invalidID : Nat := toUnsigned (-1)

/-- The function `Scene::newTriangleMesh`; `mesh` is the object
`new TriangleMesh(this,gflags,numTriangles,numVertices,numTimeSteps)` before
its registration. -/
def newTriangleMesh (ops : AccelOps A B F D) (mesh : Nat → Nat → Nat → Nat → Geometry D)
    (s : Scene A B F D) (gflags numTriangles numVertices numTimeSteps : Nat) :
    Created A B F D :=
  if s.isStatic ∧ gflags ≠ ops.RTC_GEOMETRY_STATIC then
    ⟨s, invalidID, some RTCError.RTC_INVALID_OPERATION,
      some "static scenes can only contain static geometries"⟩
  else if numTimeSteps = 0 ∨ numTimeSteps > 2 then
    ⟨s, invalidID, some RTCError.RTC_INVALID_OPERATION,
      some "only 1 or 2 time steps supported"⟩
  else
    let r := s.construct (mesh gflags numTriangles numVertices numTimeSteps)
    ⟨r.1, r.2.id, Option.none, Option.none⟩

/-- The function `Scene::newSubdivisionMesh`; `mesh` is the object
`new SubdivMesh(this,gflags,numFaces,...)` before its registration. -/
def newSubdivisionMesh (ops : AccelOps A B F D)
    (mesh : Nat → Nat → Nat → Nat → Nat → Nat → Nat → Nat → Geometry D)
    (s : Scene A B F D)
    (gflags numFaces numEdges numVertices numEdgeCreases numVertexCreases numHoles
      numTimeSteps : Nat) : Created A B F D :=
  if s.isStatic ∧ gflags ≠ ops.RTC_GEOMETRY_STATIC then
    ⟨s, invalidID, some RTCError.RTC_INVALID_OPERATION,
      some "static scenes can only contain static geometries"⟩
  else if numTimeSteps = 0 ∨ numTimeSteps > 2 then
    ⟨s, invalidID, some RTCError.RTC_INVALID_OPERATION,
      some "only 1 or 2 time steps supported"⟩
  else
    let r := s.construct (mesh gflags numFaces numEdges numVertices numEdgeCreases
      numVertexCreases numHoles numTimeSteps)
    ⟨r.1, r.2.id, Option.none, Option.none⟩

/-- The function `Scene::newBezierCurves`; `curves` is the object
`new BezierCurves(this,gflags,numCurves,numVertices,numTimeSteps)` before its
registration. -/
def newBezierCurves (ops : AccelOps A B F D) (curves : Nat → Nat → Nat → Nat → Geometry D)
    (s : Scene A B F D) (gflags numCurves numVertices numTimeSteps : Nat) :
    Created A B F D :=
  if s.isStatic ∧ gflags ≠ ops.RTC_GEOMETRY_STATIC then
    ⟨s, invalidID, some RTCError.RTC_INVALID_OPERATION,
      some "static scenes can only contain static geometries"⟩
  else if numTimeSteps = 0 ∨ numTimeSteps > 2 then
    ⟨s, invalidID, some RTCError.RTC_INVALID_OPERATION,
      some "only 1 or 2 time steps supported"⟩
  else
    let r := s.construct (curves gflags numCurves numVertices numTimeSteps)
    ⟨r.1, r.2.id, Option.none, Option.none⟩

end Scene

/-! ### A small scene -/

namespace Scene

/-- Acceleration structures that count their builds: `build` adds one,
`clear` resets to zero, the bounds and the intersectors show the count. -/
def countingOps : AccelOps Nat Nat Nat Unit :=
  { select := fun a _ _ _ => a
    build := fun _ a => (a + 1, Option.none)
    immutable := fun a => a
    clear := fun _ => 0
    bounds := fun a => a
    intersectors := fun a => ⟨⟨some a, some a⟩, ⟨some a, some a⟩, ⟨some a, some a⟩,
      ⟨some a, some a⟩⟩
    geomImmutable := fun g => g
    RTC_INTERSECT1 := 1
    RTC_INTERSECT4 := 2
    RTC_INTERSECT8 := 4
    RTC_INTERSECT16 := 8
    RTC_GEOMETRY_STATIC := 0 }

/-- The operations of `countingOps` with a build that the progress monitor
cancels. -/
def cancellingOps : AccelOps Nat Nat Nat Unit :=
  { countingOps with build := fun _ a => (a + 1, some RTCError.RTC_CANCELLED) }

/-- A committed scene (five builds so far) with pending modifications: four
geometries, one per state that a commit changes, and one free slot. -/
def sampleScene : Scene Nat Nat Nat Unit :=
  { isStatic := false
    aflags := 1
    numMappedBuffers := 0
    is_build := true
    modified := true
    numIntersectionFilters4 := 0
    numIntersectionFilters8 := 0
    numIntersectionFilters16 := 0
    commitCounter := 5
    progress_monitor_counter := 0
    scheduler := false
    accels := 5
    bounds := 5
    intersectors := ⟨⟨some 5, some 5⟩, ⟨Option.none, Option.none⟩, ⟨Option.none, Option.none⟩,
      ⟨Option.none, Option.none⟩⟩
    geometries := [some ⟨0, GeometryState.ENABLING, ()⟩, some ⟨1, GeometryState.ERASING, ()⟩,
      Option.none, some ⟨3, GeometryState.DISABLING, ()⟩, some ⟨4, GeometryState.MODIFIED, ()⟩]
    usedIDs := [2] }

/-- The scene `sampleScene` with one buffer still mapped. -/
def mappedScene : Scene Nat Nat Nat Unit := { sampleScene with numMappedBuffers := 1 }

/-- A constructor of geometries with four arguments. -/
def sampleMesh : Nat → Nat → Nat → Nat → Geometry Unit :=
  fun _ _ _ _ => ⟨0, GeometryState.ENABLING, ()⟩

/-- A constructor of geometries with eight arguments. -/
def sampleSubdiv : Nat → Nat → Nat → Nat → Nat → Nat → Nat → Nat → Geometry Unit :=
  fun _ _ _ _ _ _ _ _ => ⟨0, GeometryState.ENABLING, ()⟩

end Scene

/-! ### Vocabulary for the statements about the scene -/

namespace Scene

variable {A B F D : Type}

/-- Slot `i` of `geometries` holds the live geometry `g`. -/
def liveAt (s : Scene A B F D) (i : Nat) (g : Geometry D) : Prop :=
  s.geometries[i]? = some (some g)

/-- Slot `i` of `geometries` exists and is empty (`NULL`). -/
def emptyAt (s : Scene A B F D) (i : Nat) : Prop :=
  s.geometries[i]? = some Option.none

/-- The ID of every live geometry is the index of its slot, the free list
`usedIDs` holds exactly the indices of the empty slots, each once, and there
are at most `2 ^ 31` slots (an index is stored as `int`). -/
def idsOk (s : Scene A B F D) : Prop :=
  (∀ i g, liveAt s i g → g.id = i)
  ∧ s.usedIDs.Nodup
  ∧ (∀ k : Int, k ∈ s.usedIDs ↔ ∃ i : Nat, emptyAt s i ∧ k = (i : Int))
  ∧ s.geometries.length ≤ 2 ^ 31

/-- A call that changes the registry of geometries: the construction of a
geometry, which calls `add`, or `remove` of the geometry in a slot. -/
inductive SceneOp (D : Type) where
  | add (geometry : Geometry D) : SceneOp D
  | remove (slot : Nat) : SceneOp D

/-- The scene after one call; there is none when `remove` is called for a slot
without a live geometry. -/
def applyOp (s : Scene A B F D) : SceneOp D → Option (Scene A B F D)
  | SceneOp.add geometry => some (s.construct geometry).1
  | SceneOp.remove slot =>
    match s.geometries.getD slot Option.none with
    | Option.none => Option.none
    | some geometry => some (s.remove geometry)

/-- The scene after a sequence of calls. -/
def run (s : Scene A B F D) : List (SceneOp D) → Option (Scene A B F D)
  | [] => some s
  | op :: ops =>
    match applyOp s op with
    | Option.none => Option.none
    | some s1 => run s1 ops

end Scene

namespace Scene

/-- A scene as the constructor leaves it: no geometry, no free ID, not built,
modified. -/
def emptyScene : Scene Nat Nat Nat Unit :=
  { isStatic := false
    aflags := 1
    numMappedBuffers := 0
    is_build := false
    modified := true
    numIntersectionFilters4 := 0
    numIntersectionFilters8 := 0
    numIntersectionFilters16 := 0
    commitCounter := 0
    progress_monitor_counter := 0
    scheduler := false
    accels := 0
    bounds := 0
    intersectors := ⟨⟨Option.none, Option.none⟩, ⟨Option.none, Option.none⟩,
      ⟨Option.none, Option.none⟩, ⟨Option.none, Option.none⟩⟩
    geometries := []
    usedIDs := [] }

/-- A geometry as a constructor builds it before its registration. -/
def sampleGeometry : Geometry Unit := ⟨0, GeometryState.ENABLING, ()⟩

end Scene

namespace Scene

variable {A B F D : Type}

/-- What the loop over the geometries of `build_task` leaves in a slot: an
empty slot stays empty, the slot of a geometry in the state `ERASING` becomes
empty, any other geometry stays with its state changed by `commitState`. -/
def finalSlot (x : Option (Geometry D)) : Option (Geometry D) :=
  match x with
  | Option.none => Option.none
  | some g =>
    if g.state = GeometryState.ERASING then Option.none
    else some { g with state := commitState g.state }

/-- Slot `i` holds a geometry in the state `ERASING`. -/
def erasingAt (s : Scene A B F D) (i : Nat) : Bool :=
  match s.geometries.getD i Option.none with
  | Option.none => false
  | some g => decide (g.state = GeometryState.ERASING)

/-- The geometry as `build_task` sees it in the loop over the geometries:
made immutable in a static scene. -/
def frozen (ops : AccelOps A B F D) (s : Scene A B F D) (g : Geometry D) : Geometry D :=
  if s.isStatic then ops.geomImmutable g else g

end Scene

/-! ### The scene: the `TASKING_LOCKSTEP` variant of `Scene::build` -/

namespace Scene

variable {A B F D : Type}

/-- The function `Scene::build` of the `TASKING_LOCKSTEP` variant, as executed
by one calling thread.  The hierarchies are built by `accels.build`, called
directly with the threads of the user or from the task `task_build_parallel`
on thread 0 of the scheduler. -/
def build_lockstep (ops : AccelOps A B F D) (s : Scene A B F D)
    (threadIndex threadCount : Nat) : Outcome A B F D :=
  if threadIndex ≠ 0 then ⟨s, Option.none, Option.none⟩
  else
    /- allow only one build at a time -/
    let s := { s with progress_monitor_counter := 0 }
    if !s.ready then ⟨s, some RTCError.RTC_INVALID_OPERATION, Option.none⟩
    else
      /- select fast code path if no intersection filter is present -/
      let s := { s with
        accels := ops.select s.accels s.numIntersectionFilters4 s.numIntersectionFilters8
          s.numIntersectionFilters16 }
      /- if user provided threads use them, otherwise use our own threads -/
      let r := if threadCount ≠ 0 then ops.build s.geometries s.accels
        else ops.build s.geometries s.accels
      let s := { s with accels := r.1 }
      match r.2 with
      | some e => ⟨s, Option.none, some e⟩
      | Option.none =>
        /- make static geometry immutable -/
        let s := if s.isStatic then
          { s with
            accels := ops.immutable s.accels
            geometries := s.geometries.map (Option.map ops.geomImmutable) }
          else s
        /- delete geometry that is scheduled for delete -/
        let s := (List.range s.geometries.length).foldl lifecycleStep s
        ⟨updateInterface ops s, Option.none, Option.none⟩

end Scene

namespace Scene

/-- The scene `sampleScene` created with the static scene flag. -/
def staticScene : Scene Nat Nat Nat Unit := { sampleScene with isStatic := true }

end Scene


/-! ### The progress monitor (`Scene::progressMonitor`)

The members `progress_monitor_function` and `progress_monitor_ptr` and the
function `numPrimitives()` belong to `scene.h`, which is not part of the
sources: the installed function, with its pointer argument bound, and the
value of `numPrimitives()` are arguments of the model.  The argument `dn` is a
rational number; the quotient handed to the monitor function is a value of
`FVal ℚ`, computed exactly. -/

namespace Scene

variable {A B F D : Type}

/-- The conversion `atomic_t(dn)` of a `double` to a signed integer: the
fractional part is dropped. -/
def atomic_t (dn : ℚ) : Int := if 0 ≤ dn then ⌊dn⌋ else ⌈dn⌉

/-- The quotient `n / double(numPrimitives())`; a division by zero gives
`+inf`, or NaN for `0/0`. -/
def fraction (n numPrimitives : Nat) : FVal ℚ :=
  if numPrimitives = 0 then (if n = 0 then FVal.nan else FVal.pinf)
  else FVal.fin ((n : ℚ) / (numPrimitives : ℚ))

/-- What a call of `progressMonitor` leaves: the scene, the argument the
monitor function was called with, if it was called, and the error of the
exception thrown. -/
structure Monitored (A B F D : Type) where
  scene : Scene A B F D
  called : Option (FVal ℚ)
  thrown : Option RTCError

/-- The function `Scene::progressMonitor`.  `tasking_tbb` tells whether
`TASKING_TBB` is defined; `progress_monitor_function` is the installed
function (`Option.none` for `NULL`); `atomic_add` returns the value of the
counter before the addition, and the counter is a 64-bit word. -/
def progressMonitor (tasking_tbb : Bool) (progress_monitor_function : Option (FVal ℚ → Bool))
    (numPrimitives : Nat) (s : Scene A B F D) (dn : ℚ) : Monitored A B F D :=
  match progress_monitor_function with
  | Option.none => ⟨s, Option.none, Option.none⟩
  | some f =>
    let old := s.progress_monitor_counter
    let s := { s with
      progress_monitor_counter := (((old : Int) + atomic_t dn) % 2 ^ 64).toNat }
    let n : Nat := ((atomic_t dn + (old : Int)) % 2 ^ 64).toNat
    if !f (fraction n numPrimitives) then
      if tasking_tbb then ⟨s, some (fraction n numPrimitives), some RTCError.RTC_CANCELLED⟩
      else ⟨s, some (fraction n numPrimitives), Option.none⟩
    else ⟨s, some (fraction n numPrimitives), Option.none⟩

/-- A monitor function that asks for cancellation once half of the primitives
are done. -/
def stopAtHalf : FVal ℚ → Bool := fun x => FVal.lt x (FVal.fin (1 / 2))

end Scene


/-! ## Parallel prefix sums over an array of arrays
(kernels/algorithms/parallel_for_for_prefix_sum.cpp)

The source file is the regression test of `parallel_for_for_prefix_sum`; the
header with the function and its state is not part of the sources.  An array
of arrays is a list of lists; the call of the user function on the range
`[r0, r1)` of the inner array `outer` is a `Piece`; the user function returns
its count together with the indices of the output array it increments with
`atomic_add`. -/

namespace PrefixSum

/-- The arguments `(v, r)` of one call of the user function: the inner array
`array2[outer]` and the range `[r0, r1)`. -/
structure Piece where
  outer : Nat
  r0 : Nat
  r1 : Nat
  deriving DecidableEq

/-- One call of the user function as a run records it: its arguments, the
value it returned and the indices it incremented. -/
structure Call where
  piece : Piece
  base : Nat
  count : Nat
  writes : List Nat
  deriving DecidableEq

/-- Modelled from the spec: `ParallelForForPrefixSumState` (the header is not
part of the sources).  For each task the state keeps the count of the last run
and the sum of the counts of the tasks before it; `size()` is the total of the
last run. -/
structure State where
  counts : List Nat
  sums : List Nat
  N : Nat
  deriving DecidableEq

/-- Modelled from the spec: the state before the first run, for `taskCount`
tasks. -/
def State.init (taskCount : Nat) : State :=
  ⟨List.replicate taskCount 0, List.replicate taskCount 0, 0⟩

/-- Modelled from the spec: `size()`. -/
def State.size (s : State) : Nat := s.N

/-- Modelled from the spec: one task of `parallel_for_for_prefix_sum`.  The
task calls the user function on its pieces in order, with the base
`sums[taskIndex] + N`, `N` the sum of the counts it got so far, and returns
`N` with the calls it made. -/
def runTask (f : Piece → Nat → Nat × List Nat) (base0 : Nat) (pieces : List Piece) :
    Nat × List Call :=
  pieces.foldl
    (fun (acc : Nat × List Call) pc =>
      let r := f pc (base0 + acc.1)
      (acc.1 + r.1, acc.2 ++ [⟨pc, base0 + acc.1, r.1, r.2⟩]))
    (0, [])

/-- Modelled from the spec: the loop `sums[i] = sum; sum += counts[i]` that
follows the tasks. -/
def prefixSumsFrom (sum : Nat) : List Nat → List Nat
  | [] => []
  | c :: counts => sum :: prefixSumsFrom (sum + c) counts

/-- Modelled from the spec: `parallel_for_for_prefix_sum(state, f)`.  The list
`tasks` gives the pieces of each task in order; taken together they list the
sub-ranges of the inner arrays in the order of the outer and the inner index.
Each task starts from the base the previous run left in `sums`; afterwards the
counts of the tasks are stored and their prefix sums and total computed. -/
def parallel_for_for_prefix_sum (state : State) (tasks : List (List Piece))
    (f : Piece → Nat → Nat × List Nat) : State × List Call :=
  let results := (List.zip tasks state.sums).map (fun t => runTask f t.2 t.1)
  let counts := results.map Prod.fst
  (⟨counts, prefixSumsFrom 0 counts, counts.sum⟩, (results.map Prod.snd).flatten)

/-- The user function of the dry run: `s += (*v)[i]` for `i` in `r`. -/
def dryRun (array2 : List (List Nat)) (pc : Piece) (_base : Nat) : Nat × List Nat :=
  let v := array2.getD pc.outer []
  ((List.range' pc.r0 (pc.r1 - pc.r0)).foldl (fun s i => s + v.getD i 0) 0, [])

/-- The user function that fills the flattened array: for `i` in `r` and
`j < (*v)[i]` it increments `flattened[base+s+j]`, then `s += (*v)[i]`. -/
def fill (array2 : List (List Nat)) (pc : Piece) (base : Nat) : Nat × List Nat :=
  let v := array2.getD pc.outer []
  (List.range' pc.r0 (pc.r1 - pc.r0)).foldl
    (fun (acc : Nat × List Nat) i =>
      (acc.1 + v.getD i 0,
        acc.2 ++ (List.range (v.getD i 0)).map (fun j => base + acc.1 + j)))
    (0, [])

/-- The call `atomic_add(&flattened[i],1)`. -/
def atomic_add (flattened : List Nat) (i : Nat) : List Nat :=
  flattened.set i (flattened.getD i 0 + 1)

/-- The body of the regression test for the array `array2`, split into the
pieces `tasks`: the dry run, the output array of `state.size()` zeros, the run
that fills it, and the check that each element was assigned exactly once. -/
def regressionTest (array2 : List (List Nat)) (tasks : List (List Piece)) : Bool :=
  let state := State.init tasks.length
  /- dry run only counts -/
  let r1 := parallel_for_for_prefix_sum state tasks (dryRun array2)
  /- create properly sized output array -/
  let flattened := List.replicate r1.1.size 0
  /- now we actually fill the flattened array -/
  let r2 := parallel_for_for_prefix_sum r1.1 tasks (fill array2)
  let flattened := (r2.2.map (fun c => c.writes)).flatten.foldl atomic_add flattened
  /- check if each element was assigned exactly once -/
  flattened.all (fun x => x == 1)

/-- The calls a run makes on a list of pieces from the base `base` on when
every call receives the sum of the counts before it. -/
def scanCalls (f : Piece → Nat → Nat × List Nat) (base : Nat) : List Piece → List Call
  | [] => []
  | pc :: pieces =>
    ⟨pc, base, (f pc base).1, (f pc base).2⟩ :: scanCalls f (base + (f pc base).1) pieces

/-- An array of three inner arrays. -/
def sampleArray : List (List Nat) := [[2, 0, 3], [], [1, 4]]

/-- The pieces of `sampleArray` for two tasks; the first inner array is split
between two calls. -/
def sampleTasks : List (List Piece) := [[⟨0, 0, 2⟩], [⟨0, 2, 3⟩, ⟨2, 0, 2⟩]]

end PrefixSum

/-! ## The subdivision patch (kernels/xeonphi/geometry/subdivpatch1.h)

The header `common/scene_subdiv_mesh.h` with the type `SubdivMesh::HalfEdge`
and the patch type `RegularCatmullClarkPatchT` are not part of the sources.
Half-edges are values of a type `H` with the operations of `HalfEdgeOps`; the
argument `base` of these operations, the address of the array of half-edges,
is part of the operations.  Vertices are values of a type `V`. -/

namespace SubdivPatch1

/-- The operations of `SubdivMesh::HalfEdge` that `init` calls. -/
structure HalfEdgeOps (H : Type) where
  next : H → H
  prev : H → H
  opposite : H → H
  half_circle : H → H
  getStartVertexIndex : H → Nat

/-- The control points `v[4][4]` of a `RegularCatmullClarkPatch`. -/
structure RegularCatmullClarkPatch (V : Type) where
  v : Fin 4 → Fin 4 → V

/-- The assignment `cc_patch.v[i][j] = x`. -/
def RegularCatmullClarkPatch.set {V : Type} (cc_patch : RegularCatmullClarkPatch V)
    (i j : Fin 4) (x : V) : RegularCatmullClarkPatch V :=
  { v := Function.update cc_patch.v i (Function.update (cc_patch.v i) j x) }

/-- The function `SubdivPatch1::init`. -/
def init {H V : Type} (ops : HalfEdgeOps H) (first_half_edge : H) (vertices : Nat → V)
    (cc_patch : RegularCatmullClarkPatch V) : RegularCatmullClarkPatch V :=
  /- quad(0,0) -/
  let e11 := ops.half_circle first_half_edge
  let e10 := ops.next e11
  let e00 := ops.next e10
  let e01 := ops.next e10
  let cc_patch := cc_patch.set 1 1 (vertices (ops.getStartVertexIndex e11))
  let cc_patch := cc_patch.set 1 0 (vertices (ops.getStartVertexIndex e10))
  let cc_patch := cc_patch.set 0 0 (vertices (ops.getStartVertexIndex e00))
  let cc_patch := cc_patch.set 0 1 (vertices (ops.getStartVertexIndex e01))
  /- quad(0,2) -/
  let e12 := ops.half_circle (ops.opposite first_half_edge)
  let e13 := ops.next e12
  let e03 := ops.next e13
  let e02 := ops.next e03
  let cc_patch := cc_patch.set 1 2 (vertices (ops.getStartVertexIndex e12))
  let cc_patch := cc_patch.set 1 3 (vertices (ops.getStartVertexIndex e13))
  let cc_patch := cc_patch.set 0 3 (vertices (ops.getStartVertexIndex e03))
  let cc_patch := cc_patch.set 0 2 (vertices (ops.getStartVertexIndex e02))
  /- quad(2,0) -/
  let e21 := ops.half_circle (ops.prev first_half_edge)
  let e31 := ops.next e21
  let e30 := ops.next e31
  let e20 := ops.next e30
  let cc_patch := cc_patch.set 2 1 (vertices (ops.getStartVertexIndex e21))
  let cc_patch := cc_patch.set 3 1 (vertices (ops.getStartVertexIndex e31))
  let cc_patch := cc_patch.set 3 0 (vertices (ops.getStartVertexIndex e30))
  let cc_patch := cc_patch.set 2 0 (vertices (ops.getStartVertexIndex e20))
  /- quad(2,2) -/
  let e22 := ops.half_circle (ops.opposite (ops.next first_half_edge))
  let e32 := ops.next e22
  let e33 := ops.next e32
  let e23 := ops.next e33
  let cc_patch := cc_patch.set 2 2 (vertices (ops.getStartVertexIndex e22))
  let cc_patch := cc_patch.set 3 2 (vertices (ops.getStartVertexIndex e32))
  let cc_patch := cc_patch.set 3 3 (vertices (ops.getStartVertexIndex e33))
  let cc_patch := cc_patch.set 2 3 (vertices (ops.getStartVertexIndex e23))
  cc_patch

/-! ### A regular mesh of 3 x 3 quads

The 16 vertices are numbered row by row, vertex `4*r + c` in row `r` and
column `c`; the face in row `r` and column `c` is face `3*r + c` with the
corners `(r,c)`, `(r,c+1)`, `(r+1,c+1)`, `(r+1,c)`; half-edge `4*f + k` of face
`f` starts at corner `k` and ends at corner `k+1`. -/

/-- The start vertex of a half-edge of the grid. -/
def gridStart (h : Nat) : Nat :=
  let f := h / 4
  let r := f / 3
  let c := f % 3
  match h % 4 with
  | 0 => 4 * r + c
  | 1 => 4 * r + c + 1
  | 2 => 4 * (r + 1) + c + 1
  | _ => 4 * (r + 1) + c

/-- The next half-edge of the same face. -/
def gridNext (h : Nat) : Nat := 4 * (h / 4) + (h + 1) % 4

/-- The previous half-edge of the same face. -/
def gridPrev (h : Nat) : Nat := 4 * (h / 4) + (h + 3) % 4

/-- The half-edge of the neighbouring face along the same edge; a half-edge on
the border of the grid has none and is returned itself. -/
def gridOpposite (h : Nat) : Nat :=
  ((List.range 36).find? (fun g =>
    gridStart g = gridStart (gridNext h) && gridStart (gridNext g) = gridStart h)).getD h

/-- The operations of the grid; `half_circle` turns twice about the start
vertex of the half-edge. -/
def gridOps : HalfEdgeOps Nat :=
  { next := gridNext
    prev := gridPrev
    opposite := gridOpposite
    half_circle := fun h => gridOpposite (gridPrev (gridOpposite (gridPrev h)))
    getStartVertexIndex := gridStart }

/-- A patch with the vertex number 99 in every entry. -/
def blankPatch : RegularCatmullClarkPatch Nat := ⟨fun _ _ => 99⟩

end SubdivPatch1


/-! ## Order of the extended values -/

namespace FVal

variable {K : Type} [LinearOrderedCommRing K]

theorem lt_notNaN_left {a b : FVal K} (h : lt a b = true) : isNaN a = false := by
  cases a <;> cases b <;> simp_all [lt, isNaN]

theorem lt_notNaN_right {a b : FVal K} (h : lt a b = true) : isNaN b = false := by
  cases a <;> cases b <;> simp_all [lt, isNaN]

theorem le_of_lt {a b : FVal K} (h : lt a b = true) : le a b = true := by
  cases a <;> cases b <;> simp_all [lt, le]
  exact h.le

theorem le_of_not_lt {a b : FVal K} (ha : isNaN a = false) (hb : isNaN b = false)
    (h : lt a b = false) : le b a = true := by
  cases a <;> cases b <;> simp_all [lt, le, isNaN]

theorem le_trans {a b c : FVal K} (h1 : le a b = true) (h2 : le b c = true) :
    le a c = true := by
  cases a <;> cases b <;> cases c <;> simp_all [le]
  exact h1.trans h2

theorem le_refl {a : FVal K} (ha : isNaN a = false) : le a a = true := by
  cases a <;> simp_all [le, isNaN]

theorem le_pinf {a : FVal K} (ha : isNaN a = false) : le a pinf = true := by
  cases a <;> simp_all [le, isNaN]

theorem le_nan_right (a : FVal K) : le a nan = false := by
  cases a <;> rfl

theorem min_notNaN {a b : FVal K} (ha : isNaN a = false) (hb : isNaN b = false) :
    isNaN (min a b) = false := by
  unfold min
  split_ifs <;> assumption

theorem max_notNaN {a b : FVal K} (ha : isNaN a = false) (hb : isNaN b = false) :
    isNaN (max a b) = false := by
  unfold max
  split_ifs <;> assumption

theorem min_comm {a b : FVal K} (ha : isNaN a = false) (hb : isNaN b = false) :
    min a b = min b a := by
  cases a <;> cases b <;> simp_all [min, lt, isNaN]
  rename_i x y
  split_ifs with h1 h2 h2
  · exact absurd h2 (not_lt.2 h1.le)
  · rfl
  · rfl
  · rw [fin.injEq]
    exact le_antisymm (not_lt.1 h1) (not_lt.1 h2)

theorem max_comm {a b : FVal K} (ha : isNaN a = false) (hb : isNaN b = false) :
    max a b = max b a := by
  cases a <;> cases b <;> simp_all [max, lt, isNaN]
  rename_i x y
  split_ifs with h1 h2 h2
  · exact absurd h2 (not_lt.2 h1.le)
  · rfl
  · rfl
  · rw [fin.injEq]
    exact le_antisymm (not_lt.1 h2) (not_lt.1 h1)

theorem min_assoc {a b c : FVal K} (ha : isNaN a = false) (hb : isNaN b = false)
    (hc : isNaN c = false) : min (min a b) c = min a (min b c) := by
  cases a <;> cases b <;> cases c <;> simp_all [min, lt, isNaN] <;>
    (try split_ifs) <;> (try rfl) <;> (try simp_all [lt]) <;>
    (try (exfalso; linarith))

theorem max_assoc {a b c : FVal K} (ha : isNaN a = false) (hb : isNaN b = false)
    (hc : isNaN c = false) : max (max a b) c = max a (max b c) := by
  cases a <;> cases b <;> cases c <;> simp_all [max, lt, isNaN] <;>
    (try split_ifs) <;> (try rfl) <;> (try simp_all [lt]) <;>
    (try (exfalso; linarith))

theorem min_pinf_left (a : FVal K) : min pinf a = a := by
  cases a <;> rfl

theorem max_ninf_left (a : FVal K) : max ninf a = a := by
  cases a <;> rfl

end FVal

/-! ## Node references: classification and round trip -/

namespace BVH4Hair

theorem land_notSz_align (x : Nat) (hx : x < 2 ^ 64) :
    x &&& notSz align_mask = 16 * (x / 16) := by
  have h1 : notSz align_mask = 2 ^ 4 * (2 ^ 60 - 1) := by decide
  have h2 : 16 * (x / 16) = 2 ^ 4 * (x / 2 ^ 4) := by norm_num
  rw [h1, h2]
  apply Nat.eq_of_testBit_eq
  intro i
  rw [Nat.testBit_land, Nat.testBit_mul_pow_two, Nat.testBit_mul_pow_two,
    Nat.testBit_two_pow_sub_one, ← Nat.shiftRight_eq_div_pow, Nat.testBit_shiftRight]
  by_cases h4 : i ≥ 4
  · have e : 4 + (i - 4) = i := by omega
    by_cases h64 : i < 64
    · have : i - 4 < 60 := by omega
      simp [h4, this, e]
    · have hb : x.testBit i = false := by
        apply Nat.testBit_lt_two_pow
        calc x < 2 ^ 64 := hx
          _ ≤ 2 ^ i := Nat.pow_le_pow_right (by decide) (by omega)
      have : ¬ (i - 4 < 60) := by omega
      simp [h4, this, e, hb]
  · simp [h4]

theorem lor_tag (p k : Nat) (hp : p % 16 = 0) (hk : k < 16) : p ||| k = p + k := by
  obtain ⟨q, rfl⟩ : ∃ q, p = 2 ^ 4 * q := ⟨p / 16, by omega⟩
  exact (Nat.mul_add_lt_is_or (by simpa using hk) q).symm

theorem land_align (x : Nat) : x &&& align_mask = x % 16 := by
  have : align_mask = 2 ^ 4 - 1 := by decide
  rw [this, Nat.and_pow_two_sub_one_eq_mod]

theorem land_items (x : Nat) : x &&& items_mask = x % 8 := by
  have : items_mask = 2 ^ 3 - 1 := by decide
  rw [this, Nat.and_pow_two_sub_one_eq_mod]

theorem maxLeafBlocks_eq : maxLeafBlocks = 5 := by decide

/-- C6. Encode/decode round trip of `BVH4Hair::NodeRef`: for every address `p`
that is a multiple of `2 ^ alignment = 16` and every count `n`, the reference
made by `encodeNode(AlignedNode*)` is classified `isAlignedNode` and
`alignedNode()` and `node()` return `p`; the one made by
`encodeNode(UnalignedNode*)` is classified `isUnalignedNode` and
`unalignedNode()` and `node()` return `p`; `encodeLeaf(p, n)` is classified
`isLeaf` and `leaf()` returns `p` with the item count `min(n, maxLeafBlocks)`,
which never exceeds `maxLeafBlocks`. -/
theorem noderef_encode_decode_roundtrip (p n : Nat)
    (halign : p % 2 ^ alignment = 0) (hword : p < 2 ^ sizeBits) :
    ((encodeNodeAligned p).isAlignedNode = true
      ∧ (encodeNodeAligned p).alignedNode = p
      ∧ (encodeNodeAligned p).node = p)
    ∧ ((encodeNodeUnaligned p).isUnalignedNode = true
      ∧ (encodeNodeUnaligned p).unalignedNode = p
      ∧ (encodeNodeUnaligned p).node = p)
    ∧ ((encodeLeaf p n).isLeaf = true
      ∧ (encodeLeaf p n).leaf = (p, min n maxLeafBlocks)
      ∧ (encodeLeaf p n).leaf.2 ≤ maxLeafBlocks) := by
  have hp : p % 16 = 0 := by simpa [alignment] using halign
  have hw : p < 2 ^ 64 := by simpa [sizeBits] using hword
  have hm : min n maxLeafBlocks ≤ 5 := by
    rw [maxLeafBlocks_eq]; exact Nat.min_le_right _ _
  have h1 : p ||| 1 = p + 1 := lor_tag p 1 hp (by decide)
  have hk : p ||| (2 + min n maxLeafBlocks) = p + (2 + min n maxLeafBlocks) :=
    lor_tag p _ hp (by omega)
  have hw1 : p + 1 < 2 ^ 64 := by omega
  have hwk : p + (2 + min n maxLeafBlocks) < 2 ^ 64 := by omega
  have hleaf : (encodeLeaf p n).leaf = (p, min n maxLeafBlocks) := by
    simp only [encodeLeaf, NodeRef.leaf, hk, land_items, land_notSz_align _ hwk, subSz,
      sizeBits, Prod.mk.injEq]
    constructor <;> omega
  refine ⟨⟨?_, rfl, ?_⟩, ⟨?_, ?_, ?_⟩, ⟨?_, hleaf, ?_⟩⟩
  · simp only [encodeNodeAligned, NodeRef.isAlignedNode, land_align, decide_eq_true_eq]
    exact hp
  · simp only [encodeNodeAligned, NodeRef.node, land_notSz_align _ hw]
    omega
  · simp only [encodeNodeUnaligned, NodeRef.isUnalignedNode, h1, land_align,
      decide_eq_true_eq]
    omega
  · simp only [encodeNodeUnaligned, NodeRef.unalignedNode, h1, land_notSz_align _ hw1]
    omega
  · simp only [encodeNodeUnaligned, NodeRef.node, h1, land_notSz_align _ hw1]
    omega
  · simp only [encodeLeaf, NodeRef.isLeaf, hk, land_align, decide_eq_true_eq]
    omega
  · rw [hleaf]
    exact Nat.min_le_right _ _

/-- Witness for C6 at the address `4096` and the count `9`. -/
theorem noderef_encode_decode_roundtrip_witness :
    ((encodeNodeAligned 4096).isAlignedNode = true
      ∧ (encodeNodeAligned 4096).alignedNode = 4096
      ∧ (encodeNodeAligned 4096).node = 4096)
    ∧ ((encodeNodeUnaligned 4096).isUnalignedNode = true
      ∧ (encodeNodeUnaligned 4096).unalignedNode = 4096
      ∧ (encodeNodeUnaligned 4096).node = 4096)
    ∧ ((encodeLeaf 4096 9).isLeaf = true
      ∧ (encodeLeaf 4096 9).leaf = (4096, min 9 maxLeafBlocks)
      ∧ (encodeLeaf 4096 9).leaf.2 ≤ maxLeafBlocks) :=
  noderef_encode_decode_roundtrip 4096 9 (by decide) (by decide)

/-- C7. For every machine word `r`, exactly one of `isAlignedNode`,
`isUnalignedNode`, `isLeaf` holds, decided by the low `alignment = 4` bits
alone: tag 0 is an aligned node, tag 1 an unaligned node, every tag `>= 2` a
leaf; and `isNode` holds exactly when `isLeaf` does not. -/
theorem noderef_classification (r : NodeRef) :
    (r.isAlignedNode = true ↔ r.ptr % 2 ^ alignment = 0)
    ∧ (r.isUnalignedNode = true ↔ r.ptr % 2 ^ alignment = 1)
    ∧ (r.isLeaf = true ↔ 2 ≤ r.ptr % 2 ^ alignment)
    ∧ ((r.isAlignedNode = true ∧ r.isUnalignedNode = false ∧ r.isLeaf = false)
        ∨ (r.isAlignedNode = false ∧ r.isUnalignedNode = true ∧ r.isLeaf = false)
        ∨ (r.isAlignedNode = false ∧ r.isUnalignedNode = false ∧ r.isLeaf = true))
    ∧ (r.isNode = true ↔ r.isLeaf = false) := by
  have e : (2 : Nat) ^ alignment = 16 := by decide
  simp only [NodeRef.isAlignedNode, NodeRef.isUnalignedNode, NodeRef.isLeaf, NodeRef.isNode,
    land_align, e, decide_eq_true_eq, decide_eq_false_iff_not]
  generalize r.ptr % 16 = t
  refine ⟨trivial, trivial, ?_, ?_, ?_⟩ <;> omega

end BVH4Hair

/-! ## Node references: the item count of a leaf -/

namespace BVH4Hair

/-- C20 (as stated, refuted).  The traversal marker `invalidNode` is classified
as a leaf, the value of its low alignment bits is 10, and `leaf()` reports
`(10 & items_mask) - 2 = 0` items for it, not `10 - 2 = 8`. -/
theorem leaf_count_invalidNode :
    (NodeRef.mk invalidNode).isLeaf = true
    ∧ invalidNode &&& align_mask = 10
    ∧ (NodeRef.mk invalidNode).leaf.2 = 0
    ∧ (NodeRef.mk invalidNode).leaf.2 ≠ (invalidNode &&& align_mask) - 2 := by
  decide

/-- C20 (amended).  For every reference `r` classified as a leaf, with
`tag = r & align_mask`: `leaf()` reports `(tag mod 8) - 2` items, computed
modulo `2 ^ 64`; this is `tag - 2` when `tag < 8` (bit 3 of the tag clear), and
it differs from `tag - 2` when `tag >= 8`. -/
theorem leaf_count_of_tag (r : NodeRef) (h : r.isLeaf = true) :
    r.leaf.2 = subSz ((r.ptr &&& align_mask) % 8) 2
    ∧ ((r.ptr &&& align_mask) < 8 → r.leaf.2 = (r.ptr &&& align_mask) - 2)
    ∧ (8 ≤ (r.ptr &&& align_mask) → r.leaf.2 ≠ (r.ptr &&& align_mask) - 2) := by
  simp only [NodeRef.isLeaf, decide_eq_true_eq, land_align] at h
  simp only [NodeRef.leaf, land_align, land_items, subSz, sizeBits]
  have h16 : r.ptr % 16 < 16 := Nat.mod_lt _ (by decide)
  have h8 : r.ptr % 16 % 8 = r.ptr % 8 := by omega
  rw [h8]
  refine ⟨rfl, ?_, ?_⟩
  · intro hlt
    omega
  · intro hge
    omega

/-- Witness for C20: the leaf reference with tag 5 at the address 32 reports 3
items. -/
theorem leaf_count_of_tag_witness :
    (NodeRef.mk 37).isLeaf = true
    ∧ (NodeRef.mk 37).leaf.2 = ((NodeRef.mk 37).ptr &&& align_mask) - 2
    ∧ (NodeRef.mk 37).leaf.2 = 3 :=
  ⟨by decide, (leaf_count_of_tag (NodeRef.mk 37) (by decide)).2.1 (by decide), by decide⟩

end BVH4Hair

/-! ## Node references: the capacity of a leaf -/
namespace BVH4Hair

/-- The item count decoded from an encoded leaf is `min(num, maxLeafBlocks)`. -/
theorem encodeLeaf_count (p n : Nat) (halign : p % 2 ^ alignment = 0)
    (hword : p < 2 ^ sizeBits) : (encodeLeaf p n).leaf.2 = min n maxLeafBlocks := by
  have hp : p % 16 = 0 := by simpa [alignment] using halign
  have hw : p < 2 ^ 64 := by simpa [sizeBits] using hword
  have hm : min n maxLeafBlocks ≤ 5 := by
    rw [maxLeafBlocks_eq]; exact Nat.min_le_right _ _
  have hk : p ||| (2 + min n maxLeafBlocks) = p + (2 + min n maxLeafBlocks) :=
    lor_tag p _ hp (by omega)
  simp only [encodeLeaf, NodeRef.leaf, hk, land_items, subSz, sizeBits]
  omega

/-- C21 (as stated, refuted).  The leaf made by `encodeLeaf` for the aligned
address `4096` and `14 = 2 ^ alignment - 2` blocks decodes to 5 items, and so
does the one for 6 blocks. -/
theorem leaf_capacity_fourteen :
    4096 % 2 ^ alignment = 0 ∧ 14 ≤ 2 ^ alignment - 2
    ∧ (encodeLeaf 4096 14).leaf = (4096, 5)
    ∧ (encodeLeaf 4096 14).leaf.2 ≠ 14
    ∧ (encodeLeaf 4096 6).leaf.2 ≠ 6 := by
  decide

/-- C21 (amended).  A leaf supports up to
`maxLeafBlocks = 2 ^ (alignment - 1) - 3 = 5` primitive blocks: for every
16-byte-aligned address `p` and every count `n`, decoding `encodeLeaf(p, n)`
with `leaf()` reports `min(n, maxLeafBlocks)` items, which is `n` exactly when
`n <= maxLeafBlocks`; for every larger count, the counts up to
`2 ^ alignment - 2 = 14` included, it reports `maxLeafBlocks` items. -/
theorem leaf_capacity (p n : Nat) (halign : p % 2 ^ alignment = 0)
    (hword : p < 2 ^ sizeBits) :
    maxLeafBlocks = 2 ^ (alignment - 1) - 3
    ∧ (encodeLeaf p n).leaf.2 = min n maxLeafBlocks
    ∧ ((encodeLeaf p n).leaf.2 = n ↔ n ≤ maxLeafBlocks)
    ∧ (maxLeafBlocks < n → (encodeLeaf p n).leaf.2 = maxLeafBlocks)
    ∧ maxLeafBlocks < 2 ^ alignment - 2 := by
  have h := encodeLeaf_count p n halign hword
  have h5 := maxLeafBlocks_eq
  refine ⟨by decide, h, ?_, ?_, by decide⟩
  · rw [h, h5]
    omega
  · intro hlt
    rw [h, h5] at *
    omega

/-- Witness for C21 (amended): the address `4096` and the count `14`. -/
theorem leaf_capacity_witness :
    maxLeafBlocks = 2 ^ (alignment - 1) - 3
    ∧ (encodeLeaf 4096 14).leaf.2 = min 14 maxLeafBlocks
    ∧ ((encodeLeaf 4096 14).leaf.2 = 14 ↔ 14 ≤ maxLeafBlocks)
    ∧ (maxLeafBlocks < 14 → (encodeLeaf 4096 14).leaf.2 = maxLeafBlocks)
    ∧ maxLeafBlocks < 2 ^ alignment - 2 :=
  leaf_capacity 4096 14 (by decide) (by decide)

end BVH4Hair


/-! ## Node references: the sentinels -/

namespace BVH4Hair

theorem Node.clear_children (n : Node) (i : Fin N) : n.clear.children i = ⟨emptyNode⟩ := by
  have h : n.clear.children
      = Function.update (Function.update (Function.update (Function.update n.children
          0 ⟨emptyNode⟩) 1 ⟨emptyNode⟩) 2 ⟨emptyNode⟩) 3 ⟨emptyNode⟩ := rfl
  rw [h]
  have hi : i = 0 ∨ i = 1 ∨ i = 2 ∨ i = 3 := by
    revert i
    decide
  rcases hi with h | h | h | h <;> subst h <;> rfl

theorem encoded_tag (p n : Nat) (halign : p % 2 ^ alignment = 0) :
    (encodeNodeAligned p).ptr % 16 = 0 ∧ (encodeNodeUnaligned p).ptr % 16 = 1
    ∧ 2 ≤ (encodeLeaf p n).ptr % 16 ∧ (encodeLeaf p n).ptr % 16 ≤ 7 := by
  have e : (2 : Nat) ^ alignment = 16 := by decide
  rw [e] at halign
  have hk : 2 + min n maxLeafBlocks < 16 := by
    rw [maxLeafBlocks_eq]
    omega
  have hm : min n maxLeafBlocks ≤ 5 := by
    rw [maxLeafBlocks_eq]
    omega
  simp only [encodeNodeAligned, encodeNodeUnaligned, encodeLeaf]
  rw [lor_tag p 1 halign (by decide), lor_tag p _ halign hk]
  refine ⟨halign, ?_, ?_, ?_⟩ <;> omega

/-- C33. Sentinel references of BVH4Hair.  `emptyNode` is 2, equals
`encodeLeaf(null, 0)` and decodes as a leaf with the null pointer and 0 items.
`invalidNode` is classified as a leaf for which `leaf()` reports 0 items, it
differs from `emptyNode`, and bit 3 of its tag is set, while every reference
that `encodeNode` or `encodeLeaf` produces from a 16-byte-aligned address has a
tag of at most 7 (bit 3 clear): no such reference equals `invalidNode`.
`Node::clear` sets all `N = 4` children to `emptyNode`. -/
theorem sentinel_references :
    emptyNode = 2
    ∧ encodeLeaf 0 0 = ⟨emptyNode⟩
    ∧ (NodeRef.mk emptyNode).isLeaf = true
    ∧ (NodeRef.mk emptyNode).leaf = (0, 0)
    ∧ (NodeRef.mk invalidNode).isLeaf = true
    ∧ (NodeRef.mk invalidNode).leaf.2 = 0
    ∧ invalidNode ≠ emptyNode
    ∧ invalidNode &&& align_mask = 10
    ∧ (invalidNode &&& align_mask).testBit 3 = true
    ∧ (∀ p n : Nat, p % 2 ^ alignment = 0 →
        ((encodeNodeAligned p).ptr &&& align_mask) = 0
        ∧ ((encodeNodeUnaligned p).ptr &&& align_mask) = 1
        ∧ ((encodeLeaf p n).ptr &&& align_mask) ≤ 7
        ∧ ((encodeLeaf p n).ptr &&& align_mask).testBit 3 = false
        ∧ encodeNodeAligned p ≠ ⟨invalidNode⟩
        ∧ encodeNodeUnaligned p ≠ ⟨invalidNode⟩
        ∧ encodeLeaf p n ≠ ⟨invalidNode⟩)
    ∧ N = 4
    ∧ (∀ (node : Node) (i : Fin N), node.clear.child i = ⟨emptyNode⟩) := by
  refine ⟨rfl, by decide, by decide, by decide, by decide, by decide, by decide, by decide,
    by decide, ?_, rfl, fun node i => Node.clear_children node i⟩
  intro p n halign
  obtain ⟨h0, h1, h2, h3⟩ := encoded_tag p n halign
  have hinv : invalidNode % 16 = 10 := by decide
  simp only [land_align]
  refine ⟨h0, h1, h3, ?_, ?_, ?_, ?_⟩
  · generalize (encodeLeaf p n).ptr % 16 = t at h2 h3
    interval_cases t <;> rfl
  · intro h
    have := congrArg (fun r => r.ptr % 16) h
    simp only [h0, hinv] at this
    omega
  · intro h
    have := congrArg (fun r => r.ptr % 16) h
    simp only [h1, hinv] at this
    omega
  · intro h
    have := congrArg (fun r => r.ptr % 16) h
    simp only [hinv] at this
    omega

/-- Witness for C33: the references encoded from the address 4096. -/
theorem sentinel_references_witness :
    encodeNodeAligned 4096 ≠ ⟨invalidNode⟩ ∧ encodeNodeUnaligned 4096 ≠ ⟨invalidNode⟩
    ∧ encodeLeaf 4096 3 ≠ ⟨invalidNode⟩ :=
  ⟨(sentinel_references.2.2.2.2.2.2.2.2.2.1 4096 3 (by decide)).2.2.2.2.1,
    (sentinel_references.2.2.2.2.2.2.2.2.2.1 4096 3 (by decide)).2.2.2.2.2.1,
    (sentinel_references.2.2.2.2.2.2.2.2.2.1 4096 3 (by decide)).2.2.2.2.2.2⟩

end BVH4Hair

/-! ## Nodes with unaligned bounds: the map stored by `set` -/

namespace BVH4Hair

variable {K : Type} [LinearOrderedField K]

theorem unit_interval (a lo hi : K) (h : lo < hi) :
    (0 ≤ (a - lo) / (hi - lo) ∧ (a - lo) / (hi - lo) ≤ 1) ↔ (lo ≤ a ∧ a ≤ hi) := by
  have hd : 0 < hi - lo := sub_pos.2 h
  rw [le_div_iff₀ hd, div_le_iff₀ hd]
  constructor
  · rintro ⟨h1, h2⟩
    constructor <;> linarith
  · rintro ⟨h1, h2⟩
    constructor <;> linarith

theorem set_xfm (n : UnalignedNode K) (i : Fin N) (b : NAABBox3fa K) (childID : NodeRef)
    (hx : 1 / 10 ^ 19 ≤ b.bounds.upper.x - b.bounds.lower.x)
    (hy : 1 / 10 ^ 19 ≤ b.bounds.upper.y - b.bounds.lower.y)
    (hz : 1 / 10 ^ 19 ≤ b.bounds.upper.z - b.bounds.lower.z) (x : Vec3 K) :
    xfmPoint ((n.set i b childID).naabb i) x = normalized b.bounds (b.space.mulVec x) := by
  have e : (n.set i b childID).naabb i
      = (AffineSpace3.scale
          (Vec3.map (fun x => 1 / x)
            (Vec3.map (fun x => max (1 / 10 ^ 19) x) (b.bounds.upper - b.bounds.lower)))).mul
          { AffineSpace3.ofLinear b.space with
            p := (AffineSpace3.ofLinear b.space).p - b.bounds.lower } := by
    simp only [UnalignedNode.set, Function.update_same]
  rw [e]
  have mx : max (1 / 10 ^ 19) (b.bounds.upper.x - b.bounds.lower.x)
      = b.bounds.upper.x - b.bounds.lower.x := max_eq_right hx
  have my : max (1 / 10 ^ 19) (b.bounds.upper.y - b.bounds.lower.y)
      = b.bounds.upper.y - b.bounds.lower.y := max_eq_right hy
  have mz : max (1 / 10 ^ 19) (b.bounds.upper.z - b.bounds.lower.z)
      = b.bounds.upper.z - b.bounds.lower.z := max_eq_right hz
  have pos : (0 : K) < 1 / 10 ^ 19 := by positivity
  have nx : b.bounds.upper.x - b.bounds.lower.x ≠ 0 := ne_of_gt (lt_of_lt_of_le pos hx)
  have ny : b.bounds.upper.y - b.bounds.lower.y ≠ 0 := ne_of_gt (lt_of_lt_of_le pos hy)
  have nz : b.bounds.upper.z - b.bounds.lower.z ≠ 0 := ne_of_gt (lt_of_lt_of_le pos hz)
  have sx : (b.bounds.upper - b.bounds.lower).x = b.bounds.upper.x - b.bounds.lower.x := rfl
  have sy : (b.bounds.upper - b.bounds.lower).y = b.bounds.upper.y - b.bounds.lower.y := rfl
  have sz : (b.bounds.upper - b.bounds.lower).z = b.bounds.upper.z - b.bounds.lower.z := rfl
  simp only [xfmPoint, AffineSpace3.mul, AffineSpace3.scale, AffineSpace3.ofLinear,
    LinearSpace3.mul, LinearSpace3.mulVec, LinearSpace3.scale, Vec3.map, Vec3.smul, normalized,
    sx, sy, sz, mx, my, mz]
  have add_mk : ∀ a b c d e f : K, (Vec3.mk a b c + Vec3.mk d e f : Vec3 K)
      = Vec3.mk (a + d) (b + e) (c + f) := fun _ _ _ _ _ _ => rfl
  have sub_mk : ∀ a b c d e f : K, (Vec3.mk a b c - Vec3.mk d e f : Vec3 K)
      = Vec3.mk (a - d) (b - e) (c - f) := fun _ _ _ _ _ _ => rfl
  have eta : ∀ v : Vec3 K, v = Vec3.mk v.x v.y v.z := fun _ => rfl
  rw [eta b.space.vx, eta b.space.vy, eta b.space.vz, eta b.bounds.lower]
  simp only [add_mk, sub_mk, Vec3.mk.injEq]
  refine ⟨?_, ?_, ?_⟩
  · field_simp
    ring
  · field_simp
    ring
  · field_simp
    ring

end BVH4Hair

namespace BVH4Hair

variable {K : Type} [LinearOrderedField K]

/-- C38. Uncompressed `UnalignedNode::set(i, b, child)` over exact
arithmetic, for a box `b` whose extent is at least `1E-19` on every axis: the
affine map stored for child `i` sends a point `x` to
`(b.space*x - b.bounds.lower) / (b.bounds.upper - b.bounds.lower)`, component
by component; `b.space*x` lies in the bounds exactly when the image lies in
`[0,1]^3`, the lower corner goes to 0 and the upper corner to 1; `child(i)`
becomes `child`, and the maps and children of the other slots are unchanged. -/
theorem unaligned_set_normalizes (n : UnalignedNode K) (i : Fin N) (b : NAABBox3fa K)
    (childID : NodeRef)
    (hx : 1 / 10 ^ 19 ≤ b.bounds.upper.x - b.bounds.lower.x)
    (hy : 1 / 10 ^ 19 ≤ b.bounds.upper.y - b.bounds.lower.y)
    (hz : 1 / 10 ^ 19 ≤ b.bounds.upper.z - b.bounds.lower.z) :
    (∀ x, xfmPoint ((n.set i b childID).naabb i) x = normalized b.bounds (b.space.mulVec x))
    ∧ (∀ x, b.bounds.contains (b.space.mulVec x)
        ↔ inUnitCube (xfmPoint ((n.set i b childID).naabb i) x))
    ∧ (∀ x, b.space.mulVec x = b.bounds.lower →
        xfmPoint ((n.set i b childID).naabb i) x = ⟨0, 0, 0⟩)
    ∧ (∀ x, b.space.mulVec x = b.bounds.upper →
        xfmPoint ((n.set i b childID).naabb i) x = ⟨1, 1, 1⟩)
    ∧ (n.set i b childID).child i = childID
    ∧ (∀ j, j ≠ i → (n.set i b childID).naabb j = n.naabb j
        ∧ (n.set i b childID).child j = n.child j) := by
  have pos : (0 : K) < 1 / 10 ^ 19 := by positivity
  have px : b.bounds.lower.x < b.bounds.upper.x := sub_pos.1 (lt_of_lt_of_le pos hx)
  have py : b.bounds.lower.y < b.bounds.upper.y := sub_pos.1 (lt_of_lt_of_le pos hy)
  have pz : b.bounds.lower.z < b.bounds.upper.z := sub_pos.1 (lt_of_lt_of_le pos hz)
  have hset := set_xfm n i b childID hx hy hz
  refine ⟨hset, ?_, ?_, ?_, ?_, ?_⟩
  · intro x
    rw [hset x]
    simp only [BBox3.contains, inUnitCube, normalized, unit_interval _ _ _ px,
      unit_interval _ _ _ py, unit_interval _ _ _ pz]
  · intro x h
    rw [hset x, h]
    simp only [normalized, sub_self, zero_div]
  · intro x h
    rw [hset x, h]
    simp only [normalized, div_self (ne_of_gt (sub_pos.2 px)), div_self (ne_of_gt (sub_pos.2 py)),
      div_self (ne_of_gt (sub_pos.2 pz))]
  · simp only [Node.child, UnalignedNode.set, Node.set, Function.update_same]
  · intro j hj
    simp only [Node.child, UnalignedNode.set, Node.set, Function.update_noteq hj, and_self]

/-- Witness for C38: the sheared box in slot 2 of a plain node; the point
`(1, 2, 5/2)` has the image `(3, 2, 5/2)` in the space of the box and is sent
to `(1, 1/2, 1/2)`. -/
theorem unaligned_set_normalizes_witness :
    ((1 : ℚ) / 10 ^ 19 ≤ shearedBox.bounds.upper.x - shearedBox.bounds.lower.x)
    ∧ xfmPoint ((plainNode.set 2 shearedBox (encodeLeaf 4096 3)).naabb 2) ⟨1, 2, 5 / 2⟩
        = normalized shearedBox.bounds (shearedBox.space.mulVec ⟨1, 2, 5 / 2⟩)
    ∧ normalized shearedBox.bounds (shearedBox.space.mulVec ⟨1, 2, 5 / 2⟩) = ⟨1, 1 / 2, 1 / 2⟩
    ∧ (plainNode.set 2 shearedBox (encodeLeaf 4096 3)).child 2 = encodeLeaf 4096 3
    ∧ (plainNode.set 2 shearedBox (encodeLeaf 4096 3)).child 1 = ⟨emptyNode⟩ :=
  ⟨by decide!,
    (unaligned_set_normalizes plainNode 2 shearedBox (encodeLeaf 4096 3) (by decide!)
      (by decide!) (by decide!)).1 _,
    by decide!,
    (unaligned_set_normalizes plainNode 2 shearedBox (encodeLeaf 4096 3) (by decide!)
      (by decide!) (by decide!)).2.2.2.2.1,
    ((unaligned_set_normalizes plainNode 2 shearedBox (encodeLeaf 4096 3) (by decide!)
      (by decide!) (by decide!)).2.2.2.2.2 1 (by decide)).2⟩

end BVH4Hair

/-! ## The Pluecker kernel: masks and hit selection -/

namespace Pluecker

variable {K : Type} [LinearOrderedField K]

theorem none_map_eq_true {α : Type} (f : α → Bool) (l : List α) :
    none (l.map f) = true ↔ ∀ x ∈ l, f x = false := by
  simp [none, List.all_eq_true]

theorem none_map_eq_false {α : Type} (f : α → Bool) (l : List α) :
    none (l.map f) = false ↔ ∃ x ∈ l, f x = true := by
  rw [← Bool.not_eq_true, none_map_eq_true]
  simp

theorem maskAnd_map {α : Type} (f g : α → Bool) (l : List α) :
    maskAnd (l.map f) (l.map g) = l.map (fun x => f x && g x) := by
  induction l with
  | nil => rfl
  | cons a l ih => simp [maskAnd]

theorem zip_map_same {α β γ : Type} (f : α → β) (g : α → γ) (l : List α) :
    (l.map f).zip (l.map g) = l.map (fun x => (f x, g x)) := by
  induction l with
  | nil => rfl
  | cons a l ih => simp [ih]

/-- Behaviour of `select_min` on the lanes of a list: when some lane is valid,
the selected index holds a valid lane whose value is minimal among the valid
lanes. -/
theorem select_min_spec {α : Type} (valid : α → Bool) (t : α → K) (l : List α)
    (h : ∃ x ∈ l, valid x = true) :
    ∃ x, l.get? (select_min (l.map valid) (l.map t)) = some x ∧ x ∈ l ∧ valid x = true
      ∧ ∀ y ∈ l, valid y = true → t x ≤ t y := by
  induction l with
  | nil => simp at h
  | cons a l ih =>
    simp only [List.map_cons, select_min, zip_map_same]
    split_ifs with hc
    · simp only [Bool.and_eq_true, List.all_eq_true, Bool.or_eq_true, Bool.not_eq_true,
        decide_eq_true_eq, List.mem_map, forall_exists_index, and_imp,
        forall_apply_eq_imp_iff₂] at hc
      refine ⟨a, rfl, List.mem_cons_self _ _, hc.1, ?_⟩
      intro y hy hvy
      rcases List.mem_cons.1 hy with rfl | hy
      · exact le_refl _
      · rcases hc.2 y hy with h1 | h1
        · simp [hvy] at h1
        · exact h1
    · have hex : ∃ x ∈ l, valid x = true ∧ (valid a = true → t x < t a) := by
        by_cases hva : valid a = true
        · simp only [hva, Bool.true_and, List.all_eq_true, Bool.or_eq_true, Bool.not_eq_true,
            decide_eq_true_eq, List.mem_map, forall_exists_index, and_imp,
            forall_apply_eq_imp_iff₂, not_forall, not_or, Bool.not_eq_false, not_le] at hc
          obtain ⟨y, hy, hvy, hlt⟩ := hc
          exact ⟨y, hy, by simpa using hvy, fun _ => hlt⟩
        · obtain ⟨x, hx, hvx⟩ := h
          rcases List.mem_cons.1 hx with rfl | hx
          · exact absurd hvx hva
          · exact ⟨x, hx, hvx, fun h1 => absurd h1 hva⟩
      obtain ⟨y, hy, hvy, hlt⟩ := hex
      obtain ⟨x, hget, hxl, hvx, hmin⟩ := ih ⟨y, hy, hvy⟩
      refine ⟨x, by simpa using hget, List.mem_cons_of_mem _ hxl, hvx, ?_⟩
      intro z hz hvz
      rcases List.mem_cons.1 hz with rfl | hz
      · exact le_of_lt (lt_of_le_of_lt (hmin y hy hvy) (hlt hvz))
      · exact hmin z hz hvz

theorem zipWith_laneHit (ray : Ray K) (tris : List (TriLane K)) :
    List.zipWith laneHit tris (tris.map (laneCalc ray)) = tris.map (hitOf ray) := by
  induction tris with
  | nil => rfl
  | cons a l ih => simp [hitOf, ih]

/-- The final mask of the kernel is the list of the `lanePasses` bits. -/
theorem finalMask (cfg : Config) (ray : Ray K) (tris : List (TriLane K)) :
    (if cfg.rayMask then
        tris.map (fun x => edgeTest (laneCalc ray x) && depthTest ray (laneCalc ray x)
          && denTest cfg (laneCalc ray x) && maskTest ray x)
      else
        tris.map (fun x => edgeTest (laneCalc ray x) && depthTest ray (laneCalc ray x)
          && denTest cfg (laneCalc ray x)))
      = tris.map (lanePasses cfg ray) := by
  split_ifs with hm
  · apply List.map_congr_left
    intro x _
    simp [lanePasses, hm]
  · apply List.map_congr_left
    intro x _
    simp [lanePasses, hm]

/-- The early returns of the kernel are taken exactly when the final mask is
empty. -/
theorem earlyReturns {α : Type} (cfg : Config) (ray : Ray K) (tris : List (TriLane K))
    (r x : α) :
    (if none (tris.map (fun x => edgeTest (laneCalc ray x))) then r
     else if none (tris.map
        (fun x => edgeTest (laneCalc ray x) && depthTest ray (laneCalc ray x))) then r
     else if none (tris.map
        (fun x => edgeTest (laneCalc ray x) && depthTest ray (laneCalc ray x)
          && denTest cfg (laneCalc ray x))) then r
     else if (cfg.rayMask && none (tris.map (lanePasses cfg ray))) = true then r
     else x)
    = if none (tris.map (lanePasses cfg ray)) then r else x := by
  by_cases hP : none (tris.map (lanePasses cfg ray)) = true
  · rw [if_pos hP]
    split_ifs with h1 h2 h3 h4
    · rfl
    · rfl
    · rfl
    · rfl
    · exfalso
      by_cases hm : cfg.rayMask = true
      · exact h4 (by simp [hm, hP])
      · have := finalMask cfg ray tris
        rw [if_neg hm] at this
        rw [this] at h3
        exact h3 hP
  · rw [if_neg hP]
    have hP2 : none (tris.map (lanePasses cfg ray)) = false := by simpa using hP
    rw [none_map_eq_false] at hP2
    obtain ⟨y, hy, hpy⟩ := hP2
    simp only [lanePasses, Bool.and_eq_true] at hpy
    obtain ⟨⟨⟨he, hd⟩, hn⟩, _⟩ := hpy
    have h1 : none (tris.map (fun x => edgeTest (laneCalc ray x))) = false :=
      (none_map_eq_false _ _).2 ⟨y, hy, he⟩
    have h2 : none (tris.map
        (fun x => edgeTest (laneCalc ray x) && depthTest ray (laneCalc ray x))) = false :=
      (none_map_eq_false _ _).2 ⟨y, hy, by simp [he, hd]⟩
    have h3 : none (tris.map
        (fun x => edgeTest (laneCalc ray x) && depthTest ray (laneCalc ray x)
          && denTest cfg (laneCalc ray x))) = false :=
      (none_map_eq_false _ _).2 ⟨y, hy, by simp [he, hd, hn]⟩
    have h4 : (cfg.rayMask && none (tris.map (lanePasses cfg ray))) = false := by
      simp [hP]
    simp [h1, h2, h3, h4]

theorem intersect_eq (cfg : Config) (flt : Filters K) (ray : Ray K)
    (tris : List (TriLane K)) :
    intersect cfg flt ray tris =
      if none (tris.map (lanePasses cfg ray)) then ray
      else if cfg.intersectionFilter then
        intersectFilterLoop flt (tris.map (hitOf ray)) tris.length
          (tris.map (lanePasses cfg ray))
          (select_min (tris.map (lanePasses cfg ray)) (tris.map (fun tri => (hitOf ray tri).t)))
          ray
      else
        match (tris.map (hitOf ray)).get?
          (select_min (tris.map (lanePasses cfg ray))
            (tris.map (fun tri => (hitOf ray tri).t))) with
        | Option.none => ray
        | some h => updateHit ray h := by
  unfold intersect
  simp only [zipWith_laneHit, List.map_map, Function.comp_def, maskAnd_map, finalMask]
  exact earlyReturns cfg ray tris ray _

theorem occluded_eq (cfg : Config) (flt : Filters K) (ray : Ray K)
    (tris : List (TriLane K)) :
    occluded cfg flt ray tris =
      if none (tris.map (lanePasses cfg ray)) then (false, ray)
      else if cfg.intersectionFilter then
        occludedFilterLoop flt (tris.map (hitOf ray)) tris.length
          (tris.map (lanePasses cfg ray)) (bsf (tris.map (lanePasses cfg ray))) ray
      else (true, ray) := by
  unfold occluded
  simp only [zipWith_laneHit, List.map_map, Function.comp_def, maskAnd_map, finalMask]
  exact earlyReturns cfg ray tris (false, ray) _

theorem intersect_no_lane (cfg : Config) (flt : Filters K) (ray : Ray K)
    (tris : List (TriLane K)) (h : ∀ tri ∈ tris, lanePasses cfg ray tri = false) :
    intersect cfg flt ray tris = ray := by
  rw [intersect_eq, if_pos ((none_map_eq_true _ _).2 h)]

/-- When some lane passes and the lanes that can be selected carry no
intersection filter, the kernel records the hit of a passing lane of minimal
`t`. -/
theorem intersect_select (cfg : Config) (flt : Filters K) (ray : Ray K)
    (tris : List (TriLane K))
    (hf : cfg.intersectionFilter = false ∨
      ∀ tri ∈ tris, lanePasses cfg ray tri = true →
        (∀ y ∈ tris, lanePasses cfg ray y = true → (hitOf ray tri).t ≤ (hitOf ray y).t) →
        flt.hasIntersectionFilter1 tri.geomID = false)
    (h : ∃ tri ∈ tris, lanePasses cfg ray tri = true) :
    ∃ tri ∈ tris, lanePasses cfg ray tri = true
      ∧ (∀ y ∈ tris, lanePasses cfg ray y = true → (hitOf ray tri).t ≤ (hitOf ray y).t)
      ∧ intersect cfg flt ray tris = updateHit ray (hitOf ray tri) := by
  obtain ⟨x, hget, hx, hvx, hmin⟩ :=
    select_min_spec (lanePasses cfg ray) (fun tri => (hitOf ray tri).t) tris h
  refine ⟨x, hx, hvx, hmin, ?_⟩
  have hn : none (tris.map (lanePasses cfg ray)) = false := (none_map_eq_false _ _).2 h
  have hget2 : (tris.map (hitOf ray)).get?
      (select_min (tris.map (lanePasses cfg ray)) (tris.map (fun tri => (hitOf ray tri).t)))
      = some (hitOf ray x) := by
    rw [List.get?_eq_getElem?, List.getElem?_map, ← List.get?_eq_getElem?, hget]; rfl
  rw [intersect_eq, hn]
  simp only [Bool.false_eq_true, if_false]
  by_cases hc : cfg.intersectionFilter = true
  · rw [if_pos hc]
    have hflt : flt.hasIntersectionFilter1 (hitOf ray x).geomID = false := by
      rcases hf with hf | hf
      · rw [hf] at hc; exact absurd hc (by decide)
      · exact hf x hx hvx hmin
    obtain ⟨n, hlen⟩ : ∃ n, tris.length = n + 1 := by
      cases tris with
      | nil => simp at hx
      | cons a l => exact ⟨l.length, rfl⟩
    rw [hlen]
    simp only [intersectFilterLoop, hget2, hflt, Bool.not_false, if_true]
  · rw [if_neg hc, hget2]

/-- When some lane is set, `select_min` returns the index of a set lane. -/
theorem select_min_valid (valid : List Bool) (ts : List K) (hlen : valid.length = ts.length)
    (h : none valid = false) : valid.get? (select_min valid ts) = some true := by
  induction valid generalizing ts with
  | nil => simp [none] at h
  | cons b bs ih =>
    cases ts with
    | nil => simp at hlen
    | cons x xs =>
      simp only [select_min]
      split_ifs with hc
      · simp only [Bool.and_eq_true] at hc
        simp [hc.1]
      · have hbs : none bs = false := by
          cases b with
          | false => simpa [none] using h
          | true =>
            by_contra hn
            have hn2 : none bs = true := by simpa using hn
            simp only [none, List.all_eq_true, Bool.not_eq_true'] at hn2
            apply hc
            simp only [Bool.true_and, List.all_eq_true, Bool.or_eq_true, Bool.not_eq_true',
              decide_eq_true_eq]
            intro p hp
            exact Or.inl (hn2 p.1 (List.of_mem_zip hp).1)
        have := ih xs (by simpa using hlen) hbs
        simpa using this

/-- The loop over the filtered lanes ends with the ray it started from or with
the hit of one lane of the mask recorded in it. -/
theorem filterLoop_cases (flt : Filters K) (hits : List (LaneHit K))
    (hc : ∀ h ∈ hits, flt.hasIntersectionFilter1 h.geomID = true → ∀ r : Ray K,
      flt.runIntersectionFilter1 h.geomID r h.u h.v h.t h.Ng h.geomID h.primID
        = (true, updateHit r h)
      ∨ flt.runIntersectionFilter1 h.geomID r h.u h.v h.t h.Ng h.geomID h.primID = (false, r))
    (mask : List Bool) (fuel : Nat) :
    ∀ (valid : List Bool) (i : Nat) (ray : Ray K), valid.length = hits.length →
      (∀ j, valid.get? j = some true → mask.get? j = some true) →
      valid.get? i = some true →
      intersectFilterLoop flt hits fuel valid i ray = ray
      ∨ ∃ j h, mask.get? j = some true ∧ hits.get? j = some h
          ∧ intersectFilterLoop flt hits fuel valid i ray = updateHit ray h := by
  induction fuel with
  | zero => intro valid i ray _ _ _; exact Or.inl rfl
  | succ fuel ih =>
    intro valid i ray hlen hsub hi
    unfold intersectFilterLoop
    cases hg : hits.get? i with
    | none => exact Or.inl rfl
    | some h =>
      simp only
      by_cases hf : flt.hasIntersectionFilter1 h.geomID = true
      · simp only [hf, Bool.not_true, Bool.false_eq_true, if_false]
        rcases hc h (List.get?_mem hg) hf ray with hr | hr
        · rw [hr]
          exact Or.inr ⟨i, h, hsub i hi, hg, rfl⟩
        · rw [hr]
          simp only [Bool.false_eq_true, if_false]
          split_ifs with hn
          · exact Or.inl rfl
          · have hn2 : none (valid.set i false) = false := by simpa using hn
            refine ih (valid.set i false) _ ray (by simpa using hlen) ?_
              (select_min_valid _ _ (by simpa using hlen) hn2)
            intro j hj
            apply hsub j
            by_cases hij : i = j
            · rw [← hij]; exact hi
            · rw [List.get?_eq_getElem?, List.getElem?_set_ne hij] at hj
              rw [List.get?_eq_getElem?]; exact hj
      · have hf2 : flt.hasIntersectionFilter1 h.geomID = false := by simpa using hf
        simp only [hf2, Bool.not_false, if_true]
        exact Or.inr ⟨i, h, hsub i hi, hg, rfl⟩

/-- With filters that accept or reject, `intersect` leaves the ray as it is or
records the hit of a passing lane. -/
theorem intersect_cases (cfg : Config) (flt : Filters K) (ray : Ray K)
    (tris : List (TriLane K)) (hf : acceptRejectFilter cfg flt tris) :
    intersect cfg flt ray tris = ray
    ∨ ∃ tri ∈ tris, lanePasses cfg ray tri = true
        ∧ intersect cfg flt ray tris = updateHit ray (hitOf ray tri) := by
  by_cases h : ∃ tri ∈ tris, lanePasses cfg ray tri = true
  · by_cases hc : cfg.intersectionFilter = true
    · have hn : none (tris.map (lanePasses cfg ray)) = false := (none_map_eq_false _ _).2 h
      rw [intersect_eq, hn]
      simp only [Bool.false_eq_true, if_false, hc, if_true]
      have hcon : ∀ h ∈ tris.map (hitOf ray), flt.hasIntersectionFilter1 h.geomID = true →
          ∀ r : Ray K,
          flt.runIntersectionFilter1 h.geomID r h.u h.v h.t h.Ng h.geomID h.primID
            = (true, updateHit r h)
          ∨ flt.runIntersectionFilter1 h.geomID r h.u h.v h.t h.Ng h.geomID h.primID
            = (false, r) := by
        intro h hh hhas r
        obtain ⟨tri, htri, rfl⟩ := List.mem_map.1 hh
        exact hf hc tri htri hhas r (hitOf ray tri)
      rcases filterLoop_cases flt (tris.map (hitOf ray)) hcon (tris.map (lanePasses cfg ray))
        tris.length (tris.map (lanePasses cfg ray))
        (select_min (tris.map (lanePasses cfg ray)) (tris.map (fun tri => (hitOf ray tri).t)))
        ray (by simp) (fun _ hj => hj)
        (select_min_valid _ _ (by simp) hn) with hr | ⟨j, hh, hj, hg, hr⟩
      · exact Or.inl hr
      · right
        rw [List.get?_eq_getElem?, List.getElem?_map] at hj hg
        cases ht : tris[j]? with
        | none => rw [ht] at hj; simp at hj
        | some tri =>
          rw [ht] at hj hg
          simp only [Option.map_some', Option.some.injEq] at hj hg
          refine ⟨tri, List.get?_mem (by rw [List.get?_eq_getElem?]; exact ht), hj, ?_⟩
          rw [hr, ← hg]
    · obtain ⟨tri, ht, hp, -, he⟩ := intersect_select cfg flt ray tris
        (Or.inl (by simpa using hc)) h
      exact Or.inr ⟨tri, ht, hp, he⟩
  · left
    apply intersect_no_lane
    intro tri ht
    by_contra hp
    exact h ⟨tri, ht, by simpa using hp⟩

end Pluecker

/-! ## The Pluecker kernel: geometry of one lane -/

namespace Vec3

variable {K : Type}

theorem eq_iff (a b : Vec3 K) : a = b ↔ a.x = b.x ∧ a.y = b.y ∧ a.z = b.z := by
  cases a; cases b; simp

theorem add_x [Add K] (a b : Vec3 K) : (a + b).x = a.x + b.x := rfl

theorem add_y [Add K] (a b : Vec3 K) : (a + b).y = a.y + b.y := rfl

theorem add_z [Add K] (a b : Vec3 K) : (a + b).z = a.z + b.z := rfl

theorem sub_x [Sub K] (a b : Vec3 K) : (a - b).x = a.x - b.x := rfl

theorem sub_y [Sub K] (a b : Vec3 K) : (a - b).y = a.y - b.y := rfl

theorem sub_z [Sub K] (a b : Vec3 K) : (a - b).z = a.z - b.z := rfl

end Vec3

namespace Pluecker

variable {K : Type} [LinearOrderedField K]

theorem xorSign_mul_abs (x den : K) : xorSign (x * den) den = x * |den| := by
  unfold xorSign
  split_ifs with h
  · rw [abs_of_neg h]; ring
  · rw [abs_of_nonneg (not_lt.1 h)]

theorem xorSign_add (x y den : K) : xorSign (x + y) den = xorSign x den + xorSign y den := by
  unfold xorSign
  split_ifs <;> ring

theorem xorSign_self (den : K) : xorSign den den = |den| := by
  have := xorSign_mul_abs 1 den
  simpa using this

theorem xorSign_mul_right (x y den : K) : xorSign x den * y = xorSign (x * y) den := by
  unfold xorSign
  split_ifs <;> ring

/-- The three edge values add up to the absolute value of the denominator. -/
theorem edge_sum (ray : Ray K) (tri : TriLane K) :
    (laneCalc ray tri).U + (laneCalc ray tri).V + (laneCalc ray tri).W
      = (laneCalc ray tri).absDen := by
  simp only [laneCalc]
  rw [← xorSign_add, ← xorSign_add, ← xorSign_self]
  congr 1
  simp only [Vec3.dot, Vec3.cross, Vec3.add_x, Vec3.add_y, Vec3.add_z, Vec3.sub_x, Vec3.sub_y,
    Vec3.sub_z]
  ring

/-- The vector identity behind the hit point: `T * D = W * v0 + U * v1 + V * v2`
for the vertices relative to the ray origin. -/
theorem depth_identity (ray : Ray K) (tri : TriLane K) :
    (laneCalc ray tri).T * ray.dir.x
        = (laneCalc ray tri).W * (tri.v0.x - ray.org.x)
          + (laneCalc ray tri).U * (tri.v1.x - ray.org.x)
          + (laneCalc ray tri).V * (tri.v2.x - ray.org.x)
    ∧ (laneCalc ray tri).T * ray.dir.y
        = (laneCalc ray tri).W * (tri.v0.y - ray.org.y)
          + (laneCalc ray tri).U * (tri.v1.y - ray.org.y)
          + (laneCalc ray tri).V * (tri.v2.y - ray.org.y)
    ∧ (laneCalc ray tri).T * ray.dir.z
        = (laneCalc ray tri).W * (tri.v0.z - ray.org.z)
          + (laneCalc ray tri).U * (tri.v1.z - ray.org.z)
          + (laneCalc ray tri).V * (tri.v2.z - ray.org.z) := by
  simp only [laneCalc, xorSign_mul_right, ← xorSign_add]
  refine ⟨?_, ?_, ?_⟩ <;> congr 1 <;>
    simp only [Vec3.dot, Vec3.cross, Vec3.add_x, Vec3.add_y, Vec3.add_z, Vec3.sub_x,
      Vec3.sub_y, Vec3.sub_z] <;> ring

/-- When the point `org + t * dir` is the combination `a * v0 + b * v1 + c * v2`
with `a + b + c = 1`, the values of the lane are `U = b * absDen`,
`V = c * absDen`, `W = a * absDen` and `T = t * absDen`. -/
theorem bary_values (ray : Ray K) (tri : TriLane K) (a b c t : K) (hS : a + b + c = 1)
    (hx : ray.org.x + t * ray.dir.x = a * tri.v0.x + b * tri.v1.x + c * tri.v2.x)
    (hy : ray.org.y + t * ray.dir.y = a * tri.v0.y + b * tri.v1.y + c * tri.v2.y)
    (hz : ray.org.z + t * ray.dir.z = a * tri.v0.z + b * tri.v1.z + c * tri.v2.z) :
    (laneCalc ray tri).U = b * (laneCalc ray tri).absDen
    ∧ (laneCalc ray tri).V = c * (laneCalc ray tri).absDen
    ∧ (laneCalc ray tri).W = a * (laneCalc ray tri).absDen
    ∧ (laneCalc ray tri).T = t * (laneCalc ray tri).absDen := by
  simp only [laneCalc, ← xorSign_mul_abs]
  refine ⟨?_, ?_, ?_, ?_⟩
  · congr 1
    simp only [Vec3.dot, Vec3.cross, Vec3.add_x, Vec3.add_y, Vec3.add_z, Vec3.sub_x,
      Vec3.sub_y, Vec3.sub_z]
    linear_combination
      (-((((tri.v2.y - ray.org.y) + (tri.v0.y - ray.org.y)) * ((tri.v2.z - ray.org.z) - (tri.v0.z - ray.org.z)) - ((tri.v2.z - ray.org.z) + (tri.v0.z - ray.org.z)) * ((tri.v2.y - ray.org.y) - (tri.v0.y - ray.org.y))) * ray.dir.x + (((tri.v2.z - ray.org.z) + (tri.v0.z - ray.org.z)) * ((tri.v2.x - ray.org.x) - (tri.v0.x - ray.org.x)) - ((tri.v2.x - ray.org.x) + (tri.v0.x - ray.org.x)) * ((tri.v2.z - ray.org.z) - (tri.v0.z - ray.org.z))) * ray.dir.y + (((tri.v2.x - ray.org.x) + (tri.v0.x - ray.org.x)) * ((tri.v2.y - ray.org.y) - (tri.v0.y - ray.org.y)) - ((tri.v2.y - ray.org.y) + (tri.v0.y - ray.org.y)) * ((tri.v2.x - ray.org.x) - (tri.v0.x - ray.org.x))) * ray.dir.z) - 2 * (ray.org.x * ((tri.v2.y - tri.v0.y) * ray.dir.z - (tri.v2.z - tri.v0.z) * ray.dir.y) + ray.org.y * ((tri.v2.z - tri.v0.z) * ray.dir.x - (tri.v2.x - tri.v0.x) * ray.dir.z) + ray.org.z * ((tri.v2.x - tri.v0.x) * ray.dir.y - (tri.v2.y - tri.v0.y) * ray.dir.x))) * hS
      + (-2 * ((tri.v2.y - tri.v0.y) * ray.dir.z - (tri.v2.z - tri.v0.z) * ray.dir.y)) * hx + (-2 * ((tri.v2.z - tri.v0.z) * ray.dir.x - (tri.v2.x - tri.v0.x) * ray.dir.z)) * hy + (-2 * ((tri.v2.x - tri.v0.x) * ray.dir.y - (tri.v2.y - tri.v0.y) * ray.dir.x)) * hz
  · congr 1
    simp only [Vec3.dot, Vec3.cross, Vec3.add_x, Vec3.add_y, Vec3.add_z, Vec3.sub_x,
      Vec3.sub_y, Vec3.sub_z]
    linear_combination
      (-((((tri.v0.y - ray.org.y) + (tri.v1.y - ray.org.y)) * ((tri.v0.z - ray.org.z) - (tri.v1.z - ray.org.z)) - ((tri.v0.z - ray.org.z) + (tri.v1.z - ray.org.z)) * ((tri.v0.y - ray.org.y) - (tri.v1.y - ray.org.y))) * ray.dir.x + (((tri.v0.z - ray.org.z) + (tri.v1.z - ray.org.z)) * ((tri.v0.x - ray.org.x) - (tri.v1.x - ray.org.x)) - ((tri.v0.x - ray.org.x) + (tri.v1.x - ray.org.x)) * ((tri.v0.z - ray.org.z) - (tri.v1.z - ray.org.z))) * ray.dir.y + (((tri.v0.x - ray.org.x) + (tri.v1.x - ray.org.x)) * ((tri.v0.y - ray.org.y) - (tri.v1.y - ray.org.y)) - ((tri.v0.y - ray.org.y) + (tri.v1.y - ray.org.y)) * ((tri.v0.x - ray.org.x) - (tri.v1.x - ray.org.x))) * ray.dir.z) - 2 * (ray.org.x * ((tri.v0.y - tri.v1.y) * ray.dir.z - (tri.v0.z - tri.v1.z) * ray.dir.y) + ray.org.y * ((tri.v0.z - tri.v1.z) * ray.dir.x - (tri.v0.x - tri.v1.x) * ray.dir.z) + ray.org.z * ((tri.v0.x - tri.v1.x) * ray.dir.y - (tri.v0.y - tri.v1.y) * ray.dir.x))) * hS
      + (-2 * ((tri.v0.y - tri.v1.y) * ray.dir.z - (tri.v0.z - tri.v1.z) * ray.dir.y)) * hx + (-2 * ((tri.v0.z - tri.v1.z) * ray.dir.x - (tri.v0.x - tri.v1.x) * ray.dir.z)) * hy + (-2 * ((tri.v0.x - tri.v1.x) * ray.dir.y - (tri.v0.y - tri.v1.y) * ray.dir.x)) * hz
  · congr 1
    simp only [Vec3.dot, Vec3.cross, Vec3.add_x, Vec3.add_y, Vec3.add_z, Vec3.sub_x,
      Vec3.sub_y, Vec3.sub_z]
    linear_combination
      (-((((tri.v1.y - ray.org.y) + (tri.v2.y - ray.org.y)) * ((tri.v1.z - ray.org.z) - (tri.v2.z - ray.org.z)) - ((tri.v1.z - ray.org.z) + (tri.v2.z - ray.org.z)) * ((tri.v1.y - ray.org.y) - (tri.v2.y - ray.org.y))) * ray.dir.x + (((tri.v1.z - ray.org.z) + (tri.v2.z - ray.org.z)) * ((tri.v1.x - ray.org.x) - (tri.v2.x - ray.org.x)) - ((tri.v1.x - ray.org.x) + (tri.v2.x - ray.org.x)) * ((tri.v1.z - ray.org.z) - (tri.v2.z - ray.org.z))) * ray.dir.y + (((tri.v1.x - ray.org.x) + (tri.v2.x - ray.org.x)) * ((tri.v1.y - ray.org.y) - (tri.v2.y - ray.org.y)) - ((tri.v1.y - ray.org.y) + (tri.v2.y - ray.org.y)) * ((tri.v1.x - ray.org.x) - (tri.v2.x - ray.org.x))) * ray.dir.z) - 2 * (ray.org.x * ((tri.v1.y - tri.v2.y) * ray.dir.z - (tri.v1.z - tri.v2.z) * ray.dir.y) + ray.org.y * ((tri.v1.z - tri.v2.z) * ray.dir.x - (tri.v1.x - tri.v2.x) * ray.dir.z) + ray.org.z * ((tri.v1.x - tri.v2.x) * ray.dir.y - (tri.v1.y - tri.v2.y) * ray.dir.x))) * hS
      + (-2 * ((tri.v1.y - tri.v2.y) * ray.dir.z - (tri.v1.z - tri.v2.z) * ray.dir.y)) * hx + (-2 * ((tri.v1.z - tri.v2.z) * ray.dir.x - (tri.v1.x - tri.v2.x) * ray.dir.z)) * hy + (-2 * ((tri.v1.x - tri.v2.x) * ray.dir.y - (tri.v1.y - tri.v2.y) * ray.dir.x)) * hz
  · congr 1
    simp only [Vec3.dot, Vec3.cross, Vec3.add_x, Vec3.add_y, Vec3.add_z, Vec3.sub_x,
      Vec3.sub_y, Vec3.sub_z]
    linear_combination
      (-((2 * ((tri.v0.y - tri.v1.y) * (tri.v2.z - tri.v0.z) - (tri.v0.z - tri.v1.z) * (tri.v2.y - tri.v0.y))) * tri.v0.x + (2 * ((tri.v0.z - tri.v1.z) * (tri.v2.x - tri.v0.x) - (tri.v0.x - tri.v1.x) * (tri.v2.z - tri.v0.z))) * tri.v0.y + (2 * ((tri.v0.x - tri.v1.x) * (tri.v2.y - tri.v0.y) - (tri.v0.y - tri.v1.y) * (tri.v2.x - tri.v0.x))) * tri.v0.z)) * hS
      + (-(2 * ((tri.v0.y - tri.v1.y) * (tri.v2.z - tri.v0.z) - (tri.v0.z - tri.v1.z) * (tri.v2.y - tri.v0.y)))) * hx + (-(2 * ((tri.v0.z - tri.v1.z) * (tri.v2.x - tri.v0.x) - (tri.v0.x - tri.v1.x) * (tri.v2.z - tri.v0.z)))) * hy + (-(2 * ((tri.v0.x - tri.v1.x) * (tri.v2.y - tri.v0.y) - (tri.v0.y - tri.v1.y) * (tri.v2.x - tri.v0.x)))) * hz

theorem lanePasses_iff (cfg : Config) (ray : Ray K) (tri : TriLane K) :
    lanePasses cfg ray tri = true ↔
      0 ≤ (laneCalc ray tri).U ∧ 0 ≤ (laneCalc ray tri).V ∧ 0 ≤ (laneCalc ray tri).W
      ∧ (laneCalc ray tri).absDen * ray.tnear ≤ (laneCalc ray tri).T
      ∧ (laneCalc ray tri).T ≤ (laneCalc ray tri).absDen * ray.tfar
      ∧ (if cfg.backfaceCulling = true then 0 < (laneCalc ray tri).den
          else (laneCalc ray tri).den ≠ 0)
      ∧ (cfg.rayMask = true → tri.mask &&& ray.mask ≠ 0) := by
  simp only [lanePasses, edgeTest, depthTest, denTest, maskTest, Bool.and_eq_true,
    decide_eq_true_eq, Bool.or_eq_true, Bool.not_eq_true', ge_iff_le, gt_iff_lt]
  constructor
  · rintro ⟨⟨⟨⟨⟨h1, h2⟩, h3⟩, h4, h5⟩, h6⟩, h7⟩
    refine ⟨h1, h2, h3, h4, h5, ?_, ?_⟩
    · split_ifs at h6 ⊢ <;> simpa using h6
    · intro hm
      rcases h7 with h7 | h7
      · rw [hm] at h7; exact absurd h7 (by decide)
      · exact h7
  · rintro ⟨h1, h2, h3, h4, h5, h6, h7⟩
    refine ⟨⟨⟨⟨⟨h1, h2⟩, h3⟩, h4, h5⟩, ?_⟩, ?_⟩
    · split_ifs at h6 ⊢ <;> simpa using h6
    · by_cases hm : cfg.rayMask = true
      · exact Or.inr (h7 hm)
      · exact Or.inl (by simpa using hm)

theorem absDen_eq (ray : Ray K) (tri : TriLane K) :
    (laneCalc ray tri).absDen = |(laneCalc ray tri).den| := rfl

theorem absDen_pos_of_passes (cfg : Config) (ray : Ray K) (tri : TriLane K)
    (h : lanePasses cfg ray tri = true) : 0 < (laneCalc ray tri).absDen := by
  rw [lanePasses_iff] at h
  obtain ⟨-, -, -, -, -, h6, -⟩ := h
  rw [absDen_eq]
  split_ifs at h6
  · exact abs_pos.2 (ne_of_gt h6)
  · exact abs_pos.2 h6

theorem hit_point (ray : Ray K) (tri : TriLane K) (hpos : 0 < (laneCalc ray tri).absDen) :
    ray.org + Vec3.smul (hitOf ray tri).t ray.dir
        = Vec3.smul (1 - (hitOf ray tri).u - (hitOf ray tri).v) tri.v0
          + Vec3.smul (hitOf ray tri).u tri.v1 + Vec3.smul (hitOf ray tri).v tri.v2 := by
  obtain ⟨hx, hy, hz⟩ := depth_identity ray tri
  have hs := edge_sum ray tri
  have hne : (laneCalc ray tri).absDen ≠ 0 := ne_of_gt hpos
  rw [Vec3.eq_iff]
  simp only [hitOf, laneHit, Vec3.smul, Vec3.add_x, Vec3.add_y, Vec3.add_z]
  refine ⟨?_, ?_, ?_⟩
  · field_simp
    linear_combination hx + (tri.v0.x - ray.org.x) * hs
  · field_simp
    linear_combination hy + (tri.v0.y - ray.org.y) * hs
  · field_simp
    linear_combination hz + (tri.v0.z - ray.org.z) * hs

/-- The tests of a lane in terms of its own values: with `den = dot(Ng,dir)`,
`u = U/|den|`, `v = V/|den|`, `t = T/|den|`, the lane passes exactly when
`den` is non-zero and the point `org + t*dir` satisfies `tnear <= t <= tfar`
and lies in the closed triangle; a passing lane has `u >= 0`, `v >= 0`,
`u + v <= 1` and `org + t*dir = (1-u-v)*v0 + u*v1 + v*v2`. -/
theorem lane_exact_values (ray : Ray K) (tri : TriLane K) :
    ((laneCalc ray tri).den = Vec3.dot (laneCalc ray tri).Ng ray.dir
      ∧ (hitOf ray tri).u = (laneCalc ray tri).U / |(laneCalc ray tri).den|
      ∧ (hitOf ray tri).v = (laneCalc ray tri).V / |(laneCalc ray tri).den|
      ∧ (hitOf ray tri).t = (laneCalc ray tri).T / |(laneCalc ray tri).den|)
    ∧ (lanePasses ⟨false, false, false⟩ ray tri = true ↔
        (laneCalc ray tri).den ≠ 0
        ∧ ray.tnear ≤ (hitOf ray tri).t ∧ (hitOf ray tri).t ≤ ray.tfar
        ∧ inClosedTriangle tri (ray.org + Vec3.smul (hitOf ray tri).t ray.dir))
    ∧ (lanePasses ⟨false, false, false⟩ ray tri = true →
        0 ≤ (hitOf ray tri).u ∧ 0 ≤ (hitOf ray tri).v
        ∧ (hitOf ray tri).u + (hitOf ray tri).v ≤ 1
        ∧ ray.org + Vec3.smul (hitOf ray tri).t ray.dir
          = Vec3.smul (1 - (hitOf ray tri).u - (hitOf ray tri).v) tri.v0
            + Vec3.smul (hitOf ray tri).u tri.v1 + Vec3.smul (hitOf ray tri).v tri.v2) := by
  have hs := edge_sum ray tri
  have hu : (hitOf ray tri).u = (laneCalc ray tri).U / (laneCalc ray tri).absDen := rfl
  have hv : (hitOf ray tri).v = (laneCalc ray tri).V / (laneCalc ray tri).absDen := rfl
  have ht : (hitOf ray tri).t = (laneCalc ray tri).T / (laneCalc ray tri).absDen := rfl
  have hw : ∀ hpos : 0 < (laneCalc ray tri).absDen,
      1 - (hitOf ray tri).u - (hitOf ray tri).v
        = (laneCalc ray tri).W / (laneCalc ray tri).absDen := by
    intro hpos
    rw [hu, hv]
    field_simp
    linear_combination -hs
  have key : lanePasses ⟨false, false, false⟩ ray tri = true →
      0 < (laneCalc ray tri).absDen ∧ 0 ≤ (hitOf ray tri).u ∧ 0 ≤ (hitOf ray tri).v
      ∧ 0 ≤ 1 - (hitOf ray tri).u - (hitOf ray tri).v := by
    intro hp
    have hpos := absDen_pos_of_passes _ ray tri hp
    rw [lanePasses_iff] at hp
    obtain ⟨h1, h2, h3, -⟩ := hp
    refine ⟨hpos, ?_, ?_, ?_⟩
    · rw [hu]; exact div_nonneg h1 (le_of_lt hpos)
    · rw [hv]; exact div_nonneg h2 (le_of_lt hpos)
    · rw [hw hpos]; exact div_nonneg h3 (le_of_lt hpos)
  refine ⟨⟨rfl, rfl, rfl, rfl⟩, ⟨?_, ?_⟩, ?_⟩
  · intro hp
    obtain ⟨hpos, h0u, h0v, h0w⟩ := key hp
    rw [lanePasses_iff] at hp
    obtain ⟨-, -, -, h4, h5, h6, -⟩ := hp
    simp only [Bool.false_eq_true, if_false] at h6
    refine ⟨h6, ?_, ?_, ?_⟩
    · rw [ht, le_div_iff₀ hpos]
      linarith
    · rw [ht, div_le_iff₀ hpos]
      linarith
    · exact ⟨_, _, _, h0w, h0u, h0v, by ring, hit_point ray tri hpos⟩
  · rintro ⟨hden, hnear, hfar, a, b, c, ha, hb, hc, hS, hP⟩
    have hpos : 0 < (laneCalc ray tri).absDen := abs_pos.2 hden
    rw [Vec3.eq_iff] at hP
    simp only [Vec3.smul, Vec3.add_x, Vec3.add_y, Vec3.add_z] at hP
    obtain ⟨hU, hV, hW, -⟩ := bary_values ray tri a b c _ hS hP.1 hP.2.1 hP.2.2
    rw [ht, le_div_iff₀ hpos] at hnear
    rw [ht, div_le_iff₀ hpos] at hfar
    rw [lanePasses_iff]
    refine ⟨?_, ?_, ?_, ?_, ?_, ?_, ?_⟩
    · rw [hU]; exact mul_nonneg hb (le_of_lt hpos)
    · rw [hV]; exact mul_nonneg hc (le_of_lt hpos)
    · rw [hW]; exact mul_nonneg ha (le_of_lt hpos)
    · linarith
    · linarith
    · simpa using hden
    · intro h; exact absurd h (by decide)
  · intro hp
    obtain ⟨hpos, h0u, h0v, h0w⟩ := key hp
    exact ⟨h0u, h0v, by linarith, hit_point ray tri hpos⟩

/-- The normal of the lane is twice the cross product of two edges of the
triangle; the shift by the ray origin cancels. -/
theorem laneCalc_Ng (ray : Ray K) (tri : TriLane K) :
    (laneCalc ray tri).Ng
      = Vec3.smul 2 (Vec3.cross (tri.v0 - tri.v1) (tri.v2 - tri.v0)) := by
  rw [Vec3.eq_iff]
  simp only [laneCalc, Vec3.smul, Vec3.cross, Vec3.add_x, Vec3.add_y, Vec3.add_z, Vec3.sub_x,
    Vec3.sub_y, Vec3.sub_z]
  refine ⟨?_, ?_, ?_⟩ <;> ring

/-- The denominator of the lane in terms of the triangle. -/
theorem laneCalc_den (ray : Ray K) (tri : TriLane K) :
    (laneCalc ray tri).den
      = 2 * Vec3.dot (Vec3.cross (tri.v0 - tri.v1) (tri.v2 - tri.v0)) ray.dir := by
  have h : (laneCalc ray tri).den = Vec3.dot (laneCalc ray tri).Ng ray.dir := rfl
  rw [h, laneCalc_Ng]
  simp only [Vec3.dot, Vec3.smul]
  ring

/-- The distance of the lane is the distance along the ray of any point of the
ray that lies in the plane of the triangle. -/
theorem hit_distance (ray : Ray K) (tri : TriLane K) (t : K)
    (hden : (laneCalc ray tri).den ≠ 0)
    (hP : inClosedTriangle tri (ray.org + Vec3.smul t ray.dir)) : (hitOf ray tri).t = t := by
  obtain ⟨a, b, c, -, -, -, hS, hP⟩ := hP
  have hpos : 0 < (laneCalc ray tri).absDen := abs_pos.2 hden
  rw [Vec3.eq_iff] at hP
  simp only [Vec3.smul, Vec3.add_x, Vec3.add_y, Vec3.add_z] at hP
  obtain ⟨-, -, -, hT⟩ := bary_values ray tri a b c t hS hP.1 hP.2.1 hP.2.2
  show (laneCalc ray tri).T / (laneCalc ray tri).absDen = t
  rw [hT]
  field_simp

/-- C2. Over exact arithmetic, with backface culling, ray masks and
intersection filters disabled.  The values of a lane are those of the
triangle: `Ng` is twice `cross(v0-v1, v2-v0)`, `den = dot(Ng,dir)`,
`T = dot(v0-org,Ng) ^ sgnDen`, `u = U/|den|`, `v = V/|den|`, `t = T/|den|`.
The lane passes all tests of the single-ray Pluecker `intersect` if and only
if `den` is non-zero and the point `org + t*dir` satisfies
`tnear <= t <= tfar` and lies in the closed triangle; equivalently, if and
only if the ray is not parallel to the triangle and some point `org + t*dir`
with `tnear <= t <= tfar` lies in the closed triangle, and `t = T/|den|` is
the distance of that point.  For a passing lane `u >= 0`, `v >= 0`,
`u + v <= 1` and `org + t*dir = (1-u-v)*v0 + u*v1 + v*v2`. -/
theorem pluecker_lane_exact (ray : Ray K) (tri : TriLane K) :
    ((laneCalc ray tri).Ng = Vec3.smul 2 (Vec3.cross (tri.v0 - tri.v1) (tri.v2 - tri.v0))
      ∧ (laneCalc ray tri).den = Vec3.dot (laneCalc ray tri).Ng ray.dir
      ∧ (laneCalc ray tri).T
          = xorSign (Vec3.dot (tri.v0 - ray.org) (laneCalc ray tri).Ng) (laneCalc ray tri).den
      ∧ (hitOf ray tri).u = (laneCalc ray tri).U / |(laneCalc ray tri).den|
      ∧ (hitOf ray tri).v = (laneCalc ray tri).V / |(laneCalc ray tri).den|
      ∧ (hitOf ray tri).t = (laneCalc ray tri).T / |(laneCalc ray tri).den|)
    ∧ (lanePasses ⟨false, false, false⟩ ray tri = true ↔
        (laneCalc ray tri).den ≠ 0
        ∧ ray.tnear ≤ (hitOf ray tri).t ∧ (hitOf ray tri).t ≤ ray.tfar
        ∧ inClosedTriangle tri (ray.org + Vec3.smul (hitOf ray tri).t ray.dir))
    ∧ (lanePasses ⟨false, false, false⟩ ray tri = true ↔
        Vec3.dot (Vec3.cross (tri.v0 - tri.v1) (tri.v2 - tri.v0)) ray.dir ≠ 0
        ∧ ∃ t, ray.tnear ≤ t ∧ t ≤ ray.tfar
          ∧ inClosedTriangle tri (ray.org + Vec3.smul t ray.dir))
    ∧ (∀ t, (laneCalc ray tri).den ≠ 0 →
        inClosedTriangle tri (ray.org + Vec3.smul t ray.dir) → (hitOf ray tri).t = t)
    ∧ (lanePasses ⟨false, false, false⟩ ray tri = true →
        0 ≤ (hitOf ray tri).u ∧ 0 ≤ (hitOf ray tri).v
        ∧ (hitOf ray tri).u + (hitOf ray tri).v ≤ 1
        ∧ ray.org + Vec3.smul (hitOf ray tri).t ray.dir
          = Vec3.smul (1 - (hitOf ray tri).u - (hitOf ray tri).v) tri.v0
            + Vec3.smul (hitOf ray tri).u tri.v1 + Vec3.smul (hitOf ray tri).v tri.v2) := by
  obtain ⟨⟨h1, h2, h3, h4⟩, hiff, hpass⟩ := lane_exact_values ray tri
  have hden : (laneCalc ray tri).den ≠ 0 ↔
      Vec3.dot (Vec3.cross (tri.v0 - tri.v1) (tri.v2 - tri.v0)) ray.dir ≠ 0 := by
    rw [laneCalc_den]
    constructor
    · intro h hz; apply h; rw [hz, mul_zero]
    · intro h hz
      rcases mul_eq_zero.1 hz with h2 | h2
      · exact absurd h2 (by norm_num)
      · exact h h2
  refine ⟨⟨laneCalc_Ng ray tri, h1, rfl, h2, h3, h4⟩, hiff, ?_,
    fun t hd hP => hit_distance ray tri t hd hP, hpass⟩
  rw [hiff]
  constructor
  · rintro ⟨hd, hn, hf, hP⟩
    exact ⟨hden.1 hd, _, hn, hf, hP⟩
  · rintro ⟨hd, t, hn, hf, hP⟩
    have ht := hit_distance ray tri t (hden.2 hd) hP
    rw [ht]
    exact ⟨hden.2 hd, hn, hf, hP⟩

/-- Witness for C2: `sampleRay` meets `sampleTriFar` in the point `(0,0,5)`,
which is `v0/2 + v1/4 + v2/4`; the statement gives that the lane passes, with
the distance `5`. -/
theorem pluecker_lane_exact_witness :
    lanePasses ⟨false, false, false⟩ sampleRay sampleTriFar = true
    ∧ (hitOf sampleRay sampleTriFar).t = 5
    ∧ (laneCalc sampleRay sampleTriFar).Ng = ⟨0, 0, -32⟩ := by
  have h := pluecker_lane_exact sampleRay sampleTriFar
  have hP : inClosedTriangle sampleTriFar (sampleRay.org + Vec3.smul 5 sampleRay.dir) := by
    refine ⟨1 / 2, 1 / 4, 1 / 4, by norm_num, by norm_num, by norm_num, by norm_num, ?_⟩
    rw [Vec3.eq_iff]
    norm_num [sampleRay, sampleTriFar, Vec3.smul, Vec3.add_x, Vec3.add_y, Vec3.add_z]
  have hd : Vec3.dot (Vec3.cross (sampleTriFar.v0 - sampleTriFar.v1)
      (sampleTriFar.v2 - sampleTriFar.v0)) sampleRay.dir ≠ 0 := by
    norm_num [sampleRay, sampleTriFar, Vec3.cross, Vec3.dot, Vec3.sub_x, Vec3.sub_y, Vec3.sub_z]
  have hp : lanePasses ⟨false, false, false⟩ sampleRay sampleTriFar = true :=
    h.2.2.1.2 ⟨hd, 5, by norm_num [sampleRay], by norm_num [sampleRay], hP⟩
  have hd2 : (laneCalc sampleRay sampleTriFar).den ≠ 0 := (h.2.1.1 hp).1
  refine ⟨hp, h.2.2.2.1 5 hd2 hP, ?_⟩
  rw [h.1.1, Vec3.eq_iff]
  norm_num [sampleTriFar, Vec3.smul, Vec3.cross, Vec3.sub_x, Vec3.sub_y, Vec3.sub_z]
end Pluecker

/-! ## The Pluecker kernel: occlusion, monotonicity of `tfar`, hit selection -/

namespace Pluecker

variable {K : Type} [LinearOrderedField K]

theorem occluded_no_filter (cfg : Config) (flt : Filters K) (ray : Ray K)
    (tris : List (TriLane K)) (ho : noOcclusionFilter cfg flt tris) :
    (occluded cfg flt ray tris).1 = true ↔ ∃ tri ∈ tris, lanePasses cfg ray tri = true := by
  rw [occluded_eq]
  by_cases hn : none (tris.map (lanePasses cfg ray)) = true
  · rw [if_pos hn]
    rw [none_map_eq_true] at hn
    constructor
    · intro h; exact absurd h Bool.false_ne_true
    · rintro ⟨tri, ht, hp⟩
      rw [hn tri ht] at hp
      exact absurd hp (by decide)
  · rw [if_neg hn]
    have hn2 : none (tris.map (lanePasses cfg ray)) = false := by simpa using hn
    rw [none_map_eq_false] at hn2
    refine ⟨fun _ => hn2, fun _ => ?_⟩
    by_cases hc : cfg.intersectionFilter = true
    · rw [if_pos hc]
      obtain ⟨tri, htri, -⟩ := hn2
      obtain ⟨n, hlen⟩ : ∃ n, tris.length = n + 1 := by
        cases tris with
        | nil => simp at htri
        | cons a l => exact ⟨l.length, rfl⟩
      rw [hlen]
      unfold occludedFilterLoop
      cases hg : (tris.map (hitOf ray)).get? (bsf (tris.map (lanePasses cfg ray))) with
      | none => rfl
      | some h =>
        have hmem : h ∈ tris.map (hitOf ray) := List.get?_mem hg
        obtain ⟨y, hy, rfl⟩ := List.mem_map.1 hmem
        have hflt : flt.hasOcclusionFilter1 (hitOf ray y).geomID = false := by
          rcases ho with ho | ho
          · rw [ho] at hc; exact absurd hc (by decide)
          · exact ho y hy
        simp [hflt]
    · rw [if_neg hc]

/-- C3. With no filters installed, the single-ray Pluecker `occluded` returns
true if and only if at least one lane passes all tests; in that case
`intersect`, run on the same ray and batch, records the hit of a passing lane
(so `ray.geomID` becomes the geometry ID of one of the triangles), otherwise
`intersect` leaves the ray as it is; for a ray that starts without a hit
(`geomID = -1`) and triangles with valid IDs, `occluded` is true exactly when
`intersect` ends with `geomID != -1`. -/
theorem occluded_iff_intersect_hit (cfg : Config) (flt : Filters K) (ray : Ray K)
    (tris : List (TriLane K))
    (hi : noIntersectionFilter cfg flt tris) (ho : noOcclusionFilter cfg flt tris) :
    ((occluded cfg flt ray tris).1 = true ↔ ∃ tri ∈ tris, lanePasses cfg ray tri = true)
    ∧ ((occluded cfg flt ray tris).1 = true →
        ∃ tri ∈ tris, lanePasses cfg ray tri = true
          ∧ intersect cfg flt ray tris = updateHit ray (hitOf ray tri)
          ∧ (intersect cfg flt ray tris).geomID = tri.geomID)
    ∧ ((occluded cfg flt ray tris).1 = false → intersect cfg flt ray tris = ray)
    ∧ (ray.geomID = -1 → (∀ tri ∈ tris, tri.geomID ≠ -1) →
        ((occluded cfg flt ray tris).1 = true ↔ (intersect cfg flt ray tris).geomID ≠ -1)) := by
  have hocc := occluded_no_filter cfg flt ray tris ho
  have hsel : (∃ tri ∈ tris, lanePasses cfg ray tri = true) →
      ∃ tri ∈ tris, lanePasses cfg ray tri = true
        ∧ intersect cfg flt ray tris = updateHit ray (hitOf ray tri)
        ∧ (intersect cfg flt ray tris).geomID = tri.geomID := by
    intro h
    obtain ⟨tri, ht, hp, -, he⟩ := intersect_select cfg flt ray tris
      (hi.imp id (fun hall tri htri _ _ => hall tri htri)) h
    exact ⟨tri, ht, hp, he, by rw [he]; rfl⟩
  have hnone : (occluded cfg flt ray tris).1 = false → intersect cfg flt ray tris = ray := by
    intro h
    apply intersect_no_lane
    intro tri ht
    by_contra hp
    have : (occluded cfg flt ray tris).1 = true := hocc.2 ⟨tri, ht, by simpa using hp⟩
    rw [h] at this
    exact absurd this (by decide)
  refine ⟨hocc, fun h => hsel (hocc.1 h), hnone, ?_⟩
  intro hg hids
  constructor
  · intro h
    obtain ⟨tri, ht, -, -, he⟩ := hsel (hocc.1 h)
    rw [he]
    exact hids tri ht
  · intro h
    by_contra hocc2
    have hf : (occluded cfg flt ray tris).1 = false := by simpa using hocc2
    rw [hnone hf] at h
    exact h hg

/-- Witness for C3: the sample ray and the two sample triangles. -/
theorem occluded_iff_intersect_hit_witness :
    ((occluded plainConfig sampleFilters sampleRay [sampleTriFar, sampleTriNear]).1 = true ↔
      ∃ tri ∈ [sampleTriFar, sampleTriNear], lanePasses plainConfig sampleRay tri = true)
    ∧ ((occluded plainConfig sampleFilters sampleRay [sampleTriFar, sampleTriNear]).1 = true →
        ∃ tri ∈ [sampleTriFar, sampleTriNear], lanePasses plainConfig sampleRay tri = true
          ∧ intersect plainConfig sampleFilters sampleRay [sampleTriFar, sampleTriNear]
            = updateHit sampleRay (hitOf sampleRay tri)
          ∧ (intersect plainConfig sampleFilters sampleRay
              [sampleTriFar, sampleTriNear]).geomID = tri.geomID)
    ∧ ((occluded plainConfig sampleFilters sampleRay [sampleTriFar, sampleTriNear]).1 = false →
        intersect plainConfig sampleFilters sampleRay [sampleTriFar, sampleTriNear] = sampleRay)
    ∧ (sampleRay.geomID = -1 → (∀ tri ∈ [sampleTriFar, sampleTriNear], tri.geomID ≠ -1) →
        ((occluded plainConfig sampleFilters sampleRay [sampleTriFar, sampleTriNear]).1 = true ↔
          (intersect plainConfig sampleFilters sampleRay
            [sampleTriFar, sampleTriNear]).geomID ≠ -1)) :=
  occluded_iff_intersect_hit plainConfig sampleFilters sampleRay [sampleTriFar, sampleTriNear]
    (Or.inl rfl) (Or.inl rfl)

/-- In exact arithmetic, with intersection filters that accept or reject a
candidate (in particular with no filter on the batch), the kernel never
increases `ray.tfar`, and when `tfar` changes the new value is at least
`tnear`; if no lane passes all tests the ray is left unchanged; `ray.org`,
`ray.dir` and `ray.tnear` are never modified. -/
theorem tfar_shrinks_exact (cfg : Config) (flt : Filters K) (ray : Ray K)
    (tris : List (TriLane K)) (hf : acceptRejectFilter cfg flt tris) :
    (intersect cfg flt ray tris).tfar ≤ ray.tfar
    ∧ ((intersect cfg flt ray tris).tfar ≠ ray.tfar →
        ray.tnear ≤ (intersect cfg flt ray tris).tfar)
    ∧ ((∀ tri ∈ tris, lanePasses cfg ray tri = false) → intersect cfg flt ray tris = ray)
    ∧ (intersect cfg flt ray tris).org = ray.org
    ∧ (intersect cfg flt ray tris).dir = ray.dir
    ∧ (intersect cfg flt ray tris).tnear = ray.tnear := by
  rcases intersect_cases cfg flt ray tris hf with he | ⟨tri, ht, hp, he⟩
  · refine ⟨?_, ?_, fun hall => intersect_no_lane cfg flt ray tris hall, ?_, ?_, ?_⟩
    · rw [he]
    · intro hne; rw [he] at hne; exact absurd rfl hne
    · rw [he]
    · rw [he]
    · rw [he]
  · have hpos := absDen_pos_of_passes cfg ray tri hp
    rw [lanePasses_iff] at hp
    obtain ⟨-, -, -, h4, h5, -⟩ := hp
    have htf : (intersect cfg flt ray tris).tfar
        = (laneCalc ray tri).T / (laneCalc ray tri).absDen := by rw [he]; rfl
    have hnear : ray.tnear ≤ (laneCalc ray tri).T / (laneCalc ray tri).absDen := by
      rw [le_div_iff₀ hpos]; linarith
    have hfar : (laneCalc ray tri).T / (laneCalc ray tri).absDen ≤ ray.tfar := by
      rw [div_le_iff₀ hpos]; linarith
    refine ⟨by rw [htf]; exact hfar, fun _ => by rw [htf]; exact hnear, ?_, ?_, ?_, ?_⟩
    · intro hall
      exact intersect_no_lane cfg flt ray tris hall
    · rw [he]; rfl
    · rw [he]; rfl
    · rw [he]; rfl

/-- C9. With no filter on the geometry of the lanes that can be selected
(the passing lanes of minimal `t`), when at least one lane passes all tests
the single-ray Pluecker `intersect` records the hit of one lane whose
`t = T/|den|` is minimal among all passing lanes: `ray.tfar` becomes that
minimum, and `ray.u`, `ray.v`, `ray.Ng`, `ray.geomID` and `ray.primID` are all
taken from the same lane. -/
theorem intersect_records_min_lane (cfg : Config) (flt : Filters K) (ray : Ray K)
    (tris : List (TriLane K))
    (hf : cfg.intersectionFilter = false ∨
      ∀ tri ∈ tris, lanePasses cfg ray tri = true →
        (∀ y ∈ tris, lanePasses cfg ray y = true → (hitOf ray tri).t ≤ (hitOf ray y).t) →
        flt.hasIntersectionFilter1 tri.geomID = false)
    (h : ∃ tri ∈ tris, lanePasses cfg ray tri = true) :
    ∃ tri ∈ tris, lanePasses cfg ray tri = true
      ∧ (∀ y ∈ tris, lanePasses cfg ray y = true →
          (laneCalc ray tri).T / |(laneCalc ray tri).den|
            ≤ (laneCalc ray y).T / |(laneCalc ray y).den|)
      ∧ (intersect cfg flt ray tris).tfar = (laneCalc ray tri).T / |(laneCalc ray tri).den|
      ∧ (intersect cfg flt ray tris).u = (laneCalc ray tri).U / |(laneCalc ray tri).den|
      ∧ (intersect cfg flt ray tris).v = (laneCalc ray tri).V / |(laneCalc ray tri).den|
      ∧ (intersect cfg flt ray tris).Ng = (laneCalc ray tri).Ng
      ∧ (intersect cfg flt ray tris).geomID = tri.geomID
      ∧ (intersect cfg flt ray tris).primID = tri.primID := by
  obtain ⟨tri, ht, hp, hmin, he⟩ := intersect_select cfg flt ray tris hf h
  refine ⟨tri, ht, hp, hmin, ?_, ?_, ?_, ?_, ?_, ?_⟩ <;> rw [he] <;> rfl

/-- Witness for C9: the sample ray and the two sample triangles. -/
theorem intersect_records_min_lane_witness :
    ∃ tri ∈ [sampleTriFar, sampleTriNear], lanePasses plainConfig sampleRay tri = true
      ∧ (∀ y ∈ [sampleTriFar, sampleTriNear], lanePasses plainConfig sampleRay y = true →
          (laneCalc sampleRay tri).T / |(laneCalc sampleRay tri).den|
            ≤ (laneCalc sampleRay y).T / |(laneCalc sampleRay y).den|)
      ∧ (intersect plainConfig sampleFilters sampleRay [sampleTriFar, sampleTriNear]).tfar
          = (laneCalc sampleRay tri).T / |(laneCalc sampleRay tri).den|
      ∧ (intersect plainConfig sampleFilters sampleRay [sampleTriFar, sampleTriNear]).u
          = (laneCalc sampleRay tri).U / |(laneCalc sampleRay tri).den|
      ∧ (intersect plainConfig sampleFilters sampleRay [sampleTriFar, sampleTriNear]).v
          = (laneCalc sampleRay tri).V / |(laneCalc sampleRay tri).den|
      ∧ (intersect plainConfig sampleFilters sampleRay [sampleTriFar, sampleTriNear]).Ng
          = (laneCalc sampleRay tri).Ng
      ∧ (intersect plainConfig sampleFilters sampleRay [sampleTriFar, sampleTriNear]).geomID
          = tri.geomID
      ∧ (intersect plainConfig sampleFilters sampleRay [sampleTriFar, sampleTriNear]).primID
          = tri.primID :=
  intersect_records_min_lane plainConfig sampleFilters sampleRay [sampleTriFar, sampleTriNear]
    (Or.inl rfl)
    ⟨sampleTriFar, List.mem_cons_self _ _, by
      norm_num [lanePasses, plainConfig, sampleRay, sampleTriFar, laneCalc, Vec3.cross,
        Vec3.dot, edgeTest, depthTest, denTest, xorSign, Vec3.sub_x, Vec3.sub_y, Vec3.sub_z,
        Vec3.add_x, Vec3.add_y, Vec3.add_z]⟩

end Pluecker

/-! ## The Pluecker kernel: shared edges -/

namespace Pluecker

variable {K : Type} [LinearOrderedField K]

/-- The edge values of a lane are the un-normalised edge values with the sign of
the denominator applied. -/
theorem lane_edge_values (ray : Ray K) (tri : TriLane K) :
    [(laneCalc ray tri).U, (laneCalc ray tri).V, (laneCalc ray tri).W]
      = (rawEdgeValues ray tri).map (fun x => xorSign x (laneCalc ray tri).den) := rfl

theorem edgeValue_swap (ray : Ray K) (p q : Vec3 K) :
    edgeValue ray p q = -edgeValue ray q p := by
  simp only [edgeValue, Vec3.dot, Vec3.cross, Vec3.add_x, Vec3.add_y, Vec3.add_z, Vec3.sub_x,
    Vec3.sub_y, Vec3.sub_z]
  ring

theorem edgeValue_through (ray : Ray K) (p q : Vec3 K) (s t : K)
    (h : ray.org + Vec3.smul t ray.dir = Vec3.smul (1 - s) p + Vec3.smul s q) :
    edgeValue ray p q = 0 := by
  rw [Vec3.eq_iff] at h
  simp only [Vec3.smul, Vec3.add_x, Vec3.add_y, Vec3.add_z] at h
  obtain ⟨hx, hy, hz⟩ := h
  simp only [edgeValue, Vec3.dot, Vec3.cross, Vec3.add_x, Vec3.add_y, Vec3.add_z, Vec3.sub_x,
    Vec3.sub_y, Vec3.sub_z]
  linear_combination
    (-2 * ((q.y - p.y) * ray.dir.z - (q.z - p.z) * ray.dir.y)) * hx
    + (-2 * ((q.z - p.z) * ray.dir.x - (q.x - p.x) * ray.dir.z)) * hy
    + (-2 * ((q.x - p.x) * ray.dir.y - (q.y - p.y) * ray.dir.x)) * hz

/-- A ray that meets the closed triangle at parameter `t` inside its interval,
and is not parallel to it, passes all tests of the lane, and the lane reports
the distance `t`. -/
theorem passes_of_point (ray : Ray K) (tri : TriLane K) (flags : Config)
    (hcull : flags.backfaceCulling = false) (hmask : flags.rayMask = false)
    (a b c t : K) (ha : 0 ≤ a) (hb : 0 ≤ b) (hc : 0 ≤ c) (hS : a + b + c = 1)
    (hP : ray.org + Vec3.smul t ray.dir
      = Vec3.smul a tri.v0 + Vec3.smul b tri.v1 + Vec3.smul c tri.v2)
    (hden : (laneCalc ray tri).den ≠ 0) (hnear : ray.tnear ≤ t) (hfar : t ≤ ray.tfar) :
    lanePasses flags ray tri = true ∧ (hitOf ray tri).t = t := by
  have hpos : 0 < (laneCalc ray tri).absDen := abs_pos.2 hden
  rw [Vec3.eq_iff] at hP
  simp only [Vec3.smul, Vec3.add_x, Vec3.add_y, Vec3.add_z] at hP
  obtain ⟨hU, hV, hW, hT⟩ := bary_values ray tri a b c t hS hP.1 hP.2.1 hP.2.2
  constructor
  · rw [lanePasses_iff]
    refine ⟨?_, ?_, ?_, ?_, ?_, ?_, ?_⟩
    · rw [hU]; exact mul_nonneg hb (le_of_lt hpos)
    · rw [hV]; exact mul_nonneg hc (le_of_lt hpos)
    · rw [hW]; exact mul_nonneg ha (le_of_lt hpos)
    · rw [hT, mul_comm]; exact mul_le_mul_of_nonneg_right hnear (le_of_lt hpos)
    · rw [hT, mul_comm]; exact mul_le_mul_of_nonneg_left hfar (le_of_lt hpos)
    · simpa [hcull] using hden
    · intro h; rw [hmask] at h; exact absurd h Bool.false_ne_true
  · show (laneCalc ray tri).T / (laneCalc ray tri).absDen = t
    rw [hT]
    field_simp

/-- A point of an edge of a triangle is a convex combination of its vertices. -/
theorem edge_point_in_triangle (tri : TriLane K) (p q : Vec3 K)
    (he : (p, q) ∈ triEdges tri) (s : K) (h0 : 0 ≤ s) (h1 : s ≤ 1) :
    ∃ a b c : K, 0 ≤ a ∧ 0 ≤ b ∧ 0 ≤ c ∧ a + b + c = 1
      ∧ Vec3.smul (1 - s) p + Vec3.smul s q
        = Vec3.smul a tri.v0 + Vec3.smul b tri.v1 + Vec3.smul c tri.v2 := by
  have h1s : 0 ≤ 1 - s := by linarith
  simp only [triEdges, List.mem_cons, Prod.mk.injEq, List.mem_singleton, List.not_mem_nil,
    or_false] at he
  rcases he with ⟨rfl, rfl⟩ | ⟨rfl, rfl⟩ | ⟨rfl, rfl⟩
  · refine ⟨1 - s, 0, s, h1s, le_refl _, h0, by ring, ?_⟩
    rw [Vec3.eq_iff]
    simp only [Vec3.smul, Vec3.add_x, Vec3.add_y, Vec3.add_z]
    refine ⟨?_, ?_, ?_⟩ <;> ring
  · refine ⟨s, 1 - s, 0, h0, h1s, le_refl _, by ring, ?_⟩
    rw [Vec3.eq_iff]
    simp only [Vec3.smul, Vec3.add_x, Vec3.add_y, Vec3.add_z]
    refine ⟨?_, ?_, ?_⟩ <;> ring
  · refine ⟨0, s, 1 - s, le_refl _, h0, h1s, by ring, ?_⟩
    rw [Vec3.eq_iff]
    simp only [Vec3.smul, Vec3.add_x, Vec3.add_y, Vec3.add_z]
    refine ⟨?_, ?_, ?_⟩ <;> ring

/-- A ray aimed at a point of an edge of a triangle, not parallel to the
triangle and with the distance inside its interval, passes all tests of the
lane of that triangle. -/
theorem passes_of_edge_point (ray : Ray K) (tri : TriLane K) (flags : Config)
    (hcull : flags.backfaceCulling = false) (hmask : flags.rayMask = false)
    (p q : Vec3 K) (he : (p, q) ∈ triEdges tri) (s t : K) (h0 : 0 ≤ s) (h1 : s ≤ 1)
    (hP : ray.org + Vec3.smul t ray.dir = Vec3.smul (1 - s) p + Vec3.smul s q)
    (hden : (laneCalc ray tri).den ≠ 0) (hnear : ray.tnear ≤ t) (hfar : t ≤ ray.tfar) :
    lanePasses flags ray tri = true ∧ (hitOf ray tri).t = t := by
  obtain ⟨a, b, c, ha, hb, hc, hS, hc2⟩ := edge_point_in_triangle tri p q he s h0 h1
  exact passes_of_point ray tri flags hcull hmask a b c t ha hb hc hS (hP.trans hc2) hden
    hnear hfar

theorem intersect_single (ray : Ray K) (flt : Filters K) (tri : TriLane K)
    (hp : lanePasses plainConfig ray tri = true) :
    intersect plainConfig flt ray [tri] = updateHit ray (hitOf ray tri) := by
  obtain ⟨x, hx, -, -, he⟩ := intersect_select plainConfig flt ray [tri] (Or.inl rfl)
    ⟨tri, List.mem_cons_self _ _, hp⟩
  rw [List.mem_singleton] at hx
  rw [he, hx]

/-- Shared edges in exact arithmetic.  For two triangles that share an edge
stored with the same vertices `p`, `q` and walked in opposite directions, and
for every ray: the un-normalised Pluecker edge values the two lanes compute for
the shared edge are exact negatives of each other, and both are zero for a ray
through the edge.  A ray aimed at an interior point of the shared edge, not
parallel to either triangle and with the distance `t` inside `[tnear, tfar]`,
passes all tests of both lanes; `intersect` on the batch of the two triangles,
and likewise `intersect` on one triangle followed by `intersect` on the other,
ends with `tfar = t` and the hit of one of the two triangles recorded. -/
theorem watertight_exact (ray : Ray K) (flt : Filters K) (tri1 tri2 : TriLane K)
    (p q : Vec3 K) (h1 : (p, q) ∈ triEdges tri1) (h2 : (q, p) ∈ triEdges tri2) :
    (edgeValue ray p q ∈ rawEdgeValues ray tri1 ∧ edgeValue ray q p ∈ rawEdgeValues ray tri2
      ∧ edgeValue ray p q = -edgeValue ray q p)
    ∧ (∀ s t : K, ray.org + Vec3.smul t ray.dir = Vec3.smul (1 - s) p + Vec3.smul s q →
        edgeValue ray p q = 0 ∧ edgeValue ray q p = 0)
    ∧ (∀ s t : K, 0 < s → s < 1 →
        ray.org + Vec3.smul t ray.dir = Vec3.smul (1 - s) p + Vec3.smul s q →
        (laneCalc ray tri1).den ≠ 0 → (laneCalc ray tri2).den ≠ 0 →
        ray.tnear ≤ t → t ≤ ray.tfar →
        (lanePasses plainConfig ray tri1 = true ∧ lanePasses plainConfig ray tri2 = true)
        ∧ ((intersect plainConfig flt ray [tri1, tri2]).tfar = t
          ∧ (intersect plainConfig flt ray [tri1, tri2] = updateHit ray (hitOf ray tri1)
            ∨ intersect plainConfig flt ray [tri1, tri2] = updateHit ray (hitOf ray tri2)))
        ∧ ((intersect plainConfig flt (intersect plainConfig flt ray [tri1]) [tri2]).tfar = t
          ∧ (intersect plainConfig flt (intersect plainConfig flt ray [tri1]) [tri2]).geomID
            = tri2.geomID
          ∧ (intersect plainConfig flt (intersect plainConfig flt ray [tri1]) [tri2]).primID
            = tri2.primID)) := by
  refine ⟨⟨?_, ?_, edgeValue_swap ray p q⟩, ?_, ?_⟩
  · exact List.mem_map.2 ⟨(p, q), h1, rfl⟩
  · exact List.mem_map.2 ⟨(q, p), h2, rfl⟩
  · intro s t h
    have hz := edgeValue_through ray p q s t h
    refine ⟨hz, ?_⟩
    have := edgeValue_swap ray p q
    rw [hz] at this
    linarith
  · intro s t hs0 hs1 hP hd1 hd2 hnear hfar
    have hP2 : ray.org + Vec3.smul t ray.dir
        = Vec3.smul (1 - (1 - s)) q + Vec3.smul (1 - s) p := by
      rw [hP, Vec3.eq_iff]
      simp only [Vec3.smul, Vec3.add_x, Vec3.add_y, Vec3.add_z]
      refine ⟨?_, ?_, ?_⟩ <;> ring
    obtain ⟨hp1, ht1⟩ := passes_of_edge_point ray tri1 plainConfig rfl rfl p q h1 s t
      (le_of_lt hs0) (le_of_lt hs1) hP hd1 hnear hfar
    obtain ⟨hp2, ht2⟩ := passes_of_edge_point ray tri2 plainConfig rfl rfl q p h2 (1 - s) t
      (by linarith) (by linarith) hP2 hd2 hnear hfar
    refine ⟨⟨hp1, hp2⟩, ?_, ?_⟩
    · obtain ⟨x, hx, -, -, he⟩ := intersect_select plainConfig flt ray [tri1, tri2]
        (Or.inl rfl) ⟨tri1, List.mem_cons_self _ _, hp1⟩
      simp only [List.mem_cons, List.mem_singleton, List.not_mem_nil, or_false] at hx
      rcases hx with rfl | rfl
      · exact ⟨by rw [he]; exact ht1, Or.inl he⟩
      · exact ⟨by rw [he]; exact ht2, Or.inr he⟩
    · have hr1 := intersect_single ray flt tri1 hp1
      rw [hr1]
      obtain ⟨hp3, ht3⟩ := passes_of_edge_point (updateHit ray (hitOf ray tri1)) tri2
        plainConfig rfl rfl q p h2 (1 - s) t (by linarith) (by linarith) hP2 hd2 hnear
        (le_of_eq ht1.symm)
      rw [intersect_single _ flt tri2 hp3]
      exact ⟨ht3, rfl, rfl⟩

end Pluecker

/-! ## The Pluecker kernel: the filter loop of `intersect` -/

namespace Pluecker

variable {K : Type} [LinearOrderedField K]

/-- The lane `select_min` returns holds a minimal value among the set lanes. -/
theorem select_min_le (valid : List Bool) (ts : List K) (hlen : valid.length = ts.length)
    (j : Nat) (hj : valid.get? j = some true) :
    ts.getD (select_min valid ts) 0 ≤ ts.getD j 0 := by
  have h1 : (valid.zip ts).map Prod.fst = valid := List.map_fst_zip _ _ (by omega)
  have h2 : (valid.zip ts).map Prod.snd = ts := List.map_snd_zip _ _ (by omega)
  have hj2 : j < valid.length := by
    by_contra hc
    rw [List.get?_eq_none.2 (by omega)] at hj
    exact absurd hj (by simp)
  have hj3 : j < (valid.zip ts).length := by simp; omega
  have hvj : valid[j] = true := by
    rw [List.get?_eq_getElem?, List.getElem?_eq_getElem hj2] at hj
    exact Option.some.inj hj
  have hyj : (valid.zip ts)[j] = (true, ts[j]) := by
    rw [List.getElem_zip, hvj]
  have hmem : (valid.zip ts)[j] ∈ valid.zip ts := List.getElem_mem _
  obtain ⟨x, hget, -, -, hmin⟩ := select_min_spec (fun p : Bool × K => p.1)
    (fun p : Bool × K => p.2) (valid.zip ts) ⟨_, hmem, by rw [hyj]⟩
  rw [h1, h2] at hget
  have hle := hmin _ hmem (by rw [hyj])
  rw [hyj] at hle
  have hs : (select_min valid ts) < (valid.zip ts).length := by
    by_contra hc
    rw [List.get?_eq_none.2 (by omega)] at hget
    exact absurd hget (by simp)
  have hs2 : select_min valid ts < ts.length := by simp at hs; omega
  have hx : x = (valid.zip ts)[select_min valid ts] := by
    rw [List.get?_eq_getElem?, List.getElem?_eq_getElem hs] at hget
    exact (Option.some.inj hget).symm
  rw [hx, List.getElem_zip] at hle
  rw [List.getD_eq_getElem _ _ hs2, List.getD_eq_getElem _ _ (by omega)]
  exact hle

end Pluecker

namespace Pluecker

variable {K : Type} [LinearOrderedField K]

omit [LinearOrderedField K] in
theorem get?_set_false (valid : List Bool) (i j : Nat) :
    (valid.set i false).get? j = some true ↔ j ≠ i ∧ valid.get? j = some true := by
  rw [List.get?_eq_getElem?, List.get?_eq_getElem?]
  by_cases hij : i = j
  · subst hij
    rw [List.getElem?_set_self']
    cases valid[i]? <;> simp
  · rw [List.getElem?_set_ne hij]
    constructor
    · intro h; exact ⟨fun e => hij e.symm, h⟩
    · intro h; exact h.2

omit [LinearOrderedField K] in
theorem count_set_false (valid : List Bool) (i : Nat) (hi : valid.get? i = some true) :
    (valid.set i false).count true + 1 = valid.count true := by
  induction valid generalizing i with
  | nil => simp at hi
  | cons b bs ih =>
    cases i with
    | zero =>
      simp only [List.get?_cons_zero, Option.some.injEq] at hi
      subst hi
      simp [List.set]
    | succ i =>
      simp only [List.get?_cons_succ] at hi
      have := ih i hi
      cases b <;> simp [List.set, List.count_cons] <;> omega

/-- The ray of the recorded run is the ray of the loop. -/
theorem trace_ray (flt : Filters K) (hits : List (LaneHit K)) (fuel : Nat) :
    ∀ (valid : List Bool) (i : Nat) (ray : Ray K),
      (intersectFilterTrace flt hits fuel valid i ray).2
        = intersectFilterLoop flt hits fuel valid i ray := by
  induction fuel with
  | zero => intro valid i ray; rfl
  | succ fuel ih =>
    intro valid i ray
    unfold intersectFilterTrace intersectFilterLoop
    cases hits.get? i with
    | none => rfl
    | some h =>
      simp only []
      split_ifs
      · rfl
      · rfl
      · rfl
      · exact ih _ _ _

/-- The ray of the run is the ray the offered candidates leave one after the
other, and the recorded verdicts are those of the filters. -/
theorem trace_replay (flt : Filters K) (hits : List (LaneHit K)) (fuel : Nat) :
    ∀ (valid : List Bool) (i : Nat) (ray : Ray K),
      (intersectFilterTrace flt hits fuel valid i ray).2
        = (intersectFilterTrace flt hits fuel valid i ray).1.foldl (replayStep flt hits) ray
      ∧ verdictsOk flt hits ray (intersectFilterTrace flt hits fuel valid i ray).1 := by
  induction fuel with
  | zero => intro valid i ray; exact ⟨rfl, trivial⟩
  | succ fuel ih =>
    intro valid i ray
    unfold intersectFilterTrace
    cases hg : hits.get? i with
    | none => exact ⟨rfl, trivial⟩
    | some h =>
      simp only []
      by_cases hf : flt.hasIntersectionFilter1 h.geomID = true
      · simp only [hf, Bool.not_true, Bool.false_eq_true, if_false]
        by_cases hr : (flt.runIntersectionFilter1 h.geomID ray h.u h.v h.t h.Ng h.geomID
            h.primID).1 = true
        · simp only [hr, if_true, List.foldl_cons, List.foldl_nil, replayStep, hg, verdictsOk,
            and_true, true_and]
          exact ⟨h, rfl, hf, hr⟩
        · have hr2 : (flt.runIntersectionFilter1 h.geomID ray h.u h.v h.t h.Ng h.geomID
              h.primID).1 = false := by simpa using hr
          simp only [hr2, Bool.false_eq_true, if_false]
          split_ifs with hn
          · simp only [List.foldl_cons, List.foldl_nil, replayStep, hg, verdictsOk, and_true,
              true_and]
            exact ⟨h, rfl, hf, hr2⟩
          · obtain ⟨i1, i2⟩ := ih (valid.set i false)
              (select_min (valid.set i false) (hits.map (fun l => l.t)))
              (flt.runIntersectionFilter1 h.geomID ray h.u h.v h.t h.Ng h.geomID h.primID).2
            simp only [List.foldl_cons, verdictsOk]
            have hstep : replayStep flt hits ray (i, Verdict.rejected)
                = (flt.runIntersectionFilter1 h.geomID ray h.u h.v h.t h.Ng h.geomID
                    h.primID).2 := by
              simp only [replayStep, hg]
            rw [hstep]
            exact ⟨i1, ⟨h, hg, hf, hr2⟩, i2⟩
      · have hf2 : flt.hasIntersectionFilter1 h.geomID = false := by simpa using hf
        simp only [hf2, Bool.not_false, if_true, List.foldl_cons, List.foldl_nil, replayStep, hg,
          verdictsOk, and_true, true_and]
        exact ⟨h, rfl, hf2⟩

/-- Fuel equal to the number of set lanes is enough: more fuel gives the same
run. -/
theorem trace_fuel (flt : Filters K) (hits : List (LaneHit K)) (fuel : Nat) :
    ∀ (valid : List Bool) (i : Nat) (ray : Ray K), valid.length = hits.length →
      valid.get? i = some true → valid.count true ≤ fuel → ∀ fuel2, fuel ≤ fuel2 →
      intersectFilterTrace flt hits fuel2 valid i ray
        = intersectFilterTrace flt hits fuel valid i ray := by
  induction fuel with
  | zero =>
    intro valid i ray _ hi hc
    have := count_set_false valid i hi
    omega
  | succ fuel ih =>
    intro valid i ray hlen hi hc fuel2 hle
    obtain ⟨f2, rfl⟩ : ∃ f2, fuel2 = f2 + 1 := ⟨fuel2 - 1, by omega⟩
    unfold intersectFilterTrace
    cases hits.get? i with
    | none => rfl
    | some h =>
      simp only []
      split_ifs with h1 h2 h3
      · rfl
      · rfl
      · rfl
      · have hn : none (valid.set i false) = false := by simpa using h3
        have hcnt := count_set_false valid i hi
        rw [ih (valid.set i false) _ _ (by simpa using hlen)
          (select_min_valid _ _ (by simpa using hlen) hn) (by omega) f2 (by omega)]

end Pluecker

namespace Pluecker

variable {K : Type} [LinearOrderedField K]

omit [LinearOrderedField K] in
theorem none_get? (l : List Bool) (h : none l = true) (j : Nat) : l.get? j ≠ some true := by
  intro hj
  simp only [none, List.all_eq_true, Bool.not_eq_true'] at h
  have := h true (List.get?_mem hj)
  exact absurd this (by decide)

/-- The run of the filter loop from a lane of minimal distance among the set
lanes: the offered lanes are set lanes, pairwise different and in
non-decreasing order of distance, no lane left out is closer than an offered
one, every candidate but the last was rejected, and if the last was rejected
too then every set lane was offered. -/
theorem trace_order (flt : Filters K) (hits : List (LaneHit K)) (fuel : Nat) :
    ∀ (valid : List Bool) (i : Nat) (ray : Ray K), valid.length = hits.length →
      valid.get? i = some true →
      (∀ j, valid.get? j = some true → laneDist hits i ≤ laneDist hits j) →
      valid.count true ≤ fuel →
      (intersectFilterTrace flt hits fuel valid i ray).1 ≠ []
      ∧ (intersectFilterTrace flt hits fuel valid i ray).1.length ≤ valid.count true
      ∧ (∀ e ∈ (intersectFilterTrace flt hits fuel valid i ray).1, valid.get? e.1 = some true)
      ∧ (intersectFilterTrace flt hits fuel valid i ray).1.Pairwise
          (fun a b => a.1 ≠ b.1 ∧ laneDist hits a.1 ≤ laneDist hits b.1)
      ∧ (∀ e ∈ (intersectFilterTrace flt hits fuel valid i ray).1, ∀ j,
          valid.get? j = some true →
          j ∉ (intersectFilterTrace flt hits fuel valid i ray).1.map Prod.fst →
          laneDist hits e.1 ≤ laneDist hits j)
      ∧ (∀ e ∈ (intersectFilterTrace flt hits fuel valid i ray).1.dropLast,
          e.2 = Verdict.rejected)
      ∧ (∀ e, (intersectFilterTrace flt hits fuel valid i ray).1.getLast? = some e →
          e.2 = Verdict.rejected →
          ∀ j, valid.get? j = some true →
            j ∈ (intersectFilterTrace flt hits fuel valid i ray).1.map Prod.fst) := by
  induction fuel with
  | zero =>
    intro valid i ray _ hi _ hc
    have := count_set_false valid i hi
    omega
  | succ fuel ih =>
    intro valid i ray hlen hi hmin hc
    have hcnt := count_set_false valid i hi
    have hil : i < hits.length := by
      by_contra hcon
      rw [List.get?_eq_none.2 (by omega)] at hi
      exact absurd hi (by simp)
    obtain ⟨h, hg⟩ : ∃ h, hits.get? i = some h :=
      ⟨hits[i], by rw [List.get?_eq_getElem?, List.getElem?_eq_getElem hil]⟩
    -- a run that ends with the first candidate
    have single : ∀ v : Verdict,
        (v = Verdict.rejected → none (valid.set i false) = true) →
        ([(i, v)] : List (Nat × Verdict)) ≠ []
        ∧ ([(i, v)] : List (Nat × Verdict)).length ≤ valid.count true
        ∧ (∀ e ∈ ([(i, v)] : List (Nat × Verdict)), valid.get? e.1 = some true)
        ∧ ([(i, v)] : List (Nat × Verdict)).Pairwise
            (fun a b => a.1 ≠ b.1 ∧ laneDist hits a.1 ≤ laneDist hits b.1)
        ∧ (∀ e ∈ ([(i, v)] : List (Nat × Verdict)), ∀ j, valid.get? j = some true →
            j ∉ ([(i, v)] : List (Nat × Verdict)).map Prod.fst →
            laneDist hits e.1 ≤ laneDist hits j)
        ∧ (∀ e ∈ ([(i, v)] : List (Nat × Verdict)).dropLast, e.2 = Verdict.rejected)
        ∧ (∀ e, ([(i, v)] : List (Nat × Verdict)).getLast? = some e →
            e.2 = Verdict.rejected → ∀ j, valid.get? j = some true →
              j ∈ ([(i, v)] : List (Nat × Verdict)).map Prod.fst) := by
      intro v hv
      refine ⟨by simp, by rw [List.length_singleton]; omega, ?_, List.pairwise_singleton _ _,
        ?_, by simp, ?_⟩
      · intro e he
        rw [List.mem_singleton] at he
        rw [he]; exact hi
      · intro e he j hj _
        rw [List.mem_singleton] at he
        rw [he]; exact hmin j hj
      · intro e he hrej j hj
        simp only [List.getLast?_singleton, Option.some.injEq] at he
        rw [← he] at hrej
        have hnone := hv hrej
        by_cases hji : j = i
        · simp [hji]
        · exact absurd ((get?_set_false valid i j).2 ⟨hji, hj⟩) (none_get? _ hnone j)
    unfold intersectFilterTrace
    rw [hg]
    simp only []
    split_ifs with h1 h2 h3
    · exact single Verdict.unfiltered (fun hv => by cases hv)
    · exact single Verdict.accepted (fun hv => by cases hv)
    · exact single Verdict.rejected (fun _ => h3)
    · have hn : none (valid.set i false) = false := by simpa using h3
      have hlen1 : (valid.set i false).length = hits.length := by simpa using hlen
      have hlen2 : (valid.set i false).length = (hits.map (fun l => l.t)).length := by
        simpa using hlen
      obtain ⟨r1, r2, r3, r4, r5, r6, r7⟩ := ih (valid.set i false)
        (select_min (valid.set i false) (hits.map (fun l => l.t)))
        (flt.runIntersectionFilter1 h.geomID ray h.u h.v h.t h.Ng h.geomID h.primID).2
        hlen1 (select_min_valid _ _ hlen2 hn)
        (fun j hj => by unfold laneDist; exact select_min_le _ _ hlen2 j hj) (by omega)
      refine ⟨by simp, by simp only [List.length_cons]; omega, ?_, ?_, ?_, ?_, ?_⟩
      · intro e he
        rcases List.mem_cons.1 he with he | he
        · rw [he]; exact hi
        · exact ((get?_set_false valid i e.1).1 (r3 e he)).2
      · rw [List.pairwise_cons]
        refine ⟨?_, r4⟩
        intro e he
        have := (get?_set_false valid i e.1).1 (r3 e he)
        exact ⟨fun hie => this.1 hie.symm, hmin e.1 this.2⟩
      · intro e he j hj hnot
        simp only [List.map_cons, List.mem_cons, not_or] at hnot
        rcases List.mem_cons.1 he with he | he
        · rw [he]; exact hmin j hj
        · exact r5 e he j ((get?_set_false valid i j).2 ⟨hnot.1, hj⟩) hnot.2
      · intro e he
        rw [List.dropLast_cons_of_ne_nil r1] at he
        rcases List.mem_cons.1 he with he | he
        · rw [he]
        · exact r6 e he
      · intro e he hrej j hj
        have he2 : (intersectFilterTrace flt hits fuel (valid.set i false)
            (select_min (valid.set i false) (hits.map (fun l => l.t)))
            (flt.runIntersectionFilter1 h.geomID ray h.u h.v h.t h.Ng h.geomID
              h.primID).2).1.getLast? = some e := by
          obtain ⟨b, l, hbl⟩ := List.exists_cons_of_ne_nil r1
          rw [hbl, List.getLast?_cons_cons] at he
          rw [hbl]; exact he
        simp only [List.map_cons, List.mem_cons]
        by_cases hji : j = i
        · exact Or.inl hji
        · exact Or.inr (r7 e he2 hrej j ((get?_set_false valid i j).2 ⟨hji, hj⟩))

end Pluecker

namespace Pluecker

variable {K : Type} [LinearOrderedField K]

/-- C19. With intersection filters compiled in and at least one passing lane,
the single-ray Pluecker `intersect` is the run of its filter loop, which ends
within `N` passes for a batch of `N` triangles (more fuel gives the same run).
The candidates it offers are passing lanes, pairwise different and in
non-decreasing order of `t`, and no passing lane that is not offered is closer
than an offered one, so each candidate has minimal `t` among the passing lanes
not offered before.  Every candidate but the last was rejected by its filter;
the last one is a lane of an unfiltered geometry, or was accepted, or was
rejected with every passing lane offered.  The ray of the result is the ray
the offered candidates leave one after the other: the kernel writes the hit of
the unfiltered lane only, a filtered candidate reaches the ray through its
filter callback alone. -/
theorem filter_loop_retries (cfg : Config) (flt : Filters K) (ray : Ray K)
    (tris : List (TriLane K)) (hc : cfg.intersectionFilter = true)
    (h : ∃ tri ∈ tris, lanePasses cfg ray tri = true) :
    intersect cfg flt ray tris = (filterRun cfg flt ray tris tris.length).2
    ∧ (∀ fuel, tris.length ≤ fuel →
        filterRun cfg flt ray tris fuel = filterRun cfg flt ray tris tris.length)
    ∧ (filterRun cfg flt ray tris tris.length).1 ≠ []
    ∧ (filterRun cfg flt ray tris tris.length).1.length ≤ tris.length
    ∧ (∀ e ∈ (filterRun cfg flt ray tris tris.length).1, passingLane cfg ray tris e.1)
    ∧ (filterRun cfg flt ray tris tris.length).1.Pairwise
        (fun a b => a.1 ≠ b.1
          ∧ laneDist (tris.map (hitOf ray)) a.1 ≤ laneDist (tris.map (hitOf ray)) b.1)
    ∧ (∀ e ∈ (filterRun cfg flt ray tris tris.length).1, ∀ j, passingLane cfg ray tris j →
        j ∉ (filterRun cfg flt ray tris tris.length).1.map Prod.fst →
        laneDist (tris.map (hitOf ray)) e.1 ≤ laneDist (tris.map (hitOf ray)) j)
    ∧ (∀ e ∈ (filterRun cfg flt ray tris tris.length).1.dropLast, e.2 = Verdict.rejected)
    ∧ (∀ e, (filterRun cfg flt ray tris tris.length).1.getLast? = some e →
        e.2 = Verdict.rejected →
        ∀ j, passingLane cfg ray tris j →
          j ∈ (filterRun cfg flt ray tris tris.length).1.map Prod.fst)
    ∧ (filterRun cfg flt ray tris tris.length).2
        = (filterRun cfg flt ray tris tris.length).1.foldl
            (replayStep flt (tris.map (hitOf ray))) ray
    ∧ verdictsOk flt (tris.map (hitOf ray)) ray (filterRun cfg flt ray tris tris.length).1 := by
  have hn : none (tris.map (lanePasses cfg ray)) = false := (none_map_eq_false _ _).2 h
  have hlen : (tris.map (lanePasses cfg ray)).length = (tris.map (hitOf ray)).length := by simp
  have hlen2 : (tris.map (lanePasses cfg ray)).length
      = ((tris.map (hitOf ray)).map (fun l => l.t)).length := by simp
  have hi := select_min_valid (tris.map (lanePasses cfg ray))
    ((tris.map (hitOf ray)).map (fun l => l.t)) hlen2 hn
  have hmin : ∀ j, (tris.map (lanePasses cfg ray)).get? j = some true →
      laneDist (tris.map (hitOf ray)) (select_min (tris.map (lanePasses cfg ray))
        ((tris.map (hitOf ray)).map (fun l => l.t))) ≤ laneDist (tris.map (hitOf ray)) j :=
    fun j hj => by unfold laneDist; exact select_min_le _ _ hlen2 j hj
  have hcount : (tris.map (lanePasses cfg ray)).count true ≤ tris.length := by
    have := List.count_le_length true (tris.map (lanePasses cfg ray))
    simpa using this
  obtain ⟨r1, r2, r3, r4, r5, r6, r7⟩ := trace_order flt (tris.map (hitOf ray)) tris.length
    (tris.map (lanePasses cfg ray)) _ ray hlen hi hmin hcount
  obtain ⟨p1, p2⟩ := trace_replay flt (tris.map (hitOf ray)) tris.length
    (tris.map (lanePasses cfg ray)) (select_min (tris.map (lanePasses cfg ray))
      ((tris.map (hitOf ray)).map (fun l => l.t))) ray
  refine ⟨?_, ?_, r1, le_trans r2 hcount, r3, r4, r5, r6, r7, p1, p2⟩
  · rw [intersect_eq, hn]
    simp only [Bool.false_eq_true, if_false, hc, if_true]
    unfold filterRun
    rw [trace_ray, List.map_map]
    rfl
  · intro fuel hfuel
    exact trace_fuel flt (tris.map (hitOf ray)) tris.length (tris.map (lanePasses cfg ray)) _ ray
      hlen hi hcount fuel hfuel

end Pluecker

namespace Pluecker

theorem sample_passes_far : lanePasses filterConfig sampleRay sampleTriFar = true := by
  norm_num [lanePasses, filterConfig, sampleRay, sampleTriFar, laneCalc, Vec3.cross,
    Vec3.dot, edgeTest, depthTest, denTest, xorSign, Vec3.sub_x, Vec3.sub_y, Vec3.sub_z,
    Vec3.add_x, Vec3.add_y, Vec3.add_z]

theorem sample_passes_near : lanePasses filterConfig sampleRay sampleTriNear = true := by
  norm_num [lanePasses, filterConfig, sampleRay, sampleTriNear, laneCalc, Vec3.cross,
    Vec3.dot, edgeTest, depthTest, denTest, xorSign, Vec3.sub_x, Vec3.sub_y, Vec3.sub_z,
    Vec3.add_x, Vec3.add_y, Vec3.add_z]

theorem sample_t_far : (hitOf sampleRay sampleTriFar).t = 5 := by
  norm_num [hitOf, laneHit, sampleRay, sampleTriFar, laneCalc, Vec3.cross,
    Vec3.dot, xorSign, Vec3.sub_x, Vec3.sub_y, Vec3.sub_z,
    Vec3.add_x, Vec3.add_y, Vec3.add_z]

theorem sample_t_near : (hitOf sampleRay sampleTriNear).t = 4 := by
  norm_num [hitOf, laneHit, sampleRay, sampleTriNear, laneCalc, Vec3.cross,
    Vec3.dot, xorSign, Vec3.sub_x, Vec3.sub_y, Vec3.sub_z,
    Vec3.add_x, Vec3.add_y, Vec3.add_z]

theorem sample_run :
    (filterRun filterConfig vetoFilters sampleRay [sampleTriFar, sampleTriNear] 2).1
      = [(1, Verdict.rejected), (0, Verdict.unfiltered)] := by
  have g1 : (hitOf sampleRay sampleTriFar).geomID = 7 := rfl
  have g2 : (hitOf sampleRay sampleTriNear).geomID = 8 := rfl
  have h54 : ¬ ((5 : ℚ) ≤ 4) := by norm_num
  simp [filterRun, intersectFilterTrace, select_min, sample_passes_far, sample_passes_near,
    sample_t_far, sample_t_near, g1, g2, vetoFilters, none, h54]

end Pluecker

namespace Pluecker

/-- Witness for C19: the sample ray and the two sample triangles with filters
compiled in; the nearer triangle (lane 1) is offered first and rejected by the
filter of its geometry, then the farther one (lane 0), whose geometry has no
filter, is recorded. -/
theorem filter_loop_retries_witness :
    filterConfig.intersectionFilter = true
    ∧ lanePasses filterConfig sampleRay sampleTriFar = true
    ∧ (filterRun filterConfig vetoFilters sampleRay [sampleTriFar, sampleTriNear] 2).1
        = [(1, Verdict.rejected), (0, Verdict.unfiltered)]
    ∧ intersect filterConfig vetoFilters sampleRay [sampleTriFar, sampleTriNear]
        = (filterRun filterConfig vetoFilters sampleRay [sampleTriFar, sampleTriNear] 2).2
    ∧ ∀ fuel, 2 ≤ fuel →
        filterRun filterConfig vetoFilters sampleRay [sampleTriFar, sampleTriNear] fuel
          = filterRun filterConfig vetoFilters sampleRay [sampleTriFar, sampleTriNear] 2 :=
  ⟨rfl, sample_passes_far, sample_run,
    (filter_loop_retries filterConfig vetoFilters sampleRay [sampleTriFar, sampleTriNear] rfl
      ⟨sampleTriFar, List.mem_cons_self _ _, sample_passes_far⟩).1,
    (filter_loop_retries filterConfig vetoFilters sampleRay [sampleTriFar, sampleTriNear] rfl
      ⟨sampleTriFar, List.mem_cons_self _ _, sample_passes_far⟩).2.1⟩

end Pluecker

/-! ## The Pluecker kernel in rounded arithmetic: masks and hit selection -/

namespace Pluecker

variable {K : Type} [LinearOrderedField K]

/-- With the identity as rounding the rounded kernel is the exact kernel. -/
theorem rounded_intersect_exact (cfg : Config) (flt : Filters K) (ray : Ray K)
    (tris : List (TriLane K)) :
    Rounded.intersect id cfg flt ray tris = intersect cfg flt ray tris := rfl

/-- With the identity as rounding the rounded lane values are the exact ones. -/
theorem rounded_laneCalc_exact (ray : Ray K) (tri : TriLane K) :
    Rounded.laneCalc id ray tri = laneCalc ray tri := rfl

theorem rounded_zipWith_laneHit (fl : K → K) (ray : Ray K) (tris : List (TriLane K)) :
    List.zipWith (Rounded.laneHit fl) tris (tris.map (Rounded.laneCalc fl ray))
      = tris.map (Rounded.hitOf fl ray) := by
  induction tris with
  | nil => rfl
  | cons a l ih => simp [Rounded.hitOf, ih]

/-- The final mask of the rounded kernel is the list of the `lanePasses`
bits. -/
theorem rounded_finalMask (fl : K → K) (cfg : Config) (ray : Ray K) (tris : List (TriLane K)) :
    (if cfg.rayMask then
        tris.map (fun x => edgeTest (Rounded.laneCalc fl ray x)
          && Rounded.depthTest fl ray (Rounded.laneCalc fl ray x)
          && denTest cfg (Rounded.laneCalc fl ray x) && maskTest ray x)
      else
        tris.map (fun x => edgeTest (Rounded.laneCalc fl ray x)
          && Rounded.depthTest fl ray (Rounded.laneCalc fl ray x)
          && denTest cfg (Rounded.laneCalc fl ray x)))
      = tris.map (Rounded.lanePasses fl cfg ray) := by
  split_ifs with hm
  · apply List.map_congr_left
    intro x _
    simp [Rounded.lanePasses, hm]
  · apply List.map_congr_left
    intro x _
    simp [Rounded.lanePasses, hm]

/-- The early returns of the rounded kernel are taken exactly when the final
mask is empty. -/
theorem rounded_earlyReturns {α : Type} (fl : K → K) (cfg : Config) (ray : Ray K)
    (tris : List (TriLane K)) (r x : α) :
    (if none (tris.map (fun x => edgeTest (Rounded.laneCalc fl ray x))) then r
     else if none (tris.map
        (fun x => edgeTest (Rounded.laneCalc fl ray x)
          && Rounded.depthTest fl ray (Rounded.laneCalc fl ray x))) then r
     else if none (tris.map
        (fun x => edgeTest (Rounded.laneCalc fl ray x)
          && Rounded.depthTest fl ray (Rounded.laneCalc fl ray x)
          && denTest cfg (Rounded.laneCalc fl ray x))) then r
     else if (cfg.rayMask && none (tris.map (Rounded.lanePasses fl cfg ray))) = true then r
     else x)
    = if none (tris.map (Rounded.lanePasses fl cfg ray)) then r else x := by
  by_cases hP : none (tris.map (Rounded.lanePasses fl cfg ray)) = true
  · rw [if_pos hP]
    split_ifs with h1 h2 h3 h4
    · rfl
    · rfl
    · rfl
    · rfl
    · exfalso
      by_cases hm : cfg.rayMask = true
      · exact h4 (by simp [hm, hP])
      · have := rounded_finalMask fl cfg ray tris
        rw [if_neg hm] at this
        rw [this] at h3
        exact h3 hP
  · rw [if_neg hP]
    have hP2 : none (tris.map (Rounded.lanePasses fl cfg ray)) = false := by simpa using hP
    rw [none_map_eq_false] at hP2
    obtain ⟨y, hy, hpy⟩ := hP2
    simp only [Rounded.lanePasses, Bool.and_eq_true] at hpy
    obtain ⟨⟨⟨he, hd⟩, hn⟩, _⟩ := hpy
    have h1 : none (tris.map (fun x => edgeTest (Rounded.laneCalc fl ray x))) = false :=
      (none_map_eq_false _ _).2 ⟨y, hy, he⟩
    have h2 : none (tris.map
        (fun x => edgeTest (Rounded.laneCalc fl ray x)
          && Rounded.depthTest fl ray (Rounded.laneCalc fl ray x))) = false :=
      (none_map_eq_false _ _).2 ⟨y, hy, by simp [he, hd]⟩
    have h3 : none (tris.map
        (fun x => edgeTest (Rounded.laneCalc fl ray x)
          && Rounded.depthTest fl ray (Rounded.laneCalc fl ray x)
          && denTest cfg (Rounded.laneCalc fl ray x))) = false :=
      (none_map_eq_false _ _).2 ⟨y, hy, by simp [he, hd, hn]⟩
    have h4 : (cfg.rayMask && none (tris.map (Rounded.lanePasses fl cfg ray))) = false := by
      simp [hP]
    simp [h1, h2, h3, h4]

theorem rounded_intersect_eq (fl : K → K) (cfg : Config) (flt : Filters K) (ray : Ray K)
    (tris : List (TriLane K)) :
    Rounded.intersect fl cfg flt ray tris =
      if none (tris.map (Rounded.lanePasses fl cfg ray)) then ray
      else if cfg.intersectionFilter then
        intersectFilterLoop flt (tris.map (Rounded.hitOf fl ray)) tris.length
          (tris.map (Rounded.lanePasses fl cfg ray))
          (select_min (tris.map (Rounded.lanePasses fl cfg ray))
            (tris.map (fun tri => (Rounded.hitOf fl ray tri).t)))
          ray
      else
        match (tris.map (Rounded.hitOf fl ray)).get?
          (select_min (tris.map (Rounded.lanePasses fl cfg ray))
            (tris.map (fun tri => (Rounded.hitOf fl ray tri).t))) with
        | Option.none => ray
        | some h => updateHit ray h := by
  unfold Rounded.intersect
  simp only [rounded_zipWith_laneHit, List.map_map, Function.comp_def, maskAnd_map,
    rounded_finalMask]
  exact rounded_earlyReturns fl cfg ray tris ray _

/-- When no lane passes, the rounded kernel leaves the ray as it is. -/
theorem rounded_intersect_no_lane (fl : K → K) (cfg : Config) (flt : Filters K) (ray : Ray K)
    (tris : List (TriLane K)) (h : ∀ tri ∈ tris, Rounded.lanePasses fl cfg ray tri = false) :
    Rounded.intersect fl cfg flt ray tris = ray := by
  rw [rounded_intersect_eq, if_pos ((none_map_eq_true _ _).2 h)]

/-- With filters that accept or reject, the rounded kernel leaves the ray as
it is or records the hit of a passing lane. -/
theorem rounded_intersect_cases (fl : K → K) (cfg : Config) (flt : Filters K) (ray : Ray K)
    (tris : List (TriLane K)) (hf : acceptRejectFilter cfg flt tris) :
    Rounded.intersect fl cfg flt ray tris = ray
    ∨ ∃ tri ∈ tris, Rounded.lanePasses fl cfg ray tri = true
        ∧ Rounded.intersect fl cfg flt ray tris = updateHit ray (Rounded.hitOf fl ray tri) := by
  by_cases h : ∃ tri ∈ tris, Rounded.lanePasses fl cfg ray tri = true
  · have hn : none (tris.map (Rounded.lanePasses fl cfg ray)) = false :=
      (none_map_eq_false _ _).2 h
    by_cases hc : cfg.intersectionFilter = true
    · rw [rounded_intersect_eq, hn]
      simp only [Bool.false_eq_true, if_false, hc, if_true]
      have hcon : ∀ h ∈ tris.map (Rounded.hitOf fl ray),
          flt.hasIntersectionFilter1 h.geomID = true → ∀ r : Ray K,
          flt.runIntersectionFilter1 h.geomID r h.u h.v h.t h.Ng h.geomID h.primID
            = (true, updateHit r h)
          ∨ flt.runIntersectionFilter1 h.geomID r h.u h.v h.t h.Ng h.geomID h.primID
            = (false, r) := by
        intro h hh hhas r
        obtain ⟨tri, htri, rfl⟩ := List.mem_map.1 hh
        exact hf hc tri htri hhas r (Rounded.hitOf fl ray tri)
      rcases filterLoop_cases flt (tris.map (Rounded.hitOf fl ray)) hcon
        (tris.map (Rounded.lanePasses fl cfg ray)) tris.length
        (tris.map (Rounded.lanePasses fl cfg ray))
        (select_min (tris.map (Rounded.lanePasses fl cfg ray))
          (tris.map (fun tri => (Rounded.hitOf fl ray tri).t)))
        ray (by simp) (fun _ hj => hj)
        (select_min_valid _ _ (by simp) hn) with hr | ⟨j, hh, hj, hg, hr⟩
      · exact Or.inl hr
      · right
        rw [List.get?_eq_getElem?, List.getElem?_map] at hj hg
        cases ht : tris[j]? with
        | none => rw [ht] at hj; simp at hj
        | some tri =>
          rw [ht] at hj hg
          simp only [Option.map_some', Option.some.injEq] at hj hg
          refine ⟨tri, List.get?_mem (by rw [List.get?_eq_getElem?]; exact ht), hj, ?_⟩
          rw [hr, ← hg]
    · obtain ⟨x, hget, hx, hvx, -⟩ := select_min_spec (Rounded.lanePasses fl cfg ray)
        (fun tri => (Rounded.hitOf fl ray tri).t) tris h
      have hget2 : (tris.map (Rounded.hitOf fl ray)).get?
          (select_min (tris.map (Rounded.lanePasses fl cfg ray))
            (tris.map (fun tri => (Rounded.hitOf fl ray tri).t)))
          = some (Rounded.hitOf fl ray x) := by
        rw [List.get?_eq_getElem?, List.getElem?_map, ← List.get?_eq_getElem?, hget]; rfl
      refine Or.inr ⟨x, hx, hvx, ?_⟩
      rw [rounded_intersect_eq, hn]
      simp only [Bool.false_eq_true, if_false]
      rw [if_neg hc, hget2]
  · left
    apply rounded_intersect_no_lane
    intro tri ht
    by_contra hp
    exact h ⟨tri, ht, by simpa using hp⟩

end Pluecker

/-! ## The Pluecker kernel: `tfar` under rounding and filters -/

namespace Binary32

theorem rnPos_zero : rnPos 0 = 0 := rfl

/-- Rounding to binary32 is an odd function. -/
theorem rn_neg (x : ℚ) : rn (-x) = -rn x := by
  unfold rn
  rcases lt_trichotomy x 0 with h | h | h
  · have h1 : ¬ (-x < 0) := by linarith
    rw [if_neg h1, if_pos h]
    simp
  · rw [h]
    simp [rnPos_zero]
  · have h1 : -x < 0 := by linarith
    have h2 : ¬ (x < 0) := by linarith
    rw [if_pos h1, if_neg h2]
    simp

end Binary32

namespace Pluecker

variable {K : Type} [LinearOrderedField K]

/-- C8 (as stated, refuted).  Two runs of the kernel in which `ray.tfar` grows.
In binary32, without filters: the numbers of `ulpRay` and `ulpTri` are binary32
numbers, the lane passes all tests, the depth test among them
(`T = absDen * tfar` after rounding), and the kernel stores the rounded
quotient `T / absDen`, which is the binary32 number next above the `tfar` the
ray had.  In exact arithmetic, with the filter of `growFilters`, a callback
that accepts the candidate and writes `tfar` itself: the ray ends with
`tfar = 1000`, it was `100`. -/
theorem intersect_tfar_grows :
    (Binary32.rn ulpRay.dir.z = ulpRay.dir.z ∧ Binary32.rn ulpRay.tfar = ulpRay.tfar
      ∧ Binary32.rn ulpTri.v0.z = ulpTri.v0.z
      ∧ Rounded.lanePasses Binary32.rn plainConfig ulpRay ulpTri = true
      ∧ ulpRay.tfar = 15497397 / 8388608
      ∧ (Rounded.intersect Binary32.rn plainConfig sampleFilters ulpRay [ulpTri]).tfar
          = 15497398 / 8388608
      ∧ ulpRay.tfar
          < (Rounded.intersect Binary32.rn plainConfig sampleFilters ulpRay [ulpTri]).tfar)
    ∧ (sampleRay.tfar = 100
      ∧ (intersect filterConfig growFilters sampleRay [sampleTriNear]).tfar = 1000) := by
  refine ⟨⟨?_, ?_, ?_, ?_, ?_, ?_, ?_⟩, ?_, ?_⟩ <;> decide!

/-- C8 (amended).  With intersection filters that accept or reject a candidate
(in particular with no filter on the batch), in rounded arithmetic with any
rounding: the single-ray Pluecker `intersect` never modifies `ray.org`,
`ray.dir` and `ray.tnear`, leaves the ray unchanged if no lane passes all
tests, and otherwise leaves it unchanged or records the hit of a lane that
passed all tests, whose `tfar` is the rounded quotient `T / absDen` with
`absDen*tnear <= T <= absDen*tfar` for the rounded products.  In exact
arithmetic the kernel never increases `ray.tfar`, and when `tfar` changes the
new value is at least `tnear`. -/
theorem intersect_tfar_shrinks (fl : K → K) (cfg : Config) (flt : Filters K) (ray : Ray K)
    (tris : List (TriLane K)) (hf : acceptRejectFilter cfg flt tris) :
    ((Rounded.intersect fl cfg flt ray tris).org = ray.org
      ∧ (Rounded.intersect fl cfg flt ray tris).dir = ray.dir
      ∧ (Rounded.intersect fl cfg flt ray tris).tnear = ray.tnear
      ∧ ((∀ tri ∈ tris, Rounded.lanePasses fl cfg ray tri = false) →
          Rounded.intersect fl cfg flt ray tris = ray)
      ∧ (Rounded.intersect fl cfg flt ray tris = ray
        ∨ ∃ tri ∈ tris, Rounded.lanePasses fl cfg ray tri = true
            ∧ Rounded.intersect fl cfg flt ray tris = updateHit ray (Rounded.hitOf fl ray tri)
            ∧ (Rounded.intersect fl cfg flt ray tris).tfar
                = fl ((Rounded.laneCalc fl ray tri).T / (Rounded.laneCalc fl ray tri).absDen)
            ∧ fl ((Rounded.laneCalc fl ray tri).absDen * ray.tnear)
                ≤ (Rounded.laneCalc fl ray tri).T
            ∧ (Rounded.laneCalc fl ray tri).T
                ≤ fl ((Rounded.laneCalc fl ray tri).absDen * ray.tfar)))
    ∧ ((intersect cfg flt ray tris).tfar ≤ ray.tfar
      ∧ ((intersect cfg flt ray tris).tfar ≠ ray.tfar →
          ray.tnear ≤ (intersect cfg flt ray tris).tfar)
      ∧ ((∀ tri ∈ tris, lanePasses cfg ray tri = false) → intersect cfg flt ray tris = ray)
      ∧ (intersect cfg flt ray tris).org = ray.org
      ∧ (intersect cfg flt ray tris).dir = ray.dir
      ∧ (intersect cfg flt ray tris).tnear = ray.tnear) := by
  refine ⟨?_, tfar_shrinks_exact cfg flt ray tris hf⟩
  have hno := rounded_intersect_no_lane fl cfg flt ray tris
  rcases rounded_intersect_cases fl cfg flt ray tris hf with he | ⟨tri, ht, hp, he⟩
  · exact ⟨by rw [he], by rw [he], by rw [he], hno, Or.inl he⟩
  · refine ⟨by rw [he]; rfl, by rw [he]; rfl, by rw [he]; rfl, hno,
      Or.inr ⟨tri, ht, hp, he, by rw [he]; rfl, ?_, ?_⟩⟩
    · have hd : Rounded.depthTest fl ray (Rounded.laneCalc fl ray tri) = true := by
        simp only [Rounded.lanePasses, Bool.and_eq_true] at hp
        exact hp.1.1.2
      simp only [Rounded.depthTest, Bool.and_eq_true, decide_eq_true_eq, ge_iff_le] at hd
      exact hd.1
    · have hd : Rounded.depthTest fl ray (Rounded.laneCalc fl ray tri) = true := by
        simp only [Rounded.lanePasses, Bool.and_eq_true] at hp
        exact hp.1.1.2
      simp only [Rounded.depthTest, Bool.and_eq_true, decide_eq_true_eq, ge_iff_le] at hd
      exact hd.2

/-- Witness for C8 (amended): the sample ray and the two sample triangles in
binary32, the nearer of which belongs to a geometry whose filter rejects every
candidate; the ray ends with the hit of the farther triangle at `t = 5`. -/
theorem intersect_tfar_shrinks_witness :
    acceptRejectFilter filterConfig vetoFilters [sampleTriFar, sampleTriNear]
    ∧ (Rounded.intersect Binary32.rn filterConfig vetoFilters sampleRay
        [sampleTriFar, sampleTriNear]).org = sampleRay.org
    ∧ (Rounded.intersect Binary32.rn filterConfig vetoFilters sampleRay
        [sampleTriFar, sampleTriNear]).tfar = 5
    ∧ (intersect filterConfig vetoFilters sampleRay [sampleTriFar, sampleTriNear]).tfar
        ≤ sampleRay.tfar :=
  have h := intersect_tfar_shrinks Binary32.rn filterConfig vetoFilters sampleRay
    [sampleTriFar, sampleTriNear] (fun _ _ _ _ _ _ => Or.inr rfl)
  ⟨fun _ _ _ _ _ _ => Or.inr rfl, h.1.1, by decide!, h.2.1⟩

end Pluecker

/-! ## The Pluecker kernel: shared edges under rounding -/

namespace Pluecker

variable {K : Type} [LinearOrderedField K]

/-- The edge values of a lane of the rounded kernel are the un-normalised edge
values with the sign of the denominator applied. -/
theorem rounded_lane_edge_values (fl : K → K) (ray : Ray K) (tri : TriLane K) :
    [(Rounded.laneCalc fl ray tri).U, (Rounded.laneCalc fl ray tri).V,
        (Rounded.laneCalc fl ray tri).W]
      = (Rounded.rawEdgeValues fl ray tri).map
          (fun x => xorSign x (Rounded.laneCalc fl ray tri).den) := rfl

/-- With a rounding that is an odd function, the rounded edge value changes
its sign, and nothing else, when the edge is walked in the opposite
direction. -/
theorem rounded_edgeValue_swap (fl : K → K) (hodd : ∀ x, fl (-x) = -fl x) (ray : Ray K)
    (p q : Vec3 K) :
    Rounded.edgeValue fl ray p q = -Rounded.edgeValue fl ray q p := by
  have hsub : ∀ a b : K, fl (a - b) = -fl (b - a) := by
    intro a b
    rw [← hodd, neg_sub]
  have hmul : ∀ a b : K, fl (a * -b) = -fl (a * b) := by
    intro a b
    rw [mul_neg, hodd]
  have hmul2 : ∀ a b : K, fl (-a * b) = -fl (a * b) := by
    intro a b
    rw [neg_mul, hodd]
  have hdiff : ∀ a b : K, fl (-a - -b) = -fl (a - b) := by
    intro a b
    rw [← hodd]
    congr 1
    ring
  have hsum : ∀ a b : K, fl (-a + -b) = -fl (a + b) := by
    intro a b
    rw [← hodd, neg_add]
  simp only [Rounded.edgeValue, Rounded.dot, Rounded.cross, Rounded.add, Rounded.sub]
  rw [hsub (fl (p.x - ray.org.x)) (fl (q.x - ray.org.x)),
    hsub (fl (p.y - ray.org.y)) (fl (q.y - ray.org.y)),
    hsub (fl (p.z - ray.org.z)) (fl (q.z - ray.org.z)),
    add_comm (fl (p.x - ray.org.x)) (fl (q.x - ray.org.x)),
    add_comm (fl (p.y - ray.org.y)) (fl (q.y - ray.org.y)),
    add_comm (fl (p.z - ray.org.z)) (fl (q.z - ray.org.z))]
  simp only [hmul, hdiff, hmul2, hsum, neg_neg]

/-- Of two opposite values, one is non-negative after the sign of a
denominator is applied, when the two denominators have the same sign. -/
theorem xorSign_same_side (e d1 d2 : K) (h : (0 < d1 ∧ 0 < d2) ∨ (d1 < 0 ∧ d2 < 0)) :
    0 ≤ xorSign e d1 ∨ 0 ≤ xorSign (-e) d2 := by
  rcases h with ⟨h1, h2⟩ | ⟨h1, h2⟩
  · rw [xorSign, xorSign, if_neg (not_lt.2 (le_of_lt h1)), if_neg (not_lt.2 (le_of_lt h2))]
    rcases le_total 0 e with he | he
    · exact Or.inl he
    · exact Or.inr (neg_nonneg.2 he)
  · rw [xorSign, xorSign, if_pos h1, if_pos h2, neg_neg]
    rcases le_total 0 e with he | he
    · exact Or.inr he
    · exact Or.inl (neg_nonneg.2 he)

/-- C10 (as stated, refuted).  The triangles `silTri1` and `silTri2` share the
edge from `(-370, -482, -601)` to `(-564, 758, -17)`, stored with the same
vertices and walked in opposite directions, and `silRay` is aimed exactly at
the midpoint of that edge, which it reaches at `t = 1` inside `[0, 100]`; all
coordinates are integers below `2 ^ 24`, hence binary32 numbers, and the ray is
parallel to neither triangle.  In binary32 the two lanes compute the edge
values `-32` and `32` for the shared edge, not zero; the denominators of the
two lanes have opposite signs, so after the sign of the denominator is applied
the value is `-32` in both lanes, both lanes fail the edge test and
`intersect` records no hit.  In exact arithmetic both lanes pass and the hit is
recorded at `t = 1`. -/
theorem shared_edge_no_hit :
    ((silTri1.v0, silTri1.v2) ∈ triEdges silTri1 ∧ (silTri1.v2, silTri1.v0) ∈ triEdges silTri2
      ∧ silRay.org + Vec3.smul 1 silRay.dir
          = Vec3.smul (1 - 1 / 2) silTri1.v0 + Vec3.smul (1 / 2) silTri1.v2
      ∧ silRay.tnear ≤ 1 ∧ 1 ≤ silRay.tfar
      ∧ (laneCalc silRay silTri1).den ≠ 0 ∧ (laneCalc silRay silTri2).den ≠ 0)
    ∧ (Rounded.edgeValue Binary32.rn silRay silTri1.v0 silTri1.v2 = -32
      ∧ Rounded.edgeValue Binary32.rn silRay silTri1.v2 silTri1.v0 = 32
      ∧ 0 < (Rounded.laneCalc Binary32.rn silRay silTri1).den
      ∧ (Rounded.laneCalc Binary32.rn silRay silTri2).den < 0
      ∧ (Rounded.laneCalc Binary32.rn silRay silTri1).U = -32
      ∧ (Rounded.laneCalc Binary32.rn silRay silTri2).U = -32
      ∧ Rounded.lanePasses Binary32.rn plainConfig silRay silTri1 = false
      ∧ Rounded.lanePasses Binary32.rn plainConfig silRay silTri2 = false
      ∧ (Rounded.intersect Binary32.rn plainConfig sampleFilters silRay
          [silTri1, silTri2]).geomID = -1
      ∧ (Rounded.intersect Binary32.rn plainConfig sampleFilters silRay
          [silTri1, silTri2]).tfar = 100)
    ∧ (lanePasses plainConfig silRay silTri1 = true
      ∧ lanePasses plainConfig silRay silTri2 = true
      ∧ (intersect plainConfig sampleFilters silRay [silTri1, silTri2]).tfar = 1) := by
  refine ⟨⟨?_, ?_, ?_, ?_, ?_, ?_, ?_⟩, ⟨?_, ?_, ?_, ?_, ?_, ?_, ?_, ?_, ?_, ?_⟩, ?_, ?_, ?_⟩
    <;> decide!

/-- C10 (amended).  Watertightness.  For two triangles that share an edge
stored with the same vertices `p`, `q` and walked in opposite directions, and
for every ray: the un-normalised Pluecker edge values the two lanes compute
for the shared edge are exact negatives of each other, in exact arithmetic and
in rounded arithmetic with any rounding that is an odd function; the edge
values `U`, `V`, `W` of a lane are these values with the sign of the
denominator applied, so of two lanes whose denominators have the same sign at
least one has a non-negative value for the shared edge.  In exact arithmetic
both values are zero for a ray through the edge, and a ray aimed at an interior
point of the shared edge, not parallel to either triangle and with the
distance `t` inside `[tnear, tfar]`, passes all tests of both lanes;
`intersect` on the batch of the two triangles, and likewise `intersect` on one
triangle followed by `intersect` on the other, ends with `tfar = t` and the hit
of one of the two triangles recorded. -/
theorem watertight_shared_edge (fl : K → K) (hodd : ∀ x, fl (-x) = -fl x) (ray : Ray K)
    (flt : Filters K) (tri1 tri2 : TriLane K)
    (p q : Vec3 K) (h1 : (p, q) ∈ triEdges tri1) (h2 : (q, p) ∈ triEdges tri2) :
    (Rounded.edgeValue fl ray p q ∈ Rounded.rawEdgeValues fl ray tri1
      ∧ Rounded.edgeValue fl ray q p ∈ Rounded.rawEdgeValues fl ray tri2
      ∧ Rounded.edgeValue fl ray p q = -Rounded.edgeValue fl ray q p
      ∧ [(Rounded.laneCalc fl ray tri1).U, (Rounded.laneCalc fl ray tri1).V,
            (Rounded.laneCalc fl ray tri1).W]
          = (Rounded.rawEdgeValues fl ray tri1).map
              (fun x => xorSign x (Rounded.laneCalc fl ray tri1).den)
      ∧ [(Rounded.laneCalc fl ray tri2).U, (Rounded.laneCalc fl ray tri2).V,
            (Rounded.laneCalc fl ray tri2).W]
          = (Rounded.rawEdgeValues fl ray tri2).map
              (fun x => xorSign x (Rounded.laneCalc fl ray tri2).den)
      ∧ ((0 < (Rounded.laneCalc fl ray tri1).den ∧ 0 < (Rounded.laneCalc fl ray tri2).den)
          ∨ ((Rounded.laneCalc fl ray tri1).den < 0 ∧ (Rounded.laneCalc fl ray tri2).den < 0) →
        0 ≤ xorSign (Rounded.edgeValue fl ray p q) (Rounded.laneCalc fl ray tri1).den
        ∨ 0 ≤ xorSign (Rounded.edgeValue fl ray q p) (Rounded.laneCalc fl ray tri2).den))
    ∧ (edgeValue ray p q ∈ rawEdgeValues ray tri1 ∧ edgeValue ray q p ∈ rawEdgeValues ray tri2
      ∧ edgeValue ray p q = -edgeValue ray q p)
    ∧ (∀ s t : K, ray.org + Vec3.smul t ray.dir = Vec3.smul (1 - s) p + Vec3.smul s q →
        edgeValue ray p q = 0 ∧ edgeValue ray q p = 0)
    ∧ (∀ s t : K, 0 < s → s < 1 →
        ray.org + Vec3.smul t ray.dir = Vec3.smul (1 - s) p + Vec3.smul s q →
        (laneCalc ray tri1).den ≠ 0 → (laneCalc ray tri2).den ≠ 0 →
        ray.tnear ≤ t → t ≤ ray.tfar →
        (lanePasses plainConfig ray tri1 = true ∧ lanePasses plainConfig ray tri2 = true)
        ∧ ((intersect plainConfig flt ray [tri1, tri2]).tfar = t
          ∧ (intersect plainConfig flt ray [tri1, tri2] = updateHit ray (hitOf ray tri1)
            ∨ intersect plainConfig flt ray [tri1, tri2] = updateHit ray (hitOf ray tri2)))
        ∧ ((intersect plainConfig flt (intersect plainConfig flt ray [tri1]) [tri2]).tfar = t
          ∧ (intersect plainConfig flt (intersect plainConfig flt ray [tri1]) [tri2]).geomID
            = tri2.geomID
          ∧ (intersect plainConfig flt (intersect plainConfig flt ray [tri1]) [tri2]).primID
            = tri2.primID)) := by
  obtain ⟨e1, e2, e3⟩ := watertight_exact ray flt tri1 tri2 p q h1 h2
  have hswap := rounded_edgeValue_swap fl hodd ray p q
  have hswap2 : Rounded.edgeValue fl ray q p = -Rounded.edgeValue fl ray p q := by
    rw [hswap, neg_neg]
  refine ⟨⟨?_, ?_, hswap, rfl, rfl, ?_⟩, e1, e2, e3⟩
  · exact List.mem_map.2 ⟨(p, q), h1, rfl⟩
  · exact List.mem_map.2 ⟨(q, p), h2, rfl⟩
  · intro h
    rw [hswap2]
    exact xorSign_same_side _ _ _ h

/-- Witness for C10 (amended): `sampleTriFar` and `sampleTriNeighbour` share the
edge from `(-1, 3, 5)` to `(3, -1, 5)`; in binary32 the two edge values are
negatives of each other, and in exact arithmetic `sampleEdgeRay` meets the
midpoint of the edge at distance `1`. -/
theorem watertight_shared_edge_witness :
    Rounded.edgeValue Binary32.rn sampleEdgeRay ⟨-1, 3, 5⟩ ⟨3, -1, 5⟩
      = -Rounded.edgeValue Binary32.rn sampleEdgeRay ⟨3, -1, 5⟩ ⟨-1, 3, 5⟩
    ∧ edgeValue sampleEdgeRay ⟨-1, 3, 5⟩ ⟨3, -1, 5⟩
      = -edgeValue sampleEdgeRay ⟨3, -1, 5⟩ ⟨-1, 3, 5⟩
    ∧ (lanePasses plainConfig sampleEdgeRay sampleTriFar = true
      ∧ lanePasses plainConfig sampleEdgeRay sampleTriNeighbour = true)
    ∧ (intersect plainConfig sampleFilters sampleEdgeRay
        [sampleTriFar, sampleTriNeighbour]).tfar = 1 :=
  have h := watertight_shared_edge Binary32.rn Binary32.rn_neg sampleEdgeRay sampleFilters
    sampleTriFar sampleTriNeighbour ⟨-1, 3, 5⟩ ⟨3, -1, 5⟩
    (List.mem_cons_of_mem _ (List.mem_cons_of_mem _ (List.mem_cons_self _ _)))
    (List.mem_cons_self _ _)
  have h3 := h.2.2.2 (1 / 2) 1 (by norm_num) (by norm_num)
    (by
      rw [Vec3.eq_iff]
      norm_num [sampleEdgeRay, Vec3.smul, Vec3.add_x, Vec3.add_y, Vec3.add_z])
    (by
      norm_num [sampleEdgeRay, sampleTriFar, laneCalc, Vec3.cross, Vec3.dot, Vec3.sub_x,
        Vec3.sub_y, Vec3.sub_z, Vec3.add_x, Vec3.add_y, Vec3.add_z])
    (by
      norm_num [sampleEdgeRay, sampleTriNeighbour, laneCalc, Vec3.cross, Vec3.dot, Vec3.sub_x,
        Vec3.sub_y, Vec3.sub_z, Vec3.add_x, Vec3.add_y, Vec3.add_z])
    (by norm_num [sampleEdgeRay]) (by norm_num [sampleEdgeRay])
  ⟨h.1.2.2.1, h.2.1.2.2, h3.1, h3.2.1.1⟩

end Pluecker

/-! ## Object partition: the sweeps of `best` -/

namespace ObjectPartition

variable {K : Type} [LinearOrderedCommRing K]

theorem wrap32_add_left (a b : Int) : wrap32 (wrap32 a + b) = wrap32 (a + b) := by
  unfold wrap32
  omega

theorem wrap32_zero : wrap32 0 = 0 := by decide

theorem rightBins_step (BINS pos : Nat) (h : pos + 1 ≤ BINS) :
    rightBins BINS pos = rightBins BINS (pos + 1) ++ [pos] := by
  unfold rightBins
  have e : BINS - pos = (BINS - (pos + 1)) + 1 := by omega
  rw [e, List.range'_succ, List.reverse_cons]

theorem rightBins_self (BINS : Nat) : rightBins BINS BINS = [] := by
  simp [rightBins]

namespace BinInfo

/-- The running count and boxes of the sweep from right to left after `k`
passes are those of the bins `BINS-k, ..., BINS-1`. -/
theorem sweepRightAfter_acc (BINS : Nat) (b : BinInfo K) (k : Nat) (hk : k ≤ BINS) (d : Fin 3) :
    (sweepRightAfter BINS b k).count d = rightCount BINS b d (BINS - k)
    ∧ (sweepRightAfter BINS b k).box d = rightBox BINS b d (BINS - k) := by
  induction k with
  | zero =>
    simp [sweepRightAfter, sweepRightInit, rightCount, rightBox, rightBins_self, wrap32_zero]
  | succ k ih =>
    obtain ⟨ih1, ih2⟩ := ih (by omega)
    have e1 : BINS - (k + 1) + 1 = BINS - k := by omega
    have e2 : BINS - 1 - k = BINS - (k + 1) := by omega
    have hb := rightBins_step BINS (BINS - (k + 1)) (by omega)
    rw [e1] at hb
    constructor
    · simp only [sweepRightAfter, sweepRightStep, ih1, e2]
      simp only [rightCount, hb, List.map_append, List.sum_append, List.map_cons, List.map_nil,
        List.sum_cons, List.sum_nil, add_zero, wrap32_add_left]
    · simp only [sweepRightAfter, sweepRightStep, ih2, e2]
      simp only [rightBox, hb, List.foldl_append, List.foldl_cons, List.foldl_nil]

/-- The arrays `rCounts` and `rAreas` hold, at every index written so far, the
count and the area of the bins from that index to the right. -/
theorem sweepRightAfter_arrays (BINS : Nat) (b : BinInfo K) (k : Nat) (hk : k ≤ BINS)
    (i : Nat) (hi1 : BINS - k ≤ i) (hi2 : i + 1 ≤ BINS) (d : Fin 3) :
    (sweepRightAfter BINS b k).rCounts i d = rightCount BINS b d i
    ∧ (sweepRightAfter BINS b k).rAreas i d = BBox.halfArea (rightBox BINS b d i) := by
  induction k with
  | zero => omega
  | succ k ih =>
    have e2 : BINS - 1 - k = BINS - (k + 1) := by omega
    obtain ⟨a1, a2⟩ := sweepRightAfter_acc BINS b (k + 1) hk d
    by_cases hik : i = BINS - (k + 1)
    · subst hik
      simp only [sweepRightAfter, sweepRightStep, e2, if_true] at a1 a2 ⊢
      exact ⟨a1, by rw [a2]⟩
    · obtain ⟨ih1, ih2⟩ := ih (by omega) (by omega)
      simp only [sweepRightAfter, sweepRightStep, e2, if_neg hik]
      exact ⟨ih1, ih2⟩

/-- The running count and boxes of the sweep from left to right after `k`
passes are those of the bins `0, ..., k-1`. -/
theorem sweepLeftAfter_acc (blocks : Int → Int) (b : BinInfo K) (r : SweepR K) (k : Nat)
    (d : Fin 3) :
    (sweepLeftAfter blocks b r k).count d = leftCount b d k
    ∧ (sweepLeftAfter blocks b r k).box d = leftBox b d k := by
  induction k with
  | zero => simp [sweepLeftAfter, sweepLeftInit, leftCount, leftBox, wrap32_zero]
  | succ k ih =>
    obtain ⟨ih1, ih2⟩ := ih
    constructor
    · simp only [sweepLeftAfter, sweepLeftStep, ih1, Nat.add_sub_cancel]
      simp only [leftCount, List.range_succ, List.map_append, List.sum_append, List.map_cons,
        List.map_nil, List.sum_cons, List.sum_nil, add_zero, wrap32_add_left]
    · simp only [sweepLeftAfter, sweepLeftStep, ih2, Nat.add_sub_cancel]
      simp only [leftBox, List.range_succ, List.foldl_append, List.foldl_cons, List.foldl_nil]

/-- The cost computed in pass `i` of the sweep from left to right is the cost
of the candidate `(d, i)`. -/
theorem sah_pass (BINS : Nat) (blocks : Int → Int) (b : BinInfo K) (k : Nat)
    (hk : k + 2 ≤ BINS) (d : Fin 3) :
    sahOf blocks (sweepRight BINS b)
      (fun d => wrap32 ((sweepLeftAfter blocks b (sweepRight BINS b) k).count d
        + b.counts (k + 1 - 1) d))
      (fun d => ((sweepLeftAfter blocks b (sweepRight BINS b) k).box d).extend
        (b.bounds (k + 1 - 1) d))
      (k + 1) d
    = candidateCost BINS blocks b d (k + 1) := by
  obtain ⟨a1, a2⟩ := sweepLeftAfter_acc blocks b (sweepRight BINS b) (k + 1) d
  simp only [sweepLeftAfter, sweepLeftStep] at a1 a2
  obtain ⟨r1, r2⟩ := sweepRightAfter_arrays BINS b (BINS - 1) (by omega) (k + 1) (by omega)
    (by omega) d
  simp only [sahOf, candidateCost, a1, a2]
  rw [show sweepRight BINS b = sweepRightAfter BINS b (BINS - 1) from rfl, r1, r2]

/-- The running best of the sweep from left to right after `k` passes: it is not
NaN, it is at most every cost seen so far that is not NaN, and it is the cost
at the position recorded with it. -/
theorem sweepLeftAfter_best (BINS : Nat) (blocks : Int → Int) (b : BinInfo K) (k : Nat)
    (hk : k ≤ BINS - 1) (d : Fin 3) :
    FVal.isNaN ((sweepLeftAfter blocks b (sweepRight BINS b) k).vbestSAH d) = false
    ∧ (∀ i : Nat, 1 ≤ i → i ≤ k → FVal.isNaN (candidateCost BINS blocks b d i) = false →
        FVal.le ((sweepLeftAfter blocks b (sweepRight BINS b) k).vbestSAH d)
          (candidateCost BINS blocks b d i) = true)
    ∧ (((sweepLeftAfter blocks b (sweepRight BINS b) k).vbestPos d = 0
        ∧ (sweepLeftAfter blocks b (sweepRight BINS b) k).vbestSAH d = FVal.pinf)
      ∨ ∃ i : Nat, 1 ≤ i ∧ i ≤ k
        ∧ (sweepLeftAfter blocks b (sweepRight BINS b) k).vbestPos d = (i : Int)
        ∧ (sweepLeftAfter blocks b (sweepRight BINS b) k).vbestSAH d
          = candidateCost BINS blocks b d i) := by
  induction k with
  | zero =>
    refine ⟨rfl, ?_, Or.inl ⟨rfl, rfl⟩⟩
    intro i h1 h2
    omega
  | succ k ih =>
    obtain ⟨ih1, ih2, ih3⟩ := ih (by omega)
    have hs := sah_pass BINS blocks b k (by omega) d
    simp only [sweepLeftAfter, sweepLeftStep]
    rw [hs]
    by_cases hlt : FVal.lt (candidateCost BINS blocks b d (k + 1))
        ((sweepLeftAfter blocks b (sweepRight BINS b) k).vbestSAH d) = true
    · simp only [hlt, if_true]
      refine ⟨FVal.lt_notNaN_left hlt, ?_, Or.inr ⟨k + 1, by omega, le_refl _, rfl, rfl⟩⟩
      intro i h1 h2 hn
      by_cases hik : i = k + 1
      · subst hik
        exact FVal.le_refl hn
      · exact FVal.le_trans (FVal.le_of_lt hlt) (ih2 i h1 (by omega) hn)
    · have hlt2 : FVal.lt (candidateCost BINS blocks b d (k + 1))
          ((sweepLeftAfter blocks b (sweepRight BINS b) k).vbestSAH d) = false := by
        simpa using hlt
      simp only [hlt2, Bool.false_eq_true, if_false]
      refine ⟨ih1, ?_, ?_⟩
      · intro i h1 h2 hn
        by_cases hik : i = k + 1
        · subst hik
          exact FVal.le_of_not_lt hn ih1 hlt2
        · exact ih2 i h1 (by omega) hn
      · rcases ih3 with h0 | ⟨i, h1, h2, h3, h4⟩
        · exact Or.inl h0
        · exact Or.inr ⟨i, h1, by omega, h3, h4⟩

/-- The search for the best dimension over a list of dimensions. -/
theorem bestDim_fold {S : Type} (mapping : Mapping S K) (s : SweepL K)
    (hvb : ∀ d, FVal.isNaN (s.vbestSAH d) = false)
    (hpos : ∀ d, s.vbestPos d = 0 → s.vbestSAH d = FVal.pinf)
    (dims : List (Fin 3)) (acc : BestDim K) (hacc : FVal.isNaN acc.bestSAH = false) :
    FVal.isNaN (dims.foldl (bestDimStep mapping s) acc).bestSAH = false
    ∧ FVal.le (dims.foldl (bestDimStep mapping s) acc).bestSAH acc.bestSAH = true
    ∧ (∀ d ∈ dims, mapping.invalid d = false →
        FVal.le (dims.foldl (bestDimStep mapping s) acc).bestSAH (s.vbestSAH d) = true)
    ∧ (dims.foldl (bestDimStep mapping s) acc = acc
      ∨ ∃ d ∈ dims, (dims.foldl (bestDimStep mapping s) acc).bestDim = (d.val : Int)
        ∧ mapping.invalid d = false
        ∧ (dims.foldl (bestDimStep mapping s) acc).bestPos = s.vbestPos d
        ∧ s.vbestPos d ≠ 0
        ∧ (dims.foldl (bestDimStep mapping s) acc).bestSAH = s.vbestSAH d) := by
  induction dims generalizing acc with
  | nil =>
    refine ⟨hacc, FVal.le_refl hacc, ?_, Or.inl rfl⟩
    intro d hd
    simp at hd
  | cons d0 dims ih =>
    simp only [List.foldl_cons]
    have hstep : FVal.isNaN (bestDimStep mapping s acc d0).bestSAH = false
        ∧ FVal.le (bestDimStep mapping s acc d0).bestSAH acc.bestSAH = true
        ∧ (mapping.invalid d0 = false →
            FVal.le (bestDimStep mapping s acc d0).bestSAH (s.vbestSAH d0) = true)
        ∧ (bestDimStep mapping s acc d0 = acc
          ∨ ((bestDimStep mapping s acc d0).bestDim = (d0.val : Int)
            ∧ mapping.invalid d0 = false
            ∧ (bestDimStep mapping s acc d0).bestPos = s.vbestPos d0
            ∧ s.vbestPos d0 ≠ 0
            ∧ (bestDimStep mapping s acc d0).bestSAH = s.vbestSAH d0)) := by
      unfold bestDimStep
      by_cases hinv : mapping.invalid d0 = true
      · rw [if_pos hinv]
        refine ⟨hacc, FVal.le_refl hacc, ?_, Or.inl rfl⟩
        intro h; rw [hinv] at h; exact absurd h (by decide)
      · have hinv2 : mapping.invalid d0 = false := by simpa using hinv
        rw [if_neg hinv]
        by_cases hc : (FVal.lt (s.vbestSAH d0) acc.bestSAH && s.vbestPos d0 != 0) = true
        · rw [if_pos hc]
          simp only [Bool.and_eq_true, bne_iff_ne, ne_eq] at hc
          exact ⟨hvb d0, FVal.le_of_lt hc.1, fun _ => FVal.le_refl (hvb d0),
            Or.inr ⟨rfl, hinv2, rfl, hc.2, rfl⟩⟩
        · rw [if_neg hc]
          refine ⟨hacc, FVal.le_refl hacc, fun _ => ?_, Or.inl rfl⟩
          simp only [Bool.and_eq_true, bne_iff_ne, ne_eq, not_and, not_not] at hc
          by_cases hlt : FVal.lt (s.vbestSAH d0) acc.bestSAH = true
          · rw [hpos d0 (hc hlt)]
            exact FVal.le_pinf hacc
          · exact FVal.le_of_not_lt (hvb d0) hacc (by simpa using hlt)
    obtain ⟨s1, s2, s3, s4⟩ := hstep
    obtain ⟨r1, r2, r3, r4⟩ := ih (bestDimStep mapping s acc d0) s1
    refine ⟨r1, FVal.le_trans r2 s2, ?_, ?_⟩
    · intro d hd hinv
      rcases List.mem_cons.1 hd with rfl | hd
      · exact FVal.le_trans r2 (s3 hinv)
      · exact r3 d hd hinv
    · rcases r4 with r4 | ⟨d, hd, h1, h2, h3, h4, h5⟩
      · rw [r4]
        rcases s4 with s4 | ⟨h1, h2, h3, h4, h5⟩
        · exact Or.inl s4
        · exact Or.inr ⟨d0, List.mem_cons_self _ _, h1, h2, h3, h4, h5⟩
      · exact Or.inr ⟨d, List.mem_cons_of_mem _ hd, h1, h2, h3, h4, h5⟩

/-- C5 (amended). If `best` returns a split with `dim >= 0` and position `pos`,
then `1 <= pos <= BINS-1`, the dimension has non-zero centroid extent, the
returned cost equals
`leftArea(pos)*blocks(leftCount(pos)) + rightArea(pos)*blocks(rightCount(pos))`
for that dimension (left = bins `0..pos-1`, right = bins `pos..BINS-1`, counts
as 32-bit integers), and this cost is less than or equal to the cost of every
candidate `(d, i)` with `d` a dimension of non-zero centroid extent and
`1 <= i <= BINS-1` whose cost is not NaN. -/
theorem best_cost_minimal {S : Type} (BINS : Nat) (blocks : Int → Int) (b : BinInfo K)
    (mapping : Mapping S K) (hdim : 0 ≤ (best BINS blocks b mapping).dim) :
    ∃ (d : Fin 3) (pos : Nat),
      (best BINS blocks b mapping).dim = (d.val : Int)
      ∧ (best BINS blocks b mapping).pos = (pos : Int)
      ∧ 1 ≤ pos ∧ pos ≤ BINS - 1
      ∧ mapping.invalid d = false
      ∧ (best BINS blocks b mapping).sah = candidateCost BINS blocks b d pos
      ∧ ∀ (d1 : Fin 3) (i : Nat), mapping.invalid d1 = false → 1 ≤ i → i ≤ BINS - 1 →
          FVal.isNaN (candidateCost BINS blocks b d1 i) = false →
          FVal.le (best BINS blocks b mapping).sah (candidateCost BINS blocks b d1 i) = true := by
  have hsw := fun d => sweepLeftAfter_best BINS blocks b (BINS - 1) (le_refl _) d
  have hvb : ∀ d, FVal.isNaN ((sweepLeft BINS blocks b (sweepRight BINS b)).vbestSAH d) = false :=
    fun d => (hsw d).1
  have hpos : ∀ d, (sweepLeft BINS blocks b (sweepRight BINS b)).vbestPos d = 0 →
      (sweepLeft BINS blocks b (sweepRight BINS b)).vbestSAH d = FVal.pinf := by
    intro d h0
    rcases (hsw d).2.2 with h | ⟨i, h1, -, h3, -⟩
    · exact h.2
    · exfalso
      have h3a : (sweepLeft BINS blocks b (sweepRight BINS b)).vbestPos d = (i : Int) := h3
      rw [h0] at h3a
      omega
  obtain ⟨-, -, r3, r4⟩ := bestDim_fold mapping (sweepLeft BINS blocks b (sweepRight BINS b))
    hvb hpos [0, 1, 2] ⟨FVal.pinf, -1, 0⟩ rfl
  have hall : ∀ d : Fin 3, d ∈ [(0 : Fin 3), 1, 2] := by decide
  rcases r4 with r4 | ⟨d, -, h1, h2, h3, h4, h5⟩
  · exfalso
    have : (best BINS blocks b mapping).dim = -1 := by
      show (List.foldl (bestDimStep mapping (sweepLeft BINS blocks b (sweepRight BINS b)))
        (⟨FVal.pinf, -1, 0⟩ : BestDim K) [0, 1, 2]).bestDim = -1
      rw [r4]
    rw [this] at hdim
    omega
  · rcases (hsw d).2.2 with h | ⟨i, i1, i2, i3, i4⟩
    · exact absurd h.1 h4
    · refine ⟨d, i, h1, h3.trans i3, i1, i2, h2, h5.trans i4, ?_⟩
      intro d1 j hinv j1 j2 hn
      exact FVal.le_trans (r3 d1 (hall d1) hinv) ((hsw d1).2.1 j j1 j2 hn)

/-- Witness for C5 (amended): the sample table with 16 bins. -/
theorem best_cost_minimal_witness :
    ∃ (d : Fin 3) (pos : Nat),
      (best 16 sampleBlocks sampleBins sampleMapping).dim = (d.val : Int)
      ∧ (best 16 sampleBlocks sampleBins sampleMapping).pos = (pos : Int)
      ∧ 1 ≤ pos ∧ pos ≤ 16 - 1
      ∧ sampleMapping.invalid d = false
      ∧ (best 16 sampleBlocks sampleBins sampleMapping).sah
          = candidateCost 16 sampleBlocks sampleBins d pos
      ∧ ∀ (d1 : Fin 3) (i : Nat), sampleMapping.invalid d1 = false → 1 ≤ i → i ≤ 16 - 1 →
          FVal.isNaN (candidateCost 16 sampleBlocks sampleBins d1 i) = false →
          FVal.le (best 16 sampleBlocks sampleBins sampleMapping).sah
            (candidateCost 16 sampleBlocks sampleBins d1 i) = true :=
  best_cost_minimal 16 sampleBlocks sampleBins sampleMapping (by decide)

/-- Counterexample to C5 as stated: on the sample table `best` returns the
split `dim = 0`, `pos = 6` with the cost `6`; dimension 0 has non-zero extent,
but the returned cost is not less than or equal to the cost of the candidate
`(0, 1)`, whose left side is empty and whose cost `inf * 0 + ...` is NaN. -/
theorem best_cost_minimal_counterexample :
    (best 16 sampleBlocks sampleBins sampleMapping).dim = 0
    ∧ (best 16 sampleBlocks sampleBins sampleMapping).pos = 6
    ∧ (best 16 sampleBlocks sampleBins sampleMapping).sah = FVal.fin 6
    ∧ sampleMapping.invalid 0 = false
    ∧ candidateCost 16 sampleBlocks sampleBins 0 1 = FVal.nan
    ∧ ¬ (∀ (d1 : Fin 3) (i : Nat), sampleMapping.invalid d1 = false → 1 ≤ i → i ≤ 16 - 1 →
          FVal.le (best 16 sampleBlocks sampleBins sampleMapping).sah
            (candidateCost 16 sampleBlocks sampleBins d1 i) = true) := by
  refine ⟨by decide, by decide, by decide, by decide, by decide, ?_⟩
  intro h
  have h1 := h 0 1 (by decide) (by decide) (by decide)
  revert h1
  decide

end BinInfo

end ObjectPartition

/-! ## Object partition: `split` -/

namespace BBox

theorem ext_iff {K : Type} (a b : BBox K) :
    a = b ↔ a.lower = b.lower ∧ a.upper = b.upper := by
  cases a; cases b; simp

variable {K : Type} [LinearOrderedCommRing K]

theorem extend_empty_left (b : BBox K) : extend empty b = b := by
  rw [ext_iff]
  constructor <;> funext d
  · exact FVal.min_pinf_left _
  · exact FVal.max_ninf_left _

theorem extend_comm (a b : BBox K) (ha : ObjectPartition.noNaN a)
    (hb : ObjectPartition.noNaN b) : extend a b = extend b a := by
  rw [ext_iff]
  constructor <;> funext d
  · exact FVal.min_comm (ha d).1 (hb d).1
  · exact FVal.max_comm (ha d).2 (hb d).2

theorem extend_assoc (a b c : BBox K) (ha : ObjectPartition.noNaN a)
    (hb : ObjectPartition.noNaN b) (hc : ObjectPartition.noNaN c) :
    extend (extend a b) c = extend a (extend b c) := by
  rw [ext_iff]
  constructor <;> funext d
  · exact FVal.min_assoc (ha d).1 (hb d).1 (hc d).1
  · exact FVal.max_assoc (ha d).2 (hb d).2 (hc d).2

theorem extend_noNaN (a b : BBox K) (ha : ObjectPartition.noNaN a)
    (hb : ObjectPartition.noNaN b) : ObjectPartition.noNaN (extend a b) :=
  fun d => ⟨FVal.min_notNaN (ha d).1 (hb d).1, FVal.max_notNaN (ha d).2 (hb d).2⟩

omit [LinearOrderedCommRing K] in
theorem empty_noNaN : ObjectPartition.noNaN (empty : BBox K) := fun _ => ⟨by rfl, by rfl⟩

theorem foldl_extend_noNaN (l : List (BBox K)) (a : BBox K) (ha : ObjectPartition.noNaN a)
    (hl : ∀ b ∈ l, ObjectPartition.noNaN b) : ObjectPartition.noNaN (l.foldl extend a) := by
  induction l generalizing a with
  | nil => exact ha
  | cons b l ih =>
    exact ih (extend a b) (extend_noNaN a b ha (hl b (List.mem_cons_self _ _)))
      (fun c hc => hl c (List.mem_cons_of_mem _ hc))

end BBox

namespace ObjectPartition

variable {K : Type} [LinearOrderedCommRing K]

/-- The union of the boxes of a list equals the union of the boxes selected by a
test joined with the union of the boxes it rejects. -/
theorem unionAll_filter {P : Type} (bounds : P → BBox K) (f : P → Bool) (l : List P)
    (hl : ∀ p ∈ l, noNaN (bounds p)) :
    (unionAll ((l.filter f).map bounds)).extend
        (unionAll ((l.filter (fun p => !f p)).map bounds))
      = unionAll (l.map bounds) := by
  induction l using List.reverseRecOn with
  | nil => exact BBox.extend_empty_left _
  | append_singleton l p ih =>
    have hl1 : ∀ q ∈ l, noNaN (bounds q) := fun q hq => hl q (List.mem_append_left _ hq)
    have hp : noNaN (bounds p) := hl p (List.mem_append_right _ (List.mem_singleton_self _))
    have hL : noNaN (unionAll ((l.filter f).map bounds)) := by
      apply BBox.foldl_extend_noNaN _ _ BBox.empty_noNaN
      intro b hb
      obtain ⟨q, hq, rfl⟩ := List.mem_map.1 hb
      exact hl1 q (List.mem_filter.1 hq).1
    have hR : noNaN (unionAll ((l.filter (fun p => !f p)).map bounds)) := by
      apply BBox.foldl_extend_noNaN _ _ BBox.empty_noNaN
      intro b hb
      obtain ⟨q, hq, rfl⟩ := List.mem_map.1 hb
      exact hl1 q (List.mem_filter.1 hq).1
    have ih1 := ih hl1
    simp only [List.filter_append, List.map_append, unionAll, List.foldl_append] at ih1 hL hR ⊢
    by_cases hf : f p = true
    · simp only [List.filter_cons, hf, if_true, Bool.not_true, Bool.false_eq_true, if_false,
        List.filter_nil, List.map_cons, List.map_nil, List.foldl_cons, List.foldl_nil]
      rw [← ih1, BBox.extend_assoc _ _ _ hL hp hR, BBox.extend_comm _ _ hp hR,
        ← BBox.extend_assoc _ _ _ hL hR hp]
    · have hf2 : f p = false := by simpa using hf
      simp only [List.filter_cons, hf2, Bool.false_eq_true, if_false, Bool.not_false, if_true,
        List.filter_nil, List.map_cons, List.map_nil, List.foldl_cons, List.foldl_nil]
      rw [← ih1, ← BBox.extend_assoc _ _ _ hL hR hp]

variable [FloorRing K]

/-- Inserting a primitive into a list with a front block adds it to the items
of the list. -/
theorem insertPrim_perm {P : Type} (blockSize : Nat) (hbs : 0 < blockSize) (l : BlockList P)
    (hl : l ≠ []) (prim : P) :
    insertPrim blockSize l prim ≠ []
      ∧ List.Perm (insertPrim blockSize l prim).flatten (l.flatten ++ [prim]) := by
  cases l with
  | nil => exact absurd rfl hl
  | cons blk rest =>
    unfold insertPrim insertFront
    by_cases hlen : blk.length < blockSize
    · simp only [hlen, if_true]
      refine ⟨by simp, ?_⟩
      simp only [List.flatten_cons, List.append_assoc]
      exact List.Perm.append_left blk List.perm_append_comm
    · simp only [hlen, if_false, Bool.false_eq_true, List.length_nil, hbs, if_true]
      refine ⟨by simp, ?_⟩
      simp only [List.flatten_cons, List.nil_append, List.singleton_append]
      exact List.perm_append_singleton prim (blk ++ rest.flatten) |>.symm

/-- The effect of the inner loop of `split` on the primitives of one block. -/
theorem splitPrim_fold {S P : Type} (ops : PrimOps P S K) (blockSize : Nat)
    (hbs : 0 < blockSize) (s : Split S K) (d : Fin 3) (xs : List P) (o : SplitOut P K)
    (hl : o.lprims ≠ []) (hr : o.rprims ≠ []) :
    (xs.foldl (Split.splitPrim ops blockSize s d) o).lprims ≠ []
    ∧ (xs.foldl (Split.splitPrim ops blockSize s d) o).rprims ≠ []
    ∧ List.Perm (xs.foldl (Split.splitPrim ops blockSize s d) o).lprims.flatten
        (o.lprims.flatten ++ xs.filter (goesLeft ops s d))
    ∧ List.Perm (xs.foldl (Split.splitPrim ops blockSize s d) o).rprims.flatten
        (o.rprims.flatten ++ xs.filter (fun p => !goesLeft ops s d p))
    ∧ (xs.foldl (Split.splitPrim ops blockSize s d) o).linfo
        = infoOf ops o.linfo (xs.filter (goesLeft ops s d))
    ∧ (xs.foldl (Split.splitPrim ops blockSize s d) o).rinfo
        = infoOf ops o.rinfo (xs.filter (fun p => !goesLeft ops s d p)) := by
  induction xs generalizing o with
  | nil => simp [infoOf, hl, hr]
  | cons p xs ih =>
    simp only [List.foldl_cons]
    by_cases hg : goesLeft ops s d p = true
    · have hstep : Split.splitPrim ops blockSize s d o p
          = { o with
              linfo := o.linfo.add (ops.bounds p) (ops.center p)
              lprims := insertPrim blockSize o.lprims p } := by
        unfold Split.splitPrim
        simp only [goesLeft, decide_eq_true_eq] at hg
        simp only [hg, if_true]
      obtain ⟨i1, i2⟩ := insertPrim_perm blockSize hbs o.lprims hl p
      rw [hstep]
      obtain ⟨h1, h2, h3, h4, h5, h6⟩ := ih
        { o with
          linfo := o.linfo.add (ops.bounds p) (ops.center p)
          lprims := insertPrim blockSize o.lprims p } i1 hr
      refine ⟨h1, h2, ?_, ?_, ?_, ?_⟩
      · simp only [List.filter_cons, hg, if_true]
        refine h3.trans ?_
        refine (List.Perm.append_right _ i2).trans ?_
        simp
      · simp only [List.filter_cons, hg, Bool.not_true, Bool.false_eq_true, if_false]
        exact h4
      · simp only [List.filter_cons, hg, if_true]
        rw [h5]; rfl
      · simp only [List.filter_cons, hg, Bool.not_true, Bool.false_eq_true, if_false]
        exact h6
    · have hg2 : goesLeft ops s d p = false := by simpa using hg
      have hstep : Split.splitPrim ops blockSize s d o p
          = { o with
              rinfo := o.rinfo.add (ops.bounds p) (ops.center p)
              rprims := insertPrim blockSize o.rprims p } := by
        unfold Split.splitPrim
        simp only [goesLeft, decide_eq_false_iff_not] at hg2
        simp only [hg2, if_false]
      obtain ⟨i1, i2⟩ := insertPrim_perm blockSize hbs o.rprims hr p
      rw [hstep]
      obtain ⟨h1, h2, h3, h4, h5, h6⟩ := ih
        { o with
          rinfo := o.rinfo.add (ops.bounds p) (ops.center p)
          rprims := insertPrim blockSize o.rprims p } hl i1
      refine ⟨h1, h2, ?_, ?_, ?_, ?_⟩
      · simp only [List.filter_cons, hg2, Bool.false_eq_true, if_false]
        exact h3
      · simp only [List.filter_cons, hg2, Bool.not_false, if_true]
        refine h4.trans ?_
        refine (List.Perm.append_right _ i2).trans ?_
        simp
      · simp only [List.filter_cons, hg2, Bool.false_eq_true, if_false]
        exact h5
      · simp only [List.filter_cons, hg2, Bool.not_false, if_true]
        rw [h6]; rfl

/-- The effect of the loop of `split` over the blocks of the input list. -/
theorem splitLoop_spec {S P : Type} (ops : PrimOps P S K) (blockSize : Nat)
    (hbs : 0 < blockSize) (s : Split S K) (d : Fin 3) (prims : BlockList P)
    (o : SplitOut P K) (hl : o.lprims ≠ []) (hr : o.rprims ≠ []) :
    (Split.splitLoop ops blockSize s d prims o).1 = []
    ∧ List.Perm (Split.splitLoop ops blockSize s d prims o).2.lprims.flatten
        (o.lprims.flatten ++ prims.flatten.filter (goesLeft ops s d))
    ∧ List.Perm (Split.splitLoop ops blockSize s d prims o).2.rprims.flatten
        (o.rprims.flatten ++ prims.flatten.filter (fun p => !goesLeft ops s d p))
    ∧ (Split.splitLoop ops blockSize s d prims o).2.linfo
        = infoOf ops o.linfo (prims.flatten.filter (goesLeft ops s d))
    ∧ (Split.splitLoop ops blockSize s d prims o).2.rinfo
        = infoOf ops o.rinfo (prims.flatten.filter (fun p => !goesLeft ops s d p)) := by
  induction prims generalizing o with
  | nil => simp [Split.splitLoop, infoOf]
  | cons blk rest ih =>
    obtain ⟨f1, f2, f3, f4, f5, f6⟩ := splitPrim_fold ops blockSize hbs s d blk o hl hr
    obtain ⟨h1, h2, h3, h4, h5⟩ := ih _ f1 f2
    simp only [Split.splitLoop, List.flatten_cons, List.filter_append]
    refine ⟨h1, ?_, ?_, ?_, ?_⟩
    · refine h2.trans ?_
      rw [← List.append_assoc]
      exact List.Perm.append_right _ f3
    · refine h3.trans ?_
      rw [← List.append_assoc]
      exact List.Perm.append_right _ f4
    · rw [h4, f5]
      simp [infoOf, List.foldl_append]
    · rw [h5, f6]
      simp [infoOf, List.foldl_append]

omit [FloorRing K] in
theorem infoOf_num {S P : Type} (ops : PrimOps P S K) (i : PrimInfo K) (l : List P) :
    (infoOf ops i l).num = i.num + l.length
    ∧ (infoOf ops i l).geomBounds = (l.map ops.bounds).foldl BBox.extend i.geomBounds := by
  induction l generalizing i with
  | nil => simp [infoOf]
  | cons p l ih =>
    obtain ⟨h1, h2⟩ := ih (i.add (ops.bounds p) (ops.center p))
    simp only [infoOf, List.foldl_cons, List.length_cons, List.map_cons] at h1 h2 ⊢
    rw [h1, h2]
    simp only [PrimInfo.add]
    exact ⟨by omega, trivial⟩

/-- C4. For every split with `dim` in `{0,1,2}` and every input list of
primitives with NaN-free bounds, when the output lists and `PrimInfo`s start
empty and a block holds at least one item, `split` leaves the input list empty
and produces left and right lists whose items together are exactly the input
primitives as a multiset; a primitive is placed left exactly when
`bin_unsafe(center)[dim] < pos`; the counts of `linfo_o` and `rinfo_o` sum to
the input size and the union of their bounds equals the union of the bounds
of the input primitives. -/
theorem split_partitions {S P : Type} (ops : PrimOps P S K) (blockSize : Nat)
    (s : Split S K) (d : Fin 3) (prims : BlockList P)
    (hbs : 0 < blockSize) (hd : s.dim = (d.val : Int))
    (hnan : ∀ p ∈ prims.flatten, noNaN (ops.bounds p)) :
    ∃ out : SplitOut P K,
      Split.split ops blockSize s prims [] PrimInfo.empty [] PrimInfo.empty = some ([], out)
      ∧ List.Perm (out.lprims.flatten ++ out.rprims.flatten) prims.flatten
      ∧ List.Perm out.lprims.flatten (prims.flatten.filter (goesLeft ops s d))
      ∧ List.Perm out.rprims.flatten (prims.flatten.filter (fun p => !goesLeft ops s d p))
      ∧ out.linfo.num + out.rinfo.num = prims.flatten.length
      ∧ out.linfo.geomBounds.extend out.rinfo.geomBounds
          = unionAll (prims.flatten.map ops.bounds) := by
  have hidx : Split.dimIndex s.dim = some d := by
    rw [hd]
    fin_cases d <;> rfl
  obtain ⟨h1, h2, h3, h4, h5⟩ := splitLoop_spec ops blockSize hbs s d prims
    { lprims := [] :: [], linfo := PrimInfo.empty, rprims := [] :: [], rinfo := PrimInfo.empty }
    (by simp) (by simp)
  simp only [List.flatten_cons, List.flatten_nil, List.append_nil, List.nil_append] at h2 h3
  refine ⟨_, ?_, ?_, h2, h3, ?_, ?_⟩
  · simp only [Split.split, hidx]
    exact congrArg some (Prod.ext h1 rfl)
  · exact (List.Perm.append h2 h3).trans (List.filter_append_perm _ _)
  · rw [h4, h5, (infoOf_num ops _ _).1, (infoOf_num ops _ _).1]
    have := (List.filter_append_perm (goesLeft ops s d) prims.flatten).length_eq
    simp only [List.length_append] at this
    simp only [PrimInfo.empty]
    omega
  · rw [h4, h5, (infoOf_num ops _ _).2, (infoOf_num ops _ _).2]
    exact unionAll_filter ops.bounds (goesLeft ops s d) prims.flatten hnan

/-- Witness for C4: four sample primitives in two blocks, blocks of two items. -/
theorem split_partitions_witness :
    ∃ out : SplitOut ℤ ℤ,
      Split.split sampleOps 2 sampleSplit [[0, 3], [1, 2]] [] PrimInfo.empty [] PrimInfo.empty
        = some ([], out)
      ∧ List.Perm (out.lprims.flatten ++ out.rprims.flatten) [[0, 3], [1, 2]].flatten
      ∧ List.Perm out.lprims.flatten
          ([[0, 3], [1, 2]].flatten.filter (goesLeft sampleOps sampleSplit 0))
      ∧ List.Perm out.rprims.flatten
          ([[0, 3], [1, 2]].flatten.filter (fun p => !goesLeft sampleOps sampleSplit 0 p))
      ∧ out.linfo.num + out.rinfo.num = [[0, 3], [1, 2]].flatten.length
      ∧ out.linfo.geomBounds.extend out.rinfo.geomBounds
          = unionAll ([[0, 3], [1, 2]].flatten.map sampleOps.bounds) :=
  split_partitions sampleOps 2 sampleSplit 0 [[0, 3], [1, 2]] (by decide) rfl
    (fun _ _ _ => ⟨rfl, rfl⟩)

end ObjectPartition

/-! ## Object partition heuristic: invalid dimensions -/

namespace ObjectPartition

variable {K : Type} [LinearOrderedCommRing K] {S : Type}

/-- The search for the best dimension returns its start value or a dimension
that is not marked invalid. -/
theorem bestDim_valid (mapping : Mapping S K) (s : BinInfo.SweepL K) (dims : List (Fin 3))
    (acc : BinInfo.BestDim K) :
    dims.foldl (BinInfo.bestDimStep mapping s) acc = acc
    ∨ ∃ d ∈ dims, (dims.foldl (BinInfo.bestDimStep mapping s) acc).bestDim = (d.val : Int)
        ∧ mapping.invalid d = false := by
  induction dims generalizing acc with
  | nil => exact Or.inl rfl
  | cons d0 dims ih =>
    simp only [List.foldl_cons]
    have hstep : BinInfo.bestDimStep mapping s acc d0 = acc
        ∨ ((BinInfo.bestDimStep mapping s acc d0).bestDim = (d0.val : Int)
          ∧ mapping.invalid d0 = false) := by
      unfold BinInfo.bestDimStep
      by_cases hinv : mapping.invalid d0 = true
      · rw [if_pos hinv]; exact Or.inl rfl
      · rw [if_neg hinv]
        split_ifs
        · exact Or.inr ⟨rfl, by simpa using hinv⟩
        · exact Or.inl rfl
    rcases ih (BinInfo.bestDimStep mapping s acc d0) with h | ⟨d, hd, h1, h2⟩
    · rw [h]
      rcases hstep with h0 | ⟨h1, h2⟩
      · exact Or.inl h0
      · exact Or.inr ⟨d0, List.mem_cons_self _ _, h1, h2⟩
    · exact Or.inr ⟨d, List.mem_cons_of_mem _ hd, h1, h2⟩

/-- C12. `ObjectPartition::BinInfo::best` returns `dim = -1` or a dimension
`0`, `1`, `2` for which `Mapping::invalid(dim)` is false; a dimension of zero
centroid extent is marked invalid by the constructor of the mapping; if all
three dimensions are invalid the result is `dim = -1`, `pos = 0` and
`cost = +inf`. -/
theorem best_skips_invalid (BINS : Nat) (blocks : Int → Int) (b : BinInfo K)
    (mapping : Mapping S K) :
    (∀ d : Fin 3, (b.best BINS blocks mapping).dim = (d.val : Int) → mapping.invalid d = false)
    ∧ ((b.best BINS blocks mapping).dim = -1
      ∨ ∃ d : Fin 3, (b.best BINS blocks mapping).dim = (d.val : Int))
    ∧ ((∀ d : Fin 3, mapping.invalid d = true) →
        (b.best BINS blocks mapping).dim = -1 ∧ (b.best BINS blocks mapping).pos = 0
        ∧ (b.best BINS blocks mapping).sah = FVal.pinf)
    ∧ (∀ (rcp : FVal K → FVal K) (binScale : FVal K) (centBounds : BBox K) (space : S)
        (d : Fin 3), FVal.eq (centBounds.size d) (FVal.fin 0) = true →
        (Mapping.new rcp binScale centBounds space).invalid d = true) := by
  have hb : b.best BINS blocks mapping
      = { sah := ([(0 : Fin 3), 1, 2].foldl (BinInfo.bestDimStep mapping
            (BinInfo.sweepLeft BINS blocks b (BinInfo.sweepRight BINS b)))
            ⟨FVal.pinf, -1, 0⟩).bestSAH
          dim := ([(0 : Fin 3), 1, 2].foldl (BinInfo.bestDimStep mapping
            (BinInfo.sweepLeft BINS blocks b (BinInfo.sweepRight BINS b)))
            ⟨FVal.pinf, -1, 0⟩).bestDim
          pos := ([(0 : Fin 3), 1, 2].foldl (BinInfo.bestDimStep mapping
            (BinInfo.sweepLeft BINS blocks b (BinInfo.sweepRight BINS b)))
            ⟨FVal.pinf, -1, 0⟩).bestPos
          mapping := mapping } := rfl
  have key := bestDim_valid mapping
    (BinInfo.sweepLeft BINS blocks b (BinInfo.sweepRight BINS b)) [(0 : Fin 3), 1, 2]
    ⟨FVal.pinf, -1, 0⟩
  rw [hb]
  refine ⟨?_, ?_, ?_, ?_⟩
  · intro d hd
    rcases key with h | ⟨d2, -, h1, h2⟩
    · rw [h] at hd
      have h0 : (0 : Int) ≤ (d.val : Int) := Int.natCast_nonneg _
      have h1 : (-1 : Int) = (d.val : Int) := hd
      omega
    · have e : (d2.val : Int) = (d.val : Int) := h1.symm.trans hd
      have : d2 = d := Fin.ext (by exact_mod_cast e)
      rw [← this]; exact h2
  · rcases key with h | ⟨d2, -, h1, -⟩
    · left; rw [h]
    · exact Or.inr ⟨d2, h1⟩
  · intro hall
    rcases key with h | ⟨d2, -, -, h2⟩
    · rw [h]; exact ⟨rfl, rfl, rfl⟩
    · rw [hall d2] at h2
      exact absurd h2 (by decide)
  · intro rcp binScale centBounds space d hd
    have h0 : FVal.eq (FVal.fin (0 : K)) (FVal.fin 0) = true := by simp [FVal.eq]
    simp only [Mapping.new, Mapping.invalid, hd, Bool.not_true, Bool.false_eq_true, if_false, h0]

end ObjectPartition

/-! ## Object partition heuristic: serial and parallel search -/

namespace FVal

variable {K : Type} [LinearOrderedCommRing K]

theorem min_right_comm (z : FVal K) {x y : FVal K} (hx : isNaN x = false)
    (hy : isNaN y = false) : min (min z x) y = min (min z y) x := by
  by_cases hz : isNaN z = true
  · have hn : z = nan := by cases z <;> simp_all [isNaN]
    have e : ∀ w : FVal K, min nan w = w := fun w => by simp [min, lt]
    rw [hn, e, e]; exact min_comm hx hy
  · have hz2 : isNaN z = false := by simpa using hz
    rw [min_assoc hz2 hx hy, min_assoc hz2 hy hx, min_comm hx hy]

theorem max_right_comm (z : FVal K) {x y : FVal K} (hx : isNaN x = false)
    (hy : isNaN y = false) : max (max z x) y = max (max z y) x := by
  by_cases hz : isNaN z = true
  · have hn : z = nan := by cases z <;> simp_all [isNaN]
    have e : ∀ w : FVal K, max nan w = w := fun w => by cases w <;> simp [max, lt]
    rw [hn, e, e]; exact max_comm hx hy
  · have hz2 : isNaN z = false := by simpa using hz
    rw [max_assoc hz2 hx hy, max_assoc hz2 hy hx, max_comm hx hy]

end FVal

namespace ObjectPartition

variable {K : Type} [LinearOrderedCommRing K]

theorem extend_right_comm (z x y : BBox K) (hx : noNaN x) (hy : noNaN y) :
    (z.extend x).extend y = (z.extend y).extend x := by
  rw [BBox.ext_iff]
  constructor <;> funext d
  · exact FVal.min_right_comm _ (hx d).1 (hy d).1
  · exact FVal.max_right_comm _ (hx d).2 (hy d).2

/-- The union of boxes without NaN does not depend on their order. -/
theorem foldl_extend_perm (xs ys : List (BBox K)) (h : List.Perm xs ys)
    (hx : ∀ b ∈ xs, noNaN b) (a : BBox K) :
    xs.foldl BBox.extend a = ys.foldl BBox.extend a :=
  List.Perm.foldl_eq' h (fun x hx1 y hy1 z => extend_right_comm z x y (hx x hx1) (hx y hy1)) a

theorem foldl_extend_eq (a : BBox K) (l : List (BBox K)) (ha : noNaN a)
    (hl : ∀ b ∈ l, noNaN b) : l.foldl BBox.extend a = a.extend (unionAll l) := by
  induction l using List.reverseRecOn with
  | nil =>
    show a = a.extend BBox.empty
    rw [BBox.extend_comm a BBox.empty ha BBox.empty_noNaN, BBox.extend_empty_left]
  | append_singleton l x ih =>
    have hl1 : ∀ b ∈ l, noNaN b := fun b hb => hl b (List.mem_append_left _ hb)
    have hx : noNaN x := hl x (List.mem_append_right _ (List.mem_singleton_self _))
    simp only [unionAll, List.foldl_append, List.foldl_cons, List.foldl_nil]
    rw [ih hl1]
    exact BBox.extend_assoc a _ x ha (BBox.foldl_extend_noNaN l _ BBox.empty_noNaN hl1) hx

theorem unionAll_append (xs ys : List (BBox K)) (hx : ∀ b ∈ xs, noNaN b)
    (hy : ∀ b ∈ ys, noNaN b) :
    unionAll (xs ++ ys) = (unionAll xs).extend (unionAll ys) := by
  unfold unionAll
  rw [List.foldl_append]
  exact foldl_extend_eq _ ys (BBox.foldl_extend_noNaN xs _ BBox.empty_noNaN hx) hy

theorem unionAll_noNaN (xs : List (BBox K)) (hx : ∀ b ∈ xs, noNaN b) : noNaN (unionAll xs) :=
  BBox.foldl_extend_noNaN xs _ BBox.empty_noNaN hx

/-- The union of the unions of the parts is the union of the whole. -/
theorem unionAll_flatten {α : Type} (f : α → BBox K) (L : List (List α))
    (hf : ∀ l ∈ L, ∀ x ∈ l, noNaN (f x)) :
    unionAll (L.map (fun l => unionAll (l.map f))) = unionAll (L.flatten.map f) := by
  induction L using List.reverseRecOn with
  | nil => rfl
  | append_singleton L l ih =>
    have hL : ∀ l2 ∈ L, ∀ x ∈ l2, noNaN (f x) := fun l2 h2 =>
      hf l2 (List.mem_append_left _ h2)
    have hl : ∀ x ∈ l, noNaN (f x) := hf l (List.mem_append_right _ (List.mem_singleton_self _))
    have h1 : ∀ b ∈ L.map (fun l => unionAll (l.map f)), noNaN b := by
      intro b hb
      obtain ⟨l2, h2, rfl⟩ := List.mem_map.1 hb
      exact unionAll_noNaN _ (fun c hc => by
        obtain ⟨x, hx, rfl⟩ := List.mem_map.1 hc
        exact hL l2 h2 x hx)
    have h2 : ∀ b ∈ l.map f, noNaN b := by
      intro b hb
      obtain ⟨x, hx, rfl⟩ := List.mem_map.1 hb
      exact hl x hx
    have h3 : ∀ b ∈ L.flatten.map f, noNaN b := by
      intro b hb
      obtain ⟨x, hx, rfl⟩ := List.mem_map.1 hb
      obtain ⟨l2, h4, h5⟩ := List.mem_flatten.1 hx
      exact hL l2 h4 x h5
    rw [List.map_append, List.flatten_append, List.map_append,
      unionAll_append _ _ h1 (by
        intro b hb
        simp only [List.map_cons, List.map_nil, List.mem_singleton] at hb
        rw [hb]; exact unionAll_noNaN _ h2),
      ih hL]
    simp only [List.map_cons, List.map_nil, List.flatten_cons, List.flatten_nil,
      List.append_nil]
    rw [unionAll_append _ _ h3 h2]
    congr 1
    show BBox.extend BBox.empty (unionAll (l.map f)) = _
    exact BBox.extend_empty_left _

end ObjectPartition


namespace ObjectPartition

variable {K : Type} [LinearOrderedCommRing K]

/-! ### `best` reads the `BINS` entries of the table only -/

theorem sweepRightAfter_congr (BINS : Nat) (a b : BinInfo K) (h : BinInfo.agree BINS a b)
    (k : Nat) (hk : k ≤ BINS - 1) :
    BinInfo.sweepRightAfter BINS a k = BinInfo.sweepRightAfter BINS b k := by
  induction k with
  | zero => rfl
  | succ k ih =>
    have hi : BINS - 1 - k < BINS := by omega
    simp only [BinInfo.sweepRightAfter, BinInfo.sweepRightStep]
    rw [ih (by omega)]
    have hc : ∀ d, a.counts (BINS - 1 - k) d = b.counts (BINS - 1 - k) d :=
      fun d => (h _ hi d).1
    have hb : ∀ d, a.bounds (BINS - 1 - k) d = b.bounds (BINS - 1 - k) d :=
      fun d => (h _ hi d).2
    simp only [hc, hb]

theorem sweepLeftAfter_congr (BINS : Nat) (blocks : Int → Int) (a b : BinInfo K)
    (r : BinInfo.SweepR K) (h : BinInfo.agree BINS a b) (k : Nat) (hk : k ≤ BINS - 1) :
    BinInfo.sweepLeftAfter blocks a r k = BinInfo.sweepLeftAfter blocks b r k := by
  induction k with
  | zero => rfl
  | succ k ih =>
    have hi : k + 1 - 1 < BINS := by omega
    simp only [BinInfo.sweepLeftAfter, BinInfo.sweepLeftStep]
    rw [ih (by omega)]
    have hc : ∀ d, a.counts (k + 1 - 1) d = b.counts (k + 1 - 1) d := fun d => (h _ hi d).1
    have hb : ∀ d, a.bounds (k + 1 - 1) d = b.bounds (k + 1 - 1) d := fun d => (h _ hi d).2
    simp only [hc, hb]

/-- Tables with the same `BINS` entries have the same best split. -/
theorem best_congr {S : Type} (BINS : Nat) (blocks : Int → Int) (a b : BinInfo K)
    (mapping : Mapping S K) (h : BinInfo.agree BINS a b) :
    a.best BINS blocks mapping = b.best BINS blocks mapping := by
  unfold BinInfo.best BinInfo.sweepLeft BinInfo.sweepRight
  simp only []
  rw [sweepRightAfter_congr BINS a b h _ (Nat.le_refl _),
    sweepLeftAfter_congr BINS blocks a b _ h _ (Nat.le_refl _)]

/-! ### The laws of `merge` -/

theorem wrap32_add_right (a b : Int) : wrap32 (a + wrap32 b) = wrap32 (a + b) := by
  unfold wrap32
  omega

theorem wrap32_isInt32 (a : Int) : isInt32 (wrap32 a) := by
  unfold isInt32 wrap32
  omega

theorem merge_cell (BINS : Nat) (a b : BinInfo K) (i : Nat) (hi : i < BINS) (d : Fin 3) :
    (a.merge BINS b).counts i d = wrap32 (a.counts i d + b.counts i d)
    ∧ (a.merge BINS b).bounds i d = (a.bounds i d).extend (b.bounds i d) := by
  simp [BinInfo.merge, hi]

theorem merge_regular (BINS : Nat) (a b : BinInfo K) (ha : BinInfo.regular BINS a)
    (hb : BinInfo.regular BINS b) : BinInfo.regular BINS (a.merge BINS b) := by
  intro i hi d
  obtain ⟨h1, h2⟩ := merge_cell BINS a b i hi d
  rw [h1, h2]
  exact ⟨wrap32_isInt32 _, BBox.extend_noNaN _ _ (ha i hi d).2 (hb i hi d).2⟩

theorem merge_comm (BINS : Nat) (a b : BinInfo K) (ha : BinInfo.regular BINS a)
    (hb : BinInfo.regular BINS b) : BinInfo.agree BINS (a.merge BINS b) (b.merge BINS a) := by
  intro i hi d
  obtain ⟨h1, h2⟩ := merge_cell BINS a b i hi d
  obtain ⟨h3, h4⟩ := merge_cell BINS b a i hi d
  rw [h1, h2, h3, h4, add_comm, BBox.extend_comm _ _ (ha i hi d).2 (hb i hi d).2]
  exact ⟨rfl, rfl⟩

theorem merge_assoc (BINS : Nat) (a b c : BinInfo K) (ha : BinInfo.regular BINS a)
    (hb : BinInfo.regular BINS b) (hc : BinInfo.regular BINS c) :
    BinInfo.agree BINS ((a.merge BINS b).merge BINS c) (a.merge BINS (b.merge BINS c)) := by
  intro i hi d
  obtain ⟨h1, h2⟩ := merge_cell BINS (a.merge BINS b) c i hi d
  obtain ⟨h3, h4⟩ := merge_cell BINS a b i hi d
  obtain ⟨h5, h6⟩ := merge_cell BINS a (b.merge BINS c) i hi d
  obtain ⟨h7, h8⟩ := merge_cell BINS b c i hi d
  rw [h1, h2, h3, h4, h5, h6, h7, h8, wrap32_add_left, wrap32_add_right, add_assoc,
    BBox.extend_assoc _ _ _ (ha i hi d).2 (hb i hi d).2 (hc i hi d).2]
  exact ⟨rfl, rfl⟩

theorem merge_new_left (BINS : Nat) (a : BinInfo K) (ha : BinInfo.regular BINS a) :
    BinInfo.agree BINS ((BinInfo.new : BinInfo K).merge BINS a) a := by
  intro i hi d
  obtain ⟨h1, h2⟩ := merge_cell BINS (BinInfo.new : BinInfo K) a i hi d
  rw [h1, h2]
  refine ⟨?_, BBox.extend_empty_left _⟩
  show wrap32 (0 + a.counts i d) = a.counts i d
  rw [zero_add]; exact (ha i hi d).1

theorem merge_new_right (BINS : Nat) (a : BinInfo K) (ha : BinInfo.regular BINS a) :
    BinInfo.agree BINS (a.merge BINS (BinInfo.new : BinInfo K)) a := by
  intro i hi d
  obtain ⟨h1, h2⟩ := merge_cell BINS a (BinInfo.new : BinInfo K) i hi d
  rw [h1, h2]
  constructor
  · show wrap32 (a.counts i d + 0) = a.counts i d
    rw [add_zero]; exact (ha i hi d).1
  · show (a.bounds i d).extend BBox.empty = a.bounds i d
    rw [BBox.extend_comm _ _ (ha i hi d).2 BBox.empty_noNaN, BBox.extend_empty_left]

end ObjectPartition


namespace ObjectPartition

variable {K : Type} [LinearOrderedCommRing K] [FloorRing K] {S P : Type}

/-! ### The entries of a table after binning -/

/-- Counting up `n` times from a 32-bit integer. -/
theorem foldl_count {α : Type} (l : List α) (c : Int) (hc : isInt32 c) :
    l.foldl (fun c _ => wrap32 (c + 1)) c = wrap32 (c + l.length) := by
  induction l generalizing c with
  | nil => simp only [List.foldl_nil, List.length_nil, Nat.cast_zero, add_zero]; exact hc.symm
  | cons x l ih =>
    simp only [List.foldl_cons, List.length_cons]
    rw [ih _ (wrap32_isInt32 _), wrap32_add_left]
    congr 1
    push_cast
    ring

/-- The entry `(i, d)` of a table after binning a list of primitives: the
primitives that fall into bin `i` of dimension `d` are counted and their
bounds are merged, in the order of the list. -/
theorem bin_cell (BINS : Nat) (ops : PrimOps P S K) (m : Mapping S K) (l : List P)
    (b : BinInfo K) (i : Nat) (d : Fin 3) :
    (b.bin BINS ops m l).counts i d
      = (l.filter (fun p => decide (i = (m.bin BINS (ops.centerIn m.space p) d).toNat))).foldl
          (fun c _ => wrap32 (c + 1)) (b.counts i d)
    ∧ (b.bin BINS ops m l).bounds i d
      = ((l.filter (fun p => decide (i = (m.bin BINS (ops.centerIn m.space p) d).toNat))).map
          (ops.boundsIn m.space)).foldl BBox.extend (b.bounds i d) := by
  induction l generalizing b with
  | nil => exact ⟨rfl, rfl⟩
  | cons p l ih =>
    obtain ⟨h1, h2⟩ := ih (BinInfo.binPrim BINS ops m b p)
    simp only [BinInfo.bin, List.foldl_cons] at h1 h2 ⊢
    rw [h1, h2]
    by_cases hp : i = (m.bin BINS (ops.centerIn m.space p) d).toNat
    · simp only [List.filter_cons, hp, decide_True, if_true, List.foldl_cons, List.map_cons,
        BinInfo.binPrim, and_self]
    · simp only [List.filter_cons, hp, decide_False, Bool.false_eq_true, if_false,
        BinInfo.binPrim, and_self]

theorem binList_eq (BINS : Nat) (ops : PrimOps P S K) (m : Mapping S K) (L : List (List P))
    (b : BinInfo K) : b.binList BINS ops m L = b.bin BINS ops m L.flatten := by
  induction L generalizing b with
  | nil => rfl
  | cons l L ih =>
    simp only [BinInfo.binList, List.foldl_cons, List.flatten_cons] at ih ⊢
    rw [ih]
    simp only [BinInfo.bin, List.foldl_append]

theorem task_bin_eq (BINS : Nat) (ops : PrimOps P S K) (m : Mapping S K) (L : List (List P))
    (b : BinInfo K) : task_bin_parallel BINS ops m L b = b.bin BINS ops m L.flatten :=
  binList_eq BINS ops m L b

/-- The entry `(i, d)` of the table of a fresh binner after binning `l`. -/
theorem bin_new_cell (BINS : Nat) (ops : PrimOps P S K) (m : Mapping S K) (l : List P)
    (i : Nat) (d : Fin 3) :
    ((BinInfo.new : BinInfo K).bin BINS ops m l).counts i d
      = wrap32 ((l.filter
          (fun p => decide (i = (m.bin BINS (ops.centerIn m.space p) d).toNat))).length : Int)
    ∧ ((BinInfo.new : BinInfo K).bin BINS ops m l).bounds i d
      = unionAll ((l.filter
          (fun p => decide (i = (m.bin BINS (ops.centerIn m.space p) d).toNat))).map
          (ops.boundsIn m.space)) := by
  obtain ⟨h1, h2⟩ := bin_cell BINS ops m l (BinInfo.new : BinInfo K) i d
  rw [h1, h2]
  refine ⟨?_, rfl⟩
  have h0 : isInt32 ((BinInfo.new : BinInfo K).counts i d) := by
    show wrap32 0 = 0
    exact wrap32_zero
  rw [foldl_count _ _ h0]
  show wrap32 (0 + _) = _
  rw [zero_add]

omit [FloorRing K] in
/-- The entry `(i, d)` after merging a list of tables into a table. -/
theorem foldl_merge_cell {α : Type} (BINS : Nat) (F : α → BinInfo K) (ts : List α)
    (t0 : BinInfo K) (i : Nat) (hi : i < BINS) (d : Fin 3) :
    (ts.foldl (fun bins s => bins.merge BINS (F s)) t0).counts i d
      = ts.foldl (fun c s => wrap32 (c + (F s).counts i d)) (t0.counts i d)
    ∧ (ts.foldl (fun bins s => bins.merge BINS (F s)) t0).bounds i d
      = (ts.map (fun s => (F s).bounds i d)).foldl BBox.extend (t0.bounds i d) := by
  induction ts generalizing t0 with
  | nil => exact ⟨rfl, rfl⟩
  | cons t ts ih =>
    obtain ⟨h1, h2⟩ := ih (t0.merge BINS (F t))
    obtain ⟨h3, h4⟩ := merge_cell BINS t0 (F t) i hi d
    simp only [List.foldl_cons, List.map_cons]
    rw [h1, h2, h3, h4]
    exact ⟨rfl, rfl⟩

/-- Adding up wrapped counts. -/
theorem foldl_wrap_sum (ns : List Int) (c : Int) :
    ns.foldl (fun c n => wrap32 (c + wrap32 n)) (wrap32 c) = wrap32 (c + ns.sum) := by
  induction ns generalizing c with
  | nil => simp
  | cons n ns ih =>
    simp only [List.foldl_cons, List.sum_cons]
    rw [wrap32_add_left, wrap32_add_right, ih, add_assoc]

end ObjectPartition


namespace ObjectPartition

variable {K : Type} [LinearOrderedCommRing K] [FloorRing K] {S P : Type}

/-! ### The two phases of `find_parallel` -/

omit [LinearOrderedCommRing K] [FloorRing K] in
theorem flatten_map_flatten {α : Type} (L : List (List (List α))) :
    (L.map List.flatten).flatten = L.flatten.flatten := by
  induction L with
  | nil => rfl
  | cons l L ih => simp only [List.map_cons, List.flatten_cons, List.flatten_append, ih]

omit [FloorRing K] in
theorem boundStep_fold (ops : PrimOps P S K) (space : S) (l : List P) (acc : BBox K × BBox K) :
    (l.foldl (boundStep ops space) acc).2
      = (l.map (fun p => pointBox (ops.centerIn space p))).foldl BBox.extend acc.2 := by
  induction l generalizing acc with
  | nil => rfl
  | cons p l ih =>
    simp only [List.foldl_cons, List.map_cons]
    rw [ih]
    rfl

omit [LinearOrderedCommRing K] [FloorRing K] in
theorem pointBox_noNaN (c : Fin 3 → FVal K) (h : ∀ d, FVal.isNaN (c d) = false) :
    noNaN (pointBox c) := fun d => ⟨h d, h d⟩

omit [FloorRing K] in
/-- The centroid bounds of the parallel phase are those of the serial loop. -/
theorem bound_phase (ops : PrimOps P S K) (space : S) (sched : List (List (List P)))
    (prims : BlockList P) (hs : List.Perm sched.flatten prims)
    (hnan : ∀ p ∈ prims.flatten, ∀ d, FVal.isNaN (ops.centerIn space p d) = false) :
    (sched.foldl (fun shared taken => task_bound_parallel ops space taken shared)
        (BBox.empty, BBox.empty)).2
      = (prims.flatten.foldl (boundStep ops space) (BBox.empty, BBox.empty)).2 := by
  have hperm : List.Perm sched.flatten.flatten prims.flatten := List.Perm.flatten hs
  have hmem : ∀ p ∈ sched.flatten.flatten, noNaN (pointBox (ops.centerIn space p)) :=
    fun p hp => pointBox_noNaN _ (hnan p (hperm.subset hp))
  have hpar : ∀ (L : List (List (List P))) (acc : BBox K × BBox K),
      (L.foldl (fun shared taken => task_bound_parallel ops space taken shared) acc).2
        = (L.map (fun taken => unionAll
            (taken.flatten.map (fun p => pointBox (ops.centerIn space p))))).foldl
            BBox.extend acc.2 := by
    intro L
    induction L with
    | nil => intro acc; rfl
    | cons t L ih =>
      intro acc
      simp only [List.foldl_cons, List.map_cons]
      rw [ih]
      congr 1
      show acc.2.extend (t.foldl (fun acc block => block.foldl (boundStep ops space) acc)
        (BBox.empty, BBox.empty)).2 = _
      rw [← List.foldl_flatten, boundStep_fold]
      rfl
  rw [hpar, boundStep_fold]
  have hff : (sched.map List.flatten).flatten = sched.flatten.flatten := flatten_map_flatten sched
  have h1 := unionAll_flatten (fun p => pointBox (ops.centerIn space p))
    (sched.map List.flatten) (by
      intro l hl x hx
      apply hmem
      rw [← hff]
      exact List.mem_flatten.2 ⟨l, hl, hx⟩)
  rw [List.map_map, hff] at h1
  show unionAll _ = unionAll _
  have h2 : (fun taken : List (List P) => unionAll
      (taken.flatten.map (fun p => pointBox (ops.centerIn space p))))
      = ((fun l => unionAll (List.map (fun p => pointBox (ops.centerIn space p)) l))
          ∘ List.flatten) := rfl
  rw [h2, h1]
  exact foldl_extend_perm _ _ (List.Perm.map _ hperm)
    (fun b hb => by
      obtain ⟨x, hx, rfl⟩ := List.mem_map.1 hb
      exact hmem x hx) _

end ObjectPartition


namespace ObjectPartition

variable {K : Type} [LinearOrderedCommRing K] [FloorRing K] {S P : Type}

omit [LinearOrderedCommRing K] [FloorRing K] in
/-- A loop over the indices of a list is a loop over the list. -/
theorem foldl_range_getD {α β : Type} (h : β → α → β) (dflt : α) (rest pre : List α)
    (a : β) :
    (List.range' pre.length rest.length).foldl (fun acc i => h acc ((pre ++ rest).getD i dflt)) a
      = rest.foldl h a := by
  induction rest generalizing pre a with
  | nil => rfl
  | cons x xs ih =>
    have e1 : (pre ++ x :: xs).getD pre.length dflt = x := by
      rw [List.getD_append_right _ _ _ _ (Nat.le_refl _), Nat.sub_self, List.getD_cons_zero]
    have e2 := ih (pre ++ [x]) (h a x)
    simp only [List.length_append, List.length_singleton, List.append_assoc,
      List.singleton_append] at e2
    simp only [List.length_cons, List.range'_succ, List.foldl_cons, e1]
    exact e2

omit [LinearOrderedCommRing K] [FloorRing K] in
theorem filter_length_flatten {α : Type} (q : α → Bool) (L : List (List α)) :
    ((L.flatten.filter q).length : Int) = (L.map (fun l => ((l.filter q).length : Int))).sum := by
  induction L with
  | nil => rfl
  | cons l L ih =>
    simp only [List.flatten_cons, List.filter_append, List.length_append, List.map_cons,
      List.sum_cons, Nat.cast_add, ih]

/-- Merging the tables of the tasks gives the entries of the table that bins
the whole list at once. -/
theorem bin_phase (BINS : Nat) (ops : PrimOps P S K) (m : Mapping S K) (numTasks : Nat)
    (sched : List (List (List P))) (prims : BlockList P)
    (hs : isSchedule numTasks sched prims)
    (hnan : ∀ p ∈ prims.flatten, noNaN (ops.boundsIn m.space p)) :
    BinInfo.agree BINS
      ((List.range' 1 (numTasks - 1)).foldl
        (fun bins i => bins.merge BINS
          (task_bin_parallel BINS ops m (sched.getD i []) BinInfo.new))
        (task_bin_parallel BINS ops m (sched.getD 0 []) BinInfo.new))
      ((BinInfo.new : BinInfo K).binList BINS ops m prims) := by
  obtain ⟨hlen, hperm⟩ := hs
  have hperm2 : List.Perm sched.flatten.flatten prims.flatten := List.Perm.flatten hperm
  cases sched with
  | nil =>
    have hp : prims = [] := List.Perm.eq_nil (hperm.symm)
    have hn : numTasks = 0 := hlen.symm
    rw [hp, hn]
    intro i _ d
    exact ⟨rfl, rfl⟩
  | cons s0 rest =>
    have hn : numTasks - 1 = rest.length := by
      rw [← hlen]; simp
    have hfold := foldl_range_getD
      (fun (bins : BinInfo K) (s : List (List P)) =>
        bins.merge BINS (task_bin_parallel BINS ops m s BinInfo.new)) [] rest [s0]
      (task_bin_parallel BINS ops m s0 BinInfo.new)
    simp only [List.length_singleton, List.singleton_append] at hfold
    rw [hn, List.getD_cons_zero, hfold]
    intro i hi d
    obtain ⟨c1, c2⟩ := foldl_merge_cell BINS
      (fun s => task_bin_parallel BINS ops m s (BinInfo.new : BinInfo K)) rest
      (task_bin_parallel BINS ops m s0 BinInfo.new) i hi d
    rw [c1, c2, binList_eq]
    obtain ⟨n1, n2⟩ := bin_new_cell BINS ops m prims.flatten i d
    rw [n1, n2]
    constructor
    · -- counts
      have e0 : (task_bin_parallel BINS ops m s0 (BinInfo.new : BinInfo K)).counts i d
          = wrap32 ((s0.flatten.filter (fun p =>
              decide (i = (m.bin BINS (ops.centerIn m.space p) d).toNat))).length : Int) := by
        rw [task_bin_eq]; exact (bin_new_cell BINS ops m _ i d).1
      have e1 : (fun (c : Int) (s : List (List P)) => wrap32 (c +
            (task_bin_parallel BINS ops m s (BinInfo.new : BinInfo K)).counts i d))
          = (fun c s => wrap32 (c + wrap32 ((s.flatten.filter (fun p =>
              decide (i = (m.bin BINS (ops.centerIn m.space p) d).toNat))).length : Int))) := by
        funext c s
        rw [task_bin_eq, (bin_new_cell BINS ops m _ i d).1]
      rw [e0, e1]
      have e2 := foldl_wrap_sum (rest.map (fun s => ((s.flatten.filter (fun p =>
          decide (i = (m.bin BINS (ops.centerIn m.space p) d).toNat))).length : Int)))
        ((s0.flatten.filter (fun p =>
          decide (i = (m.bin BINS (ops.centerIn m.space p) d).toNat))).length : Int)
      rw [List.foldl_map] at e2
      rw [e2]
      congr 1
      have e3 := filter_length_flatten (fun p =>
          decide (i = (m.bin BINS (ops.centerIn m.space p) d).toNat))
        ((s0 :: rest).map List.flatten)
      rw [flatten_map_flatten, List.map_map] at e3
      simp only [List.map_cons, List.sum_cons, Function.comp_def] at e3
      rw [← e3]
      exact_mod_cast (List.Perm.filter _ hperm2).length_eq
    · -- bounds
      have hq : ∀ p ∈ (s0 :: rest).flatten.flatten, noNaN (ops.boundsIn m.space p) :=
        fun p hp => hnan p (hperm2.subset hp)
      have e0 : ∀ s : List (List P),
          (task_bin_parallel BINS ops m s (BinInfo.new : BinInfo K)).bounds i d
          = unionAll ((s.flatten.filter (fun p =>
              decide (i = (m.bin BINS (ops.centerIn m.space p) d).toNat))).map
              (ops.boundsIn m.space)) := by
        intro s
        rw [task_bin_eq]; exact (bin_new_cell BINS ops m _ i d).2
      simp only [e0]
      have e1 : (rest.map (fun s : List (List P) => unionAll ((s.flatten.filter (fun p =>
              decide (i = (m.bin BINS (ops.centerIn m.space p) d).toNat))).map
              (ops.boundsIn m.space)))).foldl BBox.extend
            (unionAll ((s0.flatten.filter (fun p =>
              decide (i = (m.bin BINS (ops.centerIn m.space p) d).toNat))).map
              (ops.boundsIn m.space)))
          = unionAll (((s0 :: rest).map (fun s : List (List P) => s.flatten.filter (fun p =>
              decide (i = (m.bin BINS (ops.centerIn m.space p) d).toNat)))).map
              (fun l => unionAll (l.map (ops.boundsIn m.space)))) := by
        simp only [List.map_cons, List.map_map, unionAll, List.foldl_cons, Function.comp_def]
        rw [BBox.extend_empty_left]
      rw [e1, unionAll_flatten]
      · have e2 : ((s0 :: rest).map (fun s : List (List P) => s.flatten.filter (fun p =>
              decide (i = (m.bin BINS (ops.centerIn m.space p) d).toNat)))).flatten
            = (s0 :: rest).flatten.flatten.filter (fun p =>
              decide (i = (m.bin BINS (ops.centerIn m.space p) d).toNat)) := by
          rw [← flatten_map_flatten, List.filter_flatten, List.map_map]
          rfl
        rw [e2]
        exact foldl_extend_perm _ _ (List.Perm.map _ (List.Perm.filter _ hperm2))
          (fun b hb => by
            obtain ⟨x, hx, rfl⟩ := List.mem_map.1 hb
            exact hq x (List.mem_of_mem_filter hx)) _
      · intro l hl x hx
        obtain ⟨s, hs1, rfl⟩ := List.mem_map.1 hl
        apply hq
        rw [← flatten_map_flatten]
        exact List.mem_flatten.2 ⟨s.flatten, List.mem_map_of_mem _ hs1, List.mem_of_mem_filter hx⟩

end ObjectPartition


namespace ObjectPartition

variable {K : Type} [LinearOrderedCommRing K] [FloorRing K] {S P : Type}

/-- C11. For every list of primitive blocks whose bounds and centres hold no
NaN, every space and every run of the tasks (each block taken by exactly one
instance of `task_bound_parallel` and by exactly one instance of
`task_bin_parallel`), `ObjectPartition::find_parallel` returns the same
`Split` as the serial `ObjectPartition::find`; for every mapping, merging the
tables of the tasks gives the same `BINS` entries as binning the whole list at
once; and on tables with 32-bit counts and bounds without NaN,
`BinInfo::merge` is commutative and associative on the `BINS` entries, with
the freshly constructed `BinInfo` as identity on both sides. -/
theorem find_parallel_eq_find (BINS : Nat) (blocks : Int → Int) (rcp : FVal K → FVal K)
    (binScale : FVal K) (ops : PrimOps P S K) (maxTasks threadCount : Nat)
    (boundSched binSched : List (List (List P))) (prims : BlockList P) (space : S)
    (hb : isSchedule (min maxTasks threadCount) boundSched prims)
    (hn : isSchedule (min maxTasks threadCount) binSched prims)
    (hnan : ∀ p ∈ prims.flatten, noNaN (ops.boundsIn space p)
      ∧ ∀ d, FVal.isNaN (ops.centerIn space p d) = false) :
    find_parallel BINS blocks rcp binScale ops maxTasks threadCount boundSched binSched space
      = find BINS blocks rcp binScale ops prims space
    ∧ (∀ m : Mapping S K, m.space = space →
        BinInfo.agree BINS
          ((List.range' 1 (min maxTasks threadCount - 1)).foldl
            (fun bins i => bins.merge BINS
              (task_bin_parallel BINS ops m (binSched.getD i []) BinInfo.new))
            (task_bin_parallel BINS ops m (binSched.getD 0 []) BinInfo.new))
          ((BinInfo.new : BinInfo K).binList BINS ops m prims))
    ∧ (∀ a b : BinInfo K, BinInfo.regular BINS a → BinInfo.regular BINS b →
        BinInfo.agree BINS (a.merge BINS b) (b.merge BINS a))
    ∧ (∀ a b c : BinInfo K, BinInfo.regular BINS a → BinInfo.regular BINS b →
        BinInfo.regular BINS c →
        BinInfo.agree BINS ((a.merge BINS b).merge BINS c) (a.merge BINS (b.merge BINS c)))
    ∧ (∀ a : BinInfo K, BinInfo.regular BINS a →
        BinInfo.agree BINS ((BinInfo.new : BinInfo K).merge BINS a) a
        ∧ BinInfo.agree BINS (a.merge BINS (BinInfo.new : BinInfo K)) a) := by
  have hbins : ∀ m : Mapping S K, m.space = space →
      BinInfo.agree BINS
        ((List.range' 1 (min maxTasks threadCount - 1)).foldl
          (fun bins i => bins.merge BINS
            (task_bin_parallel BINS ops m (binSched.getD i []) BinInfo.new))
          (task_bin_parallel BINS ops m (binSched.getD 0 []) BinInfo.new))
        ((BinInfo.new : BinInfo K).binList BINS ops m prims) := by
    intro m hm
    exact bin_phase BINS ops m _ binSched prims hn
      (fun p hp => by rw [hm]; exact (hnan p hp).1)
  refine ⟨?_, hbins, merge_comm BINS, merge_assoc BINS,
    fun a ha => ⟨merge_new_left BINS a ha, merge_new_right BINS a ha⟩⟩
  have hcent := bound_phase ops space boundSched prims hb.2 (fun p hp => (hnan p hp).2)
  unfold find_parallel find
  simp only []
  rw [hcent]
  exact best_congr BINS blocks _ _ _ (hbins _ rfl)

/-- Witness for C11: four unit cubes in two blocks, binned by two tasks that
take the blocks in different orders in the two phases. -/
theorem find_parallel_eq_find_witness :
    isSchedule (min 2 2) [[[(1 : ℤ), 2]], [[0, 3]]] [[0, 3], [1, 2]]
    ∧ isSchedule (min 2 2) [[[(0 : ℤ), 3]], [[1, 2]]] [[0, 3], [1, 2]]
    ∧ find_parallel 16 sampleBlocks (fun _ => FVal.fin 1) (FVal.fin 5) sampleOps 2 2
        [[[1, 2]], [[0, 3]]] [[[0, 3]], [[1, 2]]] ()
      = find 16 sampleBlocks (fun _ => FVal.fin 1) (FVal.fin 5) sampleOps [[0, 3], [1, 2]] () :=
  ⟨⟨rfl, by decide⟩, ⟨rfl, by decide⟩,
    (find_parallel_eq_find 16 sampleBlocks (fun _ => FVal.fin 1) (FVal.fin 5) sampleOps 2 2
      [[[1, 2]], [[0, 3]]] [[[0, 3]], [[1, 2]]] [[0, 3], [1, 2]] ()
      ⟨rfl, by decide⟩ ⟨rfl, by decide⟩
      (fun _ _ => ⟨fun _ => ⟨rfl, rfl⟩, fun _ => rfl⟩)).1⟩

end ObjectPartition

/-! ## BVH4i traversal: the leaf intersector lane by lane -/

namespace BVH4i

variable {K : Type} [LinearOrderedCommRing K]

omit [LinearOrderedCommRing K] in
theorem any_eq_true (m : Lanes Bool) : any m = true ↔ ∃ l, m l = true := by
  simp [any, List.any_eq_true]

omit [LinearOrderedCommRing K] in
theorem none_eq_true (m : Lanes Bool) : none m = true ↔ ∀ l, m l = false := by
  simp [none, any, List.any_eq_true]

omit [LinearOrderedCommRing K] in
/-- The early exits `if (none(valid)) continue` do not change the result. -/
theorem early_exit_shape (valid1 valid2 : Lanes Bool) (ray rec : Ray16 K)
    (h12 : ∀ k, valid2 k = true → valid1 k = true) (l : Fin 16) :
    (if none valid1 then ray
      else if none valid2 then ray
      else fun k => if valid2 k then rec k else ray k) l
      = if valid2 l then rec l else ray l := by
  by_cases hn1 : none valid1 = true
  · rw [if_pos hn1]
    have h1 : valid1 l = false := (none_eq_true valid1).1 hn1 l
    have h2 : valid2 l = false := by
      by_contra h
      have := h12 l (by simpa using h)
      rw [h1] at this
      exact absurd this (by decide)
    rw [h2]
    rfl
  · rw [if_neg hn1]
    by_cases hn2 : none valid2 = true
    · rw [if_pos hn2]
      have h2 : valid2 l = false := (none_eq_true valid2).1 hn2 l
      rw [h2]
      rfl
    · rw [if_neg hn2]

/-- One pass of the leaf intersector changes a lane by `laneStep` when the lane
is set in `valid_leaf` and leaves it as it is otherwise. -/
theorem mollerTrumboreStep_lane (cfg : Config) (math : SimdMath K) (valid_leaf : Lanes Bool)
    (ray : Ray16 K) (tri : Triangle1 K) (l : Fin 16) :
    mollerTrumboreStep cfg math valid_leaf ray tri l
      = if valid_leaf l then laneStep cfg math (ray l) tri else ray l := by
  unfold mollerTrumboreStep
  simp only []
  refine (early_exit_shape _ _ ray _ ?_ l).trans ?_
  · intro k hk
    cases hm : cfg.rayMask <;> simp only [hm, Bool.false_eq_true, if_false, if_true,
      Bool.and_eq_true] at hk ⊢
    · exact hk.1.1
    · exact hk.1.1.1
  · have hv : (if cfg.rayMask = true then
          ((if cfg.backfaceCulling = true then
              valid_leaf l && FVal.lt (FVal.fin 0) (Vec3.dot tri.Ng (ray l).dir)
            else valid_leaf l)
            && FVal.le (FVal.fin 0) (laneU math (ray l) tri)
            && FVal.le (FVal.fin 0) (laneV math (ray l) tri)
            && FVal.le (laneU math (ray l) tri + laneV math (ray l) tri) (FVal.fin 1)
            && FVal.le (ray l).tnear (laneT math (ray l) tri)
            && FVal.le (laneT math (ray l) tri) (ray l).tfar)
            && decide (tri.mask &&& (ray l).mask ≠ 0)
        else
          ((if cfg.backfaceCulling = true then
              valid_leaf l && FVal.lt (FVal.fin 0) (Vec3.dot tri.Ng (ray l).dir)
            else valid_leaf l)
            && FVal.le (FVal.fin 0) (laneU math (ray l) tri)
            && FVal.le (FVal.fin 0) (laneV math (ray l) tri)
            && FVal.le (laneU math (ray l) tri + laneV math (ray l) tri) (FVal.fin 1)
            && FVal.le (ray l).tnear (laneT math (ray l) tri)
            && FVal.le (laneT math (ray l) tri) (ray l).tfar))
        = (valid_leaf l && laneAccept cfg math (ray l) tri) := by
      simp only [laneAccept, laneEdgeOk]
      cases cfg.rayMask <;> cases cfg.backfaceCulling <;> cases valid_leaf l <;>
        simp [Bool.and_comm, Bool.and_left_comm, Bool.and_assoc]
    show (if _ then laneRecord math (ray l) tri else ray l) = _
    have hv2 := hv
    simp only [laneU, laneV, laneT] at hv2
    rw [hv2]
    cases valid_leaf l <;> simp [laneStep]

/-- The leaf intersector changes a lane by folding `laneStep` over the triangles
when the lane is set in `valid_leaf` and leaves it as it is otherwise. -/
theorem mollerTrumbore16_lane (cfg : Config) (math : SimdMath K) (valid_leaf : Lanes Bool)
    (ray : Ray16 K) (tris : List (Triangle1 K)) (l : Fin 16) :
    mollerTrumbore16 cfg math valid_leaf ray tris l
      = if valid_leaf l then tris.foldl (laneStep cfg math) (ray l) else ray l := by
  unfold mollerTrumbore16
  induction tris generalizing ray with
  | nil => simp
  | cons tri tris ih =>
    simp only [List.foldl_cons]
    rw [ih, mollerTrumboreStep_lane]
    cases valid_leaf l <;> simp

end BVH4i

/-! ## BVH4i traversal: geometry of one lane -/

namespace FVal

variable {K : Type} [LinearOrderedCommRing K]

theorem fin_add (a b : K) : (fin a : FVal K) + fin b = fin (a + b) := rfl

theorem fin_sub (a b : K) : (fin a : FVal K) - fin b = fin (a - b) := by
  show add (fin a) (neg (fin b)) = fin (a - b)
  simp [add, neg, sub_eq_add_neg]

theorem fin_mul (a b : K) : (fin a : FVal K) * fin b = fin (a * b) := rfl

theorem le_fin_fin (a b : K) : le (fin a) (fin b) = decide (a ≤ b) := rfl

theorem lt_fin_fin (a b : K) : lt (fin a) (fin b) = decide (a < b) := rfl

theorem lt_of_le_of_lt {a b c : FVal K} (h1 : le a b = true) (h2 : lt b c = true) :
    lt a c = true := by
  cases a <;> cases b <;> cases c <;> simp_all [le, lt]
  exact h1.trans_lt h2

theorem lt_of_lt_of_le {a b c : FVal K} (h1 : lt a b = true) (h2 : le b c = true) :
    lt a c = true := by
  cases a <;> cases b <;> cases c <;> simp_all [le, lt]
  exact h1.trans_le h2

theorem le_notNaN_left {a b : FVal K} (h : le a b = true) : isNaN a = false := by
  cases a <;> cases b <;> simp_all [le, isNaN]

theorem le_notNaN_right {a b : FVal K} (h : le a b = true) : isNaN b = false := by
  cases a <;> cases b <;> simp_all [le, isNaN]

theorem le_antisymm {a b : FVal K} (h1 : le a b = true) (h2 : le b a = true) : a = b := by
  cases a <;> cases b <;> simp_all [le]
  exact h1.antisymm h2

theorem not_lt_of_le {a b : FVal K} (h : le a b = true) : lt b a = false := by
  cases a <;> cases b <;> simp_all [le, lt]

theorem lt_pinf_of_le_fin {a : FVal K} {t : K} (h : le a (fin t) = true) :
    lt a pinf = true := by
  cases a <;> simp_all [le, lt]

/-- `max` returns one of its arguments. -/
theorem max_cases (a b : FVal K) : max a b = a ∨ max a b = b := by
  unfold max
  split_ifs
  · exact Or.inl rfl
  · exact Or.inr rfl

/-- `min` returns one of its arguments. -/
theorem min_cases (a b : FVal K) : min a b = a ∨ min a b = b := by
  unfold min
  split_ifs
  · exact Or.inl rfl
  · exact Or.inr rfl

theorem max_le {a b c : FVal K} (h1 : le a c = true) (h2 : le b c = true) :
    le (max a b) c = true := by
  rcases max_cases a b with h | h <;> rw [h] <;> assumption

theorem le_min {a b c : FVal K} (h1 : le c a = true) (h2 : le c b = true) :
    le c (min a b) = true := by
  rcases min_cases a b with h | h <;> rw [h] <;> assumption

/-- A value between `a` and `b`, in either order, lies between their minimum and
their maximum. -/
theorem between_min_max {a b t : FVal K}
    (h : (le a t = true ∧ le t b = true) ∨ (le b t = true ∧ le t a = true)) :
    le (min a b) t = true ∧ le t (max a b) = true := by
  rcases h with ⟨h1, h2⟩ | ⟨h1, h2⟩
  · constructor
    · unfold min
      split_ifs with hlt
      · exact h1
      · exact le_trans (le_of_not_lt (le_notNaN_left h1) (le_notNaN_right h2)
          (by simpa using hlt)) h1
    · unfold max
      split_ifs with hlt
      · exact le_trans h2 (le_of_lt hlt)
      · exact h2
  · constructor
    · unfold min
      split_ifs with hlt
      · exact le_trans (le_of_lt hlt) h1
      · exact h1
    · unfold max
      split_ifs with hlt
      · exact h2
      · exact le_trans h2 (le_of_not_lt (le_notNaN_left h1) (le_notNaN_right h2)
          (by simpa using hlt))

end FVal

namespace FVal

variable {K : Type} [LinearOrderedCommRing K]

/-- With a reciprocal that is not finite the edge tests fail. -/
theorem nonfinite_tests (ρ : FVal K) (hρ : ∀ y, ρ ≠ fin y) (X Y : K) :
    (le (fin 0) (fin X * ρ) && le (fin 0) (fin Y * ρ)
      && le (fin X * ρ + fin Y * ρ) (fin 1)) = false := by
  cases ρ with
  | nan => rfl
  | fin y => exact absurd rfl (hρ y)
  | pinf =>
    show (le (fin 0) (infTimes true X) && le (fin 0) (infTimes true Y)
      && le (add (infTimes true X) (infTimes true Y)) (fin 1)) = false
    unfold infTimes
    split_ifs <;> simp [le, add]
  | ninf =>
    show (le (fin 0) (infTimes false X) && le (fin 0) (infTimes false Y)
      && le (add (infTimes false X) (infTimes false Y)) (fin 1)) = false
    unfold infTimes
    split_ifs <;> simp [le, add]

/-- One axis of the slab test: a coordinate `p` inside `[L, U]` reached at the
parameter `t = (p - o) * ry` lies between the two clip distances. -/
theorem slab_axis (L U : FVal K) (o ry p t : K) (hry : ry ≠ 0)
    (hL : le L (fin p) = true) (hU : le (fin p) U = true) (ht : (p - o) * ry = t) :
    (le (L * fin ry - fin (o * ry)) (fin t) = true
        ∧ le (fin t) (U * fin ry - fin (o * ry)) = true)
      ∨ (le (U * fin ry - fin (o * ry)) (fin t) = true
        ∧ le (fin t) (L * fin ry - fin (o * ry)) = true) := by
  subst ht
  rcases lt_or_gt_of_ne hry with hneg | hpos
  · right
    constructor
    · cases U with
      | nan => simp [le] at hU
      | ninf => simp [le] at hU
      | pinf =>
        show le (sub (infTimes true ry) (fin (o * ry))) _ = true
        have : ¬ (0 < ry) := not_lt.2 hneg.le
        simp [infTimes, this, hneg, sub, neg, add, le]
      | fin u =>
        rw [fin_mul, fin_sub, le_fin_fin, decide_eq_true_eq]
        rw [le_fin_fin, decide_eq_true_eq] at hU
        nlinarith
    · cases L with
      | nan => simp [le] at hL
      | pinf => simp [le] at hL
      | ninf =>
        show le _ (sub (infTimes false ry) (fin (o * ry))) = true
        have : ¬ (0 < ry) := not_lt.2 hneg.le
        simp [infTimes, this, hneg, sub, neg, add, le]
      | fin u =>
        rw [fin_mul, fin_sub, le_fin_fin, decide_eq_true_eq]
        rw [le_fin_fin, decide_eq_true_eq] at hL
        nlinarith
  · left
    constructor
    · cases L with
      | nan => simp [le] at hL
      | pinf => simp [le] at hL
      | ninf =>
        show le (sub (infTimes false ry) (fin (o * ry))) _ = true
        simp [infTimes, hpos, sub, neg, add, le]
      | fin u =>
        rw [fin_mul, fin_sub, le_fin_fin, decide_eq_true_eq]
        rw [le_fin_fin, decide_eq_true_eq] at hL
        nlinarith
    · cases U with
      | nan => simp [le] at hU
      | ninf => simp [le] at hU
      | pinf =>
        show le _ (sub (infTimes true ry) (fin (o * ry))) = true
        simp [infTimes, hpos, sub, neg, add, le]
      | fin u =>
        rw [fin_mul, fin_sub, le_fin_fin, decide_eq_true_eq]
        rw [le_fin_fin, decide_eq_true_eq] at hU
        nlinarith

/-- A convex combination of three coordinates inside `[L, U]` is inside
`[L, U]`. -/
theorem hull_axis (L U : FVal K) (a b c w u v : K) (hw : 0 ≤ w) (hu : 0 ≤ u) (hv : 0 ≤ v)
    (hs : w + u + v = 1)
    (ha : le L (fin a) = true ∧ le (fin a) U = true)
    (hb : le L (fin b) = true ∧ le (fin b) U = true)
    (hc : le L (fin c) = true ∧ le (fin c) U = true) :
    le L (fin (w * a + u * b + v * c)) = true
      ∧ le (fin (w * a + u * b + v * c)) U = true := by
  constructor
  · cases L with
    | nan => simp [le] at ha
    | pinf => simp [le] at ha
    | ninf => rfl
    | fin l =>
      rw [le_fin_fin, decide_eq_true_eq] at *
      have key : w * a + u * b + v * c = l + (w * (a - l) + u * (b - l) + v * (c - l)) := by
        linear_combination l * hs
      have h1 := mul_nonneg hw (sub_nonneg.2 ha.1)
      have h2 := mul_nonneg hu (sub_nonneg.2 hb.1)
      have h3 := mul_nonneg hv (sub_nonneg.2 hc.1)
      linarith
  · cases U with
    | nan => simp [le] at ha
    | ninf => simp [le] at ha
    | pinf => rfl
    | fin l =>
      rw [le_fin_fin, decide_eq_true_eq] at *
      have key : w * a + u * b + v * c = l - (w * (l - a) + u * (l - b) + v * (l - c)) := by
        linear_combination l * hs
      have h1 := mul_nonneg hw (sub_nonneg.2 ha.2)
      have h2 := mul_nonneg hu (sub_nonneg.2 hb.2)
      have h3 := mul_nonneg hv (sub_nonneg.2 hc.2)
      linarith

end FVal

namespace BVH4i

variable {K : Type} [LinearOrderedCommRing K]

/-- The slab test of a box that contains the point `o + t * d` in its three
coordinates brackets the parameter `t`. -/
theorem slab_brackets (b : ChildBox K) (o d ry p : Vec3 K) (t : K)
    (hx : d.x * ry.x = 1) (hy : d.y * ry.y = 1) (hz : d.z * ry.z = 1)
    (px : p.x = o.x + t * d.x) (py : p.y = o.y + t * d.y) (pz : p.z = o.z + t * d.z)
    (bx : FVal.le b.lower.x (FVal.fin p.x) = true ∧ FVal.le (FVal.fin p.x) b.upper.x = true)
    (by1 : FVal.le b.lower.y (FVal.fin p.y) = true ∧ FVal.le (FVal.fin p.y) b.upper.y = true)
    (bz : FVal.le b.lower.z (FVal.fin p.z) = true ∧ FVal.le (FVal.fin p.z) b.upper.z = true) :
    FVal.le (slabNear b (fvec ry) (Vec3.mul (fvec o) (fvec ry))) (FVal.fin t) = true
      ∧ FVal.le (FVal.fin t) (slabFar b (fvec ry) (Vec3.mul (fvec o) (fvec ry))) = true := by
  have nx : ry.x ≠ 0 := fun h => by rw [h, mul_zero] at hx; exact zero_ne_one hx
  have ny : ry.y ≠ 0 := fun h => by rw [h, mul_zero] at hy; exact zero_ne_one hy
  have nz : ry.z ≠ 0 := fun h => by rw [h, mul_zero] at hz; exact zero_ne_one hz
  have tx : (p.x - o.x) * ry.x = t := by rw [px]; linear_combination t * hx
  have ty : (p.y - o.y) * ry.y = t := by rw [py]; linear_combination t * hy
  have tz : (p.z - o.z) * ry.z = t := by rw [pz]; linear_combination t * hz
  obtain ⟨x1, x2⟩ := FVal.between_min_max (FVal.slab_axis _ _ o.x ry.x p.x t nx bx.1 bx.2 tx)
  obtain ⟨y1, y2⟩ := FVal.between_min_max (FVal.slab_axis _ _ o.y ry.y p.y t ny by1.1 by1.2 ty)
  obtain ⟨z1, z2⟩ := FVal.between_min_max (FVal.slab_axis _ _ o.z ry.z p.z t nz bz.1 bz.2 tz)
  exact ⟨FVal.max_le (FVal.max_le x1 y1) z1, FVal.le_min (FVal.le_min x2 y2) z2⟩

/-- A triangle that passes the edge tests of a lane is hit at a finite distance
`t`, and the slab test of every box that contains the triangle brackets
`t`. -/
theorem edgeOk_slab (cfg : Config) (math : SimdMath K) (r : RayLane K) (tri : Triangle1 K)
    (o d ry : Vec3 K) (hro : r.org = fvec o) (hrd : r.dir = fvec d)
    (hx : d.x * ry.x = 1) (hy : d.y * ry.y = 1) (hz : d.z * ry.z = 1)
    (hwf : tri.wellFormed)
    (hrcp : ∀ x, Vec3.dot tri.Ng r.dir = FVal.fin x → exactAt math.rcp x)
    (hok : laneEdgeOk cfg math r tri = true) :
    ∃ t : K, laneT math r tri = FVal.fin t
      ∧ ∀ b : ChildBox K, b.contains tri →
        FVal.le (slabNear b (fvec ry) (Vec3.mul (fvec o) (fvec ry))) (FVal.fin t) = true
          ∧ FVal.le (FVal.fin t) (slabFar b (fvec ry) (Vec3.mul (fvec o) (fvec ry))) = true := by
  obtain ⟨a, b, c, h0, h1, h2, hn⟩ := hwf
  have hden : Vec3.dot tri.Ng r.dir = FVal.fin (Vec3.dot (Vec3.cross (a - b) (c - a)) d) := by
    rw [hn, hrd]; rfl
  have hX : Vec3.dot (Vec3.cross r.dir (tri.v0 - r.org)) (tri.v2 - tri.v0)
      = FVal.fin (Vec3.dot (Vec3.cross d (a - o)) (c - a)) := by
    rw [hrd, hro, h0, h2]
    simp only [fvec, Vec3.map, Vec3.dot, Vec3.cross, Vec3.sub_x, Vec3.sub_y, Vec3.sub_z,
      FVal.fin_mul, FVal.fin_sub, FVal.fin_add]
  have hY : Vec3.dot (Vec3.cross r.dir (tri.v0 - r.org)) (tri.v0 - tri.v1)
      = FVal.fin (Vec3.dot (Vec3.cross d (a - o)) (a - b)) := by
    rw [hrd, hro, h0, h1]
    simp only [fvec, Vec3.map, Vec3.dot, Vec3.cross, Vec3.sub_x, Vec3.sub_y, Vec3.sub_z,
      FVal.fin_mul, FVal.fin_sub, FVal.fin_add]
  have hT : Vec3.dot (tri.v0 - r.org) tri.Ng
      = FVal.fin (Vec3.dot (a - o) (Vec3.cross (a - b) (c - a))) := by
    rw [hro, h0, hn]
    simp only [fvec, Vec3.map, Vec3.dot, Vec3.cross, Vec3.sub_x, Vec3.sub_y, Vec3.sub_z,
      FVal.fin_mul, FVal.fin_sub, FVal.fin_add]
  obtain ⟨e0, e1⟩ := hrcp _ hden
  have htests : (FVal.le (FVal.fin 0) (laneU math r tri)
      && FVal.le (FVal.fin 0) (laneV math r tri)
      && FVal.le (laneU math r tri + laneV math r tri) (FVal.fin 1)) = true := by
    simp only [laneEdgeOk, Bool.and_eq_true] at hok
    simp only [Bool.and_eq_true]
    exact ⟨⟨hok.1.1.1.2, hok.1.1.2⟩, hok.1.2⟩
  have hU : laneU math r tri = FVal.fin (Vec3.dot (Vec3.cross d (a - o)) (c - a))
      * math.rcp (FVal.fin (Vec3.dot (Vec3.cross (a - b) (c - a)) d)) := by
    unfold laneU; rw [hX, hden]
  have hV : laneV math r tri = FVal.fin (Vec3.dot (Vec3.cross d (a - o)) (a - b))
      * math.rcp (FVal.fin (Vec3.dot (Vec3.cross (a - b) (c - a)) d)) := by
    unfold laneV; rw [hY, hden]
  have hTT : laneT math r tri = FVal.fin (Vec3.dot (a - o) (Vec3.cross (a - b) (c - a)))
      * math.rcp (FVal.fin (Vec3.dot (Vec3.cross (a - b) (c - a)) d)) := by
    unfold laneT; rw [hT, hden]
  by_cases hz0 : Vec3.dot (Vec3.cross (a - b) (c - a)) d = 0
  · exfalso
    have := FVal.nonfinite_tests _ (e0 hz0) (Vec3.dot (Vec3.cross d (a - o)) (c - a))
      (Vec3.dot (Vec3.cross d (a - o)) (a - b))
    rw [hU, hV, this] at htests
    exact absurd htests (by decide)
  · obtain ⟨y, hy1, hy2⟩ := e1 hz0
    rw [hy1, FVal.fin_mul] at hU hV hTT
    rw [hU, hV, FVal.fin_add] at htests
    simp only [Bool.and_eq_true, FVal.le_fin_fin, decide_eq_true_eq] at htests
    obtain ⟨⟨hu0, hv0⟩, huv⟩ := htests
    refine ⟨_, hTT, ?_⟩
    intro bx hbx
    have c0 := hbx tri.v0 (Or.inl rfl)
    have c1 := hbx tri.v1 (Or.inr (Or.inl rfl))
    have c2 := hbx tri.v2 (Or.inr (Or.inr rfl))
    rw [h0] at c0
    rw [h1] at c1
    rw [h2] at c2
    simp only [fvec, Vec3.map] at c0 c1 c2
    have hw0 : 0 ≤ 1 - Vec3.dot (Vec3.cross d (a - o)) (c - a) * y
        - Vec3.dot (Vec3.cross d (a - o)) (a - b) * y := by linarith
    have hsum : (1 - Vec3.dot (Vec3.cross d (a - o)) (c - a) * y
        - Vec3.dot (Vec3.cross d (a - o)) (a - b) * y)
        + Vec3.dot (Vec3.cross d (a - o)) (c - a) * y
        + Vec3.dot (Vec3.cross d (a - o)) (a - b) * y = 1 := by ring
    have kx := FVal.hull_axis bx.lower.x bx.upper.x a.x b.x c.x _ _ _ hw0 hu0 hv0 hsum
      c0.1 c1.1 c2.1
    have ky := FVal.hull_axis bx.lower.y bx.upper.y a.y b.y c.y _ _ _ hw0 hu0 hv0 hsum
      c0.2.1 c1.2.1 c2.2.1
    have kz := FVal.hull_axis bx.lower.z bx.upper.z a.z b.z c.z _ _ _ hw0 hu0 hv0 hsum
      c0.2.2 c1.2.2 c2.2.2
    refine slab_brackets bx o d ry ⟨_, _, _⟩ _ hx hy hz ?_ ?_ ?_ kx ky kz
    · simp only [Vec3.dot, Vec3.cross, Vec3.sub_x, Vec3.sub_y, Vec3.sub_z] at hy2 ⊢
      linear_combination (o.x - a.x) * hy2
    · simp only [Vec3.dot, Vec3.cross, Vec3.sub_x, Vec3.sub_y, Vec3.sub_z] at hy2 ⊢
      linear_combination (o.y - a.y) * hy2
    · simp only [Vec3.dot, Vec3.cross, Vec3.sub_x, Vec3.sub_y, Vec3.sub_z] at hy2 ⊢
      linear_combination (o.z - a.z) * hy2

end BVH4i

/-! ## BVH4i traversal: the scan of a list of triangles in one lane -/

namespace FVal

variable {K : Type} [LinearOrderedCommRing K]

theorem lt_of_not_le {a b : FVal K} (ha : isNaN a = false) (hb : isNaN b = false)
    (h : le a b = false) : lt b a = true := by
  cases a <;> cases b <;> simp_all [lt, le, isNaN]

end FVal

namespace BVH4i

variable {K : Type} [LinearOrderedCommRing K]

/-- A recorded hit keeps the ray of the lane, so the values computed for a
triangle do not change. -/
theorem lane_values_of_reach (cfg : Config) (math : SimdMath K) (r0 r : RayLane K)
    (S : List (Triangle1 K)) (hr : laneReach cfg math r0 S r) (tri : Triangle1 K) :
    laneT math r tri = laneT math r0 tri
    ∧ laneEdgeOk cfg math r tri = laneEdgeOk cfg math r0 tri
    ∧ laneRecord math r tri = laneRecord math r0 tri
    ∧ r.tnear = r0.tnear := by
  rcases hr with h | ⟨T, -, -, h⟩
  · rw [h]; exact ⟨rfl, rfl, rfl, rfl⟩
  · rw [h]; exact ⟨rfl, rfl, rfl, rfl⟩

/-- The `tfar` of a reachable lane is not NaN and at most the `tfar` of the
lane it started from. -/
theorem tfar_of_reach (cfg : Config) (math : SimdMath K) (r0 r : RayLane K)
    (S : List (Triangle1 K)) (h0 : FVal.isNaN r0.tfar = false)
    (hr : laneReach cfg math r0 S r) :
    FVal.isNaN r.tfar = false ∧ FVal.le r.tfar r0.tfar = true := by
  rcases hr with h | ⟨T, -, hT, h⟩
  · rw [h]; exact ⟨h0, FVal.le_refl h0⟩
  · rw [h]; exact ⟨FVal.le_notNaN_left hT.2.2, hT.2.2⟩

/-- One triangle of the scan: the lane stays reachable, `tfar` does not grow,
and the triangle, if it is a hit, is no closer than the new `tfar`. -/
theorem laneStep_spec (cfg : Config) (math : SimdMath K) (r0 r : RayLane K)
    (S : List (Triangle1 K)) (h0 : FVal.isNaN r0.tfar = false)
    (hr : laneReach cfg math r0 S r) (tri : Triangle1 K) (hS : tri ∈ S) :
    laneReach cfg math r0 S (laneStep cfg math r tri)
    ∧ FVal.le (laneStep cfg math r tri).tfar r.tfar = true
    ∧ (laneHits cfg math r0 tri →
        FVal.le (laneStep cfg math r tri).tfar (laneT math r0 tri) = true) := by
  obtain ⟨e1, e2, e3, e4⟩ := lane_values_of_reach cfg math r0 r S hr tri
  obtain ⟨n1, n2⟩ := tfar_of_reach cfg math r0 r S h0 hr
  unfold laneStep
  by_cases hacc : laneAccept cfg math r tri = true
  · rw [if_pos hacc]
    simp only [laneAccept, Bool.and_eq_true, e1, e2, e4] at hacc
    obtain ⟨⟨a1, a2⟩, a3⟩ := hacc
    have hhit : laneHits cfg math r0 tri := ⟨a1, a2, FVal.le_trans a3 n2⟩
    rw [e3]
    refine ⟨Or.inr ⟨tri, hS, hhit, rfl⟩, a3, fun _ => ?_⟩
    exact FVal.le_refl (FVal.le_notNaN_left a3)
  · rw [if_neg hacc]
    refine ⟨hr, FVal.le_refl n1, ?_⟩
    intro hhit
    by_contra hle
    have hlt : FVal.lt (laneT math r0 tri) r.tfar = true :=
      FVal.lt_of_not_le n1 (FVal.le_notNaN_left hhit.2.2) (by simpa using hle)
    apply hacc
    simp only [laneAccept, Bool.and_eq_true, e1, e2, e4]
    exact ⟨⟨hhit.1, hhit.2.1⟩, FVal.le_of_lt hlt⟩

/-- The scan of a list of triangles of the scene: the lane stays reachable,
`tfar` does not grow, and no hit of the list is closer than the new `tfar`. -/
theorem laneFold_spec (cfg : Config) (math : SimdMath K) (r0 : RayLane K)
    (S : List (Triangle1 K)) (h0 : FVal.isNaN r0.tfar = false) (ts : List (Triangle1 K))
    (hts : ∀ tri ∈ ts, tri ∈ S) (r : RayLane K) (hr : laneReach cfg math r0 S r) :
    laneReach cfg math r0 S (ts.foldl (laneStep cfg math) r)
    ∧ FVal.le (ts.foldl (laneStep cfg math) r).tfar r.tfar = true
    ∧ ∀ tri ∈ ts, laneHits cfg math r0 tri →
        FVal.le (ts.foldl (laneStep cfg math) r).tfar (laneT math r0 tri) = true := by
  induction ts generalizing r with
  | nil =>
    refine ⟨hr, FVal.le_refl (tfar_of_reach cfg math r0 r S h0 hr).1, ?_⟩
    intro tri h
    simp at h
  | cons t ts ih =>
    obtain ⟨s1, s2, s3⟩ := laneStep_spec cfg math r0 r S h0 hr t (hts t (List.mem_cons_self _ _))
    obtain ⟨i1, i2, i3⟩ := ih (fun tri h => hts tri (List.mem_cons_of_mem _ h)) _ s1
    simp only [List.foldl_cons]
    refine ⟨i1, FVal.le_trans i2 s2, ?_⟩
    intro tri hmem hhit
    rcases List.mem_cons.1 hmem with rfl | hmem
    · exact FVal.le_trans i2 (s3 hhit)
    · exact i3 tri hmem hhit

/-- Two nearest hits of the same lane among the same triangles have the same
`tfar`; when that `tfar` differs from the one the lane started with, both are
recorded hits of triangles at that distance. -/
theorem laneFinal_unique (cfg : Config) (math : SimdMath K) (r0 : RayLane K)
    (S : List (Triangle1 K)) (h0 : FVal.isNaN r0.tfar = false) (r1 r2 : RayLane K)
    (h1 : laneFinal cfg math r0 S r1) (h2 : laneFinal cfg math r0 S r2) :
    r1.tfar = r2.tfar := by
  have key : ∀ a b : RayLane K, laneFinal cfg math r0 S a → laneFinal cfg math r0 S b →
      FVal.le a.tfar b.tfar = true := by
    intro a b ha hb
    rcases hb.1 with h | ⟨T, hT, hh, h⟩
    · rw [h]; exact (tfar_of_reach cfg math r0 a S h0 ha.1).2
    · rw [h]; exact ha.2 T hT hh
  exact FVal.le_antisymm (key r1 r2 h1 h2) (key r2 r1 h2 h1)

end BVH4i

/-! ## BVH4i traversal: the loop over the children of a node -/

namespace BVH4i

variable {K : Type} [LinearOrderedCommRing K]

/-- The box test of a child passes in a lane for which the child holds a hit
closer than `tfar`, and the entry distance is at most the distance of the
hit. -/
theorem box_hit (cfg : Config) (math : SimdMath K) (r0 : RayLane K) (S : List (Triangle1 K))
    (rdirl org_rdirl : Vec3 (FVal K)) (tnearl tfarl : FVal K)
    (hctx : slabCtx math r0 S rdirl org_rdirl tnearl) (b : ChildBox K) (tri : Triangle1 K)
    (hb : b.contains tri) (hS : tri ∈ S) (hh : laneHits cfg math r0 tri)
    (hlt : FVal.lt (laneT math r0 tri) tfarl = true) :
    FVal.le (FVal.max (slabNear b rdirl org_rdirl) tnearl)
        (FVal.min (slabFar b rdirl org_rdirl) tfarl) = true
      ∧ FVal.le (slabNear b rdirl org_rdirl) (laneT math r0 tri) = true := by
  obtain ⟨o, d, ry, h1, h2, h3, h4, hx, hy, hz, h5, -, h7⟩ := hctx
  obtain ⟨wf, hr⟩ := h7 tri hS
  obtain ⟨t, ht, hbr⟩ := edgeOk_slab cfg math r0 tri o d ry h1 h2 hx hy hz wf hr hh.1
  obtain ⟨b1, b2⟩ := hbr b hb
  rw [h3, h4, h5, ht]
  rw [ht] at hlt
  refine ⟨?_, b1⟩
  have hn : FVal.le r0.tnear (FVal.fin t) = true := by rw [← ht]; exact hh.2.1
  exact FVal.le_trans (FVal.max_le b1 hn) (FVal.le_min b2 (FVal.le_of_lt hlt))

/-- The loop body `childStep` in terms of `childHit` and `childDist`. -/
theorem childStep_eq (rdir org_rdir : Lanes (Vec3 (FVal K))) (ray_tnear ray_tfar : Lanes (FVal K))
    (box : Fin 4 → ChildBox K) (child : Fin 4 → Tree K) (s : Trav K) (i : Fin 4) :
    childStep rdir org_rdir ray_tnear ray_tfar box child s i =
      if any (childHit rdir org_rdir ray_tnear ray_tfar (box i)) then
        if any (fun l => FVal.lt (childDist rdir org_rdir ray_tnear ray_tfar (box i) l)
            (s.curDist l)) then
          { curNode := some (child i)
            curDist := childDist rdir org_rdir ray_tnear ray_tfar (box i)
            stack := (s.curNode, s.curDist) :: s.stack }
        else { s with stack := (some (child i), childDist rdir org_rdir ray_tnear ray_tfar (box i))
                 :: s.stack }
      else s := rfl

theorem FVal.lt_pinf_of_le_of_lt {a b c : FVal K} (h1 : FVal.le a b = true)
    (h2 : FVal.lt b c = true) : FVal.lt a FVal.pinf = true := by
  cases a <;> cases b <;> cases c <;> simp_all [FVal.lt, FVal.le]

/-- One child of a node: the marker stays in place, the trees on the stack stay
sound, the hits below the child are covered by the stack afterwards, and the
stack grows by at most the size of the child. -/
theorem childStep_spec (cfg : Config) (math : SimdMath K) (l : Fin 16) (r0 : RayLane K)
    (S : List (Triangle1 K)) (rdir org_rdir : Lanes (Vec3 (FVal K)))
    (ray_tnear ray_tfar : Lanes (FVal K))
    (hctx : slabCtx math r0 S (rdir l) (org_rdir l) (ray_tnear l))
    (hnan : FVal.isNaN (ray_tfar l) = false)
    (box : Fin 4 → ChildBox K) (child : Fin 4 → Tree K) (i : Fin 4) (todo : List (Fin 4))
    (hbox : ∀ tri ∈ (child i).tris, (box i).contains tri)
    (hsub : (∀ tri ∈ (child i).tris, tri ∈ S) ∧ (child i).boxesOk)
    (s : Trav K)
    (hsen : sentinelOk l s.all) (hsound : stackSound S s.all)
    (hcov : covered cfg math l r0 S (ray_tfar l) s.all child (i :: todo)) :
    sentinelOk l (childStep rdir org_rdir ray_tnear ray_tfar box child s i).all
    ∧ stackSound S (childStep rdir org_rdir ray_tnear ray_tfar box child s i).all
    ∧ covered cfg math l r0 S (ray_tfar l)
        (childStep rdir org_rdir ray_tnear ray_tfar box child s i).all child todo
    ∧ stackSize (childStep rdir org_rdir ray_tnear ray_tfar box child s i).all
      ≤ stackSize s.all + (child i).size := by
  -- the facts about lane `l` for a hit below the child that is closer than `tfar`
  have hlane : ∀ tri ∈ (child i).tris, laneHits cfg math r0 tri →
      ¬ FVal.le (ray_tfar l) (laneT math r0 tri) = true →
      childHit rdir org_rdir ray_tnear ray_tfar (box i) l = true
        ∧ FVal.le (childDist rdir org_rdir ray_tnear ray_tfar (box i) l)
            (laneT math r0 tri) = true
        ∧ FVal.lt (childDist rdir org_rdir ray_tnear ray_tfar (box i) l) FVal.pinf = true := by
    intro tri hmem hh hnot
    have hlt : FVal.lt (laneT math r0 tri) (ray_tfar l) = true :=
      FVal.lt_of_not_le hnan (FVal.le_notNaN_left hh.2.2) (by simpa using hnot)
    have h := box_hit cfg math r0 S _ _ _ _ hctx (box i) tri (hbox tri hmem)
      (hsub.1 tri hmem) hh hlt
    have h1 : childHit rdir org_rdir ray_tnear ray_tfar (box i) l = true := h.1
    have h2 : childDist rdir org_rdir ray_tnear ray_tfar (box i) l
        = slabNear (box i) (rdir l) (org_rdir l) := by
      unfold childDist; rw [if_pos h1]
    rw [h2]
    exact ⟨h1, h.2, FVal.lt_pinf_of_le_of_lt h.2 hlt⟩
  rw [childStep_eq]
  obtain ⟨cn, cdist, st⟩ := s
  simp only [Trav.all] at hsen hsound hcov ⊢
  by_cases hA : any (childHit rdir org_rdir ray_tnear ray_tfar (box i)) = true
  · rw [if_pos hA]
    by_cases hB : any (fun l => FVal.lt (childDist rdir org_rdir ray_tnear ray_tfar (box i) l)
        (cdist l)) = true
    · rw [if_pos hB]
      refine ⟨hsen, ?_, ?_, ?_⟩
      · intro e he t het
        rcases List.mem_cons.1 he with h | h
        · rw [h] at het
          cases het
          exact hsub
        · exact hsound e h t het
      · intro tri hS hh
        rcases hcov tri hS hh with h | ⟨e, he, h⟩ | ⟨j, hj, h⟩
        · exact Or.inl h
        · exact Or.inr (Or.inl ⟨e, List.mem_cons_of_mem _ he, h⟩)
        · rcases List.mem_cons.1 hj with hji | hji
          · rw [hji] at h
            by_cases hfar : FVal.le (ray_tfar l) (laneT math r0 tri) = true
            · exact Or.inl hfar
            · exact Or.inr (Or.inl ⟨_, List.mem_cons_self _ _, h, (hlane tri h hh hfar).2.1⟩)
          · exact Or.inr (Or.inr ⟨j, hji, h⟩)
      · show (child i).size + stackSize ((cn, cdist) :: st) ≤ _
        omega
    · rw [if_neg hB]
      have hB2 : ∀ l, FVal.lt (childDist rdir org_rdir ray_tnear ray_tfar (box i) l)
          (cdist l) = false := by
        intro l2
        by_contra hc
        exact hB ((any_eq_true _).2 ⟨l2, by simpa using hc⟩)
      cases cn with
      | none =>
        refine ⟨hsen, ?_, ?_, ?_⟩
        · intro e he t het
          rcases List.mem_cons.1 he with h | h
          · rw [h] at het; cases het
          · rcases List.mem_cons.1 h with h2 | h2
            · rw [h2] at het
              cases het
              exact hsub
            · exact hsound e (List.mem_cons_of_mem _ h2) t het
        · intro tri hS hh
          rcases hcov tri hS hh with h | ⟨e, he, h⟩ | ⟨j, hj, h⟩
          · exact Or.inl h
          · exact absurd he (List.not_mem_nil _)
          · rcases List.mem_cons.1 hj with hji | hji
            · rw [hji] at h
              by_cases hfar : FVal.le (ray_tfar l) (laneT math r0 tri) = true
              · exact Or.inl hfar
              · have h3 := (hlane tri h hh hfar).2.2
                have h4 := hB2 l
                have h5 : cdist l = FVal.pinf := hsen
                rw [h5, h3] at h4
                exact absurd h4 (by simp)
            · exact Or.inr (Or.inr ⟨j, hji, h⟩)
        · show (child i).size + stackSize st ≤ stackSize st + (child i).size
          omega
      | some t0 =>
        refine ⟨hsen, ?_, ?_, ?_⟩
        · intro e he t het
          rcases List.mem_cons.1 he with h | h
          · exact hsound e (by rw [h]; exact List.mem_cons_self _ _) t het
          · rcases List.mem_cons.1 h with h2 | h2
            · rw [h2] at het
              cases het
              exact hsub
            · exact hsound e (List.mem_cons_of_mem _ h2) t het
        · intro tri hS hh
          rcases hcov tri hS hh with h | ⟨e, he, h⟩ | ⟨j, hj, h⟩
          · exact Or.inl h
          · refine Or.inr (Or.inl ⟨e, ?_, h⟩)
            rcases List.mem_cons.1 he with h2 | h2
            · rw [h2]; exact List.mem_cons_self _ _
            · exact List.mem_cons_of_mem _ (List.mem_cons_of_mem _ h2)
          · rcases List.mem_cons.1 hj with hji | hji
            · rw [hji] at h
              by_cases hfar : FVal.le (ray_tfar l) (laneT math r0 tri) = true
              · exact Or.inl hfar
              · exact Or.inr (Or.inl ⟨_, List.mem_cons_of_mem _ (List.mem_cons_self _ _), h,
                  (hlane tri h hh hfar).2.1⟩)
            · exact Or.inr (Or.inr ⟨j, hji, h⟩)
        · show t0.size + ((child i).size + stackSize st) ≤ t0.size + stackSize st + (child i).size
          omega
  · rw [if_neg hA]
    refine ⟨hsen, hsound, ?_, Nat.le_add_right _ _⟩
    intro tri hS hh
    rcases hcov tri hS hh with h | h | ⟨j, hj, h⟩
    · exact Or.inl h
    · exact Or.inr (Or.inl h)
    · rcases List.mem_cons.1 hj with hji | hji
      · rw [hji] at h
        by_cases hfar : FVal.le (ray_tfar l) (laneT math r0 tri) = true
        · exact Or.inl hfar
        · exact absurd ((any_eq_true _).2 ⟨l, (hlane tri h hh hfar).1⟩) hA
      · exact Or.inr (Or.inr ⟨j, hji, h⟩)

end BVH4i

/-! ## BVH4i traversal: the whole loop over the children, and the two nested loops -/

namespace BVH4i

variable {K : Type} [LinearOrderedCommRing K]

omit [LinearOrderedCommRing K] in
theorem Tree.size_pos (t : Tree K) : 0 < t.size := by
  cases t <;> simp [Tree.size]

/-- The loop over the children `todo` of a node: the invariants of `childStep`
carried through the loop. -/
theorem childLoop_spec (cfg : Config) (math : SimdMath K) (l : Fin 16) (r0 : RayLane K)
    (S : List (Triangle1 K)) (rdir org_rdir : Lanes (Vec3 (FVal K)))
    (ray_tnear ray_tfar : Lanes (FVal K))
    (hctx : slabCtx math r0 S (rdir l) (org_rdir l) (ray_tnear l))
    (hnan : FVal.isNaN (ray_tfar l) = false)
    (box : Fin 4 → ChildBox K) (child : Fin 4 → Tree K)
    (hbox : ∀ i, ∀ tri ∈ (child i).tris, (box i).contains tri)
    (hsub : ∀ i, (∀ tri ∈ (child i).tris, tri ∈ S) ∧ (child i).boxesOk)
    (todo : List (Fin 4)) (s : Trav K)
    (hsen : sentinelOk l s.all) (hsound : stackSound S s.all)
    (hcov : covered cfg math l r0 S (ray_tfar l) s.all child todo) :
    sentinelOk l (todo.foldl (childStep rdir org_rdir ray_tnear ray_tfar box child) s).all
    ∧ stackSound S (todo.foldl (childStep rdir org_rdir ray_tnear ray_tfar box child) s).all
    ∧ covered cfg math l r0 S (ray_tfar l)
        (todo.foldl (childStep rdir org_rdir ray_tnear ray_tfar box child) s).all child []
    ∧ stackSize (todo.foldl (childStep rdir org_rdir ray_tnear ray_tfar box child) s).all
      ≤ stackSize s.all + (todo.map (fun i => (child i).size)).sum := by
  induction todo generalizing s with
  | nil => exact ⟨hsen, hsound, hcov, Nat.le_add_right _ _⟩
  | cons i todo ih =>
    obtain ⟨h1, h2, h3, h4⟩ := childStep_spec cfg math l r0 S rdir org_rdir ray_tnear ray_tfar
      hctx hnan box child i todo (hbox i) (hsub i) s hsen hsound hcov
    obtain ⟨k1, k2, k3, k4⟩ := ih _ h1 h2 h3
    refine ⟨k1, k2, k3, ?_⟩
    simp only [List.foldl_cons, List.map_cons, List.sum_cons] at k4 ⊢
    omega

/-- A covered hit stays covered when the list of children is not used. -/
theorem covered_child_irrel (cfg : Config) (math : SimdMath K) (l : Fin 16) (r0 : RayLane K)
    (S : List (Triangle1 K)) (tfar : FVal K) (vs : List (NodeRef K × Lanes (FVal K)))
    (c1 c2 : Fin 4 → Tree K) (h : covered cfg math l r0 S tfar vs c1 []) :
    covered cfg math l r0 S tfar vs c2 [] := by
  intro tri hS hh
  rcases h tri hS hh with h | h | ⟨j, hj, -⟩
  · exact Or.inl h
  · exact Or.inr (Or.inl h)
  · exact absurd hj (List.not_mem_nil _)

end BVH4i

namespace BVH4i

variable {K : Type} [LinearOrderedCommRing K]

/-- With the marker reached, the lane holds a nearest hit. -/
theorem final_of_inv (cfg : Config) (math : SimdMath K) (l : Fin 16) (r0 : RayLane K)
    (S : List (Triangle1 K)) (d : Lanes (FVal K)) (rest : List (NodeRef K × Lanes (FVal K)))
    (ray : Ray16 K) (ray_tfar : Lanes (FVal K))
    (h : travInv cfg math l r0 S ((Option.none, d) :: rest) ray ray_tfar) :
    laneFinal cfg math r0 S (ray l) := by
  obtain ⟨h1, h2, -, h4, -⟩ := h
  refine ⟨h2, ?_⟩
  intro tri hS hh
  rcases h4 tri hS hh with h | ⟨e, he, -⟩ | ⟨j, hj, -⟩
  · rw [← h1]; exact h
  · exact absurd he (List.not_mem_nil _)
  · exact absurd hj (List.not_mem_nil _)

/-- Dropping the top of the stack keeps the invariant when the lane does not
pass the culling test of the entry. -/
theorem inv_drop (cfg : Config) (math : SimdMath K) (l : Fin 16) (r0 : RayLane K)
    (S : List (Triangle1 K)) (h0 : FVal.isNaN r0.tfar = false) (t : Tree K)
    (d : Lanes (FVal K)) (rest : List (NodeRef K × Lanes (FVal K)))
    (ray : Ray16 K) (ray_tfar : Lanes (FVal K))
    (h : travInv cfg math l r0 S ((some t, d) :: rest) ray ray_tfar)
    (hc : FVal.lt (d l) (ray_tfar l) = false) :
    travInv cfg math l r0 S rest ray ray_tfar := by
  obtain ⟨h1, h2, h3, h4, h5⟩ := h
  refine ⟨h1, h2, fun e he => h3 e (List.mem_cons_of_mem _ he), ?_, h5⟩
  intro tri hS hh
  rcases h4 tri hS hh with h | ⟨e, he, h⟩ | ⟨j, hj, -⟩
  · exact Or.inl h
  · rcases List.mem_cons.1 he with h6 | h6
    · rw [h6] at h
      have hn : FVal.isNaN (ray_tfar l) = false := by
        rw [h1]; exact (tfar_of_reach cfg math r0 _ S h0 h2).1
      exact Or.inl (FVal.le_trans
        (FVal.le_of_not_lt (FVal.le_notNaN_left h.2) hn hc) h.2)
    · exact Or.inr (Or.inl ⟨e, h6, h⟩)
  · exact absurd hj (List.not_mem_nil _)

end BVH4i

namespace BVH4i

variable {K : Type} [LinearOrderedCommRing K]

/-- The invariant after the leaf on top of the stack has been intersected. -/
theorem inv_leaf (cfg : Config) (math : SimdMath K) (l : Fin 16) (r0 : RayLane K)
    (S : List (Triangle1 K)) (h0 : FVal.isNaN r0.tfar = false) (tris : List (Triangle1 K))
    (d : Lanes (FVal K)) (rest : List (NodeRef K × Lanes (FVal K)))
    (ray : Ray16 K) (ray_tfar : Lanes (FVal K))
    (h : travInv cfg math l r0 S ((some (Tree.leaf tris), d) :: rest) ray ray_tfar) :
    travInv cfg math l r0 S rest
      (mollerTrumbore16 cfg math (fun l => FVal.lt (d l) (ray_tfar l)) ray tris)
      (fun k => if FVal.lt (d k) (ray_tfar k) then
        (mollerTrumbore16 cfg math (fun l => FVal.lt (d l) (ray_tfar l)) ray tris k).tfar
        else ray_tfar k) := by
  by_cases hv : FVal.lt (d l) (ray_tfar l) = true
  · obtain ⟨h1, h2, h3, h4, h5⟩ := h
    have hts : ∀ tri ∈ tris, tri ∈ S :=
      (h3 _ (List.mem_cons_self _ _) (Tree.leaf tris) rfl).1
    obtain ⟨f1, f2, f3⟩ := laneFold_spec cfg math r0 S h0 tris hts (ray l) h2
    have hl : mollerTrumbore16 cfg math (fun l => FVal.lt (d l) (ray_tfar l)) ray tris l
        = tris.foldl (laneStep cfg math) (ray l) := by
      rw [mollerTrumbore16_lane]; simp only [hv, if_true]
    refine ⟨?_, ?_, fun e he => h3 e (List.mem_cons_of_mem _ he), ?_, h5⟩
    · simp only [hv, if_true]
    · rw [hl]; exact f1
    · simp only [hv, if_true]
      rw [hl]
      intro tri hS hh
      rcases h4 tri hS hh with h | ⟨e, he, h⟩ | ⟨j, hj, -⟩
      · rw [h1] at h
        exact Or.inl (FVal.le_trans f2 h)
      · rcases List.mem_cons.1 he with h6 | h6
        · rw [h6] at h
          exact Or.inl (f3 tri h.1 hh)
        · exact Or.inr (Or.inl ⟨e, h6, h⟩)
      · exact absurd hj (List.not_mem_nil _)
  · have hv2 : FVal.lt (d l) (ray_tfar l) = false := by simpa using hv
    obtain ⟨h1, h2, h3, h4, h5⟩ := inv_drop cfg math l r0 S h0 _ d rest ray ray_tfar h hv2
    have hl : mollerTrumbore16 cfg math (fun l => FVal.lt (d l) (ray_tfar l)) ray tris l
        = ray l := by
      rw [mollerTrumbore16_lane]; simp only [hv2, Bool.false_eq_true, if_false]
    refine ⟨?_, ?_, h3, ?_, h5⟩
    · simp only [hv2, Bool.false_eq_true, if_false]; rw [hl]; exact h1
    · rw [hl]; exact h2
    · simp only [hv2, Bool.false_eq_true, if_false]; exact h4

/-- The invariant after the loop over the children of the node on top of the
stack, and the bound on the size of the new stack. -/
theorem inv_node (cfg : Config) (math : SimdMath K) (l : Fin 16) (r0 : RayLane K)
    (S : List (Triangle1 K)) (rdir org_rdir : Lanes (Vec3 (FVal K)))
    (ray_tnear : Lanes (FVal K))
    (hctx : slabCtx math r0 S (rdir l) (org_rdir l) (ray_tnear l))
    (box : Fin 4 → ChildBox K) (child : Fin 4 → Tree K)
    (d : Lanes (FVal K)) (nn : NodeRef K) (nd : Lanes (FVal K))
    (rest : List (NodeRef K × Lanes (FVal K)))
    (ray : Ray16 K) (ray_tfar : Lanes (FVal K))
    (h : travInv cfg math l r0 S ((some (Tree.node box child), d) :: (nn, nd) :: rest) ray
      ray_tfar) :
    travInv cfg math l r0 S
      ([(0 : Fin 4), 1, 2, 3].foldl (childStep rdir org_rdir ray_tnear ray_tfar box child)
        ⟨nn, nd, rest⟩).all ray ray_tfar
    ∧ stackSize ([(0 : Fin 4), 1, 2, 3].foldl
        (childStep rdir org_rdir ray_tnear ray_tfar box child) ⟨nn, nd, rest⟩).all + 1
      ≤ stackSize ((some (Tree.node box child), d) :: (nn, nd) :: rest) := by
  obtain ⟨h1, h2, h3, h4, h5⟩ := h
  have h0 : FVal.isNaN r0.tfar = false := by
    obtain ⟨o, dd, ry, -, -, -, -, -, -, -, -, h, -⟩ := hctx
    exact h
  have hn : FVal.isNaN (ray_tfar l) = false := by
    rw [h1]; exact (tfar_of_reach cfg math r0 _ S h0 h2).1
  obtain ⟨hS, hb⟩ := h3 _ (List.mem_cons_self _ _) (Tree.node box child) rfl
  have hbox : ∀ i, ∀ tri ∈ (child i).tris, (box i).contains tri := fun i => (hb i).1
  have hmem : ∀ i, ∀ tri ∈ (child i).tris, tri ∈ (Tree.node box child).tris := by
    intro i tri hi
    simp only [Tree.tris, List.mem_append]
    fin_cases i
    · exact Or.inl (Or.inl (Or.inl hi))
    · exact Or.inl (Or.inl (Or.inr hi))
    · exact Or.inl (Or.inr hi)
    · exact Or.inr hi
  have hsub : ∀ i, (∀ tri ∈ (child i).tris, tri ∈ S) ∧ (child i).boxesOk :=
    fun i => ⟨fun tri hi => hS tri (hmem i tri hi), (hb i).2⟩
  have hcov : covered cfg math l r0 S (ray_tfar l) (Trav.all ⟨nn, nd, rest⟩) child
      [(0 : Fin 4), 1, 2, 3] := by
    intro tri hS2 hh
    rcases h4 tri hS2 hh with h | ⟨e, he, h⟩ | ⟨j, hj, -⟩
    · exact Or.inl h
    · rcases List.mem_cons.1 he with h6 | h6
      · rw [h6] at h
        have h7 := h.1
        simp only [Tree.tris, List.mem_append] at h7
        refine Or.inr (Or.inr ?_)
        rcases h7 with ((h7 | h7) | h7) | h7
        · exact ⟨0, by simp, h7⟩
        · exact ⟨1, by simp, h7⟩
        · exact ⟨2, by simp, h7⟩
        · exact ⟨3, by simp, h7⟩
      · exact Or.inr (Or.inl ⟨e, h6, h⟩)
    · exact absurd hj (List.not_mem_nil _)
  obtain ⟨k1, k2, k3, k4⟩ := childLoop_spec cfg math l r0 S rdir org_rdir ray_tnear ray_tfar
    hctx hn box child hbox hsub [(0 : Fin 4), 1, 2, 3] ⟨nn, nd, rest⟩ h5
    (fun e he => h3 e (List.mem_cons_of_mem _ he)) hcov
  refine ⟨⟨h1, h2, k2, covered_child_irrel cfg math l r0 S _ _ _ _ k3, k1⟩, ?_⟩
  have e1 : stackSize ((some (Tree.node box child), d) :: (nn, nd) :: rest)
      = (Tree.node box child).size + stackSize (Trav.all ⟨nn, nd, rest⟩) := rfl
  rw [e1]
  simp only [Tree.size, List.map_cons, List.map_nil, List.sum_cons, List.sum_nil] at k4 ⊢
  omega

end BVH4i

/-! ## BVH4i traversal: termination and the nearest hit of a lane -/

namespace BVH4i

variable {K : Type} [LinearOrderedCommRing K]

/-- The two loops of `traverse` return when the fuel exceeds twice the size of
the stack, and the lane `l` of the result is a nearest hit of `r0`. -/
theorem traverse_spec (cfg : Config) (math : SimdMath K) (l : Fin 16) (r0 : RayLane K)
    (S : List (Triangle1 K)) (rdir org_rdir : Lanes (Vec3 (FVal K)))
    (ray_tnear : Lanes (FVal K))
    (hctx : slabCtx math r0 S (rdir l) (org_rdir l) (ray_tnear l)) (fuel : Nat) :
    (∀ stack ray ray_tfar, travInv cfg math l r0 S stack ray ray_tfar →
      2 * stackSize stack + 1 < fuel →
      ∃ r, traverse (mollerTrumbore16 cfg math) rdir org_rdir ray_tnear fuel Mode.pop stack ray
          ray_tfar = some r ∧ laneFinal cfg math r0 S (r l))
    ∧ (∀ c d stack ray ray_tfar, travInv cfg math l r0 S ((c, d) :: stack) ray ray_tfar →
      2 * stackSize ((c, d) :: stack) < fuel →
      ∃ r, traverse (mollerTrumbore16 cfg math) rdir org_rdir ray_tnear fuel (Mode.descend c d)
          stack ray ray_tfar = some r ∧ laneFinal cfg math r0 S (r l)) := by
  have h0 : FVal.isNaN r0.tfar = false := by
    obtain ⟨o, dd, ry, -, -, -, -, -, -, -, -, h, -⟩ := hctx
    exact h
  induction fuel with
  | zero =>
    exact ⟨fun _ _ _ _ h => absurd h (Nat.not_lt_zero _),
      fun _ _ _ _ _ _ h => absurd h (Nat.not_lt_zero _)⟩
  | succ fuel ih =>
    obtain ⟨ihp, ihd⟩ := ih
    constructor
    · intro stack ray ray_tfar hinv hfuel
      cases stack with
      | nil => exact absurd hinv.2.2.2.2 (by simp [sentinelOk])
      | cons e rest =>
        obtain ⟨c, d⟩ := e
        cases c with
        | none =>
          exact ⟨ray, by simp only [traverse], final_of_inv cfg math l r0 S d rest ray ray_tfar hinv⟩
        | some t =>
          have hsz : stackSize ((some t, d) :: rest) = t.size + stackSize rest := rfl
          have hpos := Tree.size_pos t
          simp only [traverse]
          by_cases hc : none (fun l => FVal.lt (d l) (ray_tfar l)) = true
          · rw [if_pos hc]
            have hcl : FVal.lt (d l) (ray_tfar l) = false := (none_eq_true _).1 hc l
            exact ihp rest ray ray_tfar (inv_drop cfg math l r0 S h0 t d rest ray ray_tfar hinv hcl)
              (by omega)
          · rw [if_neg hc]
            exact ihd (some t) d rest ray ray_tfar hinv (by omega)
    · intro c d stack ray ray_tfar hinv hfuel
      cases c with
      | none =>
        exact ⟨ray, by simp only [traverse], final_of_inv cfg math l r0 S d stack ray ray_tfar hinv⟩
      | some t =>
        have hsz : stackSize ((some t, d) :: stack) = t.size + stackSize stack := rfl
        cases t with
        | leaf tris =>
          simp only [traverse]
          have hs1 : (Tree.leaf tris : Tree K).size = 1 := rfl
          exact ihp stack _ _ (inv_leaf cfg math l r0 S h0 tris d stack ray ray_tfar hinv)
            (by omega)
        | node box child =>
          cases stack with
          | nil => exact absurd hinv.2.2.2.2 (by simp [sentinelOk])
          | cons e rest =>
            obtain ⟨nn, nd⟩ := e
            simp only [traverse]
            obtain ⟨k1, k2⟩ := inv_node cfg math l r0 S rdir org_rdir ray_tnear hctx box child d
              nn nd rest ray ray_tfar hinv
            exact ihd _ _ _ ray ray_tfar k1 (by simp only [Trav.all] at k2; omega)

end BVH4i

namespace BVH4i

variable {K : Type} [LinearOrderedCommRing K]

/-- The traversal returns for enough fuel, and an active lane that can be
reasoned about exactly ends as a nearest hit of the scene. -/
theorem intersect_lane_final (cfg : Config) (math : SimdMath K) (valid_i : Lanes Int)
    (root : Tree K) (ray : Ray16 K) (l : Fin 16) (hact : valid_i l ≠ 0)
    (hbox : root.boxesOk) (hex : laneExact math (ray l) root.tris)
    (fuel : Nat) (hfuel : 2 * root.size + 1 < fuel) :
    ∃ r, intersect math (mollerTrumbore16 cfg math) fuel valid_i root ray = some r
      ∧ laneFinal cfg math (ray l) root.tris (r l) := by
  obtain ⟨o, d, e1, e2, ⟨yx, rx, hx⟩, ⟨yy, ry, hy⟩, ⟨yz, rz, hz⟩, hn, htris⟩ := hex
  have hv : decide (valid_i l ≠ 0) = true := by simpa using hact
  unfold intersect
  refine (traverse_spec cfg math l (ray l) root.tris _ _ _ ?_ fuel).1 _ ray _ ?_ ?_
  · refine ⟨o, d, ⟨yx, yy, yz⟩, e1, e2, ?_, ?_, hx, hy, hz, ?_, hn, htris⟩
    · show Vec3.map math.rcp_safe (ray l).dir = _
      rw [e2]
      simp only [fvec, Vec3.map, rx, ry, rz]
    · show Vec3.mul (ray l).org (Vec3.map math.rcp_safe (ray l).dir) = _
      rw [e1, e2]
      simp only [fvec, Vec3.map, rx, ry, rz]
    · simp only [hv, if_true]
  · refine ⟨?_, Or.inl rfl, ?_, ?_, ?_⟩
    · simp only [hv, if_true]
    · intro e he t het
      rcases List.mem_cons.1 he with h | h
      · rw [h] at het
        cases het
        exact ⟨fun _ h => h, hbox⟩
      · rcases List.mem_cons.1 h with h2 | h2
        · rw [h2] at het; cases het
        · exact absurd h2 (List.not_mem_nil _)
    · intro tri hS hh
      refine Or.inr (Or.inl ⟨(root, _), List.mem_cons_self _ _, hS, ?_⟩)
      simp only [hv, if_true]
      exact hh.2.1
    · show (fun _ => FVal.pinf : Lanes (FVal K)) l = FVal.pinf
      rfl
  · show 2 * (root.size + 0) + 1 < fuel
    omega

/-- An active lane of the brute-force scan ends as a nearest hit of the
scene. -/
theorem bruteForce_lane_final (cfg : Config) (math : SimdMath K) (valid_i : Lanes Int)
    (root : Tree K) (ray : Ray16 K) (l : Fin 16) (hact : valid_i l ≠ 0)
    (hn : FVal.isNaN (ray l).tfar = false) :
    laneFinal cfg math (ray l) root.tris
      (bruteForce (mollerTrumbore16 cfg math) valid_i root ray l) := by
  have hv : decide (valid_i l ≠ 0) = true := by simpa using hact
  unfold bruteForce
  rw [mollerTrumbore16_lane]
  simp only [hv, if_true]
  obtain ⟨f1, -, f3⟩ := laneFold_spec cfg math (ray l) root.tris hn root.tris (fun _ h => h)
    (ray l) (Or.inl rfl)
  exact ⟨f1, f3⟩

/-- Two nearest hits of a lane carry the same IDs when no hit lies at exactly
the `tfar` of the lane and hits at equal distance carry equal IDs. -/
theorem laneFinal_ids (cfg : Config) (math : SimdMath K) (r0 : RayLane K)
    (S : List (Triangle1 K)) (h0 : FVal.isNaN r0.tfar = false) (r1 r2 : RayLane K)
    (h1 : laneFinal cfg math r0 S r1) (h2 : laneFinal cfg math r0 S r2)
    (hstrict : ∀ tri ∈ S, laneHits cfg math r0 tri → laneT math r0 tri ≠ r0.tfar)
    (huniq : ∀ t1 ∈ S, ∀ t2 ∈ S, laneHits cfg math r0 t1 → laneHits cfg math r0 t2 →
      laneT math r0 t1 = laneT math r0 t2 →
      t1.geomID = t2.geomID ∧ t1.primID = t2.primID) :
    r1.geomID = r2.geomID ∧ r1.primID = r2.primID := by
  have ht := laneFinal_unique cfg math r0 S h0 r1 r2 h1 h2
  rcases h1.1 with a | ⟨T1, hT1, hh1, a⟩ <;> rcases h2.1 with b | ⟨T2, hT2, hh2, b⟩
  · rw [a, b]; exact ⟨rfl, rfl⟩
  · rw [a, b] at ht
    exact absurd ht.symm (hstrict T2 hT2 hh2)
  · rw [a, b] at ht
    exact absurd ht (hstrict T1 hT1 hh1)
  · rw [a, b] at ht
    rw [a, b]
    exact huniq T1 hT1 T2 hT2 hh1 hh2 ht

end BVH4i

namespace BVH4i

variable {K : Type} [LinearOrderedCommRing K]

/-- More fuel does not change a result of `traverse`. -/
theorem traverse_mono (isect : LeafIntersector K) (rdir org_rdir : Lanes (Vec3 (FVal K)))
    (ray_tnear : Lanes (FVal K)) (fuel : Nat) :
    ∀ (mode : Mode K) stack ray ray_tfar r,
      traverse isect rdir org_rdir ray_tnear fuel mode stack ray ray_tfar = some r →
      traverse isect rdir org_rdir ray_tnear (fuel + 1) mode stack ray ray_tfar = some r := by
  induction fuel with
  | zero =>
    intro mode stack ray ray_tfar r h
    simp [traverse] at h
  | succ fuel ih =>
    intro mode stack ray ray_tfar r h
    cases mode with
    | pop =>
      cases stack with
      | nil => simp [traverse] at h
      | cons e rest =>
        obtain ⟨c, d⟩ := e
        cases c with
        | none => simpa [traverse] using h
        | some t =>
          rw [traverse] at h ⊢
          split_ifs at h ⊢ with hc
          · exact ih _ _ _ _ _ h
          · exact ih _ _ _ _ _ h
    | descend c d =>
      cases c with
      | none => simpa [traverse] using h
      | some t =>
        cases t with
        | leaf tris =>
          rw [traverse] at h ⊢
          exact ih _ _ _ _ _ h
        | node box child =>
          cases stack with
          | nil => simp [traverse] at h
          | cons e rest =>
            obtain ⟨nn, nd⟩ := e
            rw [traverse] at h ⊢
            exact ih _ _ _ _ _ h

theorem traverse_mono_le (isect : LeafIntersector K) (rdir org_rdir : Lanes (Vec3 (FVal K)))
    (ray_tnear : Lanes (FVal K)) (fuel fuel2 : Nat) (hle : fuel ≤ fuel2)
    (mode : Mode K) (stack : List (NodeRef K × Lanes (FVal K))) (ray : Ray16 K)
    (ray_tfar : Lanes (FVal K)) (r : Ray16 K)
    (h : traverse isect rdir org_rdir ray_tnear fuel mode stack ray ray_tfar = some r) :
    traverse isect rdir org_rdir ray_tnear fuel2 mode stack ray ray_tfar = some r := by
  induction hle with
  | refl => exact h
  | step _ ih => exact traverse_mono isect rdir org_rdir ray_tnear _ _ _ _ _ _ ih

end BVH4i

/-! ## BVH4i traversal against the brute-force scan -/

namespace BVH4i

variable {K : Type} [LinearOrderedCommRing K]

/-- The box of each child of `cornerTree` contains the triangles below it. -/
theorem cornerTree_boxesOk : cornerTree.boxesOk := by
  intro i
  fin_cases i
  · refine ⟨?_, trivial⟩
    intro tri htri
    have h : tri = cornerTri := by simpa [cornerTree, Tree.tris] using htri
    rw [h]
    intro p hp
    rcases hp with hp | hp | hp <;> rw [hp] <;> decide
  · exact ⟨fun tri htri => by simp [cornerTree, Tree.tris] at htri, trivial⟩
  · exact ⟨fun tri htri => by simp [cornerTree, Tree.tris] at htri, trivial⟩
  · exact ⟨fun tri htri => by simp [cornerTree, Tree.tris] at htri, trivial⟩

theorem cornerTree_tris : cornerTree.tris = [cornerTri] := rfl

/-- Lane 0 of `cornerRay` and the triangle of `cornerTree` can be reasoned about
exactly with `unitMath`. -/
theorem cornerRay_exact (tfar : ℤ) : laneExact unitMath (cornerRay tfar 0) cornerTree.tris := by
  refine ⟨⟨0, 0, 0⟩, ⟨1, 1, 1⟩, rfl, rfl, ⟨1, rfl, by norm_num⟩, ⟨1, rfl, by norm_num⟩,
    ⟨1, rfl, by norm_num⟩, rfl, ?_⟩
  intro tri htri
  rw [cornerTree_tris, List.mem_singleton] at htri
  rw [htri]
  refine ⟨⟨⟨1, 1, 1⟩, ⟨2, 1, 1⟩, ⟨1, 2, 1⟩, rfl, rfl, rfl, by decide⟩, ?_⟩
  intro x hx
  have hx2 : (-1 : ℤ) = x := FVal.fin.inj hx
  rw [← hx2]
  exact ⟨fun h => absurd h (by decide), fun _ => ⟨-1, rfl, by norm_num⟩⟩

/-- C1 (amended).  For a tree whose child boxes contain the triangles below
them, a lane active in `valid_i` whose ray and triangles are computed exactly,
and fuel above twice the size of the tree: `intersect` returns, and the lane
ends with the same `tfar` as the brute-force scan of all triangles.  The lane
also ends with the same geometry and primitive ID when no triangle is hit at
exactly the original `tfar` and triangles hit at the same distance carry the
same IDs. -/
theorem intersect_nearest_hit (cfg : Config) (math : SimdMath K) (valid_i : Lanes Int)
    (root : Tree K) (ray : Ray16 K) (l : Fin 16) (hact : valid_i l ≠ 0)
    (hbox : root.boxesOk) (hex : laneExact math (ray l) root.tris)
    (fuel : Nat) (hfuel : 2 * root.size + 1 < fuel) :
    ∃ r, intersect math (mollerTrumbore16 cfg math) fuel valid_i root ray = some r
      ∧ (r l).tfar = (bruteForce (mollerTrumbore16 cfg math) valid_i root ray l).tfar
      ∧ ((∀ tri ∈ root.tris, laneHits cfg math (ray l) tri →
            laneT math (ray l) tri ≠ (ray l).tfar) →
          (∀ t1 ∈ root.tris, ∀ t2 ∈ root.tris, laneHits cfg math (ray l) t1 →
            laneHits cfg math (ray l) t2 → laneT math (ray l) t1 = laneT math (ray l) t2 →
            t1.geomID = t2.geomID ∧ t1.primID = t2.primID) →
          (r l).geomID = (bruteForce (mollerTrumbore16 cfg math) valid_i root ray l).geomID
          ∧ (r l).primID
            = (bruteForce (mollerTrumbore16 cfg math) valid_i root ray l).primID) := by
  have hn : FVal.isNaN (ray l).tfar = false := by
    obtain ⟨o, d, -, -, -, -, -, h, -⟩ := hex
    exact h
  obtain ⟨r, hr, hfin⟩ := intersect_lane_final cfg math valid_i root ray l hact hbox hex fuel hfuel
  have hbf := bruteForce_lane_final cfg math valid_i root ray l hact hn
  exact ⟨r, hr, laneFinal_unique cfg math (ray l) root.tris hn _ _ hfin hbf,
    fun hstrict huniq => laneFinal_ids cfg math (ray l) root.tris hn _ _ hfin hbf hstrict huniq⟩

/-- The amended C1 at `cornerTree` with `tfar = 2`: the traversal returns with
12 units of fuel and lane 0 holds the hit of the brute-force scan, geometry 3
and primitive 5 at `t = 1`. -/
theorem intersect_nearest_hit_witness :
    laneZero 0 ≠ 0 ∧ cornerTree.boxesOk ∧ laneExact unitMath (cornerRay 2 0) cornerTree.tris
    ∧ 2 * cornerTree.size + 1 < 12
    ∧ ∃ r, intersect unitMath (mollerTrumbore16 noCulling unitMath) 12 laneZero cornerTree
        (cornerRay 2) = some r
      ∧ (r 0).tfar = FVal.fin 1 ∧ (r 0).geomID = 3 ∧ (r 0).primID = 5 := by
  refine ⟨by decide, cornerTree_boxesOk, cornerRay_exact 2, by decide, ?_⟩
  obtain ⟨r, hr, ht, hid⟩ := intersect_nearest_hit noCulling unitMath laneZero cornerTree
    (cornerRay 2) 0 (by decide) cornerTree_boxesOk (cornerRay_exact 2) 12 (by decide)
  have hstrict : ∀ tri ∈ cornerTree.tris, laneHits noCulling unitMath (cornerRay 2 0) tri →
      laneT unitMath (cornerRay 2 0) tri ≠ (cornerRay 2 0).tfar := by
    intro tri htri _
    rw [cornerTree_tris, List.mem_singleton] at htri
    rw [htri]
    decide
  have huniq : ∀ t1 ∈ cornerTree.tris, ∀ t2 ∈ cornerTree.tris,
      laneHits noCulling unitMath (cornerRay 2 0) t1 →
      laneHits noCulling unitMath (cornerRay 2 0) t2 →
      laneT unitMath (cornerRay 2 0) t1 = laneT unitMath (cornerRay 2 0) t2 →
      t1.geomID = t2.geomID ∧ t1.primID = t2.primID := by
    intro t1 h1 t2 h2 _ _ _
    rw [cornerTree_tris, List.mem_singleton] at h1 h2
    rw [h1, h2]
    exact ⟨rfl, rfl⟩
  obtain ⟨hg, hp⟩ := hid hstrict huniq
  refine ⟨r, hr, ?_, ?_, ?_⟩
  · rw [ht]; decide
  · rw [hg]; decide
  · rw [hp]; decide

end BVH4i

/-! ## BVH4i traversal against the brute-force scan: where the two differ -/

namespace BVH4i

variable {K : Type} [LinearOrderedCommRing K]

/-- The result of `intersect` does not depend on the fuel: a run that returns
returns the ray that any other returning run returns. -/
theorem intersect_fuel (math : SimdMath K) (isect : LeafIntersector K) (fuel0 : Nat)
    (valid_i : Lanes Int) (root : Tree K) (ray r0 : Ray16 K)
    (h0 : intersect math isect fuel0 valid_i root ray = some r0) (fuel : Nat) (r : Ray16 K)
    (h : intersect math isect fuel valid_i root ray = some r) : r = r0 := by
  have e1 := traverse_mono_le _ _ _ _ fuel (max fuel fuel0) (Nat.le_max_left _ _) _ _ _ _ _ h
  have e2 := traverse_mono_le _ _ _ _ fuel0 (max fuel fuel0) (Nat.le_max_right _ _) _ _ _ _ _ h0
  exact Option.some.inj (e1.symm.trans e2)

/-- The box of each child of `tieTree` contains the triangles below it. -/
theorem tieTree_boxesOk : tieTree.boxesOk := by
  intro i
  fin_cases i
  · refine ⟨?_, trivial⟩
    intro tri htri
    have h : tri = cornerTri := by simpa [tieTree, Tree.tris] using htri
    rw [h]
    intro p hp
    rcases hp with hp | hp | hp <;> rw [hp] <;> decide
  · refine ⟨?_, trivial⟩
    intro tri htri
    have h : tri = sideTri := by simpa [tieTree, Tree.tris] using htri
    rw [h]
    intro p hp
    rcases hp with hp | hp | hp <;> rw [hp] <;> decide
  · exact ⟨fun tri htri => by simp [tieTree, Tree.tris] at htri, trivial⟩
  · exact ⟨fun tri htri => by simp [tieTree, Tree.tris] at htri, trivial⟩

/-- The box of each child of `planeTree` contains the triangles below it. -/
theorem planeTree_boxesOk : planeTree.boxesOk := by
  intro i
  fin_cases i
  · refine ⟨?_, trivial⟩
    intro tri htri
    have h : tri = planeTri := by simpa [planeTree, Tree.tris] using htri
    rw [h]
    intro p hp
    rcases hp with hp | hp | hp <;> rw [hp] <;> decide!
  · exact ⟨fun tri htri => by simp [planeTree, Tree.tris] at htri, trivial⟩
  · exact ⟨fun tri htri => by simp [planeTree, Tree.tris] at htri, trivial⟩
  · exact ⟨fun tri htri => by simp [planeTree, Tree.tris] at htri, trivial⟩

/-- The box of each child of `steepTree` contains the triangles below it. -/
theorem steepTree_boxesOk : steepTree.boxesOk := by
  intro i
  fin_cases i
  · refine ⟨?_, trivial⟩
    intro tri htri
    have h : tri = steepTri := by simpa [steepTree, Tree.tris] using htri
    rw [h]
    intro p hp
    rcases hp with hp | hp | hp <;> rw [hp] <;> decide!
  · exact ⟨fun tri htri => by simp [steepTree, Tree.tris] at htri, trivial⟩
  · exact ⟨fun tri htri => by simp [steepTree, Tree.tris] at htri, trivial⟩
  · exact ⟨fun tri htri => by simp [steepTree, Tree.tris] at htri, trivial⟩

/-- C1 (as stated, refuted).  Four scenes in which every child box contains
the triangles below it, lane 0 is active, `intersect` returns for 12 units of
fuel, and whatever the fuel lane 0 ends with another hit than the brute-force
scan records.

A hit at exactly `tfar`: in `cornerTree` the ray reaches the triangle at
`t = 1`, its `tfar`; the leaf is entered with the strict test
`ray_tfar > curDist`, the triangle is accepted with `t <= tfar`, so the
traversal records nothing and the scan records geometry 3, primitive 5.

Two hits at the same distance: in `tieTree` the ray, with `tfar = 2`, reaches
`cornerTri` and `sideTri` at `t = 1`; the traversal records `cornerTri`
(geometry 3, primitive 5) and culls the leaf of `sideTri`, the scan records
`sideTri` (geometry 4, primitive 6), which it tests last; `tfar` is `1` in
both.

A zero direction component: in `planeTree` the ray along `(1, 1, 0)` reaches
the triangle at `t = 1`; the reciprocal of the z component is an infinity,
`org * rdir` is NaN in z, so are the distances of the slab test, the child is
pushed with the distance NaN and never taken from the stack; the scan records
geometry 3 at `t = 1`.

A rounded reciprocal: in `steepTree` the ray along `(1, 41, 1)` reaches the
triangle at its corner `(1, 41, 1)` with `t = 1`; the binary32 reciprocal of
`41` is below `1 / 41`, the slab of the y axis ends at `41 * rcp(41) < 1` where
the slab of the x axis begins at `1`, and the child is culled; the scan records
geometry 3 at `t = 1`. -/
theorem intersect_differs_from_scan :
    (cornerTree.boxesOk ∧ laneZero 0 ≠ 0
      ∧ (∃ r, intersect unitMath (mollerTrumbore16 noCulling unitMath) 12 laneZero cornerTree
          (cornerRay 1) = some r)
      ∧ (∀ fuel r, intersect unitMath (mollerTrumbore16 noCulling unitMath) fuel laneZero
          cornerTree (cornerRay 1) = some r → (r 0).geomID = -1 ∧ (r 0).primID = -1)
      ∧ (bruteForce (mollerTrumbore16 noCulling unitMath) laneZero cornerTree (cornerRay 1)
          0).geomID = 3
      ∧ (bruteForce (mollerTrumbore16 noCulling unitMath) laneZero cornerTree (cornerRay 1)
          0).primID = 5)
    ∧ (tieTree.boxesOk
      ∧ (∃ r, intersect unitMath (mollerTrumbore16 noCulling unitMath) 12 laneZero tieTree
          (cornerRay 2) = some r)
      ∧ (∀ fuel r, intersect unitMath (mollerTrumbore16 noCulling unitMath) fuel laneZero
          tieTree (cornerRay 2) = some r →
          (r 0).geomID = 3 ∧ (r 0).primID = 5 ∧ (r 0).tfar = FVal.fin 1)
      ∧ (bruteForce (mollerTrumbore16 noCulling unitMath) laneZero tieTree (cornerRay 2)
          0).geomID = 4
      ∧ (bruteForce (mollerTrumbore16 noCulling unitMath) laneZero tieTree (cornerRay 2)
          0).primID = 6
      ∧ (bruteForce (mollerTrumbore16 noCulling unitMath) laneZero tieTree (cornerRay 2)
          0).tfar = FVal.fin 1)
    ∧ (planeTree.boxesOk
      ∧ binary32Math.rcp_safe (FVal.fin 0) = FVal.pinf
      ∧ (∃ r, intersect binary32Math (mollerTrumbore16 noCulling binary32Math) 12 laneZero
          planeTree (rayAlong ⟨1, 1, 0⟩) = some r)
      ∧ (∀ fuel r, intersect binary32Math (mollerTrumbore16 noCulling binary32Math) fuel laneZero
          planeTree (rayAlong ⟨1, 1, 0⟩) = some r →
          (r 0).geomID = -1 ∧ (r 0).primID = -1 ∧ (r 0).tfar = FVal.fin 2)
      ∧ (bruteForce (mollerTrumbore16 noCulling binary32Math) laneZero planeTree
          (rayAlong ⟨1, 1, 0⟩) 0).geomID = 3
      ∧ (bruteForce (mollerTrumbore16 noCulling binary32Math) laneZero planeTree
          (rayAlong ⟨1, 1, 0⟩) 0).tfar = FVal.fin 1)
    ∧ (steepTree.boxesOk
      ∧ binary32Math.rcp_safe (FVal.fin 41) = FVal.fin (3273603 / 134217728)
      ∧ (41 : ℚ) * (3273603 / 134217728) < 1
      ∧ (∃ r, intersect binary32Math (mollerTrumbore16 noCulling binary32Math) 12 laneZero
          steepTree (rayAlong ⟨1, 41, 1⟩) = some r)
      ∧ (∀ fuel r, intersect binary32Math (mollerTrumbore16 noCulling binary32Math) fuel laneZero
          steepTree (rayAlong ⟨1, 41, 1⟩) = some r →
          (r 0).geomID = -1 ∧ (r 0).primID = -1 ∧ (r 0).tfar = FVal.fin 2)
      ∧ (bruteForce (mollerTrumbore16 noCulling binary32Math) laneZero steepTree
          (rayAlong ⟨1, 41, 1⟩) 0).geomID = 3
      ∧ (bruteForce (mollerTrumbore16 noCulling binary32Math) laneZero steepTree
          (rayAlong ⟨1, 41, 1⟩) 0).tfar = FVal.fin 1) := by
  have a12 : (intersect unitMath (mollerTrumbore16 noCulling unitMath) 12 laneZero cornerTree
      (cornerRay 1)).map (fun r => ((r 0).geomID, (r 0).primID)) = some (-1, -1) := by decide
  obtain ⟨ra, hra, hida⟩ := Option.map_eq_some'.1 a12
  have b12 : (intersect unitMath (mollerTrumbore16 noCulling unitMath) 12 laneZero tieTree
      (cornerRay 2)).map (fun r => ((r 0).geomID, (r 0).primID, (r 0).tfar))
      = some (3, 5, FVal.fin 1) := by decide
  obtain ⟨rb, hrb, hidb⟩ := Option.map_eq_some'.1 b12
  have c12 : (intersect binary32Math (mollerTrumbore16 noCulling binary32Math) 12 laneZero
      planeTree (rayAlong ⟨1, 1, 0⟩)).map (fun r => ((r 0).geomID, (r 0).primID, (r 0).tfar))
      = some (-1, -1, FVal.fin 2) := by decide!
  obtain ⟨rc, hrc, hidc⟩ := Option.map_eq_some'.1 c12
  have d12 : (intersect binary32Math (mollerTrumbore16 noCulling binary32Math) 12 laneZero
      steepTree (rayAlong ⟨1, 41, 1⟩)).map (fun r => ((r 0).geomID, (r 0).primID, (r 0).tfar))
      = some (-1, -1, FVal.fin 2) := by decide!
  obtain ⟨rd, hrd, hidd⟩ := Option.map_eq_some'.1 d12
  refine ⟨⟨cornerTree_boxesOk, by decide, ⟨ra, hra⟩, ?_, by decide, by decide⟩,
    ⟨tieTree_boxesOk, ⟨rb, hrb⟩, ?_, by decide, by decide, by decide⟩,
    ⟨planeTree_boxesOk, by decide!, ⟨rc, hrc⟩, ?_, by decide!, by decide!⟩,
    ⟨steepTree_boxesOk, by decide!, by norm_num, ⟨rd, hrd⟩, ?_, by decide!, by decide!⟩⟩
  · intro fuel r hr
    rw [intersect_fuel _ _ 12 _ _ _ ra hra fuel r hr]
    exact ⟨congrArg Prod.fst hida, congrArg Prod.snd hida⟩
  · intro fuel r hr
    rw [intersect_fuel _ _ 12 _ _ _ rb hrb fuel r hr]
    exact ⟨congrArg Prod.fst hidb, congrArg (fun x => x.2.1) hidb,
      congrArg (fun x => x.2.2) hidb⟩
  · intro fuel r hr
    rw [intersect_fuel _ _ 12 _ _ _ rc hrc fuel r hr]
    exact ⟨congrArg Prod.fst hidc, congrArg (fun x => x.2.1) hidc,
      congrArg (fun x => x.2.2) hidc⟩
  · intro fuel r hr
    rw [intersect_fuel _ _ 12 _ _ _ rd hrd fuel r hr]
    exact ⟨congrArg Prod.fst hidd, congrArg (fun x => x.2.1) hidd,
      congrArg (fun x => x.2.2) hidd⟩

end BVH4i

/-! ## BVH4i traversal: the culling rule -/

namespace BVH4i

variable {K : Type} [LinearOrderedCommRing K]

theorem FVal.lt_irrefl (a : FVal K) : FVal.lt a a = false := by
  cases a <;> simp [FVal.lt]

/-- C26 (as stated, refuted).  The leaf with `cornerTri` is on the stack with
the near distance 1.  With `tfar = 1` in every lane (`cornerRay 1`) the near
distance does not exceed the `tfar` of lane 0, the triangle lies at `t = 1`
inside `[tnear, tfar]` and passes all tests of the leaf intersector for lane 0,
yet the popped entry is skipped and no hit is recorded.  With `tfar = 2` in the
other lanes (`mixedRay`) the entry is processed, the other lanes record the
triangle, and lane 0 is still left without a hit. -/
theorem entry_at_tfar_is_culled :
    FVal.le (FVal.fin 1) (cornerRay 1 0).tfar = true
    ∧ laneT unitMath (cornerRay 1 0) cornerTri = (cornerRay 1 0).tfar
    ∧ laneAccept noCulling unitMath (cornerRay 1 0) cornerTri = true
    ∧ (traverse (mollerTrumbore16 noCulling unitMath) (fun _ => fvec ⟨1, 1, 1⟩)
        (fun _ => fvec ⟨0, 0, 0⟩) (fun _ => FVal.fin 0) 3 Mode.pop cornerStack (cornerRay 1)
        (fun l => (cornerRay 1 l).tfar)).map (fun r => ((r 0).geomID, (r 1).geomID))
      = some (-1, -1)
    ∧ mixedRay 0 = cornerRay 1 0
    ∧ (traverse (mollerTrumbore16 noCulling unitMath) (fun _ => fvec ⟨1, 1, 1⟩)
        (fun _ => fvec ⟨0, 0, 0⟩) (fun _ => FVal.fin 0) 3 Mode.pop cornerStack mixedRay
        (fun l => (mixedRay l).tfar)).map (fun r => ((r 0).geomID, (r 1).geomID))
      = some (-1, 3) := by
  refine ⟨by decide, by decide, by decide, by decide, rfl, by decide⟩

/-- C26 (amended).  Culling rule of `BVH4iIntersector16Chunk::intersect`: the
tests are the strict comparison `ray_tfar > curDist`.  A popped stack entry is
skipped exactly when no lane has a `tfar` greater than the near distance of the
entry, and is processed otherwise.  A leaf is handed to the leaf intersector
with the mask of the lanes whose `tfar` is greater than its near distance; the
leaf intersector tests the triangles for these lanes and leaves every other
lane as it is.  A lane whose `tfar` equals the near distance is not among them;
for values that are not NaN the lanes left out are those with
`tfar <= curDist`. -/
theorem cull_rule (cfg : Config) (math : SimdMath K) (isect : LeafIntersector K)
    (rdir org_rdir : Lanes (Vec3 (FVal K))) (ray_tnear : Lanes (FVal K)) (fuel : Nat)
    (t : Tree K) (tris : List (Triangle1 K)) (curDist : Lanes (FVal K))
    (stack : List (NodeRef K × Lanes (FVal K))) (ray : Ray16 K) (ray_tfar : Lanes (FVal K)) :
    ((∀ l, closerMask curDist ray_tfar l = false) →
      traverse isect rdir org_rdir ray_tnear (fuel + 1) Mode.pop ((some t, curDist) :: stack)
          ray ray_tfar
        = traverse isect rdir org_rdir ray_tnear fuel Mode.pop stack ray ray_tfar)
    ∧ ((∃ l, closerMask curDist ray_tfar l = true) →
      traverse isect rdir org_rdir ray_tnear (fuel + 1) Mode.pop ((some t, curDist) :: stack)
          ray ray_tfar
        = traverse isect rdir org_rdir ray_tnear fuel (Mode.descend (some t) curDist) stack
            ray ray_tfar)
    ∧ traverse isect rdir org_rdir ray_tnear (fuel + 1)
          (Mode.descend (some (Tree.leaf tris)) curDist) stack ray ray_tfar
        = traverse isect rdir org_rdir ray_tnear fuel Mode.pop stack
            (isect (closerMask curDist ray_tfar) ray tris)
            (fun l => if closerMask curDist ray_tfar l
              then (isect (closerMask curDist ray_tfar) ray tris l).tfar else ray_tfar l)
    ∧ (∀ l, mollerTrumbore16 cfg math (closerMask curDist ray_tfar) ray tris l
        = if closerMask curDist ray_tfar l then tris.foldl (laneStep cfg math) (ray l)
          else ray l)
    ∧ (∀ l, curDist l = ray_tfar l → closerMask curDist ray_tfar l = false)
    ∧ (∀ l, FVal.isNaN (curDist l) = false → FVal.isNaN (ray_tfar l) = false →
        (closerMask curDist ray_tfar l = false ↔ FVal.le (ray_tfar l) (curDist l) = true)) := by
  refine ⟨?_, ?_, rfl, fun l => mollerTrumbore16_lane cfg math _ ray tris l, ?_, ?_⟩
  · intro h
    have hn : none (fun l => FVal.lt (curDist l) (ray_tfar l)) = true :=
      (none_eq_true _).2 h
    simp only [traverse, hn, if_true]
  · intro h
    have hn : none (fun l => FVal.lt (curDist l) (ray_tfar l)) = false := by
      cases hc : none (fun l => FVal.lt (curDist l) (ray_tfar l))
      · rfl
      · obtain ⟨l, hl⟩ := h
        have := (none_eq_true _).1 hc l
        rw [closerMask] at hl
        rw [hl] at this
        exact absurd this (by decide)
    simp only [traverse, hn, Bool.false_eq_true, if_false]
  · intro l h
    simp only [closerMask, h, FVal.lt_irrefl]
  · intro l ha hb
    simp only [closerMask]
    constructor
    · intro h
      exact FVal.le_of_not_lt ha hb h
    · intro h
      exact FVal.not_lt_of_le h

end BVH4i

/-! ## BVH4i traversal: the record of a run -/

namespace BVH4i

variable {K : Type} [LinearOrderedCommRing K]

/-- The loop body of `intersect` is that of `occluded` with all lanes active. -/
theorem childStep_eq_occluded (rdir org_rdir : Lanes (Vec3 (FVal K)))
    (ray_tnear ray_tfar : Lanes (FVal K)) (box : Fin 4 → ChildBox K) (child : Fin 4 → Tree K) :
    childStep rdir org_rdir ray_tnear ray_tfar box child
      = childStepOccluded (fun _ => true) rdir org_rdir ray_tnear ray_tfar box child := rfl

theorem childHit_eq_occluded (rdir org_rdir : Lanes (Vec3 (FVal K)))
    (ray_tnear ray_tfar : Lanes (FVal K)) (b : ChildBox K) :
    childHit rdir org_rdir ray_tnear ray_tfar b
      = childHitOccluded (fun _ => true) rdir org_rdir ray_tnear ray_tfar b := rfl

/-- The loop body `childStepOccluded` in terms of `childHitOccluded`. -/
theorem childStepOccluded_eq (m_active : Lanes Bool) (rdir org_rdir : Lanes (Vec3 (FVal K)))
    (ray_tnear ray_tfar : Lanes (FVal K))
    (box : Fin 4 → ChildBox K) (child : Fin 4 → Tree K) (s : Trav K) (i : Fin 4) :
    childStepOccluded m_active rdir org_rdir ray_tnear ray_tfar box child s i =
      if any (childHitOccluded m_active rdir org_rdir ray_tnear ray_tfar (box i)) then
        if any (fun l => FVal.lt
            (if childHitOccluded m_active rdir org_rdir ray_tnear ray_tfar (box i) l
              then slabNear (box i) (rdir l) (org_rdir l) else FVal.pinf) (s.curDist l)) then
          { curNode := some (child i)
            curDist := fun l =>
              if childHitOccluded m_active rdir org_rdir ray_tnear ray_tfar (box i) l
              then slabNear (box i) (rdir l) (org_rdir l) else FVal.pinf
            stack := (s.curNode, s.curDist) :: s.stack }
        else { s with stack := (some (child i), fun l =>
              if childHitOccluded m_active rdir org_rdir ray_tnear ray_tfar (box i) l
              then slabNear (box i) (rdir l) (org_rdir l) else FVal.pinf) :: s.stack }
      else s := rfl

omit [LinearOrderedCommRing K] in
theorem childLoop_fst (step : Trav K → Fin 4 → Trav K) (hit : Fin 4 → Lanes Bool)
    (todo : List (Fin 4)) (s : Trav K) : (childLoop step hit s todo).1 = todo.foldl step s := by
  induction todo generalizing s with
  | nil => rfl
  | cons i todo ih => simp only [childLoop, List.foldl_cons, ih]

/-- The record of a run does not change the result: `traverseLog` returns what
`traverse` returns. -/
theorem traverseLog_fst (isect : LeafIntersector K) (rdir org_rdir : Lanes (Vec3 (FVal K)))
    (ray_tnear : Lanes (FVal K)) (fuel : Nat) :
    ∀ (mode : Mode K) stack ray ray_tfar,
      (traverseLog isect rdir org_rdir ray_tnear fuel mode stack ray ray_tfar).1
        = traverse isect rdir org_rdir ray_tnear fuel mode stack ray ray_tfar := by
  induction fuel with
  | zero =>
    intro mode stack ray ray_tfar
    simp only [traverseLog, traverse]
  | succ fuel ih =>
    intro mode stack ray ray_tfar
    cases mode with
    | pop =>
      cases stack with
      | nil => simp only [traverseLog, traverse]
      | cons e rest =>
        obtain ⟨c, d⟩ := e
        cases c with
        | none => simp only [traverseLog, traverse]
        | some t =>
          simp only [traverseLog, traverse]
          split_ifs
          · exact ih _ _ _ _
          · exact ih _ _ _ _
    | descend c d =>
      cases c with
      | none => simp only [traverseLog, traverse]
      | some t =>
        cases t with
        | leaf tris =>
          simp only [traverseLog, traverse]
          exact ih _ _ _ _
        | node box child =>
          cases stack with
          | nil => simp only [traverseLog, traverse]
          | cons e rest =>
            obtain ⟨nn, nd⟩ := e
            simp only [traverseLog, traverse, childLoop_fst]
            exact ih _ _ _ _

theorem intersectLog_fst (math : SimdMath K) (isect : LeafIntersector K) (fuel : Nat)
    (valid_i : Lanes Int) (root : Tree K) (ray : Ray16 K) :
    (intersectLog math isect fuel valid_i root ray).1
      = intersect math isect fuel valid_i root ray :=
  traverseLog_fst isect _ _ _ fuel _ _ _ _

omit [LinearOrderedCommRing K] in
theorem hasMarker_some (t : Tree K) (d : Lanes (FVal K))
    (vs : List (NodeRef K × Lanes (FVal K))) : hasMarker ((some t, d) :: vs) ↔ hasMarker vs :=
  Iff.rfl

omit [LinearOrderedCommRing K] in
theorem hasMarker_swap (a b : NodeRef K × Lanes (FVal K))
    (vs : List (NodeRef K × Lanes (FVal K))) :
    hasMarker (a :: b :: vs) ↔ hasMarker (b :: a :: vs) := by
  obtain ⟨a1, a2⟩ := a
  obtain ⟨b1, b2⟩ := b
  cases a1 <;> cases b1 <;> simp [hasMarker]

omit [LinearOrderedCommRing K] in
theorem stackSize_swap (a b : NodeRef K × Lanes (FVal K))
    (vs : List (NodeRef K × Lanes (FVal K))) :
    stackSize (a :: b :: vs) = stackSize (b :: a :: vs) := by
  obtain ⟨a1, a2⟩ := a
  obtain ⟨b1, b2⟩ := b
  cases a1 <;> cases b1 <;> (simp only [stackSize]; try omega)

/-- One pass of the loop over the children keeps the marker and adds at most
the child to the stack. -/
theorem childStepOccluded_all (m_active : Lanes Bool) (rdir org_rdir : Lanes (Vec3 (FVal K)))
    (ray_tnear ray_tfar : Lanes (FVal K))
    (box : Fin 4 → ChildBox K) (child : Fin 4 → Tree K) (s : Trav K) (i : Fin 4) :
    (hasMarker (childStepOccluded m_active rdir org_rdir ray_tnear ray_tfar box child s i).all
      ↔ hasMarker s.all)
    ∧ stackSize (childStepOccluded m_active rdir org_rdir ray_tnear ray_tfar box child s i).all
      ≤ stackSize s.all + (child i).size
    ∧ (childStepOccluded m_active rdir org_rdir ray_tnear ray_tfar box child s i).stack.length
      = s.stack.length
        + (if any (childHitOccluded m_active rdir org_rdir ray_tnear ray_tfar (box i))
            then 1 else 0) := by
  rw [childStepOccluded_eq]
  split_ifs with h1 h2
  · refine ⟨?_, ?_, rfl⟩
    · simp only [Trav.all]
      exact hasMarker_some _ _ _
    · simp only [Trav.all, stackSize]
      omega
  · refine ⟨?_, ?_, rfl⟩
    · simp only [Trav.all]
      rw [hasMarker_swap]
      exact hasMarker_some _ _ _
    · simp only [Trav.all]
      rw [stackSize_swap]
      simp only [stackSize]
      omega
  · exact ⟨Iff.rfl, Nat.le_add_right _ _, rfl⟩

/-- The loop over the children keeps the marker and adds at most the children
to the stack. -/
theorem childLoopOccluded_all (m_active : Lanes Bool) (rdir org_rdir : Lanes (Vec3 (FVal K)))
    (ray_tnear ray_tfar : Lanes (FVal K))
    (box : Fin 4 → ChildBox K) (child : Fin 4 → Tree K) (todo : List (Fin 4)) (s : Trav K) :
    (hasMarker (todo.foldl
        (childStepOccluded m_active rdir org_rdir ray_tnear ray_tfar box child) s).all
      ↔ hasMarker s.all)
    ∧ stackSize (todo.foldl
        (childStepOccluded m_active rdir org_rdir ray_tnear ray_tfar box child) s).all
      ≤ stackSize s.all + (todo.map (fun i => (child i).size)).sum := by
  induction todo generalizing s with
  | nil => exact ⟨Iff.rfl, Nat.le_add_right _ _⟩
  | cons i todo ih =>
    obtain ⟨h1, h2, -⟩ := childStepOccluded_all m_active rdir org_rdir ray_tnear ray_tfar box
      child s i
    obtain ⟨k1, k2⟩ := ih (childStepOccluded m_active rdir org_rdir ray_tnear ray_tfar box
      child s i)
    refine ⟨k1.trans h1, ?_⟩
    simp only [List.foldl_cons, List.map_cons, List.sum_cons] at k2 ⊢
    omega

end BVH4i

/-! ## BVH4i traversal: inactive lanes -/

namespace BVH4i

variable {K : Type} [LinearOrderedCommRing K]

omit [LinearOrderedCommRing K] in
/-- The box tests of the loop over the children are recorded with the masks
`hit i`. -/
theorem childLoop_quiet (step : Trav K → Fin 4 → Trav K) (hit : Fin 4 → Lanes Bool)
    (l : Fin 16) (hq : ∀ i, hit i l = false) (todo : List (Fin 4)) (s : Trav K) :
    ∀ e ∈ (childLoop step hit s todo).2, Event.quiet l e := by
  induction todo generalizing s with
  | nil =>
    intro e he
    simp [childLoop] at he
  | cons i todo ih =>
    intro e he
    simp only [childLoop, List.mem_append] at he
    rcases he with he | he
    · split_ifs at he
      · simp only [List.mem_cons, List.mem_singleton, List.not_mem_nil, or_false] at he
        rcases he with he | he
        · rw [he]
          exact hq i
        · rw [he]
          trivial
      · simp only [List.mem_singleton] at he
        rw [he]
        exact hq i
    · exact ih _ e he

/-- A lane with `ray_tnear = +inf` and `ray_tfar = -inf` fails every box test
of `intersect`. -/
theorem childHit_inactive (rdir org_rdir : Lanes (Vec3 (FVal K)))
    (ray_tnear ray_tfar : Lanes (FVal K)) (b : ChildBox K) (l : Fin 16)
    (htn : ray_tnear l = FVal.pinf) (htf : ray_tfar l = FVal.ninf) :
    childHit rdir org_rdir ray_tnear ray_tfar b l = false := by
  simp only [childHit, htn, htf]
  generalize slabNear b (rdir l) (org_rdir l) = x
  generalize slabFar b (rdir l) (org_rdir l) = y
  cases x <;> cases y <;> simp [FVal.max, FVal.min, FVal.lt, FVal.le]

/-- A lane with `ray_tfar = -inf` is in no mask `ray_tfar > curDist`. -/
theorem closer_inactive (x : FVal K) : FVal.lt x FVal.ninf = false := by
  cases x <;> rfl

/-- The two loops of `intersect` return when the fuel exceeds twice the size of
the stack; a lane with `ray_tnear = +inf` and `ray_tfar = -inf` is in no mask
of the run, keeps `ray_tfar = -inf`, and is returned as it was by a leaf
intersector that writes the lanes of its mask only. -/
theorem traverseLog_inactive (isect : LeafIntersector K)
    (rdir org_rdir : Lanes (Vec3 (FVal K))) (ray_tnear : Lanes (FVal K)) (l : Fin 16)
    (htn : ray_tnear l = FVal.pinf) (fuel : Nat) :
    (∀ stack ray ray_tfar, ray_tfar l = FVal.ninf → hasMarker stack →
      2 * stackSize stack + 1 < fuel →
      ∃ r, (traverseLog isect rdir org_rdir ray_tnear fuel Mode.pop stack ray ray_tfar).1 = some r
        ∧ ((∀ valid ray1 tris, valid l = false → isect valid ray1 tris l = ray1 l) → r l = ray l)
        ∧ ∀ e ∈ (traverseLog isect rdir org_rdir ray_tnear fuel Mode.pop stack ray ray_tfar).2,
            Event.quiet l e)
    ∧ (∀ c d stack ray ray_tfar, ray_tfar l = FVal.ninf → hasMarker ((c, d) :: stack) →
      2 * stackSize ((c, d) :: stack) < fuel →
      ∃ r, (traverseLog isect rdir org_rdir ray_tnear fuel (Mode.descend c d) stack ray
          ray_tfar).1 = some r
        ∧ ((∀ valid ray1 tris, valid l = false → isect valid ray1 tris l = ray1 l) → r l = ray l)
        ∧ ∀ e ∈ (traverseLog isect rdir org_rdir ray_tnear fuel (Mode.descend c d) stack ray
            ray_tfar).2, Event.quiet l e) := by
  induction fuel with
  | zero =>
    exact ⟨fun _ _ _ _ _ h => absurd h (Nat.not_lt_zero _),
      fun _ _ _ _ _ _ _ h => absurd h (Nat.not_lt_zero _)⟩
  | succ fuel ih =>
    obtain ⟨ihp, ihd⟩ := ih
    constructor
    · intro stack ray ray_tfar htf hm hfuel
      cases stack with
      | nil => exact absurd hm (by simp [hasMarker])
      | cons e rest =>
        obtain ⟨c, d⟩ := e
        cases c with
        | none =>
          refine ⟨ray, by simp only [traverseLog], fun _ => rfl, ?_⟩
          intro e he
          simp only [traverseLog, List.mem_singleton] at he
          rw [he]
          trivial
        | some t =>
          have hsz : stackSize ((some t, d) :: rest) = t.size + stackSize rest := rfl
          have hpos := Tree.size_pos t
          simp only [traverseLog]
          split_ifs with hc
          · obtain ⟨r, h1, h2, h3⟩ := ihp rest ray ray_tfar htf hm (by omega)
            refine ⟨r, h1, h2, ?_⟩
            intro e he
            simp only [List.mem_cons] at he
            rcases he with he | he
            · rw [he]
              trivial
            · exact h3 e he
          · obtain ⟨r, h1, h2, h3⟩ := ihd (some t) d rest ray ray_tfar htf hm (by omega)
            refine ⟨r, h1, h2, ?_⟩
            intro e he
            simp only [List.mem_cons] at he
            rcases he with he | he
            · rw [he]
              trivial
            · exact h3 e he
    · intro c d stack ray ray_tfar htf hm hfuel
      cases c with
      | none =>
        refine ⟨ray, by simp only [traverseLog], fun _ => rfl, ?_⟩
        intro e he
        simp [traverseLog] at he
      | some t =>
        have hsz : stackSize ((some t, d) :: stack) = t.size + stackSize stack := rfl
        cases t with
        | leaf tris =>
          have hs1 : (Tree.leaf tris : Tree K).size = 1 := rfl
          have hv : FVal.lt (d l) (ray_tfar l) = false := by
            rw [htf]
            exact closer_inactive _
          simp only [traverseLog]
          obtain ⟨r, h1, h2, h3⟩ := ihp stack
            (isect (fun l => FVal.lt (d l) (ray_tfar l)) ray tris)
            (fun l => if FVal.lt (d l) (ray_tfar l)
              then (isect (fun l => FVal.lt (d l) (ray_tfar l)) ray tris l).tfar else ray_tfar l)
            (by simp only [hv, Bool.false_eq_true, if_false]; exact htf) hm (by omega)
          refine ⟨r, h1, ?_, ?_⟩
          · intro hframe
            rw [h2 hframe]
            exact hframe _ _ _ hv
          · intro e he
            simp only [List.mem_cons] at he
            rcases he with he | he
            · rw [he]
              refine ⟨hv, ?_⟩
              simp only [hv, Bool.false_eq_true, if_false]
              exact htf
            · exact h3 e he
        | node box child =>
          cases stack with
          | nil => exact absurd hm (by simp [hasMarker])
          | cons e rest =>
            obtain ⟨nn, nd⟩ := e
            have hloop := childLoopOccluded_all (fun _ => true) rdir org_rdir ray_tnear ray_tfar
              box child [0, 1, 2, 3] ⟨nn, nd, rest⟩
            rw [← childStep_eq_occluded] at hloop
            obtain ⟨k1, k2⟩ := hloop
            have hsn : (Tree.node box child : Tree K).size
                = 1 + ((child 0).size + (child 1).size + (child 2).size + (child 3).size) := rfl
            simp only [List.map_cons, List.map_nil, List.sum_cons, List.sum_nil, Trav.all]
              at k1 k2
            simp only [traverseLog, childLoop_fst]
            obtain ⟨r, h1, h2, h3⟩ := ihd _ _ _ ray ray_tfar htf
              (k1.2 ((hasMarker_some _ _ _).1 hm)) (by omega)
            refine ⟨r, h1, h2, ?_⟩
            intro e he
            simp only [List.mem_cons, List.mem_append] at he
            rcases he with he | he | he
            · rw [he]
              trivial
            · exact childLoop_quiet _ _ l
                (fun i => childHit_inactive rdir org_rdir ray_tnear ray_tfar (box i) l htn htf)
                _ _ e he
            · exact h3 e he

end BVH4i

namespace BVH4i

variable {K : Type} [LinearOrderedCommRing K]

/-- C34. Inactive lanes of `BVH4iIntersector16Chunk::intersect`.  A lane `l`
whose entry in `valid_i` is 0 starts the traversal with `ray_tnear = +inf` and
`ray_tfar = -inf`; for every tree, packet and leaf intersector the traversal
returns when the fuel exceeds twice the size of the tree plus one, the lane is
in the mask `lhit` of no box test and in the mask `valid_leaf` of no leaf
visit, and `ray_tfar` of the lane is `-inf` after every leaf visit; and for a
leaf intersector that writes only the lanes of its mask, the lane of the
packet returned equals the lane of the packet passed in, in every field. -/
theorem inactive_lanes_untouched (math : SimdMath K) (isect : LeafIntersector K)
    (valid_i : Lanes Int) (root : Tree K) (ray : Ray16 K) (l : Fin 16) (hl : valid_i l = 0)
    (fuel : Nat) (hfuel : 2 * root.size + 1 < fuel) :
    (∃ rdir org_rdir ray_tnear ray_tfar, ray_tnear l = FVal.pinf ∧ ray_tfar l = FVal.ninf
      ∧ intersectLog math isect fuel valid_i root ray
        = traverseLog isect rdir org_rdir ray_tnear fuel Mode.pop
            [(some root, ray_tnear), (Option.none, fun _ => FVal.pinf)] ray ray_tfar)
    ∧ (∀ lhit, Event.box lhit ∈ (intersectLog math isect fuel valid_i root ray).2 →
        lhit l = false)
    ∧ (∀ valid_leaf ray_tfar,
        Event.leaf valid_leaf ray_tfar ∈ (intersectLog math isect fuel valid_i root ray).2 →
        valid_leaf l = false ∧ ray_tfar l = FVal.ninf)
    ∧ ∃ r, intersect math isect fuel valid_i root ray = some r
        ∧ ((∀ valid ray1 tris, valid l = false → isect valid ray1 tris l = ray1 l) →
          r l = ray l) := by
  have hv : decide (valid_i l ≠ 0) = false := by simp [hl]
  have htn : (fun l => if decide (valid_i l ≠ 0) then (ray l).tnear else FVal.pinf) l
      = (FVal.pinf : FVal K) := by
    simp only [hv, Bool.false_eq_true, if_false]
  have htf : (fun l => if decide (valid_i l ≠ 0) then (ray l).tfar else FVal.ninf) l
      = (FVal.ninf : FVal K) := by
    simp only [hv, Bool.false_eq_true, if_false]
  obtain ⟨r, h1, h2, h3⟩ := (traverseLog_inactive isect
    (fun l => Vec3.map math.rcp_safe (ray l).dir)
    (fun l => Vec3.mul (ray l).org (Vec3.map math.rcp_safe (ray l).dir))
    (fun l => if decide (valid_i l ≠ 0) then (ray l).tnear else FVal.pinf) l htn fuel).1
    [(some root, fun l => if decide (valid_i l ≠ 0) then (ray l).tnear else FVal.pinf),
      (Option.none, fun _ => FVal.pinf)] ray
    (fun l => if decide (valid_i l ≠ 0) then (ray l).tfar else FVal.ninf) htf
    (by simp [hasMarker]) (by simp only [stackSize]; omega)
  refine ⟨⟨_, _, _, _, htn, htf, rfl⟩, ?_, ?_, r, ?_, h2⟩
  · intro lhit he
    exact h3 _ he
  · intro valid_leaf ray_tfar he
    exact h3 _ he
  · rw [← intersectLog_fst]
    exact h1

/-- Witness for C34: the packet `cornerRay 5` with lane 0 active only on
`cornerTree`; lane 1 is returned as it was. -/
theorem inactive_lanes_untouched_witness :
    laneZero 1 = 0 ∧ 2 * cornerTree.size + 1 < 12
    ∧ ∃ r, intersect unitMath (mollerTrumbore16 noCulling unitMath) 12 laneZero cornerTree
          (cornerRay 5) = some r
        ∧ r 1 = cornerRay 5 1 := by
  obtain ⟨r, h1, h2⟩ := (inactive_lanes_untouched unitMath (mollerTrumbore16 noCulling unitMath)
    laneZero cornerTree (cornerRay 5) 1 (by decide) 12 (by decide)).2.2.2
  refine ⟨by decide, by decide, r, h1, h2 ?_⟩
  intro valid ray1 tris hv
  rw [mollerTrumbore16_lane, hv]
  rfl

end BVH4i

/-! ## BVH4i traversal: the result of `occluded` -/

namespace BVH4i

variable {K : Type} [LinearOrderedCommRing K]

omit [LinearOrderedCommRing K] in
theorem settled_append (pre post : List (Event K))
    (hpre : ∀ e ∈ pre, ∀ v rep m, e ≠ Event.shadow v rep m) (h : settled post) :
    settled (pre ++ post) := by
  induction pre with
  | nil => exact h
  | cons e pre ih =>
    have ih2 := ih (fun e he => hpre e (List.mem_cons_of_mem _ he))
    cases e with
    | shadow v rep m => exact absurd rfl (hpre _ (List.mem_cons_self _ _) v rep m)
    | pop _ => exact ih2
    | push _ => exact ih2
    | box _ => exact ih2
    | leaf _ _ => exact ih2

omit [LinearOrderedCommRing K] in
theorem childLoop_no_shadow (step : Trav K → Fin 4 → Trav K) (hit : Fin 4 → Lanes Bool)
    (todo : List (Fin 4)) (s : Trav K) :
    ∀ e ∈ (childLoop step hit s todo).2, ∀ v rep m, e ≠ Event.shadow v rep m := by
  induction todo generalizing s with
  | nil =>
    intro e he
    simp [childLoop] at he
  | cons i todo ih =>
    intro e he v rep m
    simp only [childLoop, List.mem_append] at he
    rcases he with he | he
    · split_ifs at he
      · simp only [List.mem_cons, List.mem_singleton, List.not_mem_nil, or_false] at he
        rcases he with he | he <;> rw [he] <;> exact fun h => Event.noConfusion h
      · simp only [List.mem_singleton] at he
        rw [he]
        exact fun h => Event.noConfusion h
    · exact ih _ e he v rep m

omit [LinearOrderedCommRing K] in
/-- A leaf visit of `occluded` in front of the record of the rest of the run. -/
theorem shadow_cons (m0 v0 rep0 : Lanes Bool) (hq : ∀ l, m0 l = true → v0 l = false)
    (log : List (Event K)) (m : Lanes Bool)
    (h2 : ∀ l, m l = true ↔ ((m0 l || (v0 l && rep0 l)) = true
      ∨ ∃ v rep m1, Event.shadow v rep m1 ∈ log ∧ v l = true ∧ rep l = true))
    (h3 : ∀ l, (m0 l || (v0 l && rep0 l)) = true →
      (∀ e ∈ log, Event.quiet l e) ∧ ∀ v rep m1, Event.shadow v rep m1 ∈ log → m1 l = true)
    (h4 : settled log)
    (hstop : all (fun l => m0 l || (v0 l && rep0 l)) = true → log = []) :
    (∀ l, m l = true ↔ (m0 l = true
      ∨ ∃ v rep m1, Event.shadow v rep m1
          ∈ Event.shadow v0 rep0 (fun l => m0 l || (v0 l && rep0 l)) :: log
        ∧ v l = true ∧ rep l = true))
    ∧ (∀ l, m0 l = true →
      (∀ e ∈ Event.shadow v0 rep0 (fun l => m0 l || (v0 l && rep0 l)) :: log, Event.quiet l e)
      ∧ ∀ v rep m1, Event.shadow v rep m1
          ∈ Event.shadow v0 rep0 (fun l => m0 l || (v0 l && rep0 l)) :: log → m1 l = true)
    ∧ settled (Event.shadow v0 rep0 (fun l => m0 l || (v0 l && rep0 l)) :: log) := by
  have hm1 : ∀ l, (m0 l || (v0 l && rep0 l)) = true
      ↔ (m0 l = true ∨ (v0 l = true ∧ rep0 l = true)) := by
    intro l
    simp only [Bool.or_eq_true, Bool.and_eq_true]
  refine ⟨?_, ?_, ?_⟩
  · intro l
    rw [h2 l, hm1 l]
    constructor
    · rintro ((h | h) | ⟨v, rep, m1, he, hv, hr⟩)
      · exact Or.inl h
      · exact Or.inr ⟨v0, rep0, _, List.mem_cons_self _ _, h.1, h.2⟩
      · exact Or.inr ⟨v, rep, m1, List.mem_cons_of_mem _ he, hv, hr⟩
    · rintro (h | ⟨v, rep, m1, he, hv, hr⟩)
      · exact Or.inl (Or.inl h)
      · rcases List.mem_cons.1 he with he | he
        · obtain ⟨e1, e2, -⟩ := Event.shadow.inj he
          subst e1 e2
          exact Or.inl (Or.inr ⟨hv, hr⟩)
        · exact Or.inr ⟨v, rep, m1, he, hv, hr⟩
  · intro l hl
    obtain ⟨q1, q2⟩ := h3 l ((hm1 l).2 (Or.inl hl))
    constructor
    · intro e he
      rcases List.mem_cons.1 he with he | he
      · rw [he]
        exact hq l hl
      · exact q1 e he
    · intro v rep m1 he
      rcases List.mem_cons.1 he with he | he
      · obtain ⟨-, -, e3⟩ := Event.shadow.inj he
        rw [e3]
        exact (hm1 l).2 (Or.inl hl)
      · exact q2 v rep m1 he
  · refine ⟨?_, ?_, hstop, h4⟩
    · intro l hv hr
      exact (hm1 l).2 (Or.inr ⟨hv, hr⟩)
    · intro l hl
      exact h3 l hl

/-- A terminated lane fails every box test of `occluded`. -/
theorem childHitOccluded_inactive (m_active : Lanes Bool)
    (rdir org_rdir : Lanes (Vec3 (FVal K)))
    (ray_tnear ray_tfar : Lanes (FVal K)) (b : ChildBox K) (l : Fin 16)
    (h : m_active l = false) :
    childHitOccluded m_active rdir org_rdir ray_tnear ray_tfar b l = false := by
  simp only [childHitOccluded, h, Bool.false_and]

/-- The two loops of `occluded` return when the fuel exceeds twice the size of
the stack.  The lanes of the mask returned are those of `m_terminated` and
those that a leaf visit of the run had in its mask and the leaf intersector
reported; the lanes of `m_terminated` take no part in the run. -/
theorem occludedLoop_spec (occ : LeafOccluder K) (rdir org_rdir : Lanes (Vec3 (FVal K)))
    (ray_tnear : Lanes (FVal K)) (ray : Ray16 K) (fuel : Nat) :
    (∀ stack m_terminated ray_tfar, hasMarker stack → 2 * stackSize stack + 1 < fuel →
      ∃ m, (occludedLoop occ rdir org_rdir ray_tnear ray fuel Mode.pop stack m_terminated
          ray_tfar).1 = some m
        ∧ (∀ l, m l = true ↔ (m_terminated l = true
            ∨ ∃ v rep m1, Event.shadow v rep m1 ∈ (occludedLoop occ rdir org_rdir ray_tnear ray
                fuel Mode.pop stack m_terminated ray_tfar).2 ∧ v l = true ∧ rep l = true))
        ∧ (∀ l, m_terminated l = true →
            (∀ e ∈ (occludedLoop occ rdir org_rdir ray_tnear ray fuel Mode.pop stack m_terminated
                ray_tfar).2, Event.quiet l e)
            ∧ ∀ v rep m1, Event.shadow v rep m1 ∈ (occludedLoop occ rdir org_rdir ray_tnear ray
                fuel Mode.pop stack m_terminated ray_tfar).2 → m1 l = true)
        ∧ settled (occludedLoop occ rdir org_rdir ray_tnear ray fuel Mode.pop stack m_terminated
            ray_tfar).2)
    ∧ (∀ c d stack m_terminated ray_tfar, hasMarker ((c, d) :: stack) →
      2 * stackSize ((c, d) :: stack) < fuel →
      ∃ m, (occludedLoop occ rdir org_rdir ray_tnear ray fuel (Mode.descend c d) stack
          m_terminated ray_tfar).1 = some m
        ∧ (∀ l, m l = true ↔ (m_terminated l = true
            ∨ ∃ v rep m1, Event.shadow v rep m1 ∈ (occludedLoop occ rdir org_rdir ray_tnear ray
                fuel (Mode.descend c d) stack m_terminated ray_tfar).2 ∧ v l = true
              ∧ rep l = true))
        ∧ (∀ l, m_terminated l = true →
            (∀ e ∈ (occludedLoop occ rdir org_rdir ray_tnear ray fuel (Mode.descend c d) stack
                m_terminated ray_tfar).2, Event.quiet l e)
            ∧ ∀ v rep m1, Event.shadow v rep m1 ∈ (occludedLoop occ rdir org_rdir ray_tnear ray
                fuel (Mode.descend c d) stack m_terminated ray_tfar).2 → m1 l = true)
        ∧ settled (occludedLoop occ rdir org_rdir ray_tnear ray fuel (Mode.descend c d) stack
            m_terminated ray_tfar).2) := by
  induction fuel with
  | zero =>
    exact ⟨fun _ _ _ _ h => absurd h (Nat.not_lt_zero _),
      fun _ _ _ _ _ _ h => absurd h (Nat.not_lt_zero _)⟩
  | succ fuel ih =>
    obtain ⟨ihp, ihd⟩ := ih
    constructor
    · intro stack m0 ray_tfar hm hfuel
      cases stack with
      | nil => exact absurd hm (by simp [hasMarker])
      | cons e rest =>
        obtain ⟨c, d⟩ := e
        cases c with
        | none =>
          refine ⟨m0, by simp only [occludedLoop], ?_, ?_, ?_⟩
          · intro l
            simp [occludedLoop]
          · intro l _
            simp [occludedLoop, Event.quiet]
          · simp [occludedLoop, settled]
        | some t =>
          have hsz : stackSize ((some t, d) :: rest) = t.size + stackSize rest := rfl
          have hpos := Tree.size_pos t
          simp only [occludedLoop]
          split_ifs with hc
          · obtain ⟨m, h1, h2, h3, h4⟩ := ihp rest m0 ray_tfar hm (by omega)
            refine ⟨m, h1, ?_, ?_, h4⟩
            · intro l
              rw [h2 l]
              simp
            · intro l hl
              obtain ⟨q1, q2⟩ := h3 l hl
              constructor
              · intro e he
                simp only [List.mem_cons] at he
                rcases he with he | he
                · rw [he]
                  trivial
                · exact q1 e he
              · intro v rep m1 he
                simp only [List.mem_cons, reduceCtorEq, false_or] at he
                exact q2 v rep m1 he
          · obtain ⟨m, h1, h2, h3, h4⟩ := ihd (some t) d rest m0 ray_tfar hm (by omega)
            refine ⟨m, h1, ?_, ?_, h4⟩
            · intro l
              rw [h2 l]
              simp
            · intro l hl
              obtain ⟨q1, q2⟩ := h3 l hl
              constructor
              · intro e he
                simp only [List.mem_cons] at he
                rcases he with he | he
                · rw [he]
                  trivial
                · exact q1 e he
              · intro v rep m1 he
                simp only [List.mem_cons, reduceCtorEq, false_or] at he
                exact q2 v rep m1 he
    · intro c d stack m0 ray_tfar hm hfuel
      cases c with
      | none =>
        refine ⟨m0, by simp only [occludedLoop], ?_, ?_, ?_⟩
        · intro l
          simp [occludedLoop]
        · intro l _
          simp [occludedLoop]
        · simp [occludedLoop, settled]
      | some t =>
        have hsz : stackSize ((some t, d) :: stack) = t.size + stackSize stack := rfl
        cases t with
        | leaf tris =>
          have hs1 : (Tree.leaf tris : Tree K).size = 1 := rfl
          have hq : ∀ l, m0 l = true → (fun l => !m0 l && FVal.lt (d l) (ray_tfar l)) l = false := by
            intro l hl
            simp only [hl, Bool.not_true, Bool.false_and]
          simp only [occludedLoop]
          split_ifs with hall
          · exact ⟨_, rfl, shadow_cons m0 (fun l => !m0 l && FVal.lt (d l) (ray_tfar l))
              (occ (fun l => !m0 l && FVal.lt (d l) (ray_tfar l)) ray tris) hq [] _
              (fun l => by simp) (fun l _ => by simp) trivial (fun _ => rfl)⟩
          · obtain ⟨m, h1, h2, h3, h4⟩ := ihp stack
              (fun l => m0 l || ((fun l => !m0 l && FVal.lt (d l) (ray_tfar l)) l
                && occ (fun l => !m0 l && FVal.lt (d l) (ray_tfar l)) ray tris l))
              (fun l => if (m0 l || ((fun l => !m0 l && FVal.lt (d l) (ray_tfar l)) l
                && occ (fun l => !m0 l && FVal.lt (d l) (ray_tfar l)) ray tris l)) = true
                then FVal.ninf else ray_tfar l)
              hm (by omega)
            exact ⟨m, h1, shadow_cons m0 (fun l => !m0 l && FVal.lt (d l) (ray_tfar l))
              (occ (fun l => !m0 l && FVal.lt (d l) (ray_tfar l)) ray tris) hq _ m h2 h3 h4
              (fun h => absurd h hall)⟩
        | node box child =>
          cases stack with
          | nil => exact absurd hm (by simp [hasMarker])
          | cons e rest =>
            obtain ⟨nn, nd⟩ := e
            obtain ⟨k1, k2⟩ := childLoopOccluded_all (fun l => !m0 l) rdir org_rdir ray_tnear
              ray_tfar box child [0, 1, 2, 3] ⟨nn, nd, rest⟩
            have hsn : (Tree.node box child : Tree K).size
                = 1 + ((child 0).size + (child 1).size + (child 2).size + (child 3).size) := rfl
            simp only [List.map_cons, List.map_nil, List.sum_cons, List.sum_nil, Trav.all]
              at k1 k2
            simp only [occludedLoop, childLoop_fst]
            obtain ⟨m, h1, h2, h3, h4⟩ := ihd _ _ _ m0 ray_tfar
              (k1.2 ((hasMarker_some _ _ _).1 hm)) (by omega)
            have hns := childLoop_no_shadow
              (childStepOccluded (fun l => !m0 l) rdir org_rdir ray_tnear ray_tfar box child)
              (fun i => childHitOccluded (fun l => !m0 l) rdir org_rdir ray_tnear ray_tfar (box i))
              [0, 1, 2, 3] ⟨nn, nd, rest⟩
            refine ⟨m, h1, ?_, ?_, ?_⟩
            · intro l
              rw [h2 l]
              simp only [List.mem_cons, List.mem_append, reduceCtorEq, false_or]
              constructor
              · rintro (h | ⟨v, rep, m1, he, hv, hr⟩)
                · exact Or.inl h
                · exact Or.inr ⟨v, rep, m1, Or.inr he, hv, hr⟩
              · rintro (h | ⟨v, rep, m1, (he | he), hv, hr⟩)
                · exact Or.inl h
                · exact absurd rfl (hns _ he v rep m1)
                · exact Or.inr ⟨v, rep, m1, he, hv, hr⟩
            · intro l hl
              obtain ⟨q1, q2⟩ := h3 l hl
              constructor
              · intro e he
                simp only [List.mem_cons, List.mem_append] at he
                rcases he with he | he | he
                · rw [he]
                  trivial
                · exact childLoop_quiet _ _ l
                    (fun i => childHitOccluded_inactive _ rdir org_rdir ray_tnear ray_tfar
                      (box i) l (by simp only [hl, Bool.not_true])) _ _ e he
                · exact q1 e he
              · intro v rep m1 he
                simp only [List.mem_cons, List.mem_append, reduceCtorEq, false_or] at he
                rcases he with he | he
                · exact absurd rfl (hns _ he v rep m1)
                · exact q2 v rep m1 he
            · show settled (Event.pop (rest.length + 1) :: (_ ++ _))
              exact settled_append _ _ hns h4

end BVH4i

namespace BVH4i

variable {K : Type} [LinearOrderedCommRing K]

omit [LinearOrderedCommRing K] in
theorem settled_tail (e : Event K) (log : List (Event K)) (h : settled (e :: log)) :
    settled log := by
  cases e with
  | shadow v rep m => exact h.2.2.2
  | pop _ => exact h
  | push _ => exact h
  | box _ => exact h
  | leaf _ _ => exact h

omit [LinearOrderedCommRing K] in
/-- What `settled` says about a leaf visit anywhere in the record. -/
theorem settled_split (pre : List (Event K)) :
    ∀ (log post : List (Event K)) (v rep m : Lanes Bool), settled log →
      log = pre ++ Event.shadow v rep m :: post →
      (∀ l, v l = true → rep l = true → m l = true)
      ∧ (∀ l, m l = true →
          (∀ e ∈ post, Event.quiet l e)
          ∧ ∀ v1 rep1 m1, Event.shadow v1 rep1 m1 ∈ post → m1 l = true)
      ∧ (all m = true → post = []) := by
  induction pre with
  | nil =>
    intro log post v rep m h hlog
    rw [hlog] at h
    exact ⟨h.1, h.2.1, h.2.2.1⟩
  | cons e pre ih =>
    intro log post v rep m h hlog
    rw [hlog] at h
    exact ih _ post v rep m (settled_tail e _ h) rfl

/-- Every leaf visit in the record of `occluded` holds the mask that the leaf
intersector returned for the mask of the visit. -/
theorem occludedLoop_reports (occ : LeafOccluder K) (rdir org_rdir : Lanes (Vec3 (FVal K)))
    (ray_tnear : Lanes (FVal K)) (ray : Ray16 K) (fuel : Nat) :
    ∀ (mode : Mode K) stack m_terminated ray_tfar v rep m1,
      Event.shadow v rep m1 ∈ (occludedLoop occ rdir org_rdir ray_tnear ray fuel mode stack
        m_terminated ray_tfar).2 →
      ∃ tris, rep = occ v ray tris := by
  induction fuel with
  | zero =>
    intro mode stack m0 ray_tfar v rep m1 he
    simp [occludedLoop] at he
  | succ fuel ih =>
    intro mode stack m0 ray_tfar v rep m1 he
    cases mode with
    | pop =>
      cases stack with
      | nil => simp [occludedLoop] at he
      | cons e rest =>
        obtain ⟨c, d⟩ := e
        cases c with
        | none => simp [occludedLoop] at he
        | some t =>
          simp only [occludedLoop] at he
          split_ifs at he
          · simp only [List.mem_cons, reduceCtorEq, false_or] at he
            exact ih _ _ _ _ v rep m1 he
          · simp only [List.mem_cons, reduceCtorEq, false_or] at he
            exact ih _ _ _ _ v rep m1 he
    | descend c d =>
      cases c with
      | none => simp [occludedLoop] at he
      | some t =>
        cases t with
        | leaf tris =>
          simp only [occludedLoop] at he
          split_ifs at he
          · obtain ⟨e1, e2, -⟩ := Event.shadow.inj (List.mem_singleton.1 he)
            exact ⟨tris, by rw [e2, e1]⟩
          · rcases List.mem_cons.1 he with he | he
            · obtain ⟨e1, e2, -⟩ := Event.shadow.inj he
              exact ⟨tris, by rw [e2, e1]⟩
            · exact ih _ _ _ _ v rep m1 he
        | node box child =>
          cases stack with
          | nil => simp [occludedLoop] at he
          | cons e rest =>
            obtain ⟨nn, nd⟩ := e
            simp only [occludedLoop, List.mem_cons, List.mem_append, reduceCtorEq,
              false_or] at he
            rcases he with he | he
            · exact absurd rfl (childLoop_no_shadow _ _ _ _ _ he v rep m1)
            · exact ih _ _ _ _ v rep m1 he

/-- C35. Result of `BVH4iIntersector16Chunk::occluded`.  For every tree,
packet and leaf intersector the traversal returns when the fuel exceeds twice
the size of the tree plus one.  On return `geomID` is 0 for exactly the lanes
that are active in `valid_i` and that some leaf visit of the run had in its
mask with the leaf intersector reporting occlusion; every other lane is
returned as it was, in every field.  A lane that is not active in `valid_i`
is in the mask of no box test and no leaf visit.  After a leaf visit that
leaves `m_terminated`: the lanes of its mask that were reported are in
`m_terminated`; a lane of `m_terminated` is in the mask of no later box test
or leaf visit and is in `m_terminated` after every later leaf visit; and when
all lanes are in `m_terminated` the run ends with this visit.  For a leaf
intersector that reports lanes of its mask only, "had in its mask with the
leaf intersector reporting occlusion" is "the leaf intersector reported
occlusion". -/
theorem occluded_result (math : SimdMath K) (occ : LeafOccluder K) (valid_i : Lanes Int)
    (root : Tree K) (ray : Ray16 K) (fuel : Nat) (hfuel : 2 * root.size + 1 < fuel) :
    ∃ r, occluded math occ fuel valid_i root ray = some r
      ∧ (∀ l, valid_i l ≠ 0 →
          (∃ v rep m, Event.shadow v rep m ∈ (occludedLog math occ fuel valid_i root ray).2
            ∧ v l = true ∧ rep l = true) →
          r l = { ray l with geomID := 0 })
      ∧ (∀ l, ¬ (valid_i l ≠ 0
            ∧ ∃ v rep m, Event.shadow v rep m ∈ (occludedLog math occ fuel valid_i root ray).2
              ∧ v l = true ∧ rep l = true) →
          r l = ray l)
      ∧ (∀ l, valid_i l = 0 →
          (∀ lhit, Event.box lhit ∈ (occludedLog math occ fuel valid_i root ray).2 →
            lhit l = false)
          ∧ ∀ v rep m, Event.shadow v rep m ∈ (occludedLog math occ fuel valid_i root ray).2 →
            v l = false)
      ∧ (∀ pre post v rep m,
          (occludedLog math occ fuel valid_i root ray).2 = pre ++ Event.shadow v rep m :: post →
          (∀ l, v l = true → rep l = true → m l = true)
          ∧ (∀ l, m l = true →
              (∀ lhit, Event.box lhit ∈ post → lhit l = false)
              ∧ ∀ v1 rep1 m1, Event.shadow v1 rep1 m1 ∈ post → v1 l = false ∧ m1 l = true)
          ∧ (all m = true → post = []))
      ∧ ((∀ v ray1 tris l, occ v ray1 tris l = true → v l = true) →
          ∀ v rep m l, Event.shadow v rep m ∈ (occludedLog math occ fuel valid_i root ray).2 →
            rep l = true → v l = true) := by
  obtain ⟨m, h1, h2, h3, h4⟩ := (occludedLoop_spec occ
    (fun l => Vec3.map math.rcp_safe (ray l).dir)
    (fun l => Vec3.mul (ray l).org (Vec3.map math.rcp_safe (ray l).dir))
    (fun l => if decide (valid_i l ≠ 0) then (ray l).tnear else FVal.pinf) ray fuel).1
    [(some root, fun l => if decide (valid_i l ≠ 0) then (ray l).tnear else FVal.pinf),
      (Option.none, fun _ => FVal.pinf)]
    (fun l => !decide (valid_i l ≠ 0))
    (fun l => if decide (valid_i l ≠ 0) then (ray l).tfar else FVal.ninf)
    (by simp [hasMarker]) (by simp only [stackSize]; omega)
  have hlog : (occludedLog math occ fuel valid_i root ray).2
      = (occludedLoop occ (fun l => Vec3.map math.rcp_safe (ray l).dir)
        (fun l => Vec3.mul (ray l).org (Vec3.map math.rcp_safe (ray l).dir))
        (fun l => if decide (valid_i l ≠ 0) then (ray l).tnear else FVal.pinf) ray fuel Mode.pop
        [(some root, fun l => if decide (valid_i l ≠ 0) then (ray l).tnear else FVal.pinf),
          (Option.none, fun _ => FVal.pinf)]
        (fun l => !decide (valid_i l ≠ 0))
        (fun l => if decide (valid_i l ≠ 0) then (ray l).tfar else FVal.ninf)).2 := rfl
  have hres : occluded math occ fuel valid_i root ray
      = some (fun l => if decide (valid_i l ≠ 0) && m l then { ray l with geomID := 0 }
          else ray l) := by
    simp only [occluded, occludedLog, h1, Option.map_some']
  rw [hlog]
  refine ⟨_, hres, ?_, ?_, ?_, ?_, ?_⟩
  · intro l hv hs
    have hm : m l = true := (h2 l).2 (Or.inr hs)
    simp only [hv, hm, ne_eq, not_false_eq_true, decide_True, Bool.and_self, if_true]
  · intro l hn
    by_cases hv : valid_i l ≠ 0
    · have hm : m l = false := by
        cases hml : m l
        · rfl
        · rcases (h2 l).1 hml with h | h
          · simp only [hv, ne_eq, not_false_eq_true, decide_True, Bool.not_true,
              Bool.false_eq_true] at h
          · exact absurd ⟨hv, h⟩ hn
      simp only [hm, Bool.and_false, Bool.false_eq_true, if_false]
    · have hd : decide (valid_i l ≠ 0) = false := by simp only [hv, decide_False]
      simp only [hd, Bool.false_and, Bool.false_eq_true, if_false]
  · intro l hl
    have hm0 : (fun l => !decide (valid_i l ≠ 0)) l = true := by simp [hl]
    obtain ⟨q1, -⟩ := h3 l hm0
    exact ⟨fun lhit he => q1 _ he, fun v rep m1 he => q1 _ he⟩
  · intro pre post v rep m1 hsplit
    obtain ⟨s1, s2, s3⟩ := settled_split pre _ post v rep m1 h4 hsplit
    refine ⟨s1, ?_, s3⟩
    intro l hl
    obtain ⟨q1, q2⟩ := s2 l hl
    exact ⟨fun lhit he => q1 _ he, fun v1 rep1 m2 he => ⟨q1 _ he, q2 v1 rep1 m2 he⟩⟩
  · intro hocc v rep m1 l he hr
    obtain ⟨tris, ht⟩ := occludedLoop_reports occ _ _ _ ray fuel _ _ _ _ v rep m1 he
    rw [ht] at hr
    exact hocc v ray tris l hr

/-- Witness for C35: the packet `cornerRay 5` with lane 0 active only on
`cornerTree`; the triangle at distance 1 occludes lane 0, lane 1 is returned
as it was. -/
theorem occluded_result_witness :
    2 * cornerTree.size + 1 < 12
    ∧ (∃ r, occluded unitMath (mollerTrumboreOccluded16 noCulling unitMath) 12 laneZero
          cornerTree (cornerRay 5) = some r)
    ∧ (occluded unitMath (mollerTrumboreOccluded16 noCulling unitMath) 12 laneZero cornerTree
        (cornerRay 5)).map (fun r => ((r 0).geomID, (r 1).geomID)) = some (0, -1) := by
  obtain ⟨r, h1, -⟩ := occluded_result unitMath (mollerTrumboreOccluded16 noCulling unitMath)
    laneZero cornerTree (cornerRay 5) 12 (by decide)
  exact ⟨by decide, ⟨r, h1⟩, by decide⟩

end BVH4i

/-! ## BVH4i traversal: the stack height on a tree with two chains -/

namespace BVH4i

variable {K : Type} [LinearOrderedCommRing K]

theorem any_lt_self (x : Lanes (FVal K)) : any (fun l => FVal.lt (x l) (x l)) = false := by
  have h : (fun l => FVal.lt (x l) (x l)) = fun _ => false := by
    funext l
    exact FVal.lt_irrefl _
  rw [h]
  rfl

/-- The loop body `childStepOccluded` in terms of `childHitOccluded` and
`childDistOccluded`. -/
theorem childStepOccluded_dist (m_active : Lanes Bool) (rdir org_rdir : Lanes (Vec3 (FVal K)))
    (ray_tnear ray_tfar : Lanes (FVal K))
    (box : Fin 4 → ChildBox K) (child : Fin 4 → Tree K) (s : Trav K) (i : Fin 4) :
    childStepOccluded m_active rdir org_rdir ray_tnear ray_tfar box child s i =
      if any (childHitOccluded m_active rdir org_rdir ray_tnear ray_tfar (box i)) then
        if any (fun l => FVal.lt
            (childDistOccluded m_active rdir org_rdir ray_tnear ray_tfar (box i) l)
            (s.curDist l)) then
          { curNode := some (child i)
            curDist := childDistOccluded m_active rdir org_rdir ray_tnear ray_tfar (box i)
            stack := (s.curNode, s.curDist) :: s.stack }
        else { s with stack := (some (child i),
            childDistOccluded m_active rdir org_rdir ray_tnear ray_tfar (box i)) :: s.stack }
      else s := rfl

/-- The loop over four children with the same bounds `b`, hit by a lane, when
the next stack entry is as near as the children: the four children are pushed
in order and the registers keep the entry. -/
theorem childLoop_full (m_active : Lanes Bool) (rdir org_rdir : Lanes (Vec3 (FVal K)))
    (ray_tnear ray_tfar : Lanes (FVal K)) (b : ChildBox K) (child : Fin 4 → Tree K)
    (c : NodeRef K) (rest : List (NodeRef K × Lanes (FVal K)))
    (hhit : any (childHitOccluded m_active rdir org_rdir ray_tnear ray_tfar b) = true) :
    childLoop (childStepOccluded m_active rdir org_rdir ray_tnear ray_tfar (fun _ => b) child)
        (fun _ => childHitOccluded m_active rdir org_rdir ray_tnear ray_tfar b)
        ⟨c, childDistOccluded m_active rdir org_rdir ray_tnear ray_tfar b, rest⟩ [0, 1, 2, 3]
      = (⟨c, childDistOccluded m_active rdir org_rdir ray_tnear ray_tfar b,
          (some (child 3), childDistOccluded m_active rdir org_rdir ray_tnear ray_tfar b)
            :: (some (child 2), childDistOccluded m_active rdir org_rdir ray_tnear ray_tfar b)
            :: (some (child 1), childDistOccluded m_active rdir org_rdir ray_tnear ray_tfar b)
            :: (some (child 0), childDistOccluded m_active rdir org_rdir ray_tnear ray_tfar b)
            :: rest⟩,
        [Event.box (childHitOccluded m_active rdir org_rdir ray_tnear ray_tfar b),
          Event.push (rest.length + 1),
          Event.box (childHitOccluded m_active rdir org_rdir ray_tnear ray_tfar b),
          Event.push (rest.length + 2),
          Event.box (childHitOccluded m_active rdir org_rdir ray_tnear ray_tfar b),
          Event.push (rest.length + 3),
          Event.box (childHitOccluded m_active rdir org_rdir ray_tnear ray_tfar b),
          Event.push (rest.length + 4)]) := by
  simp only [childLoop, childStepOccluded_dist, hhit, any_lt_self, if_true, Bool.false_eq_true,
    if_false, List.length_cons, List.cons_append, List.nil_append, List.append_nil]

/-- The loop over four children with the same bounds `b` when the next stack
entry is the marker and a lane enters `b` at a finite distance: the first
child goes to the registers, the marker and the other children to the
stack. -/
theorem childLoop_root (m_active : Lanes Bool) (rdir org_rdir : Lanes (Vec3 (FVal K)))
    (ray_tnear ray_tfar : Lanes (FVal K)) (b : ChildBox K) (child : Fin 4 → Tree K)
    (hhit : any (childHitOccluded m_active rdir org_rdir ray_tnear ray_tfar b) = true)
    (hnear : any (fun l => FVal.lt
      (childDistOccluded m_active rdir org_rdir ray_tnear ray_tfar b l) FVal.pinf) = true) :
    childLoop (childStepOccluded m_active rdir org_rdir ray_tnear ray_tfar (fun _ => b) child)
        (fun _ => childHitOccluded m_active rdir org_rdir ray_tnear ray_tfar b)
        ⟨Option.none, fun _ => FVal.pinf, []⟩ [0, 1, 2, 3]
      = (⟨some (child 0), childDistOccluded m_active rdir org_rdir ray_tnear ray_tfar b,
          [(some (child 3), childDistOccluded m_active rdir org_rdir ray_tnear ray_tfar b),
            (some (child 2), childDistOccluded m_active rdir org_rdir ray_tnear ray_tfar b),
            (some (child 1), childDistOccluded m_active rdir org_rdir ray_tnear ray_tfar b),
            (Option.none, fun _ => FVal.pinf)]⟩,
        [Event.box (childHitOccluded m_active rdir org_rdir ray_tnear ray_tfar b),
          Event.push 1,
          Event.box (childHitOccluded m_active rdir org_rdir ray_tnear ray_tfar b),
          Event.push 2,
          Event.box (childHitOccluded m_active rdir org_rdir ray_tnear ray_tfar b),
          Event.push 3,
          Event.box (childHitOccluded m_active rdir org_rdir ray_tnear ray_tfar b),
          Event.push 4]) := by
  simp only [childLoop, childStepOccluded_dist, hhit, hnear, any_lt_self, if_true,
    Bool.false_eq_true, if_false, List.length_cons, List.length_nil, List.cons_append,
    List.nil_append, List.append_nil]

end BVH4i

namespace BVH4i

/-- One pass of the inner loop of `occluded` at a node whose children all have
the bounds `unitBox`, hit by a lane, with a next stack entry as near as the
children: the record holds the pushes at the heights `rest.length + 1` to
`rest.length + 4`, followed by the record of the rest of the run. -/
theorem occludedLoop_full (occ : LeafOccluder ℤ) (rdir org_rdir : Lanes (Vec3 (FVal ℤ)))
    (ray_tnear ray_tfar : Lanes (FVal ℤ)) (ray : Ray16 ℤ) (m_terminated : Lanes Bool)
    (hhit : any (childHitOccluded (fun l => !m_terminated l) rdir org_rdir ray_tnear ray_tfar
      unitBox) = true)
    (child : Fin 4 → Tree ℤ) (c : NodeRef ℤ) (rest : List (NodeRef ℤ × Lanes (FVal ℤ)))
    (d0 : Lanes (FVal ℤ)) (fuel : Nat) :
    (occludedLoop occ rdir org_rdir ray_tnear ray (fuel + 1)
        (Mode.descend (some (Tree.node (fun _ => unitBox) child)) d0)
        ((c, childDistOccluded (fun l => !m_terminated l) rdir org_rdir ray_tnear ray_tfar
          unitBox) :: rest) m_terminated ray_tfar).2
      = Event.pop (rest.length + 1)
        :: Event.box (childHitOccluded (fun l => !m_terminated l) rdir org_rdir ray_tnear
            ray_tfar unitBox)
        :: Event.push (rest.length + 1)
        :: Event.box (childHitOccluded (fun l => !m_terminated l) rdir org_rdir ray_tnear
            ray_tfar unitBox)
        :: Event.push (rest.length + 2)
        :: Event.box (childHitOccluded (fun l => !m_terminated l) rdir org_rdir ray_tnear
            ray_tfar unitBox)
        :: Event.push (rest.length + 3)
        :: Event.box (childHitOccluded (fun l => !m_terminated l) rdir org_rdir ray_tnear
            ray_tfar unitBox)
        :: Event.push (rest.length + 4)
        :: (occludedLoop occ rdir org_rdir ray_tnear ray fuel
            (Mode.descend c (childDistOccluded (fun l => !m_terminated l) rdir org_rdir
              ray_tnear ray_tfar unitBox))
            ((some (child 3), childDistOccluded (fun l => !m_terminated l) rdir org_rdir
                ray_tnear ray_tfar unitBox)
              :: (some (child 2), childDistOccluded (fun l => !m_terminated l) rdir org_rdir
                ray_tnear ray_tfar unitBox)
              :: (some (child 1), childDistOccluded (fun l => !m_terminated l) rdir org_rdir
                ray_tnear ray_tfar unitBox)
              :: (some (child 0), childDistOccluded (fun l => !m_terminated l) rdir org_rdir
                ray_tnear ray_tfar unitBox) :: rest) m_terminated ray_tfar).2 := by
  simp only [occludedLoop]
  rw [childLoop_full (fun l => !m_terminated l) rdir org_rdir ray_tnear ray_tfar unitBox child c
    rest hhit]
  rfl

/-- The chains of the tree `twinChain` in `occluded`: with a chain of `k + 1`
nodes in the registers and another on top of the stack, the run pushes an
entry at the height `rest.length + 6 * (k + 1) + 1`. -/
theorem occludedLoop_spine (occ : LeafOccluder ℤ) (rdir org_rdir : Lanes (Vec3 (FVal ℤ)))
    (ray_tnear ray_tfar : Lanes (FVal ℤ)) (ray : Ray16 ℤ) (m_terminated : Lanes Bool)
    (hhit : any (childHitOccluded (fun l => !m_terminated l) rdir org_rdir ray_tnear ray_tfar
      unitBox) = true) (k : Nat) :
    ∀ (rest : List (NodeRef ℤ × Lanes (FVal ℤ))) (d0 : Lanes (FVal ℤ)) (fuel : Nat),
      2 * (k + 1) ≤ fuel →
      Event.push (rest.length + 6 * (k + 1) + 1)
        ∈ (occludedLoop occ rdir org_rdir ray_tnear ray fuel
            (Mode.descend (some (spine (k + 1))) d0)
            ((some (spine (k + 1)), childDistOccluded (fun l => !m_terminated l) rdir org_rdir
              ray_tnear ray_tfar unitBox) :: rest) m_terminated ray_tfar).2 := by
  induction k with
  | zero =>
    intro rest d0 fuel hfuel
    obtain ⟨f, rfl⟩ : ∃ f, fuel = f + 2 := ⟨fuel - 2, by omega⟩
    have e1 : spine (0 + 1) = Tree.node (fun _ => unitBox)
        (fun i => if i = 3 then spine 0 else Tree.leaf []) := rfl
    rw [e1, occludedLoop_full occ rdir org_rdir ray_tnear ray_tfar ray m_terminated hhit,
      occludedLoop_full occ rdir org_rdir ray_tnear ray_tfar ray m_terminated hhit]
    simp
  | succ k ih =>
    intro rest d0 fuel hfuel
    obtain ⟨f, rfl⟩ : ∃ f, fuel = f + 2 := ⟨fuel - 2, by omega⟩
    have e1 : spine (k + 1 + 1) = Tree.node (fun _ => unitBox)
        (fun i => if i = 3 then spine (k + 1) else Tree.leaf []) := rfl
    rw [e1, occludedLoop_full occ rdir org_rdir ray_tnear ray_tfar ray m_terminated hhit,
      occludedLoop_full occ rdir org_rdir ray_tnear ray_tfar ray m_terminated hhit]
    have h := ih
      ((some ((fun i : Fin 4 => if i = 3 then spine (k + 1) else Tree.leaf []) 2),
          childDistOccluded (fun l => !m_terminated l) rdir org_rdir ray_tnear ray_tfar unitBox)
        :: (some ((fun i : Fin 4 => if i = 3 then spine (k + 1) else Tree.leaf []) 1),
          childDistOccluded (fun l => !m_terminated l) rdir org_rdir ray_tnear ray_tfar unitBox)
        :: (some ((fun i : Fin 4 => if i = 3 then spine (k + 1) else Tree.leaf []) 0),
          childDistOccluded (fun l => !m_terminated l) rdir org_rdir ray_tnear ray_tfar unitBox)
        :: (some ((fun i : Fin 4 => if i = 3 then spine (k + 1) else Tree.leaf []) 2),
          childDistOccluded (fun l => !m_terminated l) rdir org_rdir ray_tnear ray_tfar unitBox)
        :: (some ((fun i : Fin 4 => if i = 3 then spine (k + 1) else Tree.leaf []) 1),
          childDistOccluded (fun l => !m_terminated l) rdir org_rdir ray_tnear ray_tfar unitBox)
        :: (some ((fun i : Fin 4 => if i = 3 then spine (k + 1) else Tree.leaf []) 0),
          childDistOccluded (fun l => !m_terminated l) rdir org_rdir ray_tnear ray_tfar unitBox)
        :: rest)
      (childDistOccluded (fun l => !m_terminated l) rdir org_rdir ray_tnear ray_tfar unitBox)
      f (by omega)
    simp only [List.length_cons] at h
    have e : rest.length + 1 + 1 + 1 + 1 + 1 + 1 + 6 * (k + 1) + 1
        = rest.length + 6 * (k + 1 + 1) + 1 := by omega
    rw [e] at h
    simp only [List.mem_cons]
    exact Or.inr (Or.inr (Or.inr (Or.inr (Or.inr (Or.inr (Or.inr (Or.inr (Or.inr
      (Or.inr (Or.inr (Or.inr (Or.inr (Or.inr (Or.inr (Or.inr (Or.inr (Or.inr h)))))))))))))))))

end BVH4i

namespace BVH4i

/-- The pass of the inner loop of `occluded` at the root, a node whose
children all have the bounds `unitBox`, with only the marker on the stack. -/
theorem occludedLoop_root (occ : LeafOccluder ℤ) (rdir org_rdir : Lanes (Vec3 (FVal ℤ)))
    (ray_tnear ray_tfar : Lanes (FVal ℤ)) (ray : Ray16 ℤ) (m_terminated : Lanes Bool)
    (hhit : any (childHitOccluded (fun l => !m_terminated l) rdir org_rdir ray_tnear ray_tfar
      unitBox) = true)
    (hnear : any (fun l => FVal.lt (childDistOccluded (fun l => !m_terminated l) rdir org_rdir
      ray_tnear ray_tfar unitBox l) FVal.pinf) = true)
    (child : Fin 4 → Tree ℤ) (d0 : Lanes (FVal ℤ)) (fuel : Nat) :
    (occludedLoop occ rdir org_rdir ray_tnear ray (fuel + 1)
        (Mode.descend (some (Tree.node (fun _ => unitBox) child)) d0)
        [(Option.none, fun _ => FVal.pinf)] m_terminated ray_tfar).2
      = Event.pop 1
        :: Event.box (childHitOccluded (fun l => !m_terminated l) rdir org_rdir ray_tnear
            ray_tfar unitBox)
        :: Event.push 1
        :: Event.box (childHitOccluded (fun l => !m_terminated l) rdir org_rdir ray_tnear
            ray_tfar unitBox)
        :: Event.push 2
        :: Event.box (childHitOccluded (fun l => !m_terminated l) rdir org_rdir ray_tnear
            ray_tfar unitBox)
        :: Event.push 3
        :: Event.box (childHitOccluded (fun l => !m_terminated l) rdir org_rdir ray_tnear
            ray_tfar unitBox)
        :: Event.push 4
        :: (occludedLoop occ rdir org_rdir ray_tnear ray fuel
            (Mode.descend (some (child 0)) (childDistOccluded (fun l => !m_terminated l) rdir
              org_rdir ray_tnear ray_tfar unitBox))
            [(some (child 3), childDistOccluded (fun l => !m_terminated l) rdir org_rdir
                ray_tnear ray_tfar unitBox),
              (some (child 2), childDistOccluded (fun l => !m_terminated l) rdir org_rdir
                ray_tnear ray_tfar unitBox),
              (some (child 1), childDistOccluded (fun l => !m_terminated l) rdir org_rdir
                ray_tnear ray_tfar unitBox),
              (Option.none, fun _ => FVal.pinf)] m_terminated ray_tfar).2 := by
  simp only [occludedLoop]
  rw [childLoop_root (fun l => !m_terminated l) rdir org_rdir ray_tnear ray_tfar unitBox child
    hhit hnear]
  rfl

/-- The loops of `occluded` on the tree `twinChain (k + 1)`, for a packet of
which a lane passes the first pop and enters `unitBox` at a finite distance:
the run pushes an entry at the height `6 * k + 4`. -/
theorem occludedLoop_twinChain (occ : LeafOccluder ℤ) (rdir org_rdir : Lanes (Vec3 (FVal ℤ)))
    (ray_tnear ray_tfar : Lanes (FVal ℤ)) (ray : Ray16 ℤ) (m_terminated : Lanes Bool)
    (hpop : none (fun l => !m_terminated l && FVal.lt (ray_tnear l) (ray_tfar l)) = false)
    (hhit : any (childHitOccluded (fun l => !m_terminated l) rdir org_rdir ray_tnear ray_tfar
      unitBox) = true)
    (hnear : any (fun l => FVal.lt (childDistOccluded (fun l => !m_terminated l) rdir org_rdir
      ray_tnear ray_tfar unitBox l) FVal.pinf) = true)
    (k fuel : Nat) (hfuel : 2 * (k + 1) ≤ fuel) :
    Event.push (6 * k + 4)
      ∈ (occludedLoop occ rdir org_rdir ray_tnear ray fuel Mode.pop
          [(some (twinChain (k + 1)), ray_tnear), (Option.none, fun _ => FVal.pinf)]
          m_terminated ray_tfar).2 := by
  obtain ⟨f, rfl⟩ : ∃ f, fuel = f + 2 := ⟨fuel - 2, by omega⟩
  have e1 : twinChain (k + 1) = Tree.node (fun _ => unitBox)
      (fun i => if i = 0 then spine k else if i = 3 then spine k else Tree.leaf []) := rfl
  have e0 : (occludedLoop occ rdir org_rdir ray_tnear ray (f + 2) Mode.pop
      [(some (twinChain (k + 1)), ray_tnear), (Option.none, fun _ => FVal.pinf)]
      m_terminated ray_tfar).2
      = Event.pop 2 :: (occludedLoop occ rdir org_rdir ray_tnear ray (f + 1)
          (Mode.descend (some (twinChain (k + 1))) ray_tnear)
          [(Option.none, fun _ => FVal.pinf)] m_terminated ray_tfar).2 := by
    simp only [occludedLoop, hpop, Bool.false_eq_true, if_false, List.length_cons,
      List.length_nil]
  rw [e0, e1, occludedLoop_root occ rdir org_rdir ray_tnear ray_tfar ray m_terminated hhit hnear]
  cases k with
  | zero => simp
  | succ k =>
    have h := occludedLoop_spine occ rdir org_rdir ray_tnear ray_tfar ray m_terminated hhit k
      [(some ((fun i : Fin 4 => if i = 0 then spine (k + 1) else if i = 3 then spine (k + 1)
            else Tree.leaf []) 2),
          childDistOccluded (fun l => !m_terminated l) rdir org_rdir ray_tnear ray_tfar unitBox),
        (some ((fun i : Fin 4 => if i = 0 then spine (k + 1) else if i = 3 then spine (k + 1)
            else Tree.leaf []) 1),
          childDistOccluded (fun l => !m_terminated l) rdir org_rdir ray_tnear ray_tfar unitBox),
        (Option.none, fun _ => FVal.pinf)]
      (childDistOccluded (fun l => !m_terminated l) rdir org_rdir ray_tnear ray_tfar unitBox)
      f (by omega)
    simp only [List.length_cons, List.length_nil] at h
    have e : 0 + 1 + 1 + 1 + 6 * (k + 1) + 1 = 6 * (k + 1) + 4 := by omega
    rw [e] at h
    simp only [List.mem_cons]
    exact Or.inr (Or.inr (Or.inr (Or.inr (Or.inr (Or.inr (Or.inr (Or.inr (Or.inr
      (Or.inr h)))))))))

/-- One pass of the inner loop of `intersect` at a node whose children all
have the bounds `unitBox`, hit by a lane, with a next stack entry as near as
the children. -/
theorem traverseLog_full (isect : LeafIntersector ℤ) (rdir org_rdir : Lanes (Vec3 (FVal ℤ)))
    (ray_tnear ray_tfar : Lanes (FVal ℤ)) (ray : Ray16 ℤ)
    (hhit : any (childHitOccluded (fun _ => true) rdir org_rdir ray_tnear ray_tfar unitBox)
      = true)
    (child : Fin 4 → Tree ℤ) (c : NodeRef ℤ) (rest : List (NodeRef ℤ × Lanes (FVal ℤ)))
    (d0 : Lanes (FVal ℤ)) (fuel : Nat) :
    (traverseLog isect rdir org_rdir ray_tnear (fuel + 1)
        (Mode.descend (some (Tree.node (fun _ => unitBox) child)) d0)
        ((c, childDistOccluded (fun _ => true) rdir org_rdir ray_tnear ray_tfar unitBox) :: rest)
        ray ray_tfar).2
      = Event.pop (rest.length + 1)
        :: Event.box (childHitOccluded (fun _ => true) rdir org_rdir ray_tnear ray_tfar unitBox)
        :: Event.push (rest.length + 1)
        :: Event.box (childHitOccluded (fun _ => true) rdir org_rdir ray_tnear ray_tfar unitBox)
        :: Event.push (rest.length + 2)
        :: Event.box (childHitOccluded (fun _ => true) rdir org_rdir ray_tnear ray_tfar unitBox)
        :: Event.push (rest.length + 3)
        :: Event.box (childHitOccluded (fun _ => true) rdir org_rdir ray_tnear ray_tfar unitBox)
        :: Event.push (rest.length + 4)
        :: (traverseLog isect rdir org_rdir ray_tnear fuel
            (Mode.descend c (childDistOccluded (fun _ => true) rdir org_rdir ray_tnear ray_tfar
              unitBox))
            ((some (child 3), childDistOccluded (fun _ => true) rdir org_rdir ray_tnear ray_tfar
                unitBox)
              :: (some (child 2), childDistOccluded (fun _ => true) rdir org_rdir ray_tnear
                ray_tfar unitBox)
              :: (some (child 1), childDistOccluded (fun _ => true) rdir org_rdir ray_tnear
                ray_tfar unitBox)
              :: (some (child 0), childDistOccluded (fun _ => true) rdir org_rdir ray_tnear
                ray_tfar unitBox) :: rest) ray ray_tfar).2 := by
  simp only [traverseLog, childStep_eq_occluded, childHit_eq_occluded]
  rw [childLoop_full (fun _ => true) rdir org_rdir ray_tnear ray_tfar unitBox child c rest hhit]
  rfl

/-- The chains of the tree `twinChain` in `intersect`: with a chain of `k + 1`
nodes in the registers and another on top of the stack, the run pushes an
entry at the height `rest.length + 6 * (k + 1) + 1`. -/
theorem traverseLog_spine (isect : LeafIntersector ℤ) (rdir org_rdir : Lanes (Vec3 (FVal ℤ)))
    (ray_tnear ray_tfar : Lanes (FVal ℤ)) (ray : Ray16 ℤ)
    (hhit : any (childHitOccluded (fun _ => true) rdir org_rdir ray_tnear ray_tfar unitBox)
      = true) (k : Nat) :
    ∀ (rest : List (NodeRef ℤ × Lanes (FVal ℤ))) (d0 : Lanes (FVal ℤ)) (fuel : Nat),
      2 * (k + 1) ≤ fuel →
      Event.push (rest.length + 6 * (k + 1) + 1)
        ∈ (traverseLog isect rdir org_rdir ray_tnear fuel
            (Mode.descend (some (spine (k + 1))) d0)
            ((some (spine (k + 1)), childDistOccluded (fun _ => true) rdir org_rdir ray_tnear
              ray_tfar unitBox) :: rest) ray ray_tfar).2 := by
  induction k with
  | zero =>
    intro rest d0 fuel hfuel
    obtain ⟨f, rfl⟩ : ∃ f, fuel = f + 2 := ⟨fuel - 2, by omega⟩
    have e1 : spine (0 + 1) = Tree.node (fun _ => unitBox)
        (fun i => if i = 3 then spine 0 else Tree.leaf []) := rfl
    rw [e1, traverseLog_full isect rdir org_rdir ray_tnear ray_tfar ray hhit,
      traverseLog_full isect rdir org_rdir ray_tnear ray_tfar ray hhit]
    simp
  | succ k ih =>
    intro rest d0 fuel hfuel
    obtain ⟨f, rfl⟩ : ∃ f, fuel = f + 2 := ⟨fuel - 2, by omega⟩
    have e1 : spine (k + 1 + 1) = Tree.node (fun _ => unitBox)
        (fun i => if i = 3 then spine (k + 1) else Tree.leaf []) := rfl
    rw [e1, traverseLog_full isect rdir org_rdir ray_tnear ray_tfar ray hhit,
      traverseLog_full isect rdir org_rdir ray_tnear ray_tfar ray hhit]
    have h := ih
      ((some ((fun i : Fin 4 => if i = 3 then spine (k + 1) else Tree.leaf []) 2),
          childDistOccluded (fun _ => true) rdir org_rdir ray_tnear ray_tfar unitBox)
        :: (some ((fun i : Fin 4 => if i = 3 then spine (k + 1) else Tree.leaf []) 1),
          childDistOccluded (fun _ => true) rdir org_rdir ray_tnear ray_tfar unitBox)
        :: (some ((fun i : Fin 4 => if i = 3 then spine (k + 1) else Tree.leaf []) 0),
          childDistOccluded (fun _ => true) rdir org_rdir ray_tnear ray_tfar unitBox)
        :: (some ((fun i : Fin 4 => if i = 3 then spine (k + 1) else Tree.leaf []) 2),
          childDistOccluded (fun _ => true) rdir org_rdir ray_tnear ray_tfar unitBox)
        :: (some ((fun i : Fin 4 => if i = 3 then spine (k + 1) else Tree.leaf []) 1),
          childDistOccluded (fun _ => true) rdir org_rdir ray_tnear ray_tfar unitBox)
        :: (some ((fun i : Fin 4 => if i = 3 then spine (k + 1) else Tree.leaf []) 0),
          childDistOccluded (fun _ => true) rdir org_rdir ray_tnear ray_tfar unitBox)
        :: rest)
      (childDistOccluded (fun _ => true) rdir org_rdir ray_tnear ray_tfar unitBox)
      f (by omega)
    simp only [List.length_cons] at h
    have e : rest.length + 1 + 1 + 1 + 1 + 1 + 1 + 6 * (k + 1) + 1
        = rest.length + 6 * (k + 1 + 1) + 1 := by omega
    rw [e] at h
    simp only [List.mem_cons]
    exact Or.inr (Or.inr (Or.inr (Or.inr (Or.inr (Or.inr (Or.inr (Or.inr (Or.inr
      (Or.inr (Or.inr (Or.inr (Or.inr (Or.inr (Or.inr (Or.inr (Or.inr (Or.inr h)))))))))))))))))

/-- The pass of the inner loop of `intersect` at the root, a node whose
children all have the bounds `unitBox`, with only the marker on the stack. -/
theorem traverseLog_root (isect : LeafIntersector ℤ) (rdir org_rdir : Lanes (Vec3 (FVal ℤ)))
    (ray_tnear ray_tfar : Lanes (FVal ℤ)) (ray : Ray16 ℤ)
    (hhit : any (childHitOccluded (fun _ => true) rdir org_rdir ray_tnear ray_tfar unitBox)
      = true)
    (hnear : any (fun l => FVal.lt (childDistOccluded (fun _ => true) rdir org_rdir
      ray_tnear ray_tfar unitBox l) FVal.pinf) = true)
    (child : Fin 4 → Tree ℤ) (d0 : Lanes (FVal ℤ)) (fuel : Nat) :
    (traverseLog isect rdir org_rdir ray_tnear (fuel + 1)
        (Mode.descend (some (Tree.node (fun _ => unitBox) child)) d0)
        [(Option.none, fun _ => FVal.pinf)] ray ray_tfar).2
      = Event.pop 1
        :: Event.box (childHitOccluded (fun _ => true) rdir org_rdir ray_tnear ray_tfar unitBox)
        :: Event.push 1
        :: Event.box (childHitOccluded (fun _ => true) rdir org_rdir ray_tnear ray_tfar unitBox)
        :: Event.push 2
        :: Event.box (childHitOccluded (fun _ => true) rdir org_rdir ray_tnear ray_tfar unitBox)
        :: Event.push 3
        :: Event.box (childHitOccluded (fun _ => true) rdir org_rdir ray_tnear ray_tfar unitBox)
        :: Event.push 4
        :: (traverseLog isect rdir org_rdir ray_tnear fuel
            (Mode.descend (some (child 0)) (childDistOccluded (fun _ => true) rdir
              org_rdir ray_tnear ray_tfar unitBox))
            [(some (child 3), childDistOccluded (fun _ => true) rdir org_rdir
                ray_tnear ray_tfar unitBox),
              (some (child 2), childDistOccluded (fun _ => true) rdir org_rdir
                ray_tnear ray_tfar unitBox),
              (some (child 1), childDistOccluded (fun _ => true) rdir org_rdir
                ray_tnear ray_tfar unitBox),
              (Option.none, fun _ => FVal.pinf)] ray ray_tfar).2 := by
  simp only [traverseLog, childStep_eq_occluded, childHit_eq_occluded]
  rw [childLoop_root (fun _ => true) rdir org_rdir ray_tnear ray_tfar unitBox child hhit hnear]
  rfl

/-- The loops of `intersect` on the tree `twinChain (k + 1)`, for a packet of
which a lane passes the first pop and enters `unitBox` at a finite distance:
the run pushes an entry at the height `6 * k + 4`. -/
theorem traverseLog_twinChain (isect : LeafIntersector ℤ)
    (rdir org_rdir : Lanes (Vec3 (FVal ℤ)))
    (ray_tnear ray_tfar : Lanes (FVal ℤ)) (ray : Ray16 ℤ)
    (hpop : none (fun l => FVal.lt (ray_tnear l) (ray_tfar l)) = false)
    (hhit : any (childHitOccluded (fun _ => true) rdir org_rdir ray_tnear ray_tfar unitBox)
      = true)
    (hnear : any (fun l => FVal.lt (childDistOccluded (fun _ => true) rdir org_rdir
      ray_tnear ray_tfar unitBox l) FVal.pinf) = true)
    (k fuel : Nat) (hfuel : 2 * (k + 1) ≤ fuel) :
    Event.push (6 * k + 4)
      ∈ (traverseLog isect rdir org_rdir ray_tnear fuel Mode.pop
          [(some (twinChain (k + 1)), ray_tnear), (Option.none, fun _ => FVal.pinf)]
          ray ray_tfar).2 := by
  obtain ⟨f, rfl⟩ : ∃ f, fuel = f + 2 := ⟨fuel - 2, by omega⟩
  have e1 : twinChain (k + 1) = Tree.node (fun _ => unitBox)
      (fun i => if i = 0 then spine k else if i = 3 then spine k else Tree.leaf []) := rfl
  have e0 : (traverseLog isect rdir org_rdir ray_tnear (f + 2) Mode.pop
      [(some (twinChain (k + 1)), ray_tnear), (Option.none, fun _ => FVal.pinf)]
      ray ray_tfar).2
      = Event.pop 2 :: (traverseLog isect rdir org_rdir ray_tnear (f + 1)
          (Mode.descend (some (twinChain (k + 1))) ray_tnear)
          [(Option.none, fun _ => FVal.pinf)] ray ray_tfar).2 := by
    simp only [traverseLog, hpop, Bool.false_eq_true, if_false, List.length_cons,
      List.length_nil]
  rw [e0, e1, traverseLog_root isect rdir org_rdir ray_tnear ray_tfar ray hhit hnear]
  cases k with
  | zero => simp
  | succ k =>
    have h := traverseLog_spine isect rdir org_rdir ray_tnear ray_tfar ray hhit k
      [(some ((fun i : Fin 4 => if i = 0 then spine (k + 1) else if i = 3 then spine (k + 1)
            else Tree.leaf []) 2),
          childDistOccluded (fun _ => true) rdir org_rdir ray_tnear ray_tfar unitBox),
        (some ((fun i : Fin 4 => if i = 0 then spine (k + 1) else if i = 3 then spine (k + 1)
            else Tree.leaf []) 1),
          childDistOccluded (fun _ => true) rdir org_rdir ray_tnear ray_tfar unitBox),
        (Option.none, fun _ => FVal.pinf)]
      (childDistOccluded (fun _ => true) rdir org_rdir ray_tnear ray_tfar unitBox)
      f (by omega)
    simp only [List.length_cons, List.length_nil] at h
    have e : 0 + 1 + 1 + 1 + 6 * (k + 1) + 1 = 6 * (k + 1) + 4 := by omega
    rw [e] at h
    simp only [List.mem_cons]
    exact Or.inr (Or.inr (Or.inr (Or.inr (Or.inr (Or.inr (Or.inr (Or.inr (Or.inr
      (Or.inr h)))))))))

end BVH4i

namespace BVH4i

theorem spine_depth (k : Nat) : (spine k).depth = k := by
  induction k with
  | zero => rfl
  | succ k ih =>
    have e : (spine (k + 1)).depth
        = 1 + max (max (Tree.leaf ([] : List (Triangle1 ℤ))).depth
            (Tree.leaf ([] : List (Triangle1 ℤ))).depth)
          (max (Tree.leaf ([] : List (Triangle1 ℤ))).depth (spine k).depth) := rfl
    rw [e, ih]
    simp only [Tree.depth]
    omega

theorem twinChain_depth (k : Nat) : (twinChain (k + 1)).depth = k + 1 := by
  have e : (twinChain (k + 1)).depth
      = 1 + max (max (spine k).depth (Tree.leaf ([] : List (Triangle1 ℤ))).depth)
        (max (Tree.leaf ([] : List (Triangle1 ℤ))).depth (spine k).depth) := rfl
  rw [e, spine_depth]
  simp only [Tree.depth]
  omega

/-- The pushes of `intersect` and `occluded` on the tree `twinChain` for the
packet `cornerRay 10` with all lanes active. -/
theorem twinChain_push (isect : LeafIntersector ℤ) (occ : LeafOccluder ℤ) (k fuel : Nat)
    (hfuel : 2 * (k + 1) ≤ fuel) :
    Event.push (6 * k + 4)
      ∈ (intersectLog unitMath isect fuel allLanes (twinChain (k + 1)) (cornerRay 10)).2
    ∧ Event.push (6 * k + 4)
      ∈ (occludedLog unitMath occ fuel allLanes (twinChain (k + 1)) (cornerRay 10)).2 :=
  ⟨traverseLog_twinChain isect _ _ _ _ _ (by decide) (by decide) (by decide) k fuel hfuel,
    occludedLoop_twinChain occ _ _ _ _ _ _ (by decide) (by decide) (by decide) k fuel hfuel⟩

/-- C31 (not met by the code).  For every `maxDepth >= 2` the tree
`twinChain maxDepth` has at most `maxDepth` inner nodes on every path from the
root to a leaf, and for the packet of 16 active rays `cornerRay 10`, every
leaf intersector and enough fuel, both `intersect` and `occluded` push an
entry at the stack height `6 * maxDepth - 2`: the entry is written at the
index `6 * maxDepth - 3`, outside the arrays of `3 * maxDepth + 1` entries. -/
theorem stack_exceeds_capacity (maxDepth : Nat) (hdepth : 2 ≤ maxDepth)
    (isect : LeafIntersector ℤ) (occ : LeafOccluder ℤ) (fuel : Nat)
    (hfuel : 2 * maxDepth ≤ fuel) :
    (twinChain maxDepth).depth = maxDepth
    ∧ Event.push (6 * maxDepth - 2)
      ∈ (intersectLog unitMath isect fuel allLanes (twinChain maxDepth) (cornerRay 10)).2
    ∧ Event.push (6 * maxDepth - 2)
      ∈ (occludedLog unitMath occ fuel allLanes (twinChain maxDepth) (cornerRay 10)).2
    ∧ 3 * maxDepth + 1 < 6 * maxDepth - 2
    ∧ 3 * maxDepth + 1 ≤ 6 * maxDepth - 2 - 1 := by
  obtain ⟨k, rfl⟩ : ∃ k, maxDepth = k + 1 := ⟨maxDepth - 1, by omega⟩
  have e : 6 * (k + 1) - 2 = 6 * k + 4 := by omega
  rw [e]
  obtain ⟨h1, h2⟩ := twinChain_push isect occ k fuel hfuel
  exact ⟨twinChain_depth k, h1, h2, by omega, by omega⟩

/-- Witness for C31: `maxDepth = 2`, a tree with three inner nodes; the arrays
have 7 entries and the run pushes at the height 10. -/
theorem stack_exceeds_capacity_witness :
    (twinChain 2).depth = 2
    ∧ Event.push 10
      ∈ (intersectLog unitMath (mollerTrumbore16 noCulling unitMath) 4 allLanes (twinChain 2)
          (cornerRay 10)).2
    ∧ Event.push 10
      ∈ (occludedLog unitMath (mollerTrumboreOccluded16 noCulling unitMath) 4 allLanes
          (twinChain 2) (cornerRay 10)).2
    ∧ 3 * 2 + 1 < 10 :=
  ⟨(stack_exceeds_capacity 2 (by decide) (mollerTrumbore16 noCulling unitMath)
      (mollerTrumboreOccluded16 noCulling unitMath) 4 (by decide)).1,
    (stack_exceeds_capacity 2 (by decide) (mollerTrumbore16 noCulling unitMath)
      (mollerTrumboreOccluded16 noCulling unitMath) 4 (by decide)).2.1,
    (stack_exceeds_capacity 2 (by decide) (mollerTrumbore16 noCulling unitMath)
      (mollerTrumboreOccluded16 noCulling unitMath) 4 (by decide)).2.2.1,
    by decide⟩

/-- C32 (not met by the code).  For every `maxDepth >= 1` the tree
`twinChain maxDepth` has depth `maxDepth`, and for the packet of 16 active
rays `cornerRay 10`, every leaf intersector and enough fuel, both `intersect`
and `occluded` reach the assertion after a push with
`sptr_node - stack_node = 6 * maxDepth - 2`, which is not less than
`maxDepth`: the assertion `sptr_node - stack_node < BVH4i::maxDepth` fails. -/
theorem push_assertion_fails (maxDepth : Nat) (hdepth : 1 ≤ maxDepth)
    (isect : LeafIntersector ℤ) (occ : LeafOccluder ℤ) (fuel : Nat)
    (hfuel : 2 * maxDepth ≤ fuel) :
    (twinChain maxDepth).depth ≤ maxDepth
    ∧ (∃ height, Event.push height
        ∈ (intersectLog unitMath isect fuel allLanes (twinChain maxDepth) (cornerRay 10)).2
      ∧ ¬ height < maxDepth)
    ∧ (∃ height, Event.push height
        ∈ (occludedLog unitMath occ fuel allLanes (twinChain maxDepth) (cornerRay 10)).2
      ∧ ¬ height < maxDepth) := by
  obtain ⟨k, rfl⟩ : ∃ k, maxDepth = k + 1 := ⟨maxDepth - 1, by omega⟩
  obtain ⟨h1, h2⟩ := twinChain_push isect occ k fuel hfuel
  exact ⟨le_of_eq (twinChain_depth k), ⟨6 * k + 4, h1, by omega⟩, ⟨6 * k + 4, h2, by omega⟩⟩

/-- Witness for C32: `maxDepth = 1`, a node with four leaves; the fourth push
leaves the height 4. -/
theorem push_assertion_fails_witness :
    (twinChain 1).depth ≤ 1
    ∧ ∃ height, Event.push height
        ∈ (intersectLog unitMath (mollerTrumbore16 noCulling unitMath) 2 allLanes (twinChain 1)
            (cornerRay 10)).2
      ∧ ¬ height < 1 :=
  ⟨(push_assertion_fails 1 (by decide) (mollerTrumbore16 noCulling unitMath)
      (mollerTrumboreOccluded16 noCulling unitMath) 2 (by decide)).1,
    (push_assertion_fails 1 (by decide) (mollerTrumbore16 noCulling unitMath)
      (mollerTrumboreOccluded16 noCulling unitMath) 2 (by decide)).2.1⟩

end BVH4i


namespace Scene

variable {A B F D : Type}

/-! ## The scene: creation of geometries -/

/-- C18 (as stated, refuted).  Creating a triangle mesh, a subdivision mesh or
a set of Bezier curves with zero time steps reports `RTC_INVALID_OPERATION`,
not `RTC_INVALID_ARGUMENT`. -/
theorem new_geometry_reports_invalid_operation :
    (newTriangleMesh countingOps sampleMesh sampleScene 0 1 3 0).error
      = some RTCError.RTC_INVALID_OPERATION
    ∧ (newTriangleMesh countingOps sampleMesh sampleScene 0 1 3 0).error
      ≠ some RTCError.RTC_INVALID_ARGUMENT
    ∧ (newSubdivisionMesh countingOps sampleSubdiv sampleScene 0 1 4 4 0 0 0 0).error
      ≠ some RTCError.RTC_INVALID_ARGUMENT
    ∧ (newBezierCurves countingOps sampleMesh sampleScene 0 1 4 0).error
      ≠ some RTCError.RTC_INVALID_ARGUMENT := by
  decide

/-- C18 (amended).  Creating a triangle mesh, subdivision mesh or Bezier curve
set with an unsupported time-step count (`numTimeSteps = 0` or
`numTimeSteps > 2`) reports the error `RTC_INVALID_OPERATION`, returns the
invalid ID (`-1` as `unsigned`, that is `2 ^ 32 - 1`) and leaves the scene as
it is; the message is that of the check that fails first. -/
theorem new_geometry_time_steps (ops : AccelOps A B F D)
    (mesh curves : Nat → Nat → Nat → Nat → Geometry D)
    (subdiv : Nat → Nat → Nat → Nat → Nat → Nat → Nat → Nat → Geometry D)
    (s : Scene A B F D) (gflags n1 n2 n3 n4 n5 n6 numTimeSteps : Nat)
    (h : numTimeSteps = 0 ∨ numTimeSteps > 2) :
    newTriangleMesh ops mesh s gflags n1 n2 numTimeSteps
      = ⟨s, invalidID, some RTCError.RTC_INVALID_OPERATION,
          some (if s.isStatic ∧ gflags ≠ ops.RTC_GEOMETRY_STATIC
          then "static scenes can only contain static geometries"
          else "only 1 or 2 time steps supported")⟩
    ∧ newSubdivisionMesh ops subdiv s gflags n1 n2 n3 n4 n5 n6 numTimeSteps
      = ⟨s, invalidID, some RTCError.RTC_INVALID_OPERATION,
          some (if s.isStatic ∧ gflags ≠ ops.RTC_GEOMETRY_STATIC
          then "static scenes can only contain static geometries"
          else "only 1 or 2 time steps supported")⟩
    ∧ newBezierCurves ops curves s gflags n1 n2 numTimeSteps
      = ⟨s, invalidID, some RTCError.RTC_INVALID_OPERATION,
          some (if s.isStatic ∧ gflags ≠ ops.RTC_GEOMETRY_STATIC
          then "static scenes can only contain static geometries"
          else "only 1 or 2 time steps supported")⟩
    ∧ invalidID = 2 ^ 32 - 1 := by
  refine ⟨?_, ?_, ?_, by decide⟩
  · unfold newTriangleMesh
    split_ifs <;> rfl
  · unfold newSubdivisionMesh
    split_ifs <;> rfl
  · unfold newBezierCurves
    split_ifs <;> rfl

/-- Witness for C18: three time steps on the sample scene. -/
theorem new_geometry_time_steps_witness :
    ((3 : Nat) = 0 ∨ 3 > 2)
    ∧ newTriangleMesh countingOps sampleMesh sampleScene 0 1 3 3
      = ⟨sampleScene, 4294967295, some RTCError.RTC_INVALID_OPERATION,
          some "only 1 or 2 time steps supported"⟩ :=
  ⟨by decide,
    (new_geometry_time_steps countingOps sampleMesh sampleMesh sampleSubdiv sampleScene
      0 1 3 0 0 0 0 3 (by decide)).1⟩

/-! ## The scene: commit -/

/-- C15. `Scene::build`, called by the thread that runs the build, on a scene
with pending modifications for which `ready()` is false: the `TASKING_TBB`
variant, with the build lock obtained, reports `RTC_INVALID_OPERATION` and
leaves the whole scene as it is; the `TASKING_TBB_INTERNAL` variant reports
`RTC_INVALID_OPERATION` and leaves the acceleration structures, bounds,
intersectors, `is_build`, `commitCounter`, the modified flag, the geometry
slots with their states and the free list as they are.  Neither propagates an
exception. -/
theorem build_not_ready (ops : AccelOps A B F D) (s : Scene A B F D)
    (threadIndex threadCount : Nat) (hthread : threadCount = 0 ∨ threadIndex = 0)
    (hmod : s.modified = true) (hready : s.ready = false) :
    build ops s threadIndex threadCount true
      = ⟨s, some RTCError.RTC_INVALID_OPERATION, Option.none⟩
    ∧ (build_internal ops s threadIndex threadCount).error
        = some RTCError.RTC_INVALID_OPERATION
    ∧ (build_internal ops s threadIndex threadCount).thrown = Option.none
    ∧ (build_internal ops s threadIndex threadCount).scene.accels = s.accels
    ∧ (build_internal ops s threadIndex threadCount).scene.bounds = s.bounds
    ∧ (build_internal ops s threadIndex threadCount).scene.intersectors = s.intersectors
    ∧ (build_internal ops s threadIndex threadCount).scene.is_build = s.is_build
    ∧ (build_internal ops s threadIndex threadCount).scene.commitCounter = s.commitCounter
    ∧ (build_internal ops s threadIndex threadCount).scene.modified = s.modified
    ∧ (build_internal ops s threadIndex threadCount).scene.geometries = s.geometries
    ∧ (build_internal ops s threadIndex threadCount).scene.usedIDs = s.usedIDs := by
  have hth : ¬ (threadCount ≠ 0 ∧ threadIndex > 0) := by
    rintro ⟨h1, h2⟩
    rcases hthread with h | h
    · exact h1 h
    · omega
  have hready2 : decide (s.numMappedBuffers = 0) = false := hready
  constructor
  · unfold build
    rw [if_neg hth]
    simp [hmod, hready]
  · unfold build_internal
    simp only []
    rw [if_neg hth]
    by_cases htc : threadCount = 0
    · simp [htc, ready, hready2]
    · simp [htc, ready, hready2]

/-- Witness for C15: the sample scene with one buffer still mapped. -/
theorem build_not_ready_witness :
    mappedScene.modified = true ∧ mappedScene.ready = false
    ∧ build countingOps mappedScene 0 4 true
      = ⟨mappedScene, some RTCError.RTC_INVALID_OPERATION, Option.none⟩ :=
  ⟨rfl, by decide, (build_not_ready countingOps mappedScene 0 4 (Or.inr rfl) rfl (by decide)).1⟩

end Scene

namespace Scene

variable {A B F D : Type}

/-- The commit of the thread that runs the build, on a scene with pending
modifications and no mapped buffer, in terms of `build_task`. -/
theorem build_eq (ops : AccelOps A B F D) (s : Scene A B F D) (threadIndex threadCount : Nat)
    (hthread : threadCount = 0 ∨ threadIndex = 0) (hmod : s.modified = true)
    (hready : s.ready = true) :
    build ops s threadIndex threadCount true
      = match build_task ops s with
        | (s1, Option.none) => ⟨{ s1 with modified := false }, Option.none, Option.none⟩
        | (s1, some e) =>
          ⟨updateInterface ops { s1 with accels := ops.clear s1.accels }, Option.none,
            some e⟩ := by
  have hth : ¬ (threadCount ≠ 0 ∧ threadIndex > 0) := by
    rintro ⟨h1, h2⟩
    rcases hthread with h | h
    · exact h1 h
    · omega
  unfold build
  rw [if_neg hth]
  simp [hmod, hready]

/-- A commit on a scene without pending modifications changes nothing. -/
theorem build_unmodified (ops : AccelOps A B F D) (s : Scene A B F D)
    (threadIndex threadCount : Nat) (locked : Bool) (hmod : s.modified = false) :
    build ops s threadIndex threadCount locked = ⟨s, Option.none, Option.none⟩ := by
  unfold build
  split_ifs with h1 h2 h3 h4
  · rfl
  · rfl
  · rfl
  · simp [hmod] at h3
  · simp [hmod] at h3

/-- C13. Idempotent commit (`TASKING_TBB` variant of `Scene::build`): a build
call on a scene whose modified flag is false returns the scene as it is,
whatever the calling thread and the state of the build lock, without an error;
a build call that runs `build_task` to completion (the thread that runs the
build, lock obtained, pending modifications, no mapped buffer, no exception)
leaves the scene of `build_task` with the modified flag cleared; and a second
build call after it changes nothing, so that two commits with no modification
in between rebuild only once. -/
theorem commit_idempotent (ops : AccelOps A B F D) (s : Scene A B F D)
    (threadIndex threadCount : Nat) :
    (∀ locked, s.modified = false →
      build ops s threadIndex threadCount locked = ⟨s, Option.none, Option.none⟩)
    ∧ ((threadCount = 0 ∨ threadIndex = 0) → s.modified = true → s.ready = true →
        (build_task ops s).2 = Option.none →
        build ops s threadIndex threadCount true
          = ⟨{ (build_task ops s).1 with modified := false }, Option.none, Option.none⟩
        ∧ (build ops s threadIndex threadCount true).scene.modified = false
        ∧ ∀ threadIndex2 threadCount2 locked2,
            build ops (build ops s threadIndex threadCount true).scene threadIndex2
              threadCount2 locked2
            = ⟨(build ops s threadIndex threadCount true).scene, Option.none,
                Option.none⟩) := by
  refine ⟨fun locked hmod => build_unmodified ops s _ _ locked hmod, ?_⟩
  intro hthread hmod hready hok
  have e : build ops s threadIndex threadCount true
      = ⟨{ (build_task ops s).1 with modified := false }, Option.none, Option.none⟩ := by
    rw [build_eq ops s _ _ hthread hmod hready]
    cases hbt : build_task ops s with
    | mk s1 r =>
      rw [hbt] at hok
      simp only at hok
      rw [hok]
  refine ⟨e, by rw [e], ?_⟩
  intro ti2 tc2 locked2
  exact build_unmodified ops _ ti2 tc2 locked2 (by rw [e])

/-- Witness for C13: the sample scene is rebuilt once by two commits; the
acceleration structures count six builds after the first commit and after the
second. -/
theorem commit_idempotent_witness :
    (build countingOps sampleScene 0 0 true).scene.accels = 6
    ∧ (build countingOps sampleScene 0 0 true).scene.modified = false
    ∧ build countingOps (build countingOps sampleScene 0 0 true).scene 0 0 true
      = ⟨(build countingOps sampleScene 0 0 true).scene, Option.none, Option.none⟩ :=
  ⟨by decide,
    ((commit_idempotent countingOps sampleScene 0 0).2 (Or.inl rfl) rfl (by decide)
      (by decide)).2.1,
    ((commit_idempotent countingOps sampleScene 0 0).2 (Or.inl rfl) rfl (by decide)
      (by decide)).2.2 0 0 true⟩

/-- C14 (as stated, refuted).  The build of the sample scene is cancelled by
the progress monitor: `Scene::build` propagates `RTC_CANCELLED`, and afterwards
the acceleration structures are the cleared ones (count 0, it was 5), the
bounds and the intersectors are theirs and `commitCounter` is 6, it was 5. -/
theorem cancelled_build_changes_scene :
    sampleScene.modified = true ∧ sampleScene.ready = true
    ∧ (build_task cancellingOps sampleScene).2 = some RTCError.RTC_CANCELLED
    ∧ (build cancellingOps sampleScene 0 0 true).thrown = some RTCError.RTC_CANCELLED
    ∧ (build cancellingOps sampleScene 0 0 true).scene.accels = 0
    ∧ sampleScene.accels = 5
    ∧ (build cancellingOps sampleScene 0 0 true).scene.bounds = 0
    ∧ sampleScene.bounds = 5
    ∧ (build cancellingOps sampleScene 0 0 true).scene.intersectors.intersector1
        = ⟨some 0, some 0⟩
    ∧ sampleScene.intersectors.intersector1 = ⟨some 5, some 5⟩
    ∧ (build cancellingOps sampleScene 0 0 true).scene.commitCounter = 6
    ∧ sampleScene.commitCounter = 5 := by
  decide

/-- C14 (amended).  If `build_task` is ended by an exception inside
`Scene::build` (`TASKING_TBB` variant, the thread that runs the build), the
build propagates the error after `accels.clear()` and `updateInterface()`: the
acceleration structures are the cleared ones, the bounds and the intersectors
are those of the cleared structures (restricted to the algorithms of
`aflags`), `is_build` is true and `commitCounter` is one more than before; the
modified flag stays set, and the geometry slots with their states and the free
list are what they were before the call. -/
theorem build_cancelled (ops : AccelOps A B F D) (s : Scene A B F D)
    (threadIndex threadCount : Nat) (e : RTCError)
    (hthread : threadCount = 0 ∨ threadIndex = 0) (hmod : s.modified = true)
    (hready : s.ready = true) (hthrow : (build_task ops s).2 = some e) :
    (build ops s threadIndex threadCount true).thrown = some e
    ∧ (build ops s threadIndex threadCount true).error = Option.none
    ∧ (build ops s threadIndex threadCount true).scene
        = updateInterface ops
            { (build_task ops s).1 with accels := ops.clear (build_task ops s).1.accels }
    ∧ (build ops s threadIndex threadCount true).scene.accels
        = ops.clear (ops.build s.geometries (ops.select s.accels s.numIntersectionFilters4
            s.numIntersectionFilters8 s.numIntersectionFilters16)).1
    ∧ (build ops s threadIndex threadCount true).scene.bounds
        = ops.bounds (build ops s threadIndex threadCount true).scene.accels
    ∧ (build ops s threadIndex threadCount true).scene.is_build = true
    ∧ (build ops s threadIndex threadCount true).scene.commitCounter
        = (s.commitCounter + 1) % 2 ^ 64
    ∧ (build ops s threadIndex threadCount true).scene.modified = true
    ∧ (build ops s threadIndex threadCount true).scene.geometries = s.geometries
    ∧ (build ops s threadIndex threadCount true).scene.usedIDs = s.usedIDs := by
  have hb : (ops.build s.geometries (ops.select s.accels s.numIntersectionFilters4
      s.numIntersectionFilters8 s.numIntersectionFilters16)).2 = some e := by
    unfold build_task at hthrow
    simp only [] at hthrow
    split at hthrow
    · next e2 he2 => rw [he2]; exact hthrow
    · simp at hthrow
  have hbt : build_task ops s
      = ({ s with
            progress_monitor_counter := 0
            accels := (ops.build s.geometries (ops.select s.accels s.numIntersectionFilters4
              s.numIntersectionFilters8 s.numIntersectionFilters16)).1 }, some e) := by
    unfold build_task
    simp only [hb]
  rw [build_eq ops s _ _ hthread hmod hready, hbt]
  simp [updateInterface, hmod]

/-- Witness for C14: the cancelled build of the sample scene. -/
theorem build_cancelled_witness :
    (build cancellingOps sampleScene 0 0 true).thrown = some RTCError.RTC_CANCELLED
    ∧ (build cancellingOps sampleScene 0 0 true).scene.commitCounter = 6
    ∧ (build cancellingOps sampleScene 0 0 true).scene.modified = true :=
  ⟨(build_cancelled cancellingOps sampleScene 0 0 RTCError.RTC_CANCELLED (Or.inl rfl) rfl
      (by decide) (by decide)).1, by decide, by decide⟩

end Scene

/-! ## The scene: the registry of geometries -/

namespace Scene

variable {A B F D : Type}

/-! ## The scene: geometry IDs -/

theorem toUnsigned_cast (i : Nat) (h : i < 2 ^ 32) : toUnsigned (i : Int) = i := by
  unfold toUnsigned
  omega

theorem toInt_cast (i : Nat) (h : i < 2 ^ 31) : toInt i = (i : Int) := by
  unfold toInt
  omega

theorem liveAt_lt (s : Scene A B F D) (i : Nat) (g : Geometry D) (h : liveAt s i g) :
    i < s.geometries.length := by
  unfold liveAt at h
  by_contra hc
  rw [List.getElem?_eq_none (by omega)] at h
  exact absurd h (by simp)

/-- The ID `add` returns does not depend on the geometry. -/
theorem add_id (s : Scene A B F D) (g1 g2 : Geometry D) : (s.add g1).2 = (s.add g2).2 := by
  unfold add
  cases s.usedIDs.getLast? with
  | none => simp
  | some k => rfl

/-- What `add` does on a scene with a sound registry. -/
theorem add_spec (s : Scene A B F D) (hok : idsOk s) (g : Geometry D)
    (hroom : s.geometries.length < 2 ^ 31) :
    (∀ g0, ¬ liveAt s (s.add g).2 g0)
    ∧ liveAt (s.add g).1 (s.add g).2 g
    ∧ (∀ j, j ≠ (s.add g).2 → (s.add g).1.geometries[j]? = s.geometries[j]?)
    ∧ (∀ k, s.usedIDs.getLast? = some k →
        ((s.add g).2 : Int) = k ∧ (s.add g).1.usedIDs = s.usedIDs.dropLast
        ∧ (s.add g).1.geometries.length = s.geometries.length)
    ∧ (s.usedIDs = [] →
        (s.add g).2 = s.geometries.length ∧ (s.add g).1.usedIDs = []
        ∧ (s.add g).1.geometries.length = s.geometries.length + 1) := by
  obtain ⟨h1, h2, h3, h4⟩ := hok
  cases hl : s.usedIDs.getLast? with
  | none =>
    have hnil : s.usedIDs = [] := List.getLast?_eq_none_iff.1 hl
    have hadd : s.add g = ({ s with geometries := s.geometries ++ [some g] },
        toUnsigned (((s.geometries ++ [some g]).length : Int) - 1)) := by
      unfold add; rw [hl]
    have hid : toUnsigned (((s.geometries ++ [some g]).length : Int) - 1)
        = s.geometries.length := by
      simp only [List.length_append, List.length_singleton, Nat.cast_add, Nat.cast_one,
        add_sub_cancel_right]
      exact toUnsigned_cast _ (by omega)
    have e1 : (s.add g).1 = { s with geometries := s.geometries ++ [some g] } := by rw [hadd]
    have e2 : (s.add g).2 = s.geometries.length := by rw [hadd]; exact hid
    rw [e1, e2]
    refine ⟨?_, ?_, ?_, ?_, ?_⟩
    · intro g0 hg0
      have := liveAt_lt s _ g0 hg0
      omega
    · show (s.geometries ++ [some g])[s.geometries.length]? = some (some g)
      rw [List.getElem?_append_right (Nat.le_refl _)]
      simp
    · intro j hj
      show (s.geometries ++ [some g])[j]? = s.geometries[j]?
      by_cases hjl : j < s.geometries.length
      · exact List.getElem?_append_left hjl
      · have hjl2 : (s.geometries ++ [some g]).length ≤ j := by
          rw [List.length_append, List.length_singleton]; omega
        rw [List.getElem?_eq_none hjl2, List.getElem?_eq_none (by omega)]
    · intro k hk
      exact absurd hk (by simp)
    · intro _
      exact ⟨rfl, hnil, by simp⟩
  | some k =>
    have hadd : s.add g = ({ s with
        usedIDs := s.usedIDs.dropLast
        geometries := s.geometries.set k.toNat (some g) }, toUnsigned k) := by
      unfold add; rw [hl]
    have hmem : k ∈ s.usedIDs := by
      obtain ⟨ys, hys⟩ := List.getLast?_eq_some_iff.1 hl
      rw [hys]; simp
    obtain ⟨i, hi, hk⟩ := (h3 k).1 hmem
    have hil : i < s.geometries.length := by
      unfold emptyAt at hi
      by_contra hc
      rw [List.getElem?_eq_none (by omega)] at hi
      exact absurd hi (by simp)
    have hkt : k.toNat = i := by omega
    have hid : toUnsigned k = i := by rw [hk]; exact toUnsigned_cast _ (by omega)
    have e1 : (s.add g).1 = { s with
        usedIDs := s.usedIDs.dropLast
        geometries := s.geometries.set i (some g) } := by rw [hadd, hkt]
    have e2 : (s.add g).2 = i := by rw [hadd]; exact hid
    rw [e1, e2]
    refine ⟨?_, ?_, ?_, ?_, ?_⟩
    · intro g0 hg0
      unfold liveAt at hg0
      unfold emptyAt at hi
      rw [hi] at hg0
      exact absurd hg0 (by simp)
    · show (s.geometries.set i (some g))[i]? = some (some g)
      exact List.getElem?_set_self hil
    · intro j hj
      show (s.geometries.set i (some g))[j]? = s.geometries[j]?
      exact List.getElem?_set_ne (fun e => hj e.symm)
    · intro k2 hk2
      have : k2 = k := (Option.some.inj hk2).symm
      rw [this]
      exact ⟨hk.symm, rfl, by simp⟩
    · intro hnil
      rw [hnil] at hmem
      exact absurd hmem (List.not_mem_nil _)

end Scene

namespace Scene

variable {A B F D : Type}

/-- The construction of a geometry keeps the registry sound and every live
geometry in its slot. -/
theorem construct_ok (s : Scene A B F D) (hok : idsOk s) (g : Geometry D)
    (hroom : s.geometries.length < 2 ^ 31) :
    idsOk (s.construct g).1
    ∧ (∀ i g0, liveAt s i g0 → liveAt (s.construct g).1 i g0)
    ∧ (s.construct g).1.geometries.length ≤ s.geometries.length + 1 := by
  have hc : (s.construct g).1 = (s.add { g with id := (s.add g).2 }).1 := rfl
  have hid : (s.add { g with id := (s.add g).2 }).2 = (s.add g).2 := add_id s _ _
  obtain ⟨a1, a2, a3, a4, a5⟩ := add_spec s hok { g with id := (s.add g).2 } hroom
  rw [hid] at a1 a2 a3 a4 a5
  rw [hc]
  obtain ⟨h1, h2, h3, h4⟩ := hok
  have hkeep : ∀ i g0, liveAt s i g0 →
      liveAt (s.add { g with id := (s.add g).2 }).1 i g0 := by
    intro i g0 hl
    have hne : i ≠ (s.add g).2 := fun e => a1 g0 (e ▸ hl)
    unfold liveAt
    rw [a3 i hne]; exact hl
  have hinv1 : ∀ i g0, liveAt (s.add { g with id := (s.add g).2 }).1 i g0 → g0.id = i := by
    intro i g0 hl
    by_cases hi : i = (s.add g).2
    · rw [hi] at hl ⊢
      unfold liveAt at hl a2
      rw [a2] at hl
      have : g0 = { g with id := (s.add g).2 } := (Option.some.inj (Option.some.inj hl)).symm
      rw [this]
    · unfold liveAt at hl
      rw [a3 i hi] at hl
      exact h1 i g0 hl
  have hempty : ∀ i, emptyAt (s.add { g with id := (s.add g).2 }).1 i
      ↔ (emptyAt s i ∧ i ≠ (s.add g).2) := by
    intro i
    unfold emptyAt
    constructor
    · intro he
      have hne : i ≠ (s.add g).2 := by
        intro e
        rw [e] at he
        unfold liveAt at a2
        rw [a2] at he
        exact absurd he (by simp)
      rw [a3 i hne] at he
      exact ⟨he, hne⟩
    · rintro ⟨he, hne⟩
      rw [a3 i hne]; exact he
  cases hl : s.usedIDs.getLast? with
  | none =>
    have hnil : s.usedIDs = [] := List.getLast?_eq_none_iff.1 hl
    obtain ⟨b1, b2, b3⟩ := a5 hnil
    refine ⟨⟨hinv1, by rw [b2]; exact List.nodup_nil, ?_, by rw [b3]; omega⟩, hkeep,
      by rw [b3]⟩
    intro k
    rw [b2]
    constructor
    · intro hk; exact absurd hk (List.not_mem_nil _)
    · rintro ⟨i, hi, hk⟩
      have := (h3 k).2 ⟨i, ((hempty i).1 hi).1, hk⟩
      rw [hnil] at this
      exact this
  | some k0 =>
    obtain ⟨b1, b2, b3⟩ := a4 k0 hl
    have hsplit : s.usedIDs.dropLast ++ [k0] = s.usedIDs :=
      List.dropLast_append_getLast? k0 (by rw [hl]; rfl)
    have hnd : (s.usedIDs.dropLast ++ [k0]).Nodup := by rw [hsplit]; exact h2
    rw [List.nodup_append] at hnd
    have hk0 : k0 ∉ s.usedIDs.dropLast := fun hm => hnd.2.2 hm (List.mem_singleton_self _)
    refine ⟨⟨hinv1, by rw [b2]; exact hnd.1, ?_, by rw [b3]; exact h4⟩, hkeep,
      by rw [b3]; omega⟩
    intro k
    rw [b2]
    constructor
    · intro hk
      have hk2 : k ∈ s.usedIDs := by rw [← hsplit]; exact List.mem_append_left _ hk
      obtain ⟨i, hi, hki⟩ := (h3 k).1 hk2
      refine ⟨i, (hempty i).2 ⟨hi, ?_⟩, hki⟩
      intro e
      apply hk0
      have : k = k0 := by rw [hki, e]; exact b1
      rw [← this]; exact hk
    · rintro ⟨i, hi, hk⟩
      obtain ⟨he, hne⟩ := (hempty i).1 hi
      have hk2 : k ∈ s.usedIDs := (h3 k).2 ⟨i, he, hk⟩
      rw [← hsplit] at hk2
      rcases List.mem_append.1 hk2 with h | h
      · exact h
      · rw [List.mem_singleton] at h
        exfalso
        apply hne
        have : ((s.add g).2 : Int) = (i : Int) := by rw [b1, ← h, hk]
        exact_mod_cast this.symm

/-- The call `remove` for a live geometry keeps the registry sound and every
other live geometry in its slot. -/
theorem remove_ok (s : Scene A B F D) (hok : idsOk s) (i : Nat) (g : Geometry D)
    (hlive : liveAt s i g) :
    idsOk (s.remove g)
    ∧ (∀ j g0, j ≠ i → liveAt s j g0 → liveAt (s.remove g) j g0)
    ∧ (s.remove g).geometries.length = s.geometries.length
    ∧ emptyAt (s.remove g) i := by
  obtain ⟨h1, h2, h3, h4⟩ := hok
  have hgi : g.id = i := h1 i g hlive
  have hil : i < s.geometries.length := liveAt_lt s i g hlive
  have hrem : s.remove g = { s with
      usedIDs := s.usedIDs ++ [(i : Int)]
      geometries := s.geometries.set i Option.none } := by
    unfold remove
    rw [hgi, toInt_cast i (by omega)]
  rw [hrem]
  have hget : ∀ j, j ≠ i → (s.geometries.set i Option.none)[j]? = s.geometries[j]? :=
    fun j hj => List.getElem?_set_ne (fun e => hj e.symm)
  have hself : (s.geometries.set i (Option.none : Option (Geometry D)))[i]? = some Option.none :=
    List.getElem?_set_self hil
  have hnot : (i : Int) ∉ s.usedIDs := by
    intro hm
    obtain ⟨i2, he, hk⟩ := (h3 _).1 hm
    have : i = i2 := by exact_mod_cast hk
    rw [← this] at he
    unfold emptyAt at he
    unfold liveAt at hlive
    rw [hlive] at he
    exact absurd he (by simp)
  refine ⟨⟨?_, ?_, ?_, ?_⟩, ?_, ?_, hself⟩
  · intro j g0 hl
    by_cases hj : j = i
    · rw [hj] at hl
      unfold liveAt at hl
      have hl2 : (s.geometries.set i (Option.none : Option (Geometry D)))[i]? = some (some g0) := hl
      rw [hself] at hl2
      exact absurd hl2 (by simp)
    · have hl2 : (s.geometries.set i (Option.none : Option (Geometry D)))[j]? = some (some g0) := hl
      rw [hget j hj] at hl2
      exact h1 j g0 hl2
  · show (s.usedIDs ++ [(i : Int)]).Nodup
    rw [List.nodup_append]
    refine ⟨h2, List.nodup_singleton _, ?_⟩
    intro x hx hx2
    rw [List.mem_singleton] at hx2
    rw [hx2] at hx
    exact hnot hx
  · intro k
    show k ∈ s.usedIDs ++ [(i : Int)] ↔
      ∃ j : Nat, (s.geometries.set i (Option.none : Option (Geometry D)))[j]? = some Option.none
        ∧ k = (j : Int)
    constructor
    · intro hk
      rcases List.mem_append.1 hk with h | h
      · obtain ⟨j, hj, hkj⟩ := (h3 k).1 h
        have hne : j ≠ i := by
          intro e
          apply hnot
          rw [← e, ← hkj]; exact h
        exact ⟨j, by rw [hget j hne]; exact hj, hkj⟩
      · rw [List.mem_singleton] at h
        exact ⟨i, hself, h⟩
    · rintro ⟨j, hj, hkj⟩
      by_cases hji : j = i
      · rw [hkj, hji]; simp
      · rw [hget j hji] at hj
        exact List.mem_append_left _ ((h3 k).2 ⟨j, hj, hkj⟩)
  · show (s.geometries.set i Option.none).length ≤ 2 ^ 31
    rw [List.length_set]; exact h4
  · intro j g0 hj hl
    show (s.geometries.set i Option.none)[j]? = some (some g0)
    rw [hget j hj]; exact hl
  · show (s.geometries.set i Option.none).length = s.geometries.length
    exact List.length_set _ _ _

end Scene

namespace Scene

variable {A B F D : Type}

theorem getD_some (l : List (Option (Geometry D))) (i : Nat) (g : Geometry D)
    (h : l.getD i Option.none = some g) : l[i]? = some (some g) := by
  rw [List.getD_eq_getElem?_getD] at h
  cases hl : l[i]? with
  | none => rw [hl] at h; exact absurd h (by simp)
  | some x => rw [hl] at h; simp only [Option.getD_some] at h; rw [h]

/-- A sequence of calls keeps the registry sound, and a live geometry stays in
its slot unless `remove` is called for it. -/
theorem run_ok (ops : List (SceneOp D)) :
    ∀ (s s2 : Scene A B F D), idsOk s → s.geometries.length + ops.length ≤ 2 ^ 31 →
      run s ops = some s2 →
      idsOk s2
      ∧ (∀ i g, liveAt s i g → SceneOp.remove i ∉ ops → liveAt s2 i g)
      ∧ s2.geometries.length ≤ s.geometries.length + ops.length := by
  induction ops with
  | nil =>
    intro s s2 hok _ hrun
    have : s = s2 := Option.some.inj hrun
    rw [← this]
    exact ⟨hok, fun _ _ h _ => h, Nat.le_refl _⟩
  | cons op ops ih =>
    intro s s2 hok hlen hrun
    simp only [List.length_cons] at hlen
    unfold run at hrun
    cases hop : applyOp s op with
    | none => rw [hop] at hrun; exact absurd hrun (by simp)
    | some s1 =>
      rw [hop] at hrun
      simp only at hrun
      cases op with
      | add g =>
        have hs1 : s1 = (s.construct g).1 := (Option.some.inj hop).symm
        obtain ⟨c1, c2, c3⟩ := construct_ok s hok g (by omega)
        rw [← hs1] at c1 c2 c3
        obtain ⟨r1, r2, r3⟩ := ih s1 s2 c1 (by omega) hrun
        refine ⟨r1, ?_, by simp only [List.length_cons]; omega⟩
        intro i g0 hl hnot
        exact r2 i g0 (c2 i g0 hl) (fun hm => hnot (List.mem_cons_of_mem _ hm))
      | remove slot =>
        cases hg : s.geometries.getD slot Option.none with
        | none => simp only [applyOp, hg] at hop; exact absurd hop (by simp)
        | some g =>
          simp only [applyOp, hg] at hop
          have hs1 : s1 = s.remove g := (Option.some.inj hop).symm
          have hlive : liveAt s slot g := getD_some _ _ _ hg
          obtain ⟨c1, c2, c3, -⟩ := remove_ok s hok slot g hlive
          rw [← hs1] at c1 c2 c3
          obtain ⟨r1, r2, r3⟩ := ih s1 s2 c1 (by omega) hrun
          refine ⟨r1, ?_, by simp only [List.length_cons]; omega⟩
          intro i g0 hl hnot
          have hne : i ≠ slot := by
            intro e
            apply hnot
            rw [e]; exact List.mem_cons_self _ _
          exact r2 i g0 (c2 i g0 hne hl) (fun hm => hnot (List.mem_cons_of_mem _ hm))

/-- C16. Geometry IDs.  On a scene with a sound registry (the ID of every live
geometry is the index of its slot, the free list holds exactly the indices of
the empty slots, each once; the scene the constructor leaves is such a scene)
and fewer than `2 ^ 31` slots: `Scene::add` stores the geometry in a slot that
held no live geometry, the most recently freed ID if the free list is not
empty and otherwise a new index equal to the previous number of slots, returns
that index and changes no other slot.  For every sequence of constructions and
of `remove` calls on live geometries that stays within `2 ^ 31` slots the
registry stays sound, so that no two live geometries share an ID and the free
list contains exactly the indices of the empty slots, each once; and a live
geometry keeps its slot and ID until `remove` is called for it. -/
theorem geometry_ids (s : Scene A B F D) (hok : idsOk s) :
    (∀ g : Geometry D, s.geometries.length < 2 ^ 31 →
      (∀ g0, ¬ liveAt s (s.add g).2 g0)
      ∧ liveAt (s.add g).1 (s.add g).2 g
      ∧ (∀ j, j ≠ (s.add g).2 → (s.add g).1.geometries[j]? = s.geometries[j]?)
      ∧ (∀ k, s.usedIDs.getLast? = some k →
          ((s.add g).2 : Int) = k ∧ (s.add g).1.usedIDs = s.usedIDs.dropLast
          ∧ (s.add g).1.geometries.length = s.geometries.length)
      ∧ (s.usedIDs = [] →
          (s.add g).2 = s.geometries.length ∧ (s.add g).1.usedIDs = []
          ∧ (s.add g).1.geometries.length = s.geometries.length + 1))
    ∧ (∀ (ops : List (SceneOp D)) (s2 : Scene A B F D),
        s.geometries.length + ops.length ≤ 2 ^ 31 → run s ops = some s2 →
        idsOk s2
        ∧ (∀ i j g1 g2, liveAt s2 i g1 → liveAt s2 j g2 → g1.id = g2.id → i = j)
        ∧ (∀ i g, liveAt s i g → SceneOp.remove i ∉ ops → liveAt s2 i g ∧ g.id = i)) := by
  refine ⟨fun g hroom => add_spec s hok g hroom, ?_⟩
  intro ops s2 hlen hrun
  obtain ⟨r1, r2, -⟩ := run_ok ops s s2 hok hlen hrun
  refine ⟨r1, ?_, fun i g hl hnot => ⟨r2 i g hl hnot, hok.1 i g hl⟩⟩
  intro i j g1 g2 h1 h2 he
  rw [← r1.1 i g1 h1, ← r1.1 j g2 h2]
  exact he

theorem emptyScene_ok : idsOk emptyScene := by
  refine ⟨?_, List.nodup_nil, ?_, by decide⟩
  · intro i g h
    simp [liveAt, emptyScene] at h
  · intro k
    simp [emptyAt, emptyScene]

/-- Witness for C16: on the scene the constructor leaves, two geometries are
constructed, the first is removed, and a third one is constructed: it gets the
freed ID 0, the free list is empty again and the registry is sound. -/
theorem geometry_ids_witness :
    idsOk emptyScene
    ∧ ∃ s2, run emptyScene [SceneOp.add sampleGeometry, SceneOp.add sampleGeometry,
          SceneOp.remove 0, SceneOp.add sampleGeometry] = some s2
        ∧ s2.geometries = [some ⟨0, GeometryState.ENABLING, ()⟩,
            some ⟨1, GeometryState.ENABLING, ()⟩]
        ∧ s2.usedIDs = []
        ∧ idsOk s2 := by
  have h : (run emptyScene [SceneOp.add sampleGeometry, SceneOp.add sampleGeometry,
      SceneOp.remove 0, SceneOp.add sampleGeometry]).map (fun s => (s.geometries, s.usedIDs))
      = some ([some ⟨0, GeometryState.ENABLING, ()⟩, some ⟨1, GeometryState.ENABLING, ()⟩],
          []) := by decide
  obtain ⟨s2, hs2, hp⟩ := Option.map_eq_some'.1 h
  exact ⟨emptyScene_ok, s2, hs2, congrArg Prod.fst hp, congrArg Prod.snd hp,
    ((geometry_ids emptyScene emptyScene_ok).2 _ s2 (by decide) hs2).1⟩

end Scene


namespace Scene

variable {A B F D : Type}

/-! ## The scene: the lifecycle of the geometries at commit -/

theorem commitState_erasing (st : GeometryState) :
    commitState st = GeometryState.ERASING ↔ st = GeometryState.ERASING := by
  cases st <;> simp [commitState]

/-- The loop over the geometries of `build_task` after its first `k` passes. -/
theorem lifecycle_loop (s0 : Scene A B F D) (hid : ∀ i g, liveAt s0 i g → g.id = i)
    (k : Nat) (hk : k ≤ s0.geometries.length) :
    ((List.range k).foldl lifecycleStep s0).geometries.length = s0.geometries.length
    ∧ (∀ i, i < k → ((List.range k).foldl lifecycleStep s0).geometries[i]?
        = (s0.geometries[i]?).map finalSlot)
    ∧ (∀ i, k ≤ i → ((List.range k).foldl lifecycleStep s0).geometries[i]? = s0.geometries[i]?)
    ∧ ((List.range k).foldl lifecycleStep s0).usedIDs
        = s0.usedIDs ++ ((List.range k).filter (erasingAt s0)).map toInt
    ∧ (List.range k).foldl lifecycleStep s0
        = { s0 with
            geometries := ((List.range k).foldl lifecycleStep s0).geometries
            usedIDs := ((List.range k).foldl lifecycleStep s0).usedIDs } := by
  induction k with
  | zero =>
    refine ⟨rfl, fun i hi => absurd hi (Nat.not_lt_zero _), fun _ _ => rfl, by simp, rfl⟩
  | succ k ih =>
    obtain ⟨i1, i2, i3, i4, i5⟩ := ih (by omega)
    have hkl : k < s0.geometries.length := by omega
    rw [List.range_succ, List.foldl_append]
    simp only [List.foldl_cons, List.foldl_nil]
    generalize hsk : (List.range k).foldl lifecycleStep s0 = sk at i1 i2 i3 i4 i5 ⊢
    have hslot : sk.geometries[k]? = s0.geometries[k]? := i3 k (Nat.le_refl _)
    have hgd : sk.geometries.getD k Option.none = s0.geometries.getD k Option.none := by
      rw [List.getD_eq_getElem?_getD, List.getD_eq_getElem?_getD, hslot]
    have hs0k : s0.geometries[k]? = some (s0.geometries.getD k Option.none) := by
      rw [List.getD_eq_getElem?_getD, List.getElem?_eq_getElem hkl]; rfl
    have hfilter : (List.range k ++ [k]).filter (erasingAt s0)
        = (List.range k).filter (erasingAt s0) ++ (if erasingAt s0 k then [k] else []) := by
      rw [List.filter_append]
      congr 1
      by_cases he : erasingAt s0 k = true <;> simp [List.filter_cons, he]
    rw [hfilter]
    cases hg : s0.geometries.getD k Option.none with
    | none =>
      have hstep : lifecycleStep sk k = sk := by
        unfold lifecycleStep; rw [hgd, hg]
      have her : erasingAt s0 k = false := by
        unfold erasingAt; rw [hg]
      rw [hstep, her]
      refine ⟨i1, ?_, fun i hi => i3 i (by omega), by simpa using i4, i5⟩
      intro i hi
      by_cases hik : i = k
      · rw [hik, hslot, hs0k, hg]; rfl
      · exact i2 i (by omega)
    | some g =>
      have hgid : g.id = k := hid k g (by unfold liveAt; rw [hs0k, hg])
      by_cases hst : g.state = GeometryState.ERASING
      · have hcs : commitState g.state = GeometryState.ERASING :=
          (commitState_erasing _).2 hst
        have hstep : lifecycleStep sk k = { sk with
            usedIDs := sk.usedIDs ++ [toInt k]
            geometries := (sk.geometries.set k (some { g with state := commitState g.state })).set
              k Option.none } := by
          unfold lifecycleStep
          rw [hgd, hg]
          simp only [hcs, if_true, remove, hgid]
        have her : erasingAt s0 k = true := by
          unfold erasingAt; rw [hg]; simp [hst]
        rw [hstep, her]
        simp only [if_true, List.map_append, List.map_cons, List.map_nil]
        refine ⟨by simp [i1], ?_, ?_, by rw [i4, List.append_assoc], ?_⟩
        · intro i hi
          by_cases hik : i = k
          · rw [hik, hs0k, hg]
            simp only [Option.map_some', finalSlot, hst, if_true]
            exact List.getElem?_set_self (by simp [i1]; exact hkl)
          · rw [List.getElem?_set_ne (fun e => hik e.symm),
              List.getElem?_set_ne (fun e => hik e.symm)]
            exact i2 i (by omega)
        · intro i hi
          rw [List.getElem?_set_ne (by omega), List.getElem?_set_ne (by omega)]
          exact i3 i (by omega)
        · rw [i5]
      · have hcs : commitState g.state ≠ GeometryState.ERASING :=
          fun h => hst ((commitState_erasing _).1 h)
        have hstep : lifecycleStep sk k = { sk with
            geometries := sk.geometries.set k (some { g with state := commitState g.state }) } := by
          unfold lifecycleStep
          rw [hgd, hg]
          simp only [hcs, if_false]
        have her : erasingAt s0 k = false := by
          unfold erasingAt; rw [hg]; simp [hst]
        rw [hstep, her]
        simp only [Bool.false_eq_true, if_false, List.append_nil]
        refine ⟨by simp [i1], ?_, ?_, i4, ?_⟩
        · intro i hi
          by_cases hik : i = k
          · rw [hik, hs0k, hg]
            simp only [Option.map_some', finalSlot, hst, if_false]
            exact List.getElem?_set_self (by rw [i1]; exact hkl)
          · rw [List.getElem?_set_ne (fun e => hik e.symm)]
            exact i2 i (by omega)
        · intro i hi
          rw [List.getElem?_set_ne (by omega)]
          exact i3 i (by omega)
        · rw [i5]

end Scene

namespace Scene

variable {A B F D : Type}

/-- The scene `build_task` leaves when no exception ends it. -/
theorem build_task_done (ops : AccelOps A B F D) (s : Scene A B F D)
    (hdone : (build_task ops s).2 = Option.none) :
    ∃ s0 : Scene A B F D,
      s0.geometries = s.geometries.map (Option.map (frozen ops s))
      ∧ s0.usedIDs = s.usedIDs
      ∧ s0.accels = (if s.isStatic then
          ops.immutable (ops.build s.geometries (ops.select s.accels s.numIntersectionFilters4
            s.numIntersectionFilters8 s.numIntersectionFilters16)).1
          else (ops.build s.geometries (ops.select s.accels s.numIntersectionFilters4
            s.numIntersectionFilters8 s.numIntersectionFilters16)).1)
      ∧ (build_task ops s).1
        = updateInterface ops ((List.range s0.geometries.length).foldl lifecycleStep s0) := by
  unfold build_task at hdone ⊢
  simp only [] at hdone ⊢
  cases hb : (ops.build s.geometries (ops.select s.accels s.numIntersectionFilters4
      s.numIntersectionFilters8 s.numIntersectionFilters16)).2 with
  | some e => rw [hb] at hdone; simp at hdone
  | none =>
    simp only [hb]
    by_cases hst : s.isStatic = true
    · refine ⟨_, ?_, ?_, ?_, rfl⟩
      · simp only [hst, if_true]
        congr 1
        funext x
        congr 1
        funext g
        simp [frozen, hst]
      · simp only [hst, if_true]
      · simp only [hst, if_true]
    · refine ⟨_, ?_, ?_, ?_, rfl⟩
      · have : (Option.map (frozen ops s) : Option (Geometry D) → Option (Geometry D)) = id := by
          funext x
          cases x <;> simp [frozen, hst]
        rw [this, List.map_id]
        simp only [hst, Bool.false_eq_true, if_false]
      · simp only [hst, Bool.false_eq_true, if_false]
      · simp only [hst, Bool.false_eq_true, if_false]

/-- C17. Geometry lifecycle at commit.  On a scene in which the ID of every
live geometry is the index of its slot, with `immutable()` of a geometry
leaving its ID and state as they are, after `Scene::build_task` has completed:
the number of slots is the same; every live geometry that was not `ERASING` is
in its slot with the state `commitState` gives it, which is `ENABLED` for
`ENABLING`, `MODIFIED` and `ENABLED` and `DISABLED` for `DISABLING` and
`DISABLED`; the slot of every geometry that was `ERASING` is empty and its ID
is on the free list; empty slots stay empty; the free list holds the IDs it
held and the IDs of the `ERASING` geometries; no live geometry is left in a
transient state; and the hierarchies were built from the geometries as they
were before this step, the `ERASING` ones included. -/
theorem build_task_lifecycle (ops : AccelOps A B F D) (s : Scene A B F D)
    (hid : ∀ i g, liveAt s i g → g.id = i)
    (himm : ∀ g, (ops.geomImmutable g).state = g.state ∧ (ops.geomImmutable g).id = g.id)
    (hdone : (build_task ops s).2 = Option.none) :
    (build_task ops s).1.geometries.length = s.geometries.length
    ∧ (∀ i g, liveAt s i g → g.state ≠ GeometryState.ERASING →
        liveAt (build_task ops s).1 i { frozen ops s g with state := commitState g.state })
    ∧ (commitState GeometryState.ENABLING = GeometryState.ENABLED
        ∧ commitState GeometryState.MODIFIED = GeometryState.ENABLED
        ∧ commitState GeometryState.ENABLED = GeometryState.ENABLED
        ∧ commitState GeometryState.DISABLING = GeometryState.DISABLED
        ∧ commitState GeometryState.DISABLED = GeometryState.DISABLED)
    ∧ (∀ i g, liveAt s i g → g.state = GeometryState.ERASING →
        emptyAt (build_task ops s).1 i ∧ toInt i ∈ (build_task ops s).1.usedIDs)
    ∧ (∀ i, emptyAt s i → emptyAt (build_task ops s).1 i)
    ∧ (∀ k, k ∈ (build_task ops s).1.usedIDs ↔
        k ∈ s.usedIDs ∨ ∃ i g, liveAt s i g ∧ g.state = GeometryState.ERASING ∧ k = toInt i)
    ∧ (∀ i g, liveAt (build_task ops s).1 i g →
        g.state = GeometryState.ENABLED ∨ g.state = GeometryState.DISABLED)
    ∧ (build_task ops s).1.accels
        = (if s.isStatic then
            ops.immutable (ops.build s.geometries (ops.select s.accels
              s.numIntersectionFilters4 s.numIntersectionFilters8
              s.numIntersectionFilters16)).1
          else (ops.build s.geometries (ops.select s.accels s.numIntersectionFilters4
            s.numIntersectionFilters8 s.numIntersectionFilters16)).1) := by
  obtain ⟨s0, g0, u0, a0, hbt⟩ := build_task_done ops s hdone
  have hfs : ∀ g, (frozen ops s g).state = g.state ∧ (frozen ops s g).id = g.id := by
    intro g
    unfold frozen
    split_ifs
    · exact himm g
    · exact ⟨rfl, rfl⟩
  have hget : ∀ i : Nat, s0.geometries[i]? = (s.geometries[i]?).map (Option.map (frozen ops s)) := by
    intro i
    rw [g0, List.getElem?_map]
  have hid0 : ∀ i g, liveAt s0 i g → g.id = i := by
    intro i g hl
    unfold liveAt at hl
    rw [hget] at hl
    cases hsi : s.geometries[i]? with
    | none => rw [hsi] at hl; simp at hl
    | some x =>
      rw [hsi] at hl
      cases x with
      | none => simp at hl
      | some g1 =>
        simp only [Option.map_some', Option.some.injEq] at hl
        rw [← hl, (hfs g1).2]
        exact hid i g1 hsi
  have hlen0 : s0.geometries.length = s.geometries.length := by rw [g0, List.length_map]
  obtain ⟨l1, l2, -, l4, l5⟩ := lifecycle_loop s0 hid0 s0.geometries.length (Nat.le_refl _)
  have hgeo : (build_task ops s).1.geometries
      = ((List.range s0.geometries.length).foldl lifecycleStep s0).geometries := by
    rw [hbt]; rfl
  have hused : (build_task ops s).1.usedIDs
      = ((List.range s0.geometries.length).foldl lifecycleStep s0).usedIDs := by
    rw [hbt]; rfl
  have hacc : (build_task ops s).1.accels = s0.accels := by
    rw [hbt, l5]; rfl
  have hfinal : ∀ i : Nat, (build_task ops s).1.geometries[i]?
      = (s.geometries[i]?).map (fun x => finalSlot (Option.map (frozen ops s) x)) := by
    intro i
    rw [hgeo]
    by_cases hi : i < s0.geometries.length
    · rw [l2 i hi, hget, Option.map_map]; rfl
    · rw [List.getElem?_eq_none (by rw [l1]; omega),
        List.getElem?_eq_none (by rw [← hlen0]; omega)]
      rfl
  have hera : ∀ i, erasingAt s0 i = true ↔
      ∃ g, liveAt s i g ∧ g.state = GeometryState.ERASING := by
    intro i
    unfold erasingAt liveAt
    rw [List.getD_eq_getElem?_getD, hget]
    cases hsi : s.geometries[i]? with
    | none => simp
    | some x =>
      cases x with
      | none => simp
      | some g1 => simp [(hfs g1).1]
  refine ⟨by rw [hgeo, l1, hlen0], ?_, by decide, ?_, ?_, ?_, ?_, by rw [hacc, a0]⟩
  · intro i g hl hst
    unfold liveAt at hl ⊢
    rw [hfinal, hl]
    simp only [Option.map_some', finalSlot, (hfs g).1, hst, if_false]
  · intro i g hl hst
    have hl2 := hl
    unfold liveAt at hl
    refine ⟨?_, ?_⟩
    · unfold emptyAt
      rw [hfinal, hl]
      simp only [Option.map_some', finalSlot, (hfs g).1, hst, if_true]
    · rw [hused, l4]
      apply List.mem_append_right
      apply List.mem_map_of_mem
      rw [List.mem_filter]
      refine ⟨List.mem_range.2 ?_, (hera i).2 ⟨g, hl2, hst⟩⟩
      rw [hlen0]
      exact liveAt_lt s i g hl2
  · intro i he
    unfold emptyAt at he ⊢
    rw [hfinal, he]
    rfl
  · intro k
    rw [hused, l4, u0, List.mem_append]
    constructor
    · rintro (h | h)
      · exact Or.inl h
      · obtain ⟨i, hi, hk⟩ := List.mem_map.1 h
        rw [List.mem_filter] at hi
        obtain ⟨g, hg1, hg2⟩ := (hera i).1 hi.2
        exact Or.inr ⟨i, g, hg1, hg2, hk.symm⟩
    · rintro (h | ⟨i, g, hg1, hg2, hk⟩)
      · exact Or.inl h
      · right
        rw [hk]
        apply List.mem_map_of_mem
        rw [List.mem_filter]
        refine ⟨List.mem_range.2 ?_, (hera i).2 ⟨g, hg1, hg2⟩⟩
        rw [hlen0]
        exact liveAt_lt s i g hg1
  · intro i g hl
    unfold liveAt at hl
    rw [hfinal] at hl
    cases hsi : s.geometries[i]? with
    | none => rw [hsi] at hl; simp at hl
    | some x =>
      rw [hsi] at hl
      cases x with
      | none => simp [finalSlot] at hl
      | some g1 =>
        simp only [Option.map_some', finalSlot, (hfs g1).1, Option.some.injEq] at hl
        split_ifs at hl with hst
        · have hg : g = { frozen ops s g1 with state := commitState g1.state } :=
            (Option.some.inj hl).symm
          rw [hg]
          show commitState g1.state = GeometryState.ENABLED
            ∨ commitState g1.state = GeometryState.DISABLED
          cases hs : g1.state <;> simp [commitState]
          exact absurd hs hst

theorem sampleScene_ids : ∀ i g, liveAt sampleScene i g → g.id = i := by
  intro i g h
  unfold liveAt sampleScene at h
  rcases i with _ | _ | _ | _ | _ | i
  · simp at h; rw [← h]
  · simp at h; rw [← h]
  · simp at h
  · simp at h; rw [← h]
  · simp at h; rw [← h]
  · simp at h

/-- Witness for C17: the commit of the sample scene enables the `ENABLING` and
the `MODIFIED` geometry, disables the `DISABLING` one, removes the `ERASING`
one and puts its ID 1 on the free list. -/
theorem build_task_lifecycle_witness :
    (build_task countingOps sampleScene).2 = Option.none
    ∧ (build_task countingOps sampleScene).1.geometries
        = [some ⟨0, GeometryState.ENABLED, ()⟩, Option.none, Option.none,
            some ⟨3, GeometryState.DISABLED, ()⟩, some ⟨4, GeometryState.ENABLED, ()⟩]
    ∧ (build_task countingOps sampleScene).1.usedIDs = [2, 1]
    ∧ (build_task countingOps sampleScene).1.geometries.length = sampleScene.geometries.length
    ∧ ∀ i g, liveAt (build_task countingOps sampleScene).1 i g →
        g.state = GeometryState.ENABLED ∨ g.state = GeometryState.DISABLED :=
  ⟨by decide, by decide, by decide,
    (build_task_lifecycle countingOps sampleScene sampleScene_ids (fun _ => ⟨rfl, rfl⟩)
      (by decide)).1,
    (build_task_lifecycle countingOps sampleScene sampleScene_ids (fun _ => ⟨rfl, rfl⟩)
      (by decide)).2.2.2.2.2.2.1⟩

end Scene

namespace Scene

variable {A B F D : Type}

/-! ## The scene: a build request without pending modifications -/

/-- The loop over the geometries of `build_task` does not read the member
`scheduler`. -/
theorem lifecycle_scheduler (b : Bool) (l : List Nat) (s : Scene A B F D) :
    l.foldl lifecycleStep { s with scheduler := b }
      = { l.foldl lifecycleStep s with scheduler := b } := by
  induction l generalizing s with
  | nil => rfl
  | cons i l ih =>
    simp only [List.foldl_cons]
    have hstep : lifecycleStep { s with scheduler := b } i
        = { lifecycleStep s i with scheduler := b } := by
      unfold lifecycleStep
      simp only []
      cases s.geometries.getD i Option.none with
      | none => rfl
      | some g =>
        simp only []
        split_ifs <;> rfl
    rw [hstep, ih]

/-- The loop over the geometries of `build_task` writes the members
`geometries` and `usedIDs` only. -/
theorem lifecycle_members (l : List Nat) (s : Scene A B F D) :
    l.foldl lifecycleStep s
      = { s with
          geometries := (l.foldl lifecycleStep s).geometries
          usedIDs := (l.foldl lifecycleStep s).usedIDs } := by
  induction l generalizing s with
  | nil => rfl
  | cons i l ih =>
    simp only [List.foldl_cons]
    have hstep : lifecycleStep s i
        = { s with
            geometries := (lifecycleStep s i).geometries
            usedIDs := (lifecycleStep s i).usedIDs } := by
      unfold lifecycleStep
      simp only []
      cases s.geometries.getD i Option.none with
      | none => rfl
      | some g =>
        simp only []
        split_ifs <;> rfl
    have h2 := ih (lifecycleStep s i)
    rw [h2]
    rw [hstep]

/-- The end of `build_task`, the loop over the geometries and
`updateInterface`, does not read the member `scheduler`. -/
theorem finish_scheduler (ops : AccelOps A B F D) (s : Scene A B F D) (b : Bool) :
    updateInterface ops
        ((List.range s.geometries.length).foldl lifecycleStep { s with scheduler := b })
      = { updateInterface ops ((List.range s.geometries.length).foldl lifecycleStep s) with
          scheduler := b } := by
  rw [lifecycle_scheduler]
  rfl

/-- The function `build_task` does not read the member `scheduler`. -/
theorem build_task_scheduler (ops : AccelOps A B F D) (s : Scene A B F D) (b : Bool) :
    build_task ops { s with scheduler := b }
      = ({ (build_task ops s).1 with scheduler := b }, (build_task ops s).2) := by
  unfold build_task
  simp only []
  cases h : (ops.build s.geometries (ops.select s.accels s.numIntersectionFilters4
    s.numIntersectionFilters8 s.numIntersectionFilters16)).2 with
  | some e => rfl
  | none =>
    simp only []
    by_cases hst : s.isStatic = true
    · rw [if_pos hst, if_pos hst]
      exact congrArg (fun x => (x, Option.none)) (finish_scheduler ops
        { s with
          progress_monitor_counter := 0
          accels := ops.immutable (ops.build s.geometries (ops.select s.accels
            s.numIntersectionFilters4 s.numIntersectionFilters8 s.numIntersectionFilters16)).1
          geometries := s.geometries.map (Option.map ops.geomImmutable) } b)
    · rw [if_neg hst, if_neg hst]
      exact congrArg (fun x => (x, Option.none)) (finish_scheduler ops
        { s with
          progress_monitor_counter := 0
          accels := (ops.build s.geometries (ops.select s.accels
            s.numIntersectionFilters4 s.numIntersectionFilters8 s.numIntersectionFilters16)).1 }
        b)

/-- C23 (as stated, refuted).  A scene as the constructor leaves it is built
twice in a row.  In the `TASKING_TBB_INTERNAL` and the `TASKING_LOCKSTEP`
variant the first build completes (one build, `commitCounter` 1) and leaves the
modified flag set, as these variants never clear it; the second request,
directly after the successful build, builds the hierarchies again (2 builds)
and increments `commitCounter` (2).  In the `TASKING_TBB` variant the first
build clears the flag and the second request changes nothing. -/
theorem build_twice_rebuilds :
    ((build_internal countingOps emptyScene 0 0).error = Option.none
      ∧ (build_internal countingOps emptyScene 0 0).thrown = Option.none
      ∧ (build_internal countingOps emptyScene 0 0).scene.accels = 1
      ∧ (build_internal countingOps emptyScene 0 0).scene.commitCounter = 1
      ∧ (build_internal countingOps emptyScene 0 0).scene.modified = true
      ∧ (build_internal countingOps (build_internal countingOps emptyScene 0 0).scene
          0 0).scene.accels = 2
      ∧ (build_internal countingOps (build_internal countingOps emptyScene 0 0).scene
          0 0).scene.commitCounter = 2)
    ∧ ((build_lockstep countingOps emptyScene 0 0).error = Option.none
      ∧ (build_lockstep countingOps emptyScene 0 0).thrown = Option.none
      ∧ (build_lockstep countingOps emptyScene 0 0).scene.accels = 1
      ∧ (build_lockstep countingOps emptyScene 0 0).scene.commitCounter = 1
      ∧ (build_lockstep countingOps emptyScene 0 0).scene.modified = true
      ∧ (build_lockstep countingOps (build_lockstep countingOps emptyScene 0 0).scene
          0 0).scene.accels = 2
      ∧ (build_lockstep countingOps (build_lockstep countingOps emptyScene 0 0).scene
          0 0).scene.commitCounter = 2)
    ∧ ((build countingOps emptyScene 0 0 true).scene.accels = 1
      ∧ (build countingOps emptyScene 0 0 true).scene.modified = false
      ∧ (build countingOps (build countingOps emptyScene 0 0 true).scene 0 0 true).scene
        = (build countingOps emptyScene 0 0 true).scene) := by
  refine ⟨⟨?_, ?_, ?_, ?_, ?_, ?_, ?_⟩, ⟨?_, ?_, ?_, ?_, ?_, ?_, ?_⟩, ?_, ?_, rfl⟩ <;> decide

/-- C23 (amended).  The `TASKING_TBB_INTERNAL` and `TASKING_LOCKSTEP` variants
of `Scene::build` do not test the modified flag: on a scene without mapped
buffers the building thread runs the steps of `build_task` whether the flag is
set or not, and leaves the flag as it is.  When `accels.build` completes, the
acceleration structures are the ones it built and `commitCounter` is one more
than before the call. -/
theorem build_without_modified_test (ops : AccelOps A B F D) (s : Scene A B F D)
    (threadCount : Nat) (hready : s.ready = true) :
    build_lockstep ops s 0 threadCount
      = ⟨(build_task ops s).1, Option.none, (build_task ops s).2⟩
    ∧ (build_internal ops s 0 threadCount).thrown = (build_task ops s).2
    ∧ (build_internal ops s 0 threadCount).error = Option.none
    ∧ (build_internal ops s 0 threadCount).scene.accels = (build_task ops s).1.accels
    ∧ (build_internal ops s 0 threadCount).scene.commitCounter
        = (build_task ops s).1.commitCounter
    ∧ (build_internal ops s 0 threadCount).scene.geometries = (build_task ops s).1.geometries
    ∧ (build_internal ops s 0 threadCount).scene.modified = s.modified
    ∧ (build_task ops s).1.modified = s.modified
    ∧ ((build_task ops s).2 = Option.none →
        (build_task ops s).1.commitCounter = (s.commitCounter + 1) % 2 ^ 64
        ∧ (build_task ops s).1.accels
          = (if s.isStatic then
              ops.immutable (ops.build s.geometries (ops.select s.accels
                s.numIntersectionFilters4 s.numIntersectionFilters8
                s.numIntersectionFilters16)).1
            else (ops.build s.geometries (ops.select s.accels s.numIntersectionFilters4
              s.numIntersectionFilters8 s.numIntersectionFilters16)).1)) := by
  have hr : (!decide (s.numMappedBuffers = 0)) = false := by
    have h : decide (s.numMappedBuffers = 0) = true := hready
    rw [h]; rfl
  have hpm : build_task ops { s with progress_monitor_counter := 0 } = build_task ops s := rfl
  have hi : build_internal ops s 0 threadCount
      = ⟨(if threadCount ≠ 0 then { (build_task ops s).1 with scheduler := false }
          else (build_task ops s).1), Option.none, (build_task ops s).2⟩ := by
    unfold build_internal
    by_cases htc : threadCount = 0
    · simp only [htc, ne_eq, not_true_eq_false, if_false, false_and, ready, hr,
        Bool.false_eq_true, hpm]
    · have hsch : build_task ops { s with scheduler := true, progress_monitor_counter := 0 }
          = ({ (build_task ops s).1 with scheduler := true }, (build_task ops s).2) :=
        build_task_scheduler ops s true
      simp only [htc, ne_eq, not_false_eq_true, if_true, true_and, gt_iff_lt, lt_self_iff_false,
        if_false, ready, hr, Bool.false_eq_true, hsch]
  have hfold : ∀ s0 : Scene A B F D,
      (updateInterface ops ((List.range s0.geometries.length).foldl lifecycleStep s0)).modified
        = s0.modified
      ∧ (updateInterface ops
          ((List.range s0.geometries.length).foldl lifecycleStep s0)).commitCounter
        = (s0.commitCounter + 1) % 2 ^ 64
      ∧ (updateInterface ops ((List.range s0.geometries.length).foldl lifecycleStep s0)).accels
        = s0.accels := by
    intro s0
    rw [lifecycle_members]
    exact ⟨rfl, rfl, rfl⟩
  have hm : (build_task ops s).1.modified = s.modified := by
    cases h : (build_task ops s).2 with
    | some e =>
      unfold build_task at h ⊢
      simp only [] at h ⊢
      cases hb : (ops.build s.geometries (ops.select s.accels s.numIntersectionFilters4
        s.numIntersectionFilters8 s.numIntersectionFilters16)).2 with
      | some e => rfl
      | none => rw [hb] at h; simp at h
    | none =>
      unfold build_task at h ⊢
      simp only [] at h ⊢
      cases hb : (ops.build s.geometries (ops.select s.accels s.numIntersectionFilters4
        s.numIntersectionFilters8 s.numIntersectionFilters16)).2 with
      | some e => rfl
      | none =>
        simp only []
        by_cases hst : s.isStatic = true
        · rw [if_pos hst]
          exact (hfold _).1
        · rw [if_neg hst]
          exact (hfold _).1
  refine ⟨?_, by rw [hi], by rw [hi], ?_, ?_, ?_, ?_, hm, ?_⟩
  · simp only [build_lockstep, ready, hr, ne_eq, not_true_eq_false, if_false, ite_self,
      Bool.false_eq_true, build_task]
    cases h : (ops.build s.geometries (ops.select s.accels s.numIntersectionFilters4
      s.numIntersectionFilters8 s.numIntersectionFilters16)).2 <;> rfl
  · rw [hi]; split_ifs <;> rfl
  · rw [hi]; split_ifs <;> rfl
  · rw [hi]; split_ifs <;> rfl
  · rw [hi]
    simp only []
    split_ifs
    · exact hm
    · exact hm
  · intro hdone
    unfold build_task at hdone ⊢
    simp only [] at hdone ⊢
    cases hb : (ops.build s.geometries (ops.select s.accels s.numIntersectionFilters4
      s.numIntersectionFilters8 s.numIntersectionFilters16)).2 with
    | some e => rw [hb] at hdone; simp at hdone
    | none =>
      simp only []
      by_cases hst : s.isStatic = true
      · rw [if_pos hst, if_pos hst]
        exact ⟨(hfold _).2.1, (hfold _).2.2⟩
      · rw [if_neg hst, if_neg hst]
        exact ⟨(hfold _).2.1, (hfold _).2.2⟩

/-- Witness for C23 (amended): the scene that a completed build of the
`TASKING_TBB_INTERNAL` variant leaves, built again. -/
theorem build_without_modified_test_witness :
    (build_internal countingOps emptyScene 0 0).scene.ready = true
    ∧ build_lockstep countingOps (build_internal countingOps emptyScene 0 0).scene 0 0
      = ⟨(build_task countingOps (build_internal countingOps emptyScene 0 0).scene).1,
          Option.none,
          (build_task countingOps (build_internal countingOps emptyScene 0 0).scene).2⟩
    ∧ (build_internal countingOps (build_internal countingOps emptyScene 0 0).scene
        0 0).scene.commitCounter
        = (build_task countingOps
            (build_internal countingOps emptyScene 0 0).scene).1.commitCounter :=
  ⟨by decide,
    (build_without_modified_test countingOps (build_internal countingOps emptyScene 0 0).scene 0
      (by decide)).1,
    (build_without_modified_test countingOps (build_internal countingOps emptyScene 0 0).scene 0
      (by decide)).2.2.2.2.1⟩

end Scene

/-! ## The scene: the static check of the functions that create a geometry -/

namespace Scene

variable {A B F D : Type}

/-- What the registration of a new geometry changes. -/
theorem construct_slot (s : Scene A B F D) (hok : idsOk s) (g : Geometry D)
    (hroom : s.geometries.length < 2 ^ 31) :
    (s.construct g).2 = { g with id := (s.construct g).2.id }
    ∧ liveAt (s.construct g).1 (s.construct g).2.id (s.construct g).2
    ∧ (∀ g0, ¬ liveAt s (s.construct g).2.id g0)
    ∧ (∀ j, j ≠ (s.construct g).2.id →
        (s.construct g).1.geometries[j]? = s.geometries[j]?)
    ∧ (s.construct g).1.usedIDs = s.usedIDs.dropLast := by
  have hc : (s.construct g).1 = (s.add { g with id := (s.add g).2 }).1 := rfl
  have hg : (s.construct g).2 = { g with id := (s.add g).2 } := rfl
  have hid : (s.add { g with id := (s.add g).2 }).2 = (s.add g).2 := add_id s _ _
  obtain ⟨a1, a2, a3, -, -⟩ := add_spec s hok { g with id := (s.add g).2 } hroom
  rw [hid] at a1 a2 a3
  have hu : (s.add { g with id := (s.add g).2 }).1.usedIDs = s.usedIDs.dropLast := by
    unfold add
    cases hl : s.usedIDs.getLast? with
    | none =>
      have hnil : s.usedIDs = [] := List.getLast?_eq_none_iff.1 hl
      simp only [hnil, List.dropLast_nil]
    | some k => rfl
  rw [hc, hg]
  exact ⟨rfl, a2, a1, a3, hu⟩

/-- C36. `Scene::newTriangleMesh`, `newSubdivisionMesh` and `newBezierCurves`
on a static scene with geometry flags other than `RTC_GEOMETRY_STATIC` report
`RTC_INVALID_OPERATION` with the message of the static check, whatever the
number of time steps (the check comes before the time-step check), return `-1`
as `unsigned` and leave the scene, with its geometry table and free list, as
it is.  When neither check fails, on a scene with a sound registry and room
for a slot, the call reports no error, returns the ID of the new geometry, and
changes exactly the slot of that ID, which held no live geometry and now holds
the new geometry with the ID stored in it; the free list loses the ID it gave,
if any. -/
theorem new_geometry_static_check (ops : AccelOps A B F D)
    (mesh curves : Nat → Nat → Nat → Nat → Geometry D)
    (subdiv : Nat → Nat → Nat → Nat → Nat → Nat → Nat → Nat → Geometry D)
    (s : Scene A B F D) (gflags n1 n2 n3 n4 n5 n6 numTimeSteps : Nat) :
    (s.isStatic = true → gflags ≠ ops.RTC_GEOMETRY_STATIC →
      newTriangleMesh ops mesh s gflags n1 n2 numTimeSteps
        = ⟨s, invalidID, some RTCError.RTC_INVALID_OPERATION,
            some "static scenes can only contain static geometries"⟩
      ∧ newSubdivisionMesh ops subdiv s gflags n1 n2 n3 n4 n5 n6 numTimeSteps
        = ⟨s, invalidID, some RTCError.RTC_INVALID_OPERATION,
            some "static scenes can only contain static geometries"⟩
      ∧ newBezierCurves ops curves s gflags n1 n2 numTimeSteps
        = ⟨s, invalidID, some RTCError.RTC_INVALID_OPERATION,
            some "static scenes can only contain static geometries"⟩)
    ∧ invalidID = 2 ^ 32 - 1
    ∧ (¬ (s.isStatic = true ∧ gflags ≠ ops.RTC_GEOMETRY_STATIC) →
      (numTimeSteps = 1 ∨ numTimeSteps = 2) → idsOk s → s.geometries.length < 2 ^ 31 →
      ∀ r g, (r = newTriangleMesh ops mesh s gflags n1 n2 numTimeSteps
            ∧ g = mesh gflags n1 n2 numTimeSteps)
          ∨ (r = newSubdivisionMesh ops subdiv s gflags n1 n2 n3 n4 n5 n6 numTimeSteps
            ∧ g = subdiv gflags n1 n2 n3 n4 n5 n6 numTimeSteps)
          ∨ (r = newBezierCurves ops curves s gflags n1 n2 numTimeSteps
            ∧ g = curves gflags n1 n2 numTimeSteps) →
        r.error = Option.none ∧ r.message = Option.none
        ∧ r.scene = (s.construct g).1
        ∧ liveAt r.scene r.id { g with id := r.id }
        ∧ (∀ g0, ¬ liveAt s r.id g0)
        ∧ (∀ j, j ≠ r.id → r.scene.geometries[j]? = s.geometries[j]?)
        ∧ r.scene.usedIDs = s.usedIDs.dropLast) := by
  refine ⟨?_, by decide, ?_⟩
  · intro hs hg
    have hc : s.isStatic = true ∧ gflags ≠ ops.RTC_GEOMETRY_STATIC := ⟨hs, hg⟩
    refine ⟨?_, ?_, ?_⟩
    · unfold newTriangleMesh
      rw [if_pos hc]
    · unfold newSubdivisionMesh
      rw [if_pos hc]
    · unfold newBezierCurves
      rw [if_pos hc]
  · intro hc ht hok hroom r g hr
    have ht2 : ¬ (numTimeSteps = 0 ∨ numTimeSteps > 2) := by omega
    have hrg : r = ⟨(s.construct g).1, (s.construct g).2.id, Option.none, Option.none⟩ := by
      rcases hr with ⟨h1, h2⟩ | ⟨h1, h2⟩ | ⟨h1, h2⟩
      · rw [h1, h2]
        unfold newTriangleMesh
        rw [if_neg hc, if_neg ht2]
      · rw [h1, h2]
        unfold newSubdivisionMesh
        rw [if_neg hc, if_neg ht2]
      · rw [h1, h2]
        unfold newBezierCurves
        rw [if_neg hc, if_neg ht2]
    obtain ⟨c1, c2, c3, c4, c5⟩ := construct_slot s hok g hroom
    rw [hrg]
    refine ⟨rfl, rfl, rfl, ?_, c3, c4, c5⟩
    show liveAt (s.construct g).1 (s.construct g).2.id { g with id := (s.construct g).2.id }
    rw [← c1]
    exact c2

/-- Witness for C36: on the static sample scene a mesh with the flag 1 and no
time step is refused by the static check; on the empty scene a mesh with one
time step takes the new slot 0. -/
theorem new_geometry_static_check_witness :
    newTriangleMesh countingOps sampleMesh staticScene 1 1 3 0
      = ⟨staticScene, 4294967295, some RTCError.RTC_INVALID_OPERATION,
          some "static scenes can only contain static geometries"⟩
    ∧ (newTriangleMesh countingOps sampleMesh emptyScene 1 1 3 1).id = 0
    ∧ liveAt (newTriangleMesh countingOps sampleMesh emptyScene 1 1 3 1).scene
        (newTriangleMesh countingOps sampleMesh emptyScene 1 1 3 1).id
        { sampleMesh 1 1 3 1 with id := (newTriangleMesh countingOps sampleMesh emptyScene
            1 1 3 1).id } :=
  ⟨((new_geometry_static_check countingOps sampleMesh sampleMesh sampleSubdiv staticScene
      1 1 3 0 0 0 0 0).1 rfl (by decide)).1,
    by decide,
    ((new_geometry_static_check countingOps sampleMesh sampleMesh sampleSubdiv emptyScene
      1 1 3 0 0 0 0 1).2.2 (by decide) (by decide) emptyScene_ok (by decide) _ _
      (Or.inl ⟨rfl, rfl⟩)).2.2.2.1⟩

end Scene

/-! ## The scene: the progress monitor -/

namespace Scene

variable {A B F D : Type}

/-- C37 (as stated, refuted).  With a monitor function installed that returns
false, `progressMonitor` raises no error unless `TASKING_TBB` is defined: on
the sample scene with 10 primitives, `progressMonitor(7)` calls the function
with `7/10`, the function returns false, and nothing is thrown in the other
two variants.  `progressMonitor(1/2)` adds 0 to the counter, not `1/2`. -/
theorem progress_monitor_no_cancel :
    stopAtHalf (FVal.fin (7 / 10)) = false
    ∧ (progressMonitor false (some stopAtHalf) 10 sampleScene 7).called
        = some (FVal.fin (7 / 10))
    ∧ (progressMonitor false (some stopAtHalf) 10 sampleScene 7).thrown = Option.none
    ∧ (progressMonitor true (some stopAtHalf) 10 sampleScene 7).thrown
        = some RTCError.RTC_CANCELLED
    ∧ (progressMonitor true (some stopAtHalf) 10 sampleScene (1 / 2)).scene.progress_monitor_counter
        = sampleScene.progress_monitor_counter := by
  refine ⟨by decide!, by decide!, by decide!, by decide!, by decide!⟩

/-- C37 (amended).  `Scene::progressMonitor(dn)`: when no monitor function is
installed it changes nothing and raises nothing.  When one is installed it
adds `dn`, converted to an integer, to the progress counter (a 64-bit word)
and changes nothing else, calls the function once, with the new count divided
by `numPrimitives()`, and raises `RTC_CANCELLED` if and only if the function
returns false and `TASKING_TBB` is defined; in the other variants it raises
nothing. -/
theorem progress_monitor_spec (tasking_tbb : Bool) (f : FVal ℚ → Bool) (numPrimitives : Nat)
    (s : Scene A B F D) (dn : ℚ) :
    progressMonitor tasking_tbb Option.none numPrimitives s dn = ⟨s, Option.none, Option.none⟩
    ∧ (progressMonitor tasking_tbb (some f) numPrimitives s dn).scene
        = { s with progress_monitor_counter :=
              (((s.progress_monitor_counter : Int) + atomic_t dn) % 2 ^ 64).toNat }
    ∧ (progressMonitor tasking_tbb (some f) numPrimitives s dn).called
        = some (fraction (progressMonitor tasking_tbb (some f) numPrimitives s
            dn).scene.progress_monitor_counter numPrimitives)
    ∧ (0 < numPrimitives →
        (progressMonitor tasking_tbb (some f) numPrimitives s dn).called
          = some (FVal.fin (((progressMonitor tasking_tbb (some f) numPrimitives s
              dn).scene.progress_monitor_counter : ℚ) / (numPrimitives : ℚ))))
    ∧ (∀ k : Int, dn = (k : ℚ) → 0 ≤ (s.progress_monitor_counter : Int) + k →
        (s.progress_monitor_counter : Int) + k < 2 ^ 64 →
        ((progressMonitor tasking_tbb (some f) numPrimitives s
          dn).scene.progress_monitor_counter : Int) = (s.progress_monitor_counter : Int) + k)
    ∧ ((progressMonitor tasking_tbb (some f) numPrimitives s dn).thrown
          = some RTCError.RTC_CANCELLED
        ↔ (tasking_tbb = true
          ∧ f (fraction (progressMonitor tasking_tbb (some f) numPrimitives s
              dn).scene.progress_monitor_counter numPrimitives) = false))
    ∧ ((progressMonitor tasking_tbb (some f) numPrimitives s dn).thrown = Option.none
        ∨ (progressMonitor tasking_tbb (some f) numPrimitives s dn).thrown
          = some RTCError.RTC_CANCELLED)
    ∧ (progressMonitor false (some f) numPrimitives s dn).thrown = Option.none := by
  have hn : ((atomic_t dn + (s.progress_monitor_counter : Int)) % 2 ^ 64).toNat
      = (((s.progress_monitor_counter : Int) + atomic_t dn) % 2 ^ 64).toNat := by
    rw [add_comm]
  have hscene : ∀ b, (progressMonitor b (some f) numPrimitives s dn).scene
      = { s with progress_monitor_counter :=
            (((s.progress_monitor_counter : Int) + atomic_t dn) % 2 ^ 64).toNat } := by
    intro b
    unfold progressMonitor
    simp only []
    split_ifs <;> rfl
  have hcalled : ∀ b, (progressMonitor b (some f) numPrimitives s dn).called
      = some (fraction (((s.progress_monitor_counter : Int) + atomic_t dn) % 2 ^ 64).toNat
          numPrimitives) := by
    intro b
    unfold progressMonitor
    simp only [hn]
    split_ifs <;> rfl
  have hthrown : ∀ b, (progressMonitor b (some f) numPrimitives s dn).thrown
      = if b = true ∧ f (fraction (((s.progress_monitor_counter : Int) + atomic_t dn)
          % 2 ^ 64).toNat numPrimitives) = false then some RTCError.RTC_CANCELLED
        else Option.none := by
    intro b
    unfold progressMonitor
    simp only [hn]
    cases b <;>
      cases f (fraction (((s.progress_monitor_counter : Int) + atomic_t dn) % 2 ^ 64).toNat
        numPrimitives) <;> simp
  refine ⟨rfl, hscene _, ?_, ?_, ?_, ?_, ?_, ?_⟩
  · rw [hcalled, hscene]
  · intro hpos
    rw [hcalled, hscene]
    simp only [fraction, if_neg (Nat.pos_iff_ne_zero.1 hpos)]
  · intro k hk h0 h1
    rw [hscene]
    have ht : atomic_t dn = k := by
      unfold atomic_t
      rw [hk]
      split_ifs
      · exact Int.floor_intCast k
      · exact Int.ceil_intCast k
    simp only [ht]
    rw [Int.emod_eq_of_lt h0 h1, Int.toNat_of_nonneg h0]
  · rw [hthrown, hscene]
    split_ifs with h
    · simp only [true_iff]
      exact h
    · simp only [reduceCtorEq, false_iff]
      exact h
  · rw [hthrown]
    split_ifs
    · exact Or.inr rfl
    · exact Or.inl rfl
  · rw [hthrown]
    simp

end Scene

namespace Scene

/-- Witness for C37: `progressMonitor(7)` on the sample scene with 10
primitives in the `TASKING_TBB` variant counts 7 and calls the function with
`7/10`. -/
theorem progress_monitor_spec_witness :
    (0 < 10)
    ∧ ((progressMonitor true (some stopAtHalf) 10 sampleScene 7).scene.progress_monitor_counter
        : Int) = (sampleScene.progress_monitor_counter : Int) + 7
    ∧ (progressMonitor true (some stopAtHalf) 10 sampleScene 7).called
        = some (FVal.fin (((progressMonitor true (some stopAtHalf) 10 sampleScene
            7).scene.progress_monitor_counter : ℚ) / ((10 : Nat) : ℚ))) :=
  ⟨by decide,
    (progress_monitor_spec true stopAtHalf 10 sampleScene 7).2.2.2.2.1 7 (by norm_num)
      (by decide) (by decide),
    (progress_monitor_spec true stopAtHalf 10 sampleScene 7).2.2.2.1 (by decide)⟩

end Scene

/-! ## Object partition heuristic: tie-breaking of `best` -/

namespace FVal

variable {K : Type} [LinearOrderedCommRing K]

theorem not_le_of_lt {a b : FVal K} (h : lt a b = true) : le b a = false := by
  cases a <;> cases b <;> simp_all [le, lt]

theorem le_nan_left (a : FVal K) : le nan a = false := by
  cases a <;> rfl

theorem not_le_of_isNaN {a : FVal K} (h : isNaN a = true) (b : FVal K) : le a b = false := by
  cases a <;> simp_all [isNaN, le_nan_left]

theorem lt_pinf_of_lt {a b : FVal K} (h : lt a b = true) : lt a pinf = true := by
  cases a <;> cases b <;> simp_all [lt]

end FVal

namespace ObjectPartition

variable {K : Type} [LinearOrderedCommRing K] {S : Type}

namespace BinInfo

/-- The position recorded by the sweep from left to right after `k` passes is
the first one at which the running best is reached: every candidate before it
costs strictly more or has the cost NaN; while no position is recorded, no
candidate seen so far costs less than `+inf`. -/
theorem sweepLeftAfter_first (BINS : Nat) (blocks : Int → Int) (b : BinInfo K) (k : Nat)
    (hk : k ≤ BINS - 1) (d : Fin 3) :
    (∀ i : Nat, 1 ≤ i → i ≤ k →
        (i : Int) < (sweepLeftAfter blocks b (sweepRight BINS b) k).vbestPos d →
        FVal.le (candidateCost BINS blocks b d i)
          ((sweepLeftAfter blocks b (sweepRight BINS b) k).vbestSAH d) = false)
    ∧ ((sweepLeftAfter blocks b (sweepRight BINS b) k).vbestPos d = 0 →
        ∀ i : Nat, 1 ≤ i → i ≤ k →
          FVal.lt (candidateCost BINS blocks b d i) FVal.pinf = false) := by
  induction k with
  | zero =>
    refine ⟨?_, ?_⟩ <;> intros <;> omega
  | succ k ih =>
    obtain ⟨ih1, ih2⟩ := ih (by omega)
    obtain ⟨b1, b2, b3⟩ := sweepLeftAfter_best BINS blocks b k (by omega) d
    have hs := sah_pass BINS blocks b k (by omega) d
    simp only [sweepLeftAfter, sweepLeftStep]
    rw [hs]
    by_cases hlt : FVal.lt (candidateCost BINS blocks b d (k + 1))
        ((sweepLeftAfter blocks b (sweepRight BINS b) k).vbestSAH d) = true
    · simp only [hlt, if_true]
      refine ⟨?_, ?_⟩
      · intro i h1 _ h3
        have hik : i ≤ k := by omega
        by_cases hn : FVal.isNaN (candidateCost BINS blocks b d i) = true
        · exact FVal.not_le_of_isNaN hn _
        · exact FVal.not_le_of_lt (FVal.lt_of_lt_of_le hlt (b2 i h1 hik (by simpa using hn)))
      · intro h0
        omega
    · have hlt2 : FVal.lt (candidateCost BINS blocks b d (k + 1))
          ((sweepLeftAfter blocks b (sweepRight BINS b) k).vbestSAH d) = false := by
        simpa using hlt
      simp only [hlt2, Bool.false_eq_true, if_false]
      have hposle : (sweepLeftAfter blocks b (sweepRight BINS b) k).vbestPos d ≤ (k : Int) := by
        rcases b3 with h | ⟨j, -, j2, j3, -⟩
        · rw [h.1]; exact Int.natCast_nonneg _
        · rw [j3]; exact_mod_cast j2
      refine ⟨?_, ?_⟩
      · intro i h1 _ h3
        exact ih1 i h1 (by omega) h3
      · intro h0 i h1 h2
        by_cases hik : i = k + 1
        · subst hik
          rcases b3 with h | ⟨j, j1, -, j3, -⟩
          · rw [← h.2]; exact hlt2
          · rw [h0] at j3
            omega
        · exact ih2 h0 i h1 (by omega)

/-- The search for the best dimension over an increasing list of dimensions
keeps the first dimension that reaches the best cost: the result is the start
value, or a dimension of the list whose best cost is strictly below the start
value and strictly below the best cost of every valid dimension before it. -/
theorem bestDim_first (mapping : Mapping S K) (s : SweepL K)
    (hvb : ∀ d, FVal.isNaN (s.vbestSAH d) = false)
    (hpos : ∀ d, s.vbestPos d = 0 → s.vbestSAH d = FVal.pinf)
    (dims : List (Fin 3)) (hsorted : dims.Pairwise (fun a b => a < b)) (acc : BestDim K)
    (hacc : FVal.isNaN acc.bestSAH = false) :
    dims.foldl (bestDimStep mapping s) acc = acc
    ∨ ∃ d ∈ dims, (dims.foldl (bestDimStep mapping s) acc).bestDim = (d.val : Int)
        ∧ (dims.foldl (bestDimStep mapping s) acc).bestSAH = s.vbestSAH d
        ∧ FVal.lt (s.vbestSAH d) acc.bestSAH = true
        ∧ ∀ d1 ∈ dims, d1 < d → mapping.invalid d1 = false →
            FVal.lt (s.vbestSAH d) (s.vbestSAH d1) = true := by
  induction dims generalizing acc with
  | nil => exact Or.inl rfl
  | cons d0 dims ih =>
    simp only [List.foldl_cons]
    obtain ⟨hd0, hrest⟩ := List.pairwise_cons.1 hsorted
    obtain ⟨s1, s2, s3, -⟩ := bestDim_fold mapping s hvb hpos [d0] acc hacc
    simp only [List.foldl_cons, List.foldl_nil] at s1 s2 s3
    have s3a := s3 d0 (List.mem_singleton.2 rfl)
    have hstep : bestDimStep mapping s acc d0 = acc
        ∨ ((bestDimStep mapping s acc d0).bestDim = (d0.val : Int)
          ∧ (bestDimStep mapping s acc d0).bestSAH = s.vbestSAH d0
          ∧ FVal.lt (s.vbestSAH d0) acc.bestSAH = true) := by
      unfold bestDimStep
      by_cases hinv : mapping.invalid d0 = true
      · rw [if_pos hinv]; exact Or.inl rfl
      · rw [if_neg hinv]
        by_cases hc : (FVal.lt (s.vbestSAH d0) acc.bestSAH && s.vbestPos d0 != 0) = true
        · rw [if_pos hc]
          simp only [Bool.and_eq_true] at hc
          exact Or.inr ⟨rfl, rfl, hc.1⟩
        · rw [if_neg hc]; exact Or.inl rfl
    rcases ih hrest (bestDimStep mapping s acc d0) s1 with h | ⟨d, hd, h1, h2, h3, h4⟩
    · rw [h]
      rcases hstep with h0 | ⟨e1, e2, e3⟩
      · exact Or.inl h0
      · refine Or.inr ⟨d0, List.mem_cons_self _ _, e1, e2, e3, ?_⟩
        intro d1 hd1 hlt _
        rcases List.mem_cons.1 hd1 with rfl | hd1
        · exact absurd hlt (lt_irrefl _)
        · exact absurd (hd0 d1 hd1) (not_lt.2 (le_of_lt hlt))
    · refine Or.inr ⟨d, List.mem_cons_of_mem _ hd, h1, h2, FVal.lt_of_lt_of_le h3 s2, ?_⟩
      intro d1 hd1 hlt hinv
      rcases List.mem_cons.1 hd1 with rfl | hd1
      · exact FVal.lt_of_lt_of_le h3 (s3a hinv)
      · exact h4 d1 hd1 hlt hinv

/-- C27. Tie-breaking in `ObjectPartition::BinInfo::best`: if `best` returns a
split with `dim >= 0`, then among the candidates `(d1, i)` with `d1` a dimension
of non-zero centroid extent and `1 <= i <= BINS-1` every candidate on an
earlier axis, and every candidate at an earlier position of the returned axis,
costs strictly more than the returned split or has the cost NaN (a later axis
or position replaces the current best only if strictly cheaper); so of the
candidates that attain the returned cost the split has the smallest axis index
and, within that axis, the smallest position. -/
theorem best_tie_break (BINS : Nat) (blocks : Int → Int) (b : BinInfo K)
    (mapping : Mapping S K) (hdim : 0 ≤ (best BINS blocks b mapping).dim) :
    ∃ (d : Fin 3) (pos : Nat),
      (best BINS blocks b mapping).dim = (d.val : Int)
      ∧ (best BINS blocks b mapping).pos = (pos : Int)
      ∧ 1 ≤ pos ∧ pos ≤ BINS - 1
      ∧ (best BINS blocks b mapping).sah = candidateCost BINS blocks b d pos
      ∧ (∀ (d1 : Fin 3) (i : Nat), mapping.invalid d1 = false → 1 ≤ i → i ≤ BINS - 1 →
          d1 < d ∨ (d1 = d ∧ i < pos) →
          FVal.le (candidateCost BINS blocks b d1 i) (best BINS blocks b mapping).sah = false)
      ∧ (∀ (d1 : Fin 3) (i : Nat), mapping.invalid d1 = false → 1 ≤ i → i ≤ BINS - 1 →
          candidateCost BINS blocks b d1 i = (best BINS blocks b mapping).sah →
          d ≤ d1 ∧ (d1 = d → pos ≤ i)) := by
  have hsw := fun d => sweepLeftAfter_best BINS blocks b (BINS - 1) (le_refl _) d
  have hfi := fun d => sweepLeftAfter_first BINS blocks b (BINS - 1) (le_refl _) d
  have hvb : ∀ d, FVal.isNaN ((sweepLeft BINS blocks b (sweepRight BINS b)).vbestSAH d) = false :=
    fun d => (hsw d).1
  have hpos : ∀ d, (sweepLeft BINS blocks b (sweepRight BINS b)).vbestPos d = 0 →
      (sweepLeft BINS blocks b (sweepRight BINS b)).vbestSAH d = FVal.pinf := by
    intro d h0
    rcases (hsw d).2.2 with h | ⟨i, h1, -, h3, -⟩
    · exact h.2
    · exfalso
      have h3a : (sweepLeft BINS blocks b (sweepRight BINS b)).vbestPos d = (i : Int) := h3
      rw [h0] at h3a
      omega
  have hsorted : [(0 : Fin 3), 1, 2].Pairwise (fun a b => a < b) := by decide
  obtain ⟨-, -, -, r4⟩ := bestDim_fold mapping (sweepLeft BINS blocks b (sweepRight BINS b))
    hvb hpos [0, 1, 2] ⟨FVal.pinf, -1, 0⟩ rfl
  have f4 := bestDim_first mapping (sweepLeft BINS blocks b (sweepRight BINS b))
    hvb hpos [0, 1, 2] hsorted ⟨FVal.pinf, -1, 0⟩ rfl
  have hall : ∀ d : Fin 3, d ∈ [(0 : Fin 3), 1, 2] := by decide
  have hres : (best BINS blocks b mapping).dim
      = (List.foldl (bestDimStep mapping (sweepLeft BINS blocks b (sweepRight BINS b)))
        (⟨FVal.pinf, -1, 0⟩ : BestDim K) [0, 1, 2]).bestDim := rfl
  have hsah : (best BINS blocks b mapping).sah
      = (List.foldl (bestDimStep mapping (sweepLeft BINS blocks b (sweepRight BINS b)))
        (⟨FVal.pinf, -1, 0⟩ : BestDim K) [0, 1, 2]).bestSAH := rfl
  rcases r4 with r4 | ⟨d, -, h1, h2, h3, h4, h5⟩
  · exfalso
    rw [hres, r4] at hdim
    have : (0 : Int) ≤ -1 := hdim
    omega
  rcases f4 with f4 | ⟨d2, -, g1, g2, g3, g4⟩
  · exfalso
    rw [hres, f4] at hdim
    have : (0 : Int) ≤ -1 := hdim
    omega
  have hd2 : d2 = d := by
    have e : (d2.val : Int) = (d.val : Int) := g1.symm.trans h1
    exact Fin.ext (by exact_mod_cast e)
  subst hd2
  rcases (hsw d2).2.2 with h | ⟨p, p1, p2, p3, p4⟩
  · exact absurd h.1 h4
  have hsahd : (best BINS blocks b mapping).sah
      = (sweepLeft BINS blocks b (sweepRight BINS b)).vbestSAH d2 := hsah.trans h5
  have hp3 : (sweepLeft BINS blocks b (sweepRight BINS b)).vbestPos d2 = (p : Int) := p3
  have hstrict : ∀ (d1 : Fin 3) (i : Nat), mapping.invalid d1 = false → 1 ≤ i → i ≤ BINS - 1 →
      d1 < d2 ∨ (d1 = d2 ∧ i < p) →
      FVal.le (candidateCost BINS blocks b d1 i) (best BINS blocks b mapping).sah = false := by
    intro d1 i hinv i1 i2 hbefore
    rw [hsahd]
    rcases hbefore with hlt | ⟨he, hip⟩
    · have hlt2 := g4 d1 (hall d1) hlt hinv
      by_cases hn : FVal.isNaN (candidateCost BINS blocks b d1 i) = true
      · exact FVal.not_le_of_isNaN hn _
      · exact FVal.not_le_of_lt
          (FVal.lt_of_lt_of_le hlt2 ((hsw d1).2.1 i i1 i2 (by simpa using hn)))
    · subst he
      refine (hfi d1).1 i i1 i2 ?_
      show (i : Int) < (sweepLeft BINS blocks b (sweepRight BINS b)).vbestPos d1
      rw [hp3]
      exact_mod_cast hip
  refine ⟨d2, p, h1, h3.trans p3, p1, p2, h5.trans p4, hstrict, ?_⟩
  intro d1 i hinv i1 i2 hcost
  have hle : FVal.le (candidateCost BINS blocks b d1 i) (best BINS blocks b mapping).sah
      = true := by
    rw [hcost, hsahd]
    exact FVal.le_refl (hvb d2)
  constructor
  · by_contra hnot
    have := hstrict d1 i hinv i1 i2 (Or.inl (not_le.1 hnot))
    rw [hle] at this
    exact absurd this (by decide)
  · intro he
    by_contra hnot
    have := hstrict d1 i hinv i1 i2 (Or.inr ⟨he, not_le.1 hnot⟩)
    rw [hle] at this
    exact absurd this (by decide)

/-- Witness for C27: in the sample table the three dimensions are alike and
the positions 6 and 7 separate the same bins, so six candidates attain the
minimal cost 6; `best` returns the first of them, dimension 0 at position 6. -/
theorem best_tie_break_witness :
    0 ≤ (best 16 sampleBlocks sampleBins sampleMapping).dim
    ∧ candidateCost 16 sampleBlocks sampleBins 0 7
        = (best 16 sampleBlocks sampleBins sampleMapping).sah
    ∧ candidateCost 16 sampleBlocks sampleBins 2 6
        = (best 16 sampleBlocks sampleBins sampleMapping).sah
    ∧ (best 16 sampleBlocks sampleBins sampleMapping).dim = 0
    ∧ (best 16 sampleBlocks sampleBins sampleMapping).pos = 6
    ∧ ∃ (d : Fin 3) (pos : Nat),
      (best 16 sampleBlocks sampleBins sampleMapping).dim = (d.val : Int)
      ∧ (best 16 sampleBlocks sampleBins sampleMapping).pos = (pos : Int)
      ∧ 1 ≤ pos ∧ pos ≤ 16 - 1
      ∧ (best 16 sampleBlocks sampleBins sampleMapping).sah
          = candidateCost 16 sampleBlocks sampleBins d pos
      ∧ (∀ (d1 : Fin 3) (i : Nat), sampleMapping.invalid d1 = false → 1 ≤ i → i ≤ 16 - 1 →
          d1 < d ∨ (d1 = d ∧ i < pos) →
          FVal.le (candidateCost 16 sampleBlocks sampleBins d1 i)
            (best 16 sampleBlocks sampleBins sampleMapping).sah = false)
      ∧ (∀ (d1 : Fin 3) (i : Nat), sampleMapping.invalid d1 = false → 1 ≤ i → i ≤ 16 - 1 →
          candidateCost 16 sampleBlocks sampleBins d1 i
            = (best 16 sampleBlocks sampleBins sampleMapping).sah →
          d ≤ d1 ∧ (d1 = d → pos ≤ i)) :=
  ⟨by decide, by decide, by decide, by decide, by decide,
    best_tie_break 16 sampleBlocks sampleBins sampleMapping (by decide)⟩

end BinInfo

end ObjectPartition

/-! ## Object partition heuristic: the bins of a mapping -/

namespace ObjectPartition

variable {K : Type} [LinearOrderedCommRing K] [FloorRing K] {S P : Type}

omit [LinearOrderedCommRing K] [FloorRing K] in
theorem clamp_range (i : Int) (n : Nat) (hn : 1 ≤ n) :
    0 ≤ clamp i 0 ((n : Int) - 1) ∧ clamp i 0 ((n : Int) - 1) ≤ (n : Int) - 1 := by
  unfold clamp
  have h1 : (0 : Int) ≤ (n : Int) - 1 := by omega
  exact ⟨le_max_left _ _, max_le h1 (min_le_right _ _)⟩

omit [LinearOrderedCommRing K] [FloorRing K] in
/-- Each item of a list falls into exactly one of the `n` classes `0, ..., n-1`
of a function with values below `n`: the sizes of the classes add up to the
length of the list. -/
theorem sum_classes {α : Type} (f : α → Nat) (n : Nat) (l : List α) (hf : ∀ p ∈ l, f p < n) :
    ((List.range n).map (fun i => ((l.filter (fun p => decide (i = f p))).length : Int))).sum
      = (l.length : Int) := by
  induction l with
  | nil => simp
  | cons p l ih =>
    have hp : f p < n := hf p (List.mem_cons_self _ _)
    have ih1 := ih (fun q hq => hf q (List.mem_cons_of_mem _ hq))
    have hone : ∀ m : Nat, ((List.range m).map
        (fun i => if i = f p then (1 : Int) else 0)).sum = if f p < m then 1 else 0 := by
      intro m
      induction m with
      | zero => simp
      | succ m ihm =>
        rw [List.range_succ, List.map_append, List.sum_append, ihm]
        simp only [List.map_cons, List.map_nil, List.sum_cons, List.sum_nil, add_zero]
        by_cases h1 : f p < m
        · have h2 : m ≠ f p := by omega
          have h3 : f p < m + 1 := by omega
          simp [h1, h2, h3]
        · by_cases h2 : m = f p
          · have h3 : f p < m + 1 := by omega
            simp [h1, h2]
          · have h3 : ¬ f p < m + 1 := by omega
            simp [h1, h2, h3]
    have hsplit : ∀ i : Nat,
        (((p :: l).filter (fun q => decide (i = f q))).length : Int)
          = (if i = f p then (1 : Int) else 0)
            + ((l.filter (fun q => decide (i = f q))).length : Int) := by
      intro i
      by_cases h : i = f p
      · simp [List.filter_cons, h]
        ring
      · simp [List.filter_cons, h]
    simp only [hsplit]
    rw [List.sum_map_add, hone n, if_pos hp, ih1]
    simp only [List.length_cons]
    push_cast
    ring

omit [FloorRing K] in
theorem wrap32_small (n : Nat) (h : n < 2 ^ 31) : wrap32 (n : Int) = (n : Int) := by
  unfold wrap32
  omega

/-- C28. For every mapping and every point `p`, with `BINS >= 1`, each
component of `Mapping::bin(p)` lies in `[0, BINS-1]`; `BinInfo::bin` leaves the
entries of the tables outside `0..BINS-1` as they are; and after binning `N`
primitives, `N < 2 ^ 31`, into a fresh table the counts of each dimension sum
to `N`. -/
theorem bin_in_range (BINS : Nat) (hB : 1 ≤ BINS) (ops : PrimOps P S K) (m : Mapping S K)
    (prims : List P) (hN : prims.length < 2 ^ 31) :
    (∀ (p : Fin 3 → FVal K) (d : Fin 3),
        0 ≤ m.bin BINS p d ∧ m.bin BINS p d ≤ (BINS : Int) - 1
        ∧ (m.bin BINS p d).toNat < BINS)
    ∧ (∀ (b : BinInfo K) (i : Nat) (d : Fin 3), BINS ≤ i →
        (b.bin BINS ops m prims).counts i d = b.counts i d
        ∧ (b.bin BINS ops m prims).bounds i d = b.bounds i d)
    ∧ (∀ d : Fin 3,
        ((List.range BINS).map
          (fun i => ((BinInfo.new : BinInfo K).bin BINS ops m prims).counts i d)).sum
          = (prims.length : Int)) := by
  have hr : ∀ (p : Fin 3 → FVal K) (d : Fin 3),
      0 ≤ m.bin BINS p d ∧ m.bin BINS p d ≤ (BINS : Int) - 1
      ∧ (m.bin BINS p d).toNat < BINS := by
    intro p d
    obtain ⟨h1, h2⟩ := clamp_range (floori ((p d - m.ofs d) * m.scale d)) BINS hB
    refine ⟨h1, h2, ?_⟩
    have h3 : m.bin BINS p d = clamp (floori ((p d - m.ofs d) * m.scale d)) 0 ((BINS : Int) - 1) :=
      rfl
    rw [h3]
    omega
  refine ⟨hr, ?_, ?_⟩
  · intro b i d hi
    obtain ⟨c1, c2⟩ := bin_cell BINS ops m prims b i d
    have hnone : prims.filter
        (fun p => decide (i = (m.bin BINS (ops.centerIn m.space p) d).toNat)) = [] := by
      rw [List.filter_eq_nil_iff]
      intro p _
      have := (hr (ops.centerIn m.space p) d).2.2
      simp only [decide_eq_true_eq]
      omega
    rw [c1, c2, hnone]
    exact ⟨rfl, rfl⟩
  · intro d
    have hcell : ∀ i : Nat, ((BinInfo.new : BinInfo K).bin BINS ops m prims).counts i d
        = ((prims.filter
            (fun p => decide (i = (m.bin BINS (ops.centerIn m.space p) d).toNat))).length
            : Int) := by
      intro i
      rw [(bin_new_cell BINS ops m prims i d).1]
      exact wrap32_small _ (lt_of_le_of_lt (List.length_filter_le _ _) hN)
    simp only [hcell]
    exact sum_classes (fun p => (m.bin BINS (ops.centerIn m.space p) d).toNat) BINS prims
      (fun p _ => (hr (ops.centerIn m.space p) d).2.2)

/-- Witness for C28: four sample primitives binned with the sample mapping
into 16 bins; the primitive `3` falls into the bin `12`. -/
theorem bin_in_range_witness :
    1 ≤ 16 ∧ [0, 3, 1, 2].length < 2 ^ 31
    ∧ sampleMapping.bin 16 (fun _ => FVal.fin 3) 0 = 12
    ∧ sampleMapping.bin 16 (fun _ => FVal.fin 9) 0 = 15
    ∧ sampleMapping.bin 16 (fun _ => FVal.nan) 0 = 0
    ∧ ((List.range 16).map
        (fun i => ((BinInfo.new : BinInfo ℤ).bin 16 sampleOps sampleMapping
          [0, 3, 1, 2]).counts i 0)).sum = (([0, 3, 1, 2] : List ℤ).length : Int) :=
  ⟨by decide, by decide, by decide, by decide, by decide,
    (bin_in_range 16 (by decide) sampleOps sampleMapping [0, 3, 1, 2] (by decide)).2.2 0⟩

end ObjectPartition

/-! ## Object partition heuristic: the bins of the primitives of a range -/

namespace FVal

variable {K : Type} [LinearOrderedCommRing K]

theorem min_fin_fin (a b : K) : min (fin a) (fin b) = fin (Min.min a b) := by
  unfold min
  by_cases h : a < b
  · simp [lt, h, h.le]
  · simp [lt, h, min_eq_right (not_lt.1 h)]

theorem max_fin_fin (a b : K) : max (fin a) (fin b) = fin (Max.max a b) := by
  unfold max
  by_cases h : b < a
  · simp [lt, h, h.le]
  · simp [lt, h, max_eq_right (not_lt.1 h)]

end FVal

namespace ObjectPartition

variable {K : Type} [LinearOrderedCommRing K] [FloorRing K] {S P : Type}

omit [FloorRing K] in
/-- The centroid bounds of a list of primitives with finite centres: the empty
box for the empty list, otherwise in every dimension the least and the
greatest centre of the list. -/
theorem centBounds_spec (ops : PrimOps P S K) (space : S) (l : List P)
    (hfin : finiteCenters ops space l) :
    (l = [] → (l.foldl (boundStep ops space) (BBox.empty, BBox.empty)).2 = BBox.empty)
    ∧ (l ≠ [] → ∀ d, ∃ lo hi : K,
        (l.foldl (boundStep ops space) (BBox.empty, BBox.empty)).2.lower d = FVal.fin lo
        ∧ (l.foldl (boundStep ops space) (BBox.empty, BBox.empty)).2.upper d = FVal.fin hi
        ∧ (∀ p ∈ l, ∀ c, ops.centerIn space p d = FVal.fin c → lo ≤ c ∧ c ≤ hi)
        ∧ (∃ p ∈ l, ops.centerIn space p d = FVal.fin lo)
        ∧ (∃ p ∈ l, ops.centerIn space p d = FVal.fin hi)) := by
  induction l using List.reverseRecOn with
  | nil => exact ⟨fun _ => rfl, fun h => absurd rfl h⟩
  | append_singleton l p ih =>
    have hfl : finiteCenters ops space l := fun q hq => hfin q (List.mem_append_left _ hq)
    obtain ⟨ih1, ih2⟩ := ih hfl
    refine ⟨fun h => absurd h (by simp), fun _ d => ?_⟩
    obtain ⟨c, hc⟩ := hfin p (List.mem_append_right _ (List.mem_singleton_self _)) d
    rw [List.foldl_append]
    simp only [List.foldl_cons, List.foldl_nil, boundStep, BBox.extendPoint]
    by_cases hl : l = []
    · rw [ih1 hl, hc]
      subst hl
      refine ⟨c, c, FVal.min_pinf_left _, FVal.max_ninf_left _, ?_, ⟨p, by simp, hc⟩,
        ⟨p, by simp, hc⟩⟩
      intro q hq c2 hc2
      have hqp : q = p := by simpa using hq
      rw [hqp, hc] at hc2
      have e : c = c2 := FVal.fin.inj hc2
      rw [e]
      exact ⟨le_refl _, le_refl _⟩
    · obtain ⟨lo, hi, e1, e2, h3, ⟨q1, hq1, hq1c⟩, ⟨q2, hq2, hq2c⟩⟩ := ih2 hl d
      rw [e1, e2, hc, FVal.min_fin_fin, FVal.max_fin_fin]
      refine ⟨Min.min lo c, Max.max hi c, rfl, rfl, ?_, ?_, ?_⟩
      · intro q hq c2 hc2
        rcases List.mem_append.1 hq with hq | hq
        · obtain ⟨a1, a2⟩ := h3 q hq c2 hc2
          exact ⟨le_trans (min_le_left _ _) a1, le_trans a2 (le_max_left _ _)⟩
        · have hqp : q = p := by simpa using hq
          rw [hqp, hc] at hc2
          have e : c = c2 := FVal.fin.inj hc2
          rw [← e]
          exact ⟨min_le_right _ _, le_max_right _ _⟩
      · rcases min_choice lo c with h | h
        · exact ⟨q1, List.mem_append_left _ hq1, by rw [h]; exact hq1c⟩
        · exact ⟨p, by simp, by rw [h]; exact hc⟩
      · rcases max_choice hi c with h | h
        · exact ⟨q2, List.mem_append_left _ hq2, by rw [h]; exact hq2c⟩
        · exact ⟨p, by simp, by rw [h]; exact hc⟩

omit [FloorRing K] in
/-- The offset and the scale of the mapping of a non-empty range with finite
centres, in a dimension `d`: the offset is the least centre `lo`, and the scale
is a finite number `s >= 0` that maps the extent `hi - lo` to a value below
`BINS`, which is at least `lo0` for a non-zero extent; `s = 0` marks the zero
extent. -/
theorem scale_spec (BINS : Nat) (hB : 1 ≤ BINS) (lo0 : K) (rcp : FVal K → FVal K)
    (binScale : FVal K) (ops : PrimOps P S K) (prims : BlockList P) (space : S)
    (hne : prims.flatten ≠ []) (hfin : finiteCenters ops space prims.flatten)
    (hscale : scaleInto BINS lo0 rcp binScale (centBoundsOf ops space prims)) (d : Fin 3) :
    ∃ lo hi s : K,
      (findMapping rcp binScale ops prims space).ofs d = FVal.fin lo
      ∧ (findMapping rcp binScale ops prims space).scale d = FVal.fin s
      ∧ 0 ≤ s ∧ (hi - lo) * s < (BINS : K)
      ∧ (hi ≠ lo → lo0 ≤ (hi - lo) * s) ∧ (hi = lo → s = 0)
      ∧ (∀ p ∈ prims.flatten, ∀ c, ops.centerIn space p d = FVal.fin c → lo ≤ c ∧ c ≤ hi)
      ∧ (∃ p ∈ prims.flatten, ops.centerIn space p d = FVal.fin lo)
      ∧ (∃ p ∈ prims.flatten, ops.centerIn space p d = FVal.fin hi) := by
  obtain ⟨lo, hi, e1, e2, h3, h4, h5⟩ := (centBounds_spec ops space prims.flatten hfin).2 hne d
  have hsize : (centBoundsOf ops space prims).size d = FVal.fin (hi - lo) := by
    show (centBoundsOf ops space prims).upper d - (centBoundsOf ops space prims).lower d = _
    unfold centBoundsOf
    rw [e1, e2, FVal.fin_sub]
  have hBK : (0 : K) < (BINS : K) := by exact_mod_cast hB
  by_cases hx : hi - lo = 0
  · refine ⟨lo, hi, 0, e1, ?_, le_refl _, by rw [mul_zero]; exact hBK, ?_, fun _ => rfl,
      h3, h4, h5⟩
    · show (if !FVal.eq ((centBoundsOf ops space prims).size d) (FVal.fin 0) then _ else _) = _
      rw [hsize, hx]
      simp [FVal.eq]
    · intro hne2
      exact absurd (sub_eq_zero.1 hx) hne2
  · have hlohi : lo ≤ hi := by
      obtain ⟨p, hp, hpc⟩ := h4
      exact (h3 p hp lo hpc).2
    obtain ⟨s, hs, s0, s1, s2⟩ := hscale d (hi - lo) hsize
      (lt_of_le_of_ne (sub_nonneg.2 hlohi) (Ne.symm hx))
    refine ⟨lo, hi, s, e1, ?_, s0, s2, ?_, ?_, h3, h4, h5⟩
    · show (if !FVal.eq ((centBoundsOf ops space prims).size d) (FVal.fin 0) then _ else _) = _
      rw [hsize]
      simp only [FVal.eq, hx, decide_False, Bool.not_false, if_true]
      exact hs
    · intro _
      exact s1
    · intro he
      exact absurd (sub_eq_zero.2 he) hx

omit [LinearOrderedCommRing K] [FloorRing K] in
theorem clamp_id (i : Int) (n : Nat) (h0 : 0 ≤ i) (h1 : i ≤ (n : Int) - 1) :
    clamp i 0 ((n : Int) - 1) = i := by
  unfold clamp
  rw [min_eq_left h1, max_eq_right h0]

omit [LinearOrderedCommRing K] [FloorRing K] in
/-- Clamping to `[0, BINS-1]` does not change the side of a position
`1 <= pos <= BINS-1` an index lies on. -/
theorem clamp_lt_iff (i pos : Int) (n : Nat) (h1 : 1 ≤ pos) (h2 : pos ≤ (n : Int) - 1) :
    clamp i 0 ((n : Int) - 1) < pos ↔ i < pos := by
  unfold clamp
  rcases le_total i ((n : Int) - 1) with h | h
  · rw [min_eq_left h]
    rcases le_total 0 i with h0 | h0
    · rw [max_eq_right h0]
    · rw [max_eq_left h0]
      constructor <;> intro <;> omega
  · rw [min_eq_right h, max_eq_right (by omega)]
    constructor <;> intro <;> omega

/-- The bin of a finite value below `BINS`. -/
theorem floori_fin (BINS : Nat) (hB2 : BINS ≤ 2 ^ 31) (v : K) (h0 : 0 ≤ v) (h1 : v < (BINS : K)) :
    floori (FVal.fin v) = ⌊v⌋ ∧ 0 ≤ ⌊v⌋ ∧ ⌊v⌋ ≤ (BINS : Int) - 1 := by
  have f0 : 0 ≤ ⌊v⌋ := Int.floor_nonneg.2 h0
  have f1 : ⌊v⌋ < (BINS : Int) := by
    rw [Int.floor_lt]
    exact_mod_cast h1
  refine ⟨?_, f0, by omega⟩
  have hB3 : (BINS : Int) ≤ 2 ^ 31 := by exact_mod_cast hB2
  show (if -2 ^ 31 ≤ ⌊v⌋ ∧ ⌊v⌋ < 2 ^ 31 then ⌊v⌋ else -2 ^ 31) = ⌊v⌋
  rw [if_pos ⟨by omega, by omega⟩]

/-- For a mapping built from the centroid bounds of a non-empty range with
finite centres whose scale maps the extent into `[0, BINS)`: the unclamped bin
of every primitive of the range lies in `[0, BINS-1]` and equals its bin. -/
theorem range_bin (BINS : Nat) (hB : 1 ≤ BINS) (hB2 : BINS ≤ 2 ^ 31) (lo0 : K)
    (rcp : FVal K → FVal K) (binScale : FVal K) (ops : PrimOps P S K) (prims : BlockList P)
    (space : S) (hfin : finiteCenters ops space prims.flatten)
    (hscale : scaleInto BINS lo0 rcp binScale (centBoundsOf ops space prims))
    (p : P) (hp : p ∈ prims.flatten) (d : Fin 3) :
    Mapping.bin_unsafe (findMapping rcp binScale ops prims space) (ops.centerIn space p) d
      = (findMapping rcp binScale ops prims space).bin BINS (ops.centerIn space p) d
    ∧ 0 ≤ Mapping.bin_unsafe (findMapping rcp binScale ops prims space) (ops.centerIn space p) d
    ∧ Mapping.bin_unsafe (findMapping rcp binScale ops prims space) (ops.centerIn space p) d
        ≤ (BINS : Int) - 1 := by
  have hne : prims.flatten ≠ [] := List.ne_nil_of_mem hp
  obtain ⟨lo, hi, s, e1, e2, s0, s1, -, -, h3, -, -⟩ :=
    scale_spec BINS hB lo0 rcp binScale ops prims space hne hfin hscale d
  obtain ⟨c, hc⟩ := hfin p hp d
  obtain ⟨c0, c1⟩ := h3 p hp c hc
  have hv0 : 0 ≤ (c - lo) * s := mul_nonneg (sub_nonneg.2 c0) s0
  have hv1 : (c - lo) * s < (BINS : K) :=
    lt_of_le_of_lt (mul_le_mul_of_nonneg_right (sub_le_sub_right c1 lo) s0) s1
  obtain ⟨f1, f2, f3⟩ := floori_fin BINS hB2 _ hv0 hv1
  have hu : Mapping.bin_unsafe (findMapping rcp binScale ops prims space) (ops.centerIn space p) d
      = ⌊(c - lo) * s⌋ := by
    show floori ((ops.centerIn space p d - (findMapping rcp binScale ops prims space).ofs d)
      * (findMapping rcp binScale ops prims space).scale d) = _
    rw [hc, e1, e2, FVal.fin_sub, FVal.fin_mul, f1]
  have hb : (findMapping rcp binScale ops prims space).bin BINS (ops.centerIn space p) d
      = clamp ( Mapping.bin_unsafe (findMapping rcp binScale ops prims space) (ops.centerIn space p) d)
          0 ((BINS : Int) - 1) := rfl
  rw [hb, hu, clamp_id _ _ f2 f3]
  exact ⟨rfl, f2, f3⟩

end ObjectPartition

/-! ## Object partition heuristic: the two sides of a candidate -/

namespace ObjectPartition

variable {K : Type} [LinearOrderedCommRing K] [FloorRing K] {S P : Type}

omit [LinearOrderedCommRing K] [FloorRing K] in
/-- The sizes of the classes `a, ..., a+n-1` of a function add up to the number
of items with a value in that range. -/
theorem sum_classes_from {α : Type} (f : α → Nat) (a n : Nat) (l : List α) :
    ((List.range' a n).map (fun i => ((l.filter (fun p => decide (i = f p))).length : Int))).sum
      = ((l.filter (fun p => decide (a ≤ f p ∧ f p < a + n))).length : Int) := by
  induction l with
  | nil => simp
  | cons p l ih =>
    have hone : ∀ (m a : Nat), ((List.range' a m).map
        (fun i => if i = f p then (1 : Int) else 0)).sum
          = if a ≤ f p ∧ f p < a + m then 1 else 0 := by
      intro m
      induction m with
      | zero =>
        intro a
        have : ¬ (a ≤ f p ∧ f p < a) := by omega
        simp [this]
      | succ m ihm =>
        intro a
        rw [List.range'_succ, List.map_cons, List.sum_cons, ihm (a + 1)]
        by_cases h1 : a = f p
        · have h2 : ¬ (a + 1 ≤ f p ∧ f p < a + 1 + m) := by omega
          have h3 : a ≤ f p ∧ f p < a + (m + 1) := by omega
          simp [h1, h2, h3]
        · by_cases h2 : a + 1 ≤ f p ∧ f p < a + 1 + m
          · have h3 : a ≤ f p ∧ f p < a + (m + 1) := by omega
            simp [h1, h2, h3]
          · have h3 : ¬ (a ≤ f p ∧ f p < a + (m + 1)) := by omega
            simp [h1, h2, h3]
    have hsplit : ∀ i : Nat,
        (((p :: l).filter (fun q => decide (i = f q))).length : Int)
          = (if i = f p then (1 : Int) else 0)
            + ((l.filter (fun q => decide (i = f q))).length : Int) := by
      intro i
      by_cases h : i = f p
      · simp [List.filter_cons, h]
        ring
      · simp [List.filter_cons, h]
    simp only [hsplit]
    rw [List.sum_map_add, hone n a, ih]
    by_cases h : a ≤ f p ∧ f p < a + n
    · simp [List.filter_cons, h]
      ring
    · simp [List.filter_cons, h]

omit [LinearOrderedCommRing K] [FloorRing K] in
theorem wrap32_sum_map {α : Type} (g : α → Int) (l : List α) :
    wrap32 ((l.map (fun i => wrap32 (g i))).sum) = wrap32 ((l.map g).sum) := by
  induction l with
  | nil => rfl
  | cons x l ih =>
    simp only [List.map_cons, List.sum_cons]
    rw [wrap32_add_left, ← wrap32_add_right, ih, wrap32_add_right]

/-- The counts on the two sides of the candidate `(d, pos)` in the table of a
fresh binner: the number of primitives with a bin below `pos`, and the number
of the others, as 32-bit integers. -/
theorem side_counts (BINS : Nat) (hB : 1 ≤ BINS) (ops : PrimOps P S K) (m : Mapping S K)
    (l : List P) (d : Fin 3) (pos : Nat) (hpos : pos ≤ BINS) :
    leftCount ((BinInfo.new : BinInfo K).bin BINS ops m l) d pos
      = wrap32 ((l.filter (fun p => decide (binIndex BINS ops m d p < pos))).length : Int)
    ∧ rightCount BINS ((BinInfo.new : BinInfo K).bin BINS ops m l) d pos
      = wrap32 ((l.filter (fun p => !decide (binIndex BINS ops m d p < pos))).length : Int) := by
  have hcell : (fun j => ((BinInfo.new : BinInfo K).bin BINS ops m l).counts j d)
      = fun j => wrap32 ((l.filter (fun p => decide (j = binIndex BINS ops m d p))).length
          : Int) := by
    funext j
    exact (bin_new_cell BINS ops m l j d).1
  have hidx : ∀ p, binIndex BINS ops m d p < BINS := by
    intro p
    have h1 := clamp_range (floori ((ops.centerIn m.space p d - m.ofs d) * m.scale d)) BINS hB
    show (clamp (floori ((ops.centerIn m.space p d - m.ofs d) * m.scale d)) 0
      ((BINS : Int) - 1)).toNat < BINS
    omega
  constructor
  · unfold leftCount
    rw [hcell, wrap32_sum_map, List.range_eq_range', sum_classes_from]
    congr 3
    apply List.filter_congr
    intro p _
    simp
  · unfold rightCount rightBins
    rw [hcell, List.map_reverse, List.sum_reverse, wrap32_sum_map, sum_classes_from]
    congr 3
    apply List.filter_congr
    intro p _
    have := hidx p
    by_cases h : binIndex BINS ops m d p < pos
    · have h2 : ¬ (pos ≤ binIndex BINS ops m d p ∧ binIndex BINS ops m d p < pos + (BINS - pos)) :=
        by omega
      simp [h, h2]
    · have h2 : pos ≤ binIndex BINS ops m d p ∧ binIndex BINS ops m d p < pos + (BINS - pos) :=
        by omega
      simp [h, h2]

/-- The bounds on the two sides of the candidate `(d, pos)` in the table of a
fresh binner, for primitives whose bounds hold no NaN: the union of the bounds
of the primitives with a bin below `pos`, and the union of the bounds of the
others. -/
theorem side_boxes (BINS : Nat) (hB : 1 ≤ BINS) (ops : PrimOps P S K) (m : Mapping S K)
    (l : List P) (hnan : ∀ p ∈ l, noNaN (ops.boundsIn m.space p)) (d : Fin 3) (pos : Nat)
    (hpos : pos ≤ BINS) :
    leftBox ((BinInfo.new : BinInfo K).bin BINS ops m l) d pos
      = unionAll ((l.filter (fun p => decide (binIndex BINS ops m d p < pos))).map
          (ops.boundsIn m.space))
    ∧ rightBox BINS ((BinInfo.new : BinInfo K).bin BINS ops m l) d pos
      = unionAll ((l.filter (fun p => !decide (binIndex BINS ops m d p < pos))).map
          (ops.boundsIn m.space)) := by
  have hcell : ∀ j, ((BinInfo.new : BinInfo K).bin BINS ops m l).bounds j d
      = unionAll ((l.filter (fun p => decide (j = binIndex BINS ops m d p))).map
          (ops.boundsIn m.space)) := fun j => (bin_new_cell BINS ops m l j d).2
  have hidx : ∀ p, binIndex BINS ops m d p < BINS := by
    intro p
    have h1 := clamp_range (floori ((ops.centerIn m.space p d - m.ofs d) * m.scale d)) BINS hB
    show (clamp (floori ((ops.centerIn m.space p d - m.ofs d) * m.scale d)) 0
      ((BINS : Int) - 1)).toNat < BINS
    omega
  have hsub : ∀ q : P → Bool, ∀ p ∈ l.filter q, noNaN (ops.boundsIn m.space p) :=
    fun q p hp => hnan p (List.mem_filter.1 hp).1
  constructor
  · clear hpos
    induction pos with
    | zero => simp [leftBox, unionAll]
    | succ pos ih =>
      have hstep : leftBox ((BinInfo.new : BinInfo K).bin BINS ops m l) d (pos + 1)
          = (leftBox ((BinInfo.new : BinInfo K).bin BINS ops m l) d pos).extend
              (((BinInfo.new : BinInfo K).bin BINS ops m l).bounds pos d) := by
        simp only [leftBox, List.range_succ, List.foldl_append, List.foldl_cons, List.foldl_nil]
      rw [hstep, ih, hcell]
      have key := unionAll_filter (ops.boundsIn m.space)
        (fun p => decide (binIndex BINS ops m d p < pos))
        (l.filter (fun p => decide (binIndex BINS ops m d p < pos + 1))) (hsub _)
      rw [List.filter_filter, List.filter_filter] at key
      rw [← key]
      congr 3
      · apply List.filter_congr
        intro p _
        by_cases h : binIndex BINS ops m d p < pos
        · have h2 : binIndex BINS ops m d p < pos + 1 := by omega
          simp [h, h2]
        · simp [h]
      · apply List.filter_congr
        intro p _
        by_cases h : pos = binIndex BINS ops m d p
        · have h2 : binIndex BINS ops m d p < pos + 1 := by omega
          have h3 : ¬ binIndex BINS ops m d p < pos := by omega
          simp [h, h2, h3]
        · by_cases h3 : binIndex BINS ops m d p < pos
          · simp [h, h3]
          · have h2 : ¬ binIndex BINS ops m d p < pos + 1 := by omega
            simp [h, h2]
  · obtain ⟨k, hk⟩ : ∃ k, pos + k = BINS := ⟨BINS - pos, by omega⟩
    clear hpos
    induction k generalizing pos with
    | zero =>
      have hp : pos = BINS := by omega
      subst hp
      have hnone : l.filter (fun p => !decide (binIndex pos ops m d p < pos)) = [] := by
        rw [List.filter_eq_nil_iff]
        intro p _
        simp [hidx p]
      simp only [rightBox, rightBins_self, List.foldl_nil, hnone, List.map_nil, unionAll]
    | succ k ih =>
      have hstep : rightBox BINS ((BinInfo.new : BinInfo K).bin BINS ops m l) d pos
          = (rightBox BINS ((BinInfo.new : BinInfo K).bin BINS ops m l) d (pos + 1)).extend
              (((BinInfo.new : BinInfo K).bin BINS ops m l).bounds pos d) := by
        simp only [rightBox, rightBins_step BINS pos (by omega), List.foldl_append,
          List.foldl_cons, List.foldl_nil]
      rw [hstep, ih (pos + 1) (by omega), hcell]
      have key := unionAll_filter (ops.boundsIn m.space)
        (fun p => !decide (binIndex BINS ops m d p < pos + 1))
        (l.filter (fun p => !decide (binIndex BINS ops m d p < pos))) (hsub _)
      rw [List.filter_filter, List.filter_filter] at key
      rw [← key]
      congr 3
      · apply List.filter_congr
        intro p _
        by_cases h : binIndex BINS ops m d p < pos
        · have h2 : binIndex BINS ops m d p < pos + 1 := by omega
          simp [h, h2]
        · simp [h]
      · apply List.filter_congr
        intro p _
        by_cases h : pos = binIndex BINS ops m d p
        · have h2 : binIndex BINS ops m d p < pos + 1 := by omega
          have h3 : ¬ binIndex BINS ops m d p < pos := by omega
          simp [h, h2, h3]
        · by_cases h3 : binIndex BINS ops m d p < pos
          · simp [h, h3]
          · have h2 : ¬ binIndex BINS ops m d p < pos + 1 := by omega
            simp [h, h2]

end ObjectPartition


/-! ## Object partition heuristic: the cost of a candidate -/

namespace ObjectPartition

variable {K : Type} [LinearOrderedCommRing K] [FloorRing K] {S P : Type}

/-- The cost of the candidate `(d, pos)` in the table of a fresh binner is the
cost of the split of the list into the primitives with a bin below `pos` and
the others. -/
theorem candidateCost_eq (BINS : Nat) (hB : 1 ≤ BINS) (blocks : Int → Int)
    (ops : PrimOps P S K) (m : Mapping S K) (l : List P)
    (hnan : ∀ p ∈ l, noNaN (ops.boundsIn m.space p)) (d : Fin 3) (pos : Nat)
    (hpos : pos ≤ BINS) :
    candidateCost BINS blocks ((BinInfo.new : BinInfo K).bin BINS ops m l) d pos
      = splitCost blocks ops m.space
          (l.filter (fun p => decide (binIndex BINS ops m d p < pos)))
          (l.filter (fun p => !decide (binIndex BINS ops m d p < pos))) := by
  obtain ⟨c1, c2⟩ := side_counts BINS hB ops m l d pos hpos
  obtain ⟨b1, b2⟩ := side_boxes BINS hB ops m l hnan d pos hpos
  unfold candidateCost splitCost
  rw [c1, c2, b1, b2]

omit [FloorRing K] in
/-- The cost of a split depends on the two sides as multisets only. -/
theorem splitCost_perm (blocks : Int → Int) (ops : PrimOps P S K) (space : S)
    (l1 l2 r1 r2 : List P) (hl : List.Perm l1 l2) (hr : List.Perm r1 r2)
    (hnl : ∀ p ∈ l1, noNaN (ops.boundsIn space p))
    (hnr : ∀ p ∈ r1, noNaN (ops.boundsIn space p)) :
    splitCost blocks ops space l1 r1 = splitCost blocks ops space l2 r2 := by
  unfold splitCost unionAll
  rw [foldl_extend_perm _ _ (hl.map _) _ BBox.empty,
    foldl_extend_perm _ _ (hr.map _) _ BBox.empty, hl.length_eq, hr.length_eq]
  · intro b hb
    obtain ⟨p, hp, rfl⟩ := List.mem_map.1 hb
    exact hnr p hp
  · intro b hb
    obtain ⟨p, hp, rfl⟩ := List.mem_map.1 hb
    exact hnl p hp

namespace BinInfo

omit [FloorRing K] in
/-- The cost that `best` returns is at most the cost of every candidate of a
valid dimension whose cost is not NaN. -/
theorem best_le_candidate (BINS : Nat) (blocks : Int → Int) (b : BinInfo K)
    (mapping : Mapping S K) (d1 : Fin 3) (i : Nat) (hinv : mapping.invalid d1 = false)
    (i1 : 1 ≤ i) (i2 : i ≤ BINS - 1)
    (hn : FVal.isNaN (candidateCost BINS blocks b d1 i) = false) :
    FVal.le (best BINS blocks b mapping).sah (candidateCost BINS blocks b d1 i) = true := by
  have hsw := fun d => sweepLeftAfter_best BINS blocks b (BINS - 1) (le_refl _) d
  have hvb : ∀ d, FVal.isNaN ((sweepLeft BINS blocks b (sweepRight BINS b)).vbestSAH d) = false :=
    fun d => (hsw d).1
  have hpos : ∀ d, (sweepLeft BINS blocks b (sweepRight BINS b)).vbestPos d = 0 →
      (sweepLeft BINS blocks b (sweepRight BINS b)).vbestSAH d = FVal.pinf := by
    intro d h0
    rcases (hsw d).2.2 with h | ⟨i, h1, -, h3, -⟩
    · exact h.2
    · exfalso
      have h3a : (sweepLeft BINS blocks b (sweepRight BINS b)).vbestPos d = (i : Int) := h3
      rw [h0] at h3a
      omega
  obtain ⟨-, -, r3, -⟩ := bestDim_fold mapping (sweepLeft BINS blocks b (sweepRight BINS b))
    hvb hpos [0, 1, 2] ⟨FVal.pinf, -1, 0⟩ rfl
  have hall : ∀ d : Fin 3, d ∈ [(0 : Fin 3), 1, 2] := by decide
  exact FVal.le_trans (r3 d1 (hall d1) hinv) ((hsw d1).2.1 i i1 i2 hn)

omit [FloorRing K] in
/-- The split that `best` returns is `dim = -1` with the cost `+inf`, or a
candidate of a valid dimension with a cost below `+inf`. -/
theorem best_shape (BINS : Nat) (blocks : Int → Int) (b : BinInfo K) (mapping : Mapping S K) :
    ((best BINS blocks b mapping).dim = -1 ∧ (best BINS blocks b mapping).sah = FVal.pinf)
    ∨ ∃ (d : Fin 3) (pos : Nat),
        (best BINS blocks b mapping).dim = (d.val : Int)
        ∧ (best BINS blocks b mapping).pos = (pos : Int)
        ∧ 1 ≤ pos ∧ pos ≤ BINS - 1
        ∧ mapping.invalid d = false
        ∧ (best BINS blocks b mapping).sah = candidateCost BINS blocks b d pos
        ∧ FVal.lt (best BINS blocks b mapping).sah FVal.pinf = true := by
  have hsw := fun d => sweepLeftAfter_best BINS blocks b (BINS - 1) (le_refl _) d
  have hvb : ∀ d, FVal.isNaN ((sweepLeft BINS blocks b (sweepRight BINS b)).vbestSAH d) = false :=
    fun d => (hsw d).1
  have hpos : ∀ d, (sweepLeft BINS blocks b (sweepRight BINS b)).vbestPos d = 0 →
      (sweepLeft BINS blocks b (sweepRight BINS b)).vbestSAH d = FVal.pinf := by
    intro d h0
    rcases (hsw d).2.2 with h | ⟨i, h1, -, h3, -⟩
    · exact h.2
    · exfalso
      have h3a : (sweepLeft BINS blocks b (sweepRight BINS b)).vbestPos d = (i : Int) := h3
      rw [h0] at h3a
      omega
  obtain ⟨-, -, -, r4⟩ := bestDim_fold mapping (sweepLeft BINS blocks b (sweepRight BINS b))
    hvb hpos [0, 1, 2] ⟨FVal.pinf, -1, 0⟩ rfl
  have f4 := bestDim_first mapping (sweepLeft BINS blocks b (sweepRight BINS b))
    hvb hpos [0, 1, 2] (by decide) ⟨FVal.pinf, -1, 0⟩ rfl
  have hres : best BINS blocks b mapping
      = { sah := (List.foldl (bestDimStep mapping (sweepLeft BINS blocks b (sweepRight BINS b)))
            (⟨FVal.pinf, -1, 0⟩ : BestDim K) [0, 1, 2]).bestSAH
          dim := (List.foldl (bestDimStep mapping (sweepLeft BINS blocks b (sweepRight BINS b)))
            (⟨FVal.pinf, -1, 0⟩ : BestDim K) [0, 1, 2]).bestDim
          pos := (List.foldl (bestDimStep mapping (sweepLeft BINS blocks b (sweepRight BINS b)))
            (⟨FVal.pinf, -1, 0⟩ : BestDim K) [0, 1, 2]).bestPos
          mapping := mapping } := rfl
  rw [hres]
  rcases r4 with r4 | ⟨d, -, h1, h2, h3, h4, h5⟩
  · left
    rw [r4]
    exact ⟨rfl, rfl⟩
  right
  rcases f4 with f4 | ⟨d2, -, g1, g2, g3, -⟩
  · exfalso
    have e := h1
    rw [f4] at e
    have : (-1 : Int) = (d.val : Int) := e
    omega
  rcases (hsw d).2.2 with h | ⟨p, p1, p2, p3, p4⟩
  · exact absurd h.1 h4
  refine ⟨d, p, h1, h3.trans p3, p1, p2, h2, h5.trans p4, ?_⟩
  show FVal.lt (List.foldl (bestDimStep mapping (sweepLeft BINS blocks b (sweepRight BINS b)))
    (⟨FVal.pinf, -1, 0⟩ : BestDim K) [0, 1, 2]).bestSAH FVal.pinf = true
  rw [g2]
  exact g3

end BinInfo

end ObjectPartition


/-! ## Object partition heuristic: `find` against the median split -/

namespace ObjectPartition

variable {K : Type} [LinearOrderedCommRing K] [FloorRing K] {S P : Type}

/-- C22 (as stated, refuted).  For the four primitives of `skewOps`, binned
into 16 bins with the exact reciprocal, `find` returns a valid split: dimension
0 at position 1, three primitives left and one right, with the cost 168092.
The median split along the x axis puts the primitives 0 and 1 left and 2 and 3
right and costs 16252 under the same cost function: the primitives 0, 1 and 2
fall into the same bin, and no candidate of `find` separates them. -/
theorem median_split_cheaper :
    (find 16 sampleBlocks exactRcp binScale16 skewOps skewPrims ()).dim = 0
    ∧ (find 16 sampleBlocks exactRcp binScale16 skewOps skewPrims ()).pos = 1
    ∧ (find 16 sampleBlocks exactRcp binScale16 skewOps skewPrims ()).sah = FVal.fin 168092
    ∧ medianSplit skewOps () 0 skewPrims.flatten = ([0, 1], [2, 3])
    ∧ splitCost sampleBlocks skewOps () [0, 1] [2, 3] = FVal.fin 16252
    ∧ FVal.le (find 16 sampleBlocks exactRcp binScale16 skewOps skewPrims ()).sah
        (splitCost sampleBlocks skewOps () (medianSplit skewOps () 0 skewPrims.flatten).1
          (medianSplit skewOps () 0 skewPrims.flatten).2) = false := by
  decide!

/-- C22 (amended).  For every primitive range whose bounds hold no NaN, every
axis `d` of non-zero centroid extent and every position `1 <= pos <= BINS-1`:
if the naive median split of the range along `d` separates the primitives at
the bin boundary `pos` (its left half are the primitives whose bin along `d`
is below `pos`, its right half the others) and its cost is not NaN, then the
cost of the split that `find` returns is less than or equal to the cost of the
median split under the same cost function. -/
theorem find_le_boundary_median (BINS : Nat) (hB : 1 ≤ BINS) (blocks : Int → Int)
    (rcp : FVal K → FVal K) (binScale : FVal K) (ops : PrimOps P S K) (prims : BlockList P)
    (space : S) (hnan : ∀ p ∈ prims.flatten, noNaN (ops.boundsIn space p))
    (d : Fin 3) (hvalid : (findMapping rcp binScale ops prims space).invalid d = false)
    (pos : Nat) (hpos1 : 1 ≤ pos) (hpos2 : pos ≤ BINS - 1)
    (hleft : List.Perm (medianSplit ops space d prims.flatten).1
      (prims.flatten.filter (fun p =>
        decide (binIndex BINS ops (findMapping rcp binScale ops prims space) d p < pos))))
    (hright : List.Perm (medianSplit ops space d prims.flatten).2
      (prims.flatten.filter (fun p =>
        !decide (binIndex BINS ops (findMapping rcp binScale ops prims space) d p < pos))))
    (hcost : FVal.isNaN (splitCost blocks ops space (medianSplit ops space d prims.flatten).1
      (medianSplit ops space d prims.flatten).2) = false) :
    FVal.le (find BINS blocks rcp binScale ops prims space).sah
      (splitCost blocks ops space (medianSplit ops space d prims.flatten).1
        (medianSplit ops space d prims.flatten).2) = true := by
  have hfind : find BINS blocks rcp binScale ops prims space
      = ((BinInfo.new : BinInfo K).binList BINS ops (findMapping rcp binScale ops prims space)
          prims).best BINS blocks (findMapping rcp binScale ops prims space) := rfl
  have hsp : (findMapping rcp binScale ops prims space).space = space := rfl
  have hcand := candidateCost_eq BINS hB blocks ops (findMapping rcp binScale ops prims space)
    prims.flatten (by rw [hsp]; exact hnan) d pos (by omega)
  rw [hsp] at hcand
  have hmed := splitCost_perm blocks ops space _ _ _ _ hleft hright
    (fun p hp => hnan p ((List.mem_filter.1 (hleft.subset hp)).1))
    (fun p hp => hnan p ((List.mem_filter.1 (hright.subset hp)).1))
  rw [hfind, binList_eq, hmed, ← hcand]
  refine BinInfo.best_le_candidate BINS blocks _ _ d pos hvalid hpos1 hpos2 ?_
  rw [hcand, ← hmed]
  exact hcost

theorem skewOps_noNaN (p : Fin 4) : noNaN (skewOps.boundsIn () p) := by
  intro d
  fin_cases p <;> fin_cases d <;> exact ⟨rfl, rfl⟩

/-- Witness for C22 (amended): the primitives 0 and 3 of `skewOps` fall into
the bins 0 and 15 of the x axis, the median split separates them at the bin
boundary 1, and `find` returns a split of the same cost. -/
theorem find_le_boundary_median_witness :
    (findMapping exactRcp binScale16 skewOps [[0, 3]] ()).invalid 0 = false
    ∧ medianSplit skewOps () 0 [[(0 : Fin 4), 3]].flatten = ([0], [3])
    ∧ FVal.le (find 16 sampleBlocks exactRcp binScale16 skewOps [[0, 3]] ()).sah
        (splitCost sampleBlocks skewOps () (medianSplit skewOps () 0 [[0, 3]].flatten).1
          (medianSplit skewOps () 0 [[0, 3]].flatten).2) = true :=
  ⟨by decide!, by decide!,
    find_le_boundary_median 16 (by decide) sampleBlocks exactRcp binScale16 skewOps [[0, 3]] ()
      (fun p _ => skewOps_noNaN p) 0 (by decide!) 1 (by decide) (by decide)
      (List.Perm.of_eq (by decide!)) (List.Perm.of_eq (by decide!)) (by decide!)⟩

end ObjectPartition


/-! ## Object partition heuristic: helpers for the statements about a range -/

namespace ObjectPartition

variable {K : Type} [LinearOrderedCommRing K] [FloorRing K] {S P : Type}

/-- The effect of `split` on a list of blocks, with the output lists and
`PrimInfo`s empty at the start: the primitives that pass the test
`bin_unsafe(center)[dim] < pos` go to the left list and are counted in
`linfo_o`, the others go to the right list and are counted in `rinfo_o`. -/
theorem split_sides (ops : PrimOps P S K) (blockSize : Nat) (hbs : 0 < blockSize)
    (s : Split S K) (d : Fin 3) (hd : s.dim = (d.val : Int)) (prims : BlockList P) :
    ∃ out : SplitOut P K,
      Split.split ops blockSize s prims [] PrimInfo.empty [] PrimInfo.empty = some ([], out)
      ∧ List.Perm out.lprims.flatten (prims.flatten.filter (goesLeft ops s d))
      ∧ List.Perm out.rprims.flatten (prims.flatten.filter (fun p => !goesLeft ops s d p))
      ∧ out.linfo.num = (prims.flatten.filter (goesLeft ops s d)).length
      ∧ out.rinfo.num = (prims.flatten.filter (fun p => !goesLeft ops s d p)).length := by
  have hidx : Split.dimIndex s.dim = some d := by
    rw [hd]
    fin_cases d <;> rfl
  obtain ⟨h1, h2, h3, h4, h5⟩ := splitLoop_spec ops blockSize hbs s d prims
    { lprims := [] :: [], linfo := PrimInfo.empty, rprims := [] :: [], rinfo := PrimInfo.empty }
    (by simp) (by simp)
  simp only [List.flatten_cons, List.flatten_nil, List.append_nil, List.nil_append] at h2 h3
  refine ⟨_, ?_, h2, h3, ?_, ?_⟩
  · simp only [Split.split, hidx]
    exact congrArg some (Prod.ext h1 rfl)
  · rw [h4, (infoOf_num ops _ _).1]
    simp [PrimInfo.empty]
  · rw [h5, (infoOf_num ops _ _).1]
    simp [PrimInfo.empty]

omit [FloorRing K] in
theorem scaleInto_mono (BINS : Nat) (lo1 lo2 : K) (h : lo2 ≤ lo1) (rcp : FVal K → FVal K)
    (binScale : FVal K) (centBounds : BBox K)
    (hs : scaleInto BINS lo1 rcp binScale centBounds) :
    scaleInto BINS lo2 rcp binScale centBounds := by
  intro d x hx hpos
  obtain ⟨s, h1, h2, h3, h4⟩ := hs d x hx hpos
  exact ⟨s, h1, h2, le_trans h h3, h4⟩

end ObjectPartition


/-! ## Object partition heuristic: binning and partitioning agree -/

namespace ObjectPartition

variable {K : Type} [LinearOrderedCommRing K] [FloorRing K] {S P : Type}

/-- Binning and partitioning agree for a mapping whose scale sends the extent
of the centroids into `[0, BINS)`.  For a mapping built from the centroid
bounds of a range with finite centres, every primitive of the range has
`bin_unsafe(center) = bin(center)` in every dimension, a value in
`[0, BINS-1]`.  For a split with this mapping, a dimension `dim` and a position
`pos <= BINS`, `split` sends to the left exactly the primitives that
`BinInfo::bin` counted in the bins `0..pos-1` of dimension `dim`; for fewer
than `2 ^ 31` primitives the count of the left `PrimInfo` equals that binned
count, and the count of the right `PrimInfo` the count of the bins from
`pos` on. -/
theorem split_bins_of_scale (BINS : Nat) (hB : 1 ≤ BINS) (hB2 : BINS ≤ 2 ^ 31)
    (rcp : FVal K → FVal K) (binScale : FVal K) (ops : PrimOps P S K) (prims : BlockList P)
    (space : S) (blockSize : Nat) (hbs : 0 < blockSize)
    (hN : prims.flatten.length < 2 ^ 31) (hfin : finiteCenters ops space prims.flatten)
    (hscale : scaleInto BINS 0 rcp binScale (centBoundsOf ops space prims))
    (s : Split S K) (hmap : s.mapping = findMapping rcp binScale ops prims space)
    (d : Fin 3) (hd : s.dim = (d.val : Int)) (pos : Nat) (hpos : s.pos = (pos : Int))
    (hposB : pos ≤ BINS) :
    (∀ p ∈ prims.flatten, ∀ d1 : Fin 3,
        s.mapping.bin_unsafe (ops.centerIn space p) d1
          = s.mapping.bin BINS (ops.centerIn space p) d1
        ∧ 0 ≤ s.mapping.bin_unsafe (ops.centerIn space p) d1
        ∧ s.mapping.bin_unsafe (ops.centerIn space p) d1 ≤ (BINS : Int) - 1)
    ∧ (∀ p ∈ prims.flatten,
        goesLeft ops s d p = decide (binIndex BINS ops s.mapping d p < pos))
    ∧ ∃ out : SplitOut P K,
        Split.split ops blockSize s prims [] PrimInfo.empty [] PrimInfo.empty = some ([], out)
        ∧ List.Perm out.lprims.flatten
            (prims.flatten.filter (fun p => decide (binIndex BINS ops s.mapping d p < pos)))
        ∧ List.Perm out.rprims.flatten
            (prims.flatten.filter (fun p => !decide (binIndex BINS ops s.mapping d p < pos)))
        ∧ (out.linfo.num : Int)
            = leftCount (findBins BINS rcp binScale ops prims space) d pos
        ∧ (out.rinfo.num : Int)
            = rightCount BINS (findBins BINS rcp binScale ops prims space) d pos := by
  have hsp : s.mapping.space = space := by rw [hmap]; rfl
  have h1 : ∀ p ∈ prims.flatten, ∀ d1 : Fin 3,
      s.mapping.bin_unsafe (ops.centerIn space p) d1
        = s.mapping.bin BINS (ops.centerIn space p) d1
      ∧ 0 ≤ s.mapping.bin_unsafe (ops.centerIn space p) d1
      ∧ s.mapping.bin_unsafe (ops.centerIn space p) d1 ≤ (BINS : Int) - 1 := by
    intro p hp d1
    rw [hmap]
    exact range_bin BINS hB hB2 0 rcp binScale ops prims space hfin hscale p hp d1
  have h2 : ∀ p ∈ prims.flatten,
      goesLeft ops s d p = decide (binIndex BINS ops s.mapping d p < pos) := by
    intro p hp
    obtain ⟨e1, e2, -⟩ := h1 p hp d
    unfold goesLeft binIndex
    rw [hsp, hpos, ← e1]
    congr 1
    rw [eq_iff_iff, Int.toNat_lt e2]
  have hflt : prims.flatten.filter (goesLeft ops s d)
      = prims.flatten.filter (fun p => decide (binIndex BINS ops s.mapping d p < pos)) :=
    List.filter_congr (fun p hp => h2 p hp)
  have hflt2 : prims.flatten.filter (fun p => !goesLeft ops s d p)
      = prims.flatten.filter (fun p => !decide (binIndex BINS ops s.mapping d p < pos)) :=
    List.filter_congr (fun p hp => by rw [h2 p hp])
  obtain ⟨out, o1, o2, o3, o4, o5⟩ := split_sides ops blockSize hbs s d hd prims
  obtain ⟨c1, c2⟩ := side_counts BINS hB ops (findMapping rcp binScale ops prims space)
    prims.flatten d pos hposB
  have hbins : findBins BINS rcp binScale ops prims space
      = (BinInfo.new : BinInfo K).bin BINS ops (findMapping rcp binScale ops prims space)
          prims.flatten := binList_eq BINS ops _ prims _
  refine ⟨h1, h2, out, o1, ?_, ?_, ?_, ?_⟩
  · rw [← hflt]; exact o2
  · rw [← hflt2]; exact o3
  · rw [hbins, c1, ← hmap, ← hflt, o4]
    exact (wrap32_small _ (lt_of_le_of_lt (List.length_filter_le _ _) hN)).symm
  · rw [hbins, c2, ← hmap, ← hflt2, o5]
    exact (wrap32_small _ (lt_of_le_of_lt (List.length_filter_le _ _) hN)).symm

end ObjectPartition


/-! ## Object partition heuristic: finite boxes and the cost of a split -/

namespace ObjectPartition

variable {K : Type} [LinearOrderedCommRing K] [FloorRing K] {S P : Type}

omit [LinearOrderedCommRing K] [FloorRing K] in
theorem finiteBox_noNaN (b : BBox K) (h : finiteBox b) : noNaN b := by
  intro d
  obtain ⟨lo, hi, e1, e2⟩ := h d
  rw [e1, e2]
  exact ⟨rfl, rfl⟩

omit [FloorRing K] in
theorem finiteBox_extend (a b : BBox K) (ha : finiteBox a) (hb : finiteBox b) :
    finiteBox (a.extend b) := by
  intro d
  obtain ⟨lo1, hi1, e1, e2⟩ := ha d
  obtain ⟨lo2, hi2, e3, e4⟩ := hb d
  refine ⟨Min.min lo1 lo2, Max.max hi1 hi2, ?_, ?_⟩
  · show FVal.min (a.lower d) (b.lower d) = _
    rw [e1, e3, FVal.min_fin_fin]
  · show FVal.max (a.upper d) (b.upper d) = _
    rw [e2, e4, FVal.max_fin_fin]

omit [FloorRing K] in
theorem finiteBox_foldl (l : List (BBox K)) (a : BBox K) (ha : finiteBox a)
    (hl : ∀ b ∈ l, finiteBox b) : finiteBox (l.foldl BBox.extend a) := by
  induction l generalizing a with
  | nil => exact ha
  | cons b l ih =>
    exact ih _ (finiteBox_extend a b ha (hl b (List.mem_cons_self _ _)))
      (fun c hc => hl c (List.mem_cons_of_mem _ hc))

omit [FloorRing K] in
/-- The union of a non-empty list of finite boxes is finite. -/
theorem finiteBox_unionAll (l : List (BBox K)) (hne : l ≠ []) (hl : ∀ b ∈ l, finiteBox b) :
    finiteBox (unionAll l) := by
  cases l with
  | nil => exact absurd rfl hne
  | cons b l =>
    unfold unionAll
    rw [List.foldl_cons, BBox.extend_empty_left]
    exact finiteBox_foldl l b (hl b (List.mem_cons_self _ _))
      (fun c hc => hl c (List.mem_cons_of_mem _ hc))

omit [FloorRing K] in
theorem halfArea_finite (b : BBox K) (h : finiteBox b) : ∃ v : K, BBox.halfArea b = FVal.fin v := by
  obtain ⟨l0, h0, a0, b0⟩ := h 0
  obtain ⟨l1, h1, a1, b1⟩ := h 1
  obtain ⟨l2, h2, a2, b2⟩ := h 2
  unfold BBox.halfArea
  rw [a0, b0, a1, b1, a2, b2]
  simp only [FVal.fin_sub, FVal.fin_add, FVal.fin_mul]
  exact ⟨_, rfl⟩

omit [FloorRing K] in
theorem halfArea_empty : BBox.halfArea (BBox.empty : BBox K) = FVal.pinf := rfl

omit [FloorRing K] in
/-- The cost of a split into two non-empty lists of primitives with finite
bounds is a finite number. -/
theorem splitCost_finite (blocks : Int → Int) (ops : PrimOps P S K) (space : S)
    (left right : List P) (hl : left ≠ []) (hr : right ≠ [])
    (hfl : ∀ p ∈ left, finiteBox (ops.boundsIn space p))
    (hfr : ∀ p ∈ right, finiteBox (ops.boundsIn space p)) :
    ∃ v : K, splitCost blocks ops space left right = FVal.fin v := by
  have h1 : finiteBox (unionAll (left.map (ops.boundsIn space))) := by
    apply finiteBox_unionAll
    · simpa using hl
    · intro b hb
      obtain ⟨p, hp, rfl⟩ := List.mem_map.1 hb
      exact hfl p hp
  have h2 : finiteBox (unionAll (right.map (ops.boundsIn space))) := by
    apply finiteBox_unionAll
    · simpa using hr
    · intro b hb
      obtain ⟨p, hp, rfl⟩ := List.mem_map.1 hb
      exact hfr p hp
  obtain ⟨v1, e1⟩ := halfArea_finite _ h1
  obtain ⟨v2, e2⟩ := halfArea_finite _ h2
  unfold splitCost
  rw [e1, e2]
  exact ⟨_, rfl⟩

omit [FloorRing K] in
/-- A split with an empty side costs `+inf` or NaN when `blocks(0)` is not
negative: it is never below `+inf`. -/
theorem splitCost_empty (blocks : Int → Int) (hblocks : 0 ≤ blocks 0) (ops : PrimOps P S K)
    (space : S) (left right : List P) (h : left = [] ∨ right = []) :
    FVal.lt (splitCost blocks ops space left right) FVal.pinf = false := by
  have hterm : (FVal.pinf : FVal K) * FVal.ofInt (blocks (wrap32 ((0 : Nat) : Int))) = FVal.nan
      ∨ (FVal.pinf : FVal K) * FVal.ofInt (blocks (wrap32 ((0 : Nat) : Int))) = FVal.pinf := by
    have e0 : wrap32 ((0 : Nat) : Int) = 0 := by decide
    rw [e0]
    show FVal.infTimes true ((blocks 0 : Int) : K) = FVal.nan
      ∨ FVal.infTimes true ((blocks 0 : Int) : K) = FVal.pinf
    unfold FVal.infTimes
    rcases eq_or_lt_of_le hblocks with h0 | h0
    · rw [← h0]
      simp
    · have hk : (0 : K) < ((blocks 0 : Int) : K) := by exact_mod_cast h0
      simp [hk]
  unfold splitCost
  rcases h with h | h
  · rw [h]
    simp only [List.map_nil, List.length_nil, unionAll, List.foldl_nil, halfArea_empty]
    rcases hterm with e | e
    · rw [e]
      show FVal.lt (FVal.add FVal.nan _) FVal.pinf = false
      cases (BBox.halfArea (List.foldl BBox.extend BBox.empty (List.map (ops.boundsIn space) right))
        * FVal.ofInt (blocks (wrap32 (right.length : Int)))) <;> rfl
    · rw [e]
      show FVal.lt (FVal.add FVal.pinf _) FVal.pinf = false
      cases (BBox.halfArea (List.foldl BBox.extend BBox.empty (List.map (ops.boundsIn space) right))
        * FVal.ofInt (blocks (wrap32 (right.length : Int)))) <;> rfl
  · rw [h]
    simp only [List.map_nil, List.length_nil, unionAll, List.foldl_nil, halfArea_empty]
    rcases hterm with e | e
    · rw [e]
      show FVal.lt (FVal.add _ FVal.nan) FVal.pinf = false
      cases (BBox.halfArea (List.foldl BBox.extend BBox.empty (List.map (ops.boundsIn space) left))
        * FVal.ofInt (blocks (wrap32 (left.length : Int)))) <;> rfl
    · rw [e]
      show FVal.lt (FVal.add _ FVal.pinf) FVal.pinf = false
      cases (BBox.halfArea (List.foldl BBox.extend BBox.empty (List.map (ops.boundsIn space) left))
        * FVal.ofInt (blocks (wrap32 (left.length : Int)))) <;> rfl

/-- The bin of a finite centre `c` under an offset `lo` and a scale `s` that
map it to a value in `[0, BINS)`: the floor of `(c - lo) * s`, clamped or
not. -/
theorem bin_floor (BINS : Nat) (hB2 : BINS ≤ 2 ^ 31) (m : Mapping S K) (d : Fin 3)
    (lo s c : K) (e1 : m.ofs d = FVal.fin lo) (e2 : m.scale d = FVal.fin s)
    (p : Fin 3 → FVal K) (hc : p d = FVal.fin c) (h0 : 0 ≤ (c - lo) * s)
    (h1 : (c - lo) * s < (BINS : K)) :
    m.bin_unsafe p d = ⌊(c - lo) * s⌋ ∧ m.bin BINS p d = ⌊(c - lo) * s⌋ := by
  obtain ⟨f1, f2, f3⟩ := floori_fin BINS hB2 _ h0 h1
  have hu : m.bin_unsafe p d = ⌊(c - lo) * s⌋ := by
    show floori ((p d - m.ofs d) * m.scale d) = _
    rw [hc, e1, e2, FVal.fin_sub, FVal.fin_mul, f1]
  have hb : m.bin BINS p d = clamp (m.bin_unsafe p d) 0 ((BINS : Int) - 1) := rfl
  rw [hb, hu, clamp_id _ _ f2 f3]
  exact ⟨rfl, rfl⟩

end ObjectPartition


/-! ## Object partition heuristic: build progress -/

namespace ObjectPartition

variable {K : Type} [LinearOrderedCommRing K] [FloorRing K] {S P : Type}

/-- Build progress for a mapping whose scale sends every non-zero extent of
the centroids into `[1, BINS)`.  For every primitive range with finite centres
and finite bounds whose centroids differ along at least one axis, with
`2 <= BINS <= 2 ^ 31` and `blocks(0) >= 0`: `find` returns a split with `dim` in
`{0,1,2}` and `1 <= pos <= BINS-1`, and `split` by that split leaves the input
list empty and puts at least one primitive on the left and at least one on the
right, so that both sides hold fewer primitives than the input. -/
theorem progress_of_scale (BINS : Nat) (hB : 2 ≤ BINS) (hB2 : BINS ≤ 2 ^ 31)
    (blocks : Int → Int) (hblocks : 0 ≤ blocks 0) (rcp : FVal K → FVal K) (binScale : FVal K)
    (ops : PrimOps P S K) (prims : BlockList P) (space : S) (blockSize : Nat)
    (hbs : 0 < blockSize) (hfinC : finiteCenters ops space prims.flatten)
    (hfinB : ∀ p ∈ prims.flatten, finiteBox (ops.boundsIn space p))
    (hscale : scaleInto BINS 1 rcp binScale (centBoundsOf ops space prims))
    (hdiff : ∃ d : Fin 3, ∃ p ∈ prims.flatten, ∃ q ∈ prims.flatten,
      ops.centerIn space p d ≠ ops.centerIn space q d) :
    ∃ (d : Fin 3) (pos : Nat),
      (find BINS blocks rcp binScale ops prims space).dim = (d.val : Int)
      ∧ (find BINS blocks rcp binScale ops prims space).pos = (pos : Int)
      ∧ 1 ≤ pos ∧ pos ≤ BINS - 1
      ∧ ∃ out : SplitOut P K,
          Split.split ops blockSize (find BINS blocks rcp binScale ops prims space) prims []
            PrimInfo.empty [] PrimInfo.empty = some ([], out)
          ∧ out.lprims.flatten.length = out.linfo.num
          ∧ out.rprims.flatten.length = out.rinfo.num
          ∧ 1 ≤ out.linfo.num ∧ 1 ≤ out.rinfo.num
          ∧ out.linfo.num + out.rinfo.num = prims.flatten.length
          ∧ out.linfo.num < prims.flatten.length
          ∧ out.rinfo.num < prims.flatten.length := by
  have hB1 : 1 ≤ BINS := by omega
  have hfind : find BINS blocks rcp binScale ops prims space
      = ((BinInfo.new : BinInfo K).bin BINS ops (findMapping rcp binScale ops prims space)
          prims.flatten).best BINS blocks (findMapping rcp binScale ops prims space) := by
    show ((BinInfo.new : BinInfo K).binList BINS ops (findMapping rcp binScale ops prims space)
      prims).best BINS blocks (findMapping rcp binScale ops prims space) = _
    rw [binList_eq]
  have hsp : (findMapping rcp binScale ops prims space).space = space := rfl
  have hnan : ∀ p ∈ prims.flatten,
      noNaN (ops.boundsIn (findMapping rcp binScale ops prims space).space p) :=
    fun p hp => finiteBox_noNaN _ (hfinB p hp)
  have hcand : ∀ (d : Fin 3) (pos : Nat), pos ≤ BINS →
      candidateCost BINS blocks ((BinInfo.new : BinInfo K).bin BINS ops
          (findMapping rcp binScale ops prims space) prims.flatten) d pos
        = splitCost blocks ops space
            (prims.flatten.filter (fun p => decide
              (binIndex BINS ops (findMapping rcp binScale ops prims space) d p < pos)))
            (prims.flatten.filter (fun p => !decide
              (binIndex BINS ops (findMapping rcp binScale ops prims space) d p < pos))) :=
    fun d pos hpos => candidateCost_eq BINS hB1 blocks ops _ prims.flatten hnan d pos hpos
  /- a valid dimension with a candidate of finite cost -/
  obtain ⟨d0, p, hp, q, hq, hpq⟩ := hdiff
  have hne : prims.flatten ≠ [] := List.ne_nil_of_mem hp
  obtain ⟨lo, hi, s, e1, e2, s0, s1, hlo1, -, h3, ⟨p0, hp0, hp0c⟩, ⟨p1, hp1, hp1c⟩⟩ :=
    scale_spec BINS hB1 1 rcp binScale ops prims space hne hfinC hscale d0
  have hhilo : hi ≠ lo := by
    intro he
    obtain ⟨cp, hcp⟩ := hfinC p hp d0
    obtain ⟨cq, hcq⟩ := hfinC q hq d0
    obtain ⟨a1, a2⟩ := h3 p hp cp hcp
    obtain ⟨b1, b2⟩ := h3 q hq cq hcq
    apply hpq
    rw [hcp, hcq]
    congr 1
    rw [he] at a2 b2
    exact le_antisymm (le_trans a2 b1) (le_trans b2 a1)
  have hspread : 1 ≤ (hi - lo) * s := hlo1 hhilo
  have hs0 : s ≠ 0 := by
    intro h
    rw [h, mul_zero] at hspread
    exact absurd hspread (by norm_num)
  have hvalid : (findMapping rcp binScale ops prims space).invalid d0 = false := by
    unfold Mapping.invalid
    rw [e2]
    simp [FVal.eq, hs0]
  have hbin0 : binIndex BINS ops (findMapping rcp binScale ops prims space) d0 p0 = 0 := by
    have hz : (lo - lo) * s = 0 := by rw [sub_self, zero_mul]
    obtain ⟨-, f2⟩ := bin_floor BINS hB2 (findMapping rcp binScale ops prims space) d0 lo s lo
      e1 e2 (ops.centerIn space p0) hp0c (by rw [hz]) (by rw [hz]; exact_mod_cast (by omega : 0 < BINS))
    unfold binIndex
    rw [hsp, f2, hz]
    simp
  have hbin1 : 1 ≤ binIndex BINS ops (findMapping rcp binScale ops prims space) d0 p1 := by
    obtain ⟨-, f2⟩ := bin_floor BINS hB2 (findMapping rcp binScale ops prims space) d0 lo s hi
      e1 e2 (ops.centerIn space p1) hp1c (le_trans zero_le_one hspread) s1
    unfold binIndex
    rw [hsp, f2]
    have h1 : (1 : Int) ≤ ⌊(hi - lo) * s⌋ := by
      rw [Int.le_floor]
      exact_mod_cast hspread
    omega
  have hfin1 : ∃ v : K, candidateCost BINS blocks ((BinInfo.new : BinInfo K).bin BINS ops
      (findMapping rcp binScale ops prims space) prims.flatten) d0 1 = FVal.fin v := by
    rw [hcand d0 1 (by omega)]
    apply splitCost_finite
    · exact List.ne_nil_of_mem (List.mem_filter.2 ⟨hp0, by simp [hbin0]⟩)
    · refine List.ne_nil_of_mem (List.mem_filter.2 ⟨hp1, ?_⟩)
      have : ¬ binIndex BINS ops (findMapping rcp binScale ops prims space) d0 p1 < 1 := by omega
      simp [this]
    · exact fun p hp => hfinB p (List.mem_filter.1 hp).1
    · exact fun p hp => hfinB p (List.mem_filter.1 hp).1
  obtain ⟨v, hv⟩ := hfin1
  have hle := BinInfo.best_le_candidate BINS blocks ((BinInfo.new : BinInfo K).bin BINS ops
    (findMapping rcp binScale ops prims space) prims.flatten)
    (findMapping rcp binScale ops prims space) d0 1 hvalid (le_refl _) (by omega)
    (by rw [hv]; rfl)
  rw [hv] at hle
  have hltinf := FVal.lt_pinf_of_le_fin hle
  /- the split returned -/
  rcases BinInfo.best_shape BINS blocks ((BinInfo.new : BinInfo K).bin BINS ops
    (findMapping rcp binScale ops prims space) prims.flatten)
    (findMapping rcp binScale ops prims space) with ⟨-, hinf⟩ | ⟨d, pos, g1, g2, g3, g4, -, g6, g7⟩
  · rw [hinf] at hltinf
    have hff : FVal.lt (FVal.pinf : FVal K) FVal.pinf = false := rfl
    rw [hff] at hltinf
    exact absurd hltinf (by decide)
  rw [g6, hcand d pos (by omega)] at g7
  have hleft : prims.flatten.filter (fun p => decide
      (binIndex BINS ops (findMapping rcp binScale ops prims space) d p < pos)) ≠ [] := by
    intro h
    have := splitCost_empty blocks hblocks ops space
      (prims.flatten.filter (fun p => decide
        (binIndex BINS ops (findMapping rcp binScale ops prims space) d p < pos)))
      (prims.flatten.filter (fun p => !decide
        (binIndex BINS ops (findMapping rcp binScale ops prims space) d p < pos))) (Or.inl h)
    rw [this] at g7
    exact absurd g7 (by decide)
  have hright : prims.flatten.filter (fun p => !decide
      (binIndex BINS ops (findMapping rcp binScale ops prims space) d p < pos)) ≠ [] := by
    intro h
    have := splitCost_empty blocks hblocks ops space
      (prims.flatten.filter (fun p => decide
        (binIndex BINS ops (findMapping rcp binScale ops prims space) d p < pos)))
      (prims.flatten.filter (fun p => !decide
        (binIndex BINS ops (findMapping rcp binScale ops prims space) d p < pos))) (Or.inr h)
    rw [this] at g7
    exact absurd g7 (by decide)
  /- partitioning by the split -/
  rw [hfind]
  have hgo : ∀ p, goesLeft ops (((BinInfo.new : BinInfo K).bin BINS ops
      (findMapping rcp binScale ops prims space) prims.flatten).best BINS blocks
      (findMapping rcp binScale ops prims space)) d p
      = decide (binIndex BINS ops (findMapping rcp binScale ops prims space) d p < pos) := by
    intro p
    have hm : (((BinInfo.new : BinInfo K).bin BINS ops
      (findMapping rcp binScale ops prims space) prims.flatten).best BINS blocks
      (findMapping rcp binScale ops prims space)).mapping
        = findMapping rcp binScale ops prims space := rfl
    unfold goesLeft binIndex
    rw [g2, hm, hsp]
    congr 1
    rw [eq_iff_iff]
    have hc := clamp_range ( Mapping.bin_unsafe (findMapping rcp binScale ops prims space)
      (ops.centerIn space p) d) BINS hB1
    have hiff := clamp_lt_iff ( Mapping.bin_unsafe (findMapping rcp binScale ops prims space)
      (ops.centerIn space p) d) (pos : Int) BINS (by omega) (by omega)
    have hb : (findMapping rcp binScale ops prims space).bin BINS (ops.centerIn space p) d
        = clamp ( Mapping.bin_unsafe (findMapping rcp binScale ops prims space) (ops.centerIn space p) d)
            0 ((BINS : Int) - 1) := rfl
    rw [hb, Int.toNat_lt hc.1]
    exact hiff.symm
  obtain ⟨out, o1, o2, o3, o4, o5⟩ := split_sides ops blockSize hbs _ d g1 prims
  have hfl : prims.flatten.filter (goesLeft ops (((BinInfo.new : BinInfo K).bin BINS ops
      (findMapping rcp binScale ops prims space) prims.flatten).best BINS blocks
      (findMapping rcp binScale ops prims space)) d)
      = prims.flatten.filter (fun p => decide
        (binIndex BINS ops (findMapping rcp binScale ops prims space) d p < pos)) :=
    List.filter_congr (fun p _ => hgo p)
  have hfr : prims.flatten.filter (fun p => !goesLeft ops (((BinInfo.new : BinInfo K).bin BINS
      ops (findMapping rcp binScale ops prims space) prims.flatten).best BINS blocks
      (findMapping rcp binScale ops prims space)) d p)
      = prims.flatten.filter (fun p => !decide
        (binIndex BINS ops (findMapping rcp binScale ops prims space) d p < pos)) :=
    List.filter_congr (fun p _ => by rw [hgo p])
  rw [hfl] at o2 o4
  rw [hfr] at o3 o5
  have hl1 : 1 ≤ out.linfo.num := by
    rw [o4]
    exact List.length_pos.2 hleft
  have hr1 : 1 ≤ out.rinfo.num := by
    rw [o5]
    exact List.length_pos.2 hright
  have hsum : out.linfo.num + out.rinfo.num = prims.flatten.length := by
    rw [o4, o5]
    have := (List.filter_append_perm (fun p => decide
      (binIndex BINS ops (findMapping rcp binScale ops prims space) d p < pos))
      prims.flatten).length_eq
    simp only [List.length_append] at this
    simpa using this
  refine ⟨d, pos, g1, g2, g3, g4, out, o1, ?_, ?_, hl1, hr1, hsum, by omega, by omega⟩
  · rw [o2.length_eq, o4]
  · rw [o3.length_eq, o5]

theorem skewOps_finite (p : Fin 4) : finiteBox (skewOps.boundsIn () p) := by
  intro d
  fin_cases p <;> exact ⟨_, _, rfl, rfl⟩

end ObjectPartition

/-! ## `find` and `split` on a range: exact and binary32 reciprocal -/

namespace ObjectPartition

variable {K : Type} [LinearOrderedCommRing K] [FloorRing K] {S P : Type}

omit [FloorRing K] in
/-- With an exact reciprocal and the constant `binScale = 0.99 * BINS`, the
scale maps every positive extent of the centroids to `0.99 * BINS`. -/
theorem scaleInto_exact (BINS : Nat) (rcp : FVal K → FVal K) (b : K)
    (hrcp : ∀ x : K, 0 < x → ∃ y, rcp (FVal.fin x) = FVal.fin y ∧ x * y = 1)
    (hb0 : 0 ≤ b) (hb1 : b < (BINS : K)) (centBounds : BBox K) :
    scaleInto BINS b rcp (FVal.fin b) centBounds := by
  intro d x _ hx
  obtain ⟨y, hy, hxy⟩ := hrcp x hx
  have hy0 : 0 < y := by
    by_contra hn
    have hle : y ≤ 0 := not_lt.1 hn
    have : x * y ≤ 0 := mul_nonpos_of_nonneg_of_nonpos (le_of_lt hx) hle
    rw [hxy] at this
    exact absurd this (by norm_num)
  have e : x * (y * b) = b := by rw [← mul_assoc, hxy, one_mul]
  refine ⟨y * b, ?_, mul_nonneg (le_of_lt hy0) hb0, ?_, ?_⟩
  · rw [hy]; rfl
  · rw [e]
  · rw [e]; exact hb1

omit [FloorRing K] in
/-- The constant `0.99 * BINS` lies in `[1, BINS)` for two bins or more. -/
theorem binScale_range (BINS : Nat) (hB : 2 ≤ BINS) (b : K)
    (hb : 100 * b = 99 * (BINS : K)) : 1 ≤ b ∧ b < (BINS : K) := by
  have h2 : (2 : K) ≤ (BINS : K) := by exact_mod_cast hB
  constructor
  · nlinarith
  · nlinarith

end ObjectPartition

namespace ObjectPartition

variable {K : Type} [LinearOrderedCommRing K] [FloorRing K] {S P : Type}

omit [FloorRing K] in
/-- The constant `0.99 * BINS` lies in `[0, BINS)` for one bin or more. -/
theorem binScale_range_one (BINS : Nat) (hB : 1 ≤ BINS) (b : K)
    (hb : 100 * b = 99 * (BINS : K)) : 0 ≤ b ∧ b < (BINS : K) := by
  have h2 : (1 : K) ≤ (BINS : K) := by exact_mod_cast hB
  constructor
  · nlinarith
  · nlinarith

/-- The reciprocal `exactRcp` is exact. -/
theorem exactRcp_exact (x : ℚ) (hx : 0 < x) :
    ∃ y, exactRcp (FVal.fin x) = FVal.fin y ∧ x * y = 1 := by
  refine ⟨1 / x, ?_, ?_⟩
  · simp [exactRcp, ne_of_gt hx]
  · field_simp

theorem tinyOps_finite (p : Fin 2) : finiteBox (tinyOps.boundsIn () p) := by
  intro d
  fin_cases p <;> exact ⟨_, _, rfl, rfl⟩

/-- C29 (as stated, refuted).  The two primitives of `tinyOps` have finite
bounds and finite centres, and their centres differ along the x axis, by
`2 ^ (-140)`.  In binary32 the reciprocal of this extent is `+inf`, so the
scale of the mapping is `+inf` along x, every centre lands in bin 0 of every
dimension, no candidate has two non-empty sides, and `find` returns
`dim = -1` with `pos = 0`; `split` has no dimension to split along. -/
theorem find_no_progress :
    (∀ p, finiteBox (tinyOps.boundsIn () p))
    ∧ finiteCenters tinyOps () twoPrims.flatten
    ∧ tinyOps.centerIn () 0 0 ≠ tinyOps.centerIn () 1 0
    ∧ (centBoundsOf tinyOps () twoPrims).size 0 = FVal.fin (1 / 2 ^ 140)
    ∧ Binary32.rcp (FVal.fin (1 / 2 ^ 140)) = FVal.pinf
    ∧ (findMapping Binary32.rcp binScale32 tinyOps twoPrims ()).scale 0 = FVal.pinf
    ∧ (∀ p d, binIndex 16 tinyOps (findMapping Binary32.rcp binScale32 tinyOps twoPrims ()) d p
        = 0)
    ∧ (find 16 sampleBlocks Binary32.rcp binScale32 tinyOps twoPrims ()).dim = -1
    ∧ (find 16 sampleBlocks Binary32.rcp binScale32 tinyOps twoPrims ()).pos = 0
    ∧ Split.split tinyOps 2 (find 16 sampleBlocks Binary32.rcp binScale32 tinyOps twoPrims ())
        twoPrims [] PrimInfo.empty [] PrimInfo.empty = Option.none := by
  refine ⟨tinyOps_finite, fun p _ d => ⟨_, rfl⟩, by decide!, by decide!, by decide!, by decide!,
    by decide!, by decide!, by decide!, ?_⟩
  have h : (find 16 sampleBlocks Binary32.rcp binScale32 tinyOps twoPrims ()).dim = -1 := by
    decide!
  unfold Split.split
  rw [h]
  rfl

/-- C29 (amended).  Build progress in exact arithmetic.  With an exact
reciprocal and the constant `binScale = 0.99 * BINS` in the mapping,
`2 <= BINS <= 2 ^ 31` and `blocks(0) >= 0`: for every primitive range with
finite centres and finite bounds whose centroids differ along at least one
axis, `find` returns a split with `dim` in `{0,1,2}` and `1 <= pos <= BINS-1`,
and `split` by that split leaves the input list empty and puts at least one
primitive on the left and at least one on the right, so that both sides hold
fewer primitives than the input. -/
theorem find_makes_progress (BINS : Nat) (hB : 2 ≤ BINS) (hB2 : BINS ≤ 2 ^ 31)
    (blocks : Int → Int) (hblocks : 0 ≤ blocks 0) (rcp : FVal K → FVal K)
    (hrcp : ∀ x : K, 0 < x → ∃ y, rcp (FVal.fin x) = FVal.fin y ∧ x * y = 1)
    (b : K) (hb : 100 * b = 99 * (BINS : K))
    (ops : PrimOps P S K) (prims : BlockList P) (space : S) (blockSize : Nat)
    (hbs : 0 < blockSize) (hfinC : finiteCenters ops space prims.flatten)
    (hfinB : ∀ p ∈ prims.flatten, finiteBox (ops.boundsIn space p))
    (hdiff : ∃ d : Fin 3, ∃ p ∈ prims.flatten, ∃ q ∈ prims.flatten,
      ops.centerIn space p d ≠ ops.centerIn space q d) :
    ∃ (d : Fin 3) (pos : Nat),
      (find BINS blocks rcp (FVal.fin b) ops prims space).dim = (d.val : Int)
      ∧ (find BINS blocks rcp (FVal.fin b) ops prims space).pos = (pos : Int)
      ∧ 1 ≤ pos ∧ pos ≤ BINS - 1
      ∧ ∃ out : SplitOut P K,
          Split.split ops blockSize (find BINS blocks rcp (FVal.fin b) ops prims space) prims []
            PrimInfo.empty [] PrimInfo.empty = some ([], out)
          ∧ out.lprims.flatten.length = out.linfo.num
          ∧ out.rprims.flatten.length = out.rinfo.num
          ∧ 1 ≤ out.linfo.num ∧ 1 ≤ out.rinfo.num
          ∧ out.linfo.num + out.rinfo.num = prims.flatten.length
          ∧ out.linfo.num < prims.flatten.length
          ∧ out.rinfo.num < prims.flatten.length := by
  obtain ⟨hb1, hb2⟩ := binScale_range BINS hB b hb
  exact progress_of_scale BINS hB hB2 blocks hblocks rcp (FVal.fin b) ops prims space blockSize
    hbs hfinC hfinB
    (scaleInto_mono BINS b 1 hb1 _ _ _
      (scaleInto_exact BINS rcp b hrcp (le_trans zero_le_one hb1) hb2 _)) hdiff

/-- Witness for C29 (amended): the four primitives of `skewOps` with 16 bins,
the exact reciprocal and blocks of two items; `find` returns dimension 0 at
position 1, and `split` puts three primitives left and one right. -/
theorem find_makes_progress_witness :
    (find 16 sampleBlocks exactRcp binScale16 skewOps skewPrims ()).dim = 0
    ∧ (find 16 sampleBlocks exactRcp binScale16 skewOps skewPrims ()).pos = 1
    ∧ ∃ (d : Fin 3) (pos : Nat),
      (find 16 sampleBlocks exactRcp binScale16 skewOps skewPrims ()).dim = (d.val : Int)
      ∧ (find 16 sampleBlocks exactRcp binScale16 skewOps skewPrims ()).pos = (pos : Int)
      ∧ 1 ≤ pos ∧ pos ≤ 16 - 1
      ∧ ∃ out : SplitOut (Fin 4) ℚ,
          Split.split skewOps 2 (find 16 sampleBlocks exactRcp binScale16 skewOps skewPrims ())
            skewPrims [] PrimInfo.empty [] PrimInfo.empty = some ([], out)
          ∧ out.lprims.flatten.length = out.linfo.num
          ∧ out.rprims.flatten.length = out.rinfo.num
          ∧ 1 ≤ out.linfo.num ∧ 1 ≤ out.rinfo.num
          ∧ out.linfo.num + out.rinfo.num = skewPrims.flatten.length
          ∧ out.linfo.num < skewPrims.flatten.length
          ∧ out.rinfo.num < skewPrims.flatten.length :=
  ⟨by decide!, by decide!,
    find_makes_progress 16 (by decide) (by decide) sampleBlocks (by decide) exactRcp
      exactRcp_exact (16 * (99 / 100)) (by norm_num)
      skewOps skewPrims () 2 (by decide) (fun p _ d => ⟨_, rfl⟩) (fun p _ => skewOps_finite p)
      ⟨0, 0, by decide, 3, by decide, by decide!⟩⟩

/-- C30 (as stated, refuted).  Two ranges on which the unclamped and the
clamped bin of a primitive differ in a dimension of non-zero extent.  In exact
arithmetic, for the range of `farOps`, whose second centre is `+inf` along x:
the extent is `+inf`, its reciprocal and the scale are zero, and the centre
`+inf` maps to `inf * 0`, NaN, for which `bin_unsafe` is `-2 ^ 31` and `bin` is
`0`.  In binary32, for the range of `tinyOps`, whose centres are finite and
differ by `2 ^ (-140)` along x: the reciprocal of the extent and the scale are
`+inf`, both centres map to NaN or `+inf`, `bin_unsafe` is `-2 ^ 31` and `bin`
is `0`. -/
theorem bin_unsafe_differs :
    ((centBoundsOf farOps () twoPrims).size 0 = FVal.pinf
      ∧ Mapping.bin_unsafe (findMapping exactRcp binScale16 farOps twoPrims ())
          (farOps.centerIn () 1) 0 = -2 ^ 31
      ∧ Mapping.bin 16 (findMapping exactRcp binScale16 farOps twoPrims ())
          (farOps.centerIn () 1) 0 = 0)
    ∧ (finiteCenters tinyOps () twoPrims.flatten
      ∧ (centBoundsOf tinyOps () twoPrims).size 0 = FVal.fin (1 / 2 ^ 140)
      ∧ (findMapping Binary32.rcp binScale32 tinyOps twoPrims ()).scale 0 = FVal.pinf
      ∧ (∀ p, Mapping.bin_unsafe (findMapping Binary32.rcp binScale32 tinyOps twoPrims ())
          (tinyOps.centerIn () p) 0 = -2 ^ 31)
      ∧ (∀ p, Mapping.bin 16 (findMapping Binary32.rcp binScale32 tinyOps twoPrims ())
          (tinyOps.centerIn () p) 0 = 0)) := by
  refine ⟨⟨?_, ?_, ?_⟩, fun p _ d => ⟨_, rfl⟩, ?_, ?_, ?_, ?_⟩ <;> decide!

/-- C30 (amended).  Binning and partitioning agree in exact arithmetic.  With
an exact reciprocal and the constant `binScale = 0.99 * BINS` in the mapping
and `1 <= BINS <= 2 ^ 31`: for a mapping built from the centroid bounds of a
range with finite centres, every primitive of the range has
`bin_unsafe(center) = bin(center)` in every dimension, a value in
`[0, BINS-1]`.  For a split with this mapping, a dimension `dim` and a position
`pos <= BINS`, `split` sends to the left exactly the primitives that
`BinInfo::bin` counted in the bins `0..pos-1` of dimension `dim`; for fewer
than `2 ^ 31` primitives the count of the left `PrimInfo` equals that binned
count, and the count of the right `PrimInfo` the count of the bins from
`pos` on. -/
theorem split_agrees_with_bins (BINS : Nat) (hB : 1 ≤ BINS) (hB2 : BINS ≤ 2 ^ 31)
    (rcp : FVal K → FVal K)
    (hrcp : ∀ x : K, 0 < x → ∃ y, rcp (FVal.fin x) = FVal.fin y ∧ x * y = 1)
    (b : K) (hb : 100 * b = 99 * (BINS : K))
    (ops : PrimOps P S K) (prims : BlockList P)
    (space : S) (blockSize : Nat) (hbs : 0 < blockSize)
    (hN : prims.flatten.length < 2 ^ 31) (hfin : finiteCenters ops space prims.flatten)
    (s : Split S K) (hmap : s.mapping = findMapping rcp (FVal.fin b) ops prims space)
    (d : Fin 3) (hd : s.dim = (d.val : Int)) (pos : Nat) (hpos : s.pos = (pos : Int))
    (hposB : pos ≤ BINS) :
    (∀ p ∈ prims.flatten, ∀ d1 : Fin 3,
        s.mapping.bin_unsafe (ops.centerIn space p) d1
          = s.mapping.bin BINS (ops.centerIn space p) d1
        ∧ 0 ≤ s.mapping.bin_unsafe (ops.centerIn space p) d1
        ∧ s.mapping.bin_unsafe (ops.centerIn space p) d1 ≤ (BINS : Int) - 1)
    ∧ (∀ p ∈ prims.flatten,
        goesLeft ops s d p = decide (binIndex BINS ops s.mapping d p < pos))
    ∧ ∃ out : SplitOut P K,
        Split.split ops blockSize s prims [] PrimInfo.empty [] PrimInfo.empty = some ([], out)
        ∧ List.Perm out.lprims.flatten
            (prims.flatten.filter (fun p => decide (binIndex BINS ops s.mapping d p < pos)))
        ∧ List.Perm out.rprims.flatten
            (prims.flatten.filter (fun p => !decide (binIndex BINS ops s.mapping d p < pos)))
        ∧ (out.linfo.num : Int)
            = leftCount (findBins BINS rcp (FVal.fin b) ops prims space) d pos
        ∧ (out.rinfo.num : Int)
            = rightCount BINS (findBins BINS rcp (FVal.fin b) ops prims space) d pos := by
  obtain ⟨hb0, hb1⟩ := binScale_range_one BINS hB b hb
  exact split_bins_of_scale BINS hB hB2 rcp (FVal.fin b) ops prims space blockSize hbs hN hfin
    (scaleInto_mono BINS b 0 hb0 _ _ _ (scaleInto_exact BINS rcp b hrcp hb0 hb1 _))
    s hmap d hd pos hpos hposB

/-- Witness for C30 (amended): the four primitives of `skewOps`, binned into 16
bins with the exact reciprocal and split at position 1 of dimension 0: three
primitives go left, the three that were counted in bin 0. -/
theorem split_agrees_with_bins_witness :
    leftCount (findBins 16 exactRcp binScale16 skewOps skewPrims ()) 0 1 = 3
    ∧ ∃ out : SplitOut (Fin 4) ℚ,
        Split.split skewOps 2 (find 16 sampleBlocks exactRcp binScale16 skewOps skewPrims ())
          skewPrims [] PrimInfo.empty [] PrimInfo.empty = some ([], out)
        ∧ (out.linfo.num : Int)
            = leftCount (findBins 16 exactRcp binScale16 skewOps skewPrims ()) 0 1 :=
  ⟨by decide!, by
    obtain ⟨-, -, out, h1, -, -, h4, -⟩ := split_agrees_with_bins 16 (by decide) (by decide)
      exactRcp exactRcp_exact (16 * (99 / 100)) (by norm_num) skewOps skewPrims () 2
      (by decide) (by decide) (fun p _ d => ⟨_, rfl⟩)
      (find 16 sampleBlocks exactRcp binScale16 skewOps skewPrims ()) rfl 0 (by decide!) 1
      (by decide!) (by decide)
    exact ⟨out, h1, h4⟩⟩

end ObjectPartition

/-! ## Parallel prefix sums: bases and output intervals -/

namespace PrefixSum

theorem scanCalls_append (f : Piece → Nat → Nat × List Nat) (base : Nat) (l1 l2 : List Piece) :
    scanCalls f base (l1 ++ l2)
      = scanCalls f base l1
        ++ scanCalls f (base + ((scanCalls f base l1).map (fun c => c.count)).sum) l2 := by
  induction l1 generalizing base with
  | nil => simp [scanCalls]
  | cons pc l1 ih =>
    show _ :: scanCalls f (base + (f pc base).1) (l1 ++ l2) = _
    rw [ih]
    simp only [scanCalls, List.map_cons, List.sum_cons, Nat.add_assoc, List.cons_append]

/-- The counts of the calls are the counts of the pieces when the count of a
call does not depend on its base. -/
theorem scanCalls_counts (f : Piece → Nat → Nat × List Nat) (cnt : Piece → Nat)
    (h : ∀ pc b, (f pc b).1 = cnt pc) (base : Nat) (l : List Piece) :
    (scanCalls f base l).map (fun c => c.count) = l.map cnt
    ∧ (scanCalls f base l).map (fun c => c.piece) = l := by
  induction l generalizing base with
  | nil => exact ⟨rfl, rfl⟩
  | cons pc l ih =>
    obtain ⟨i1, i2⟩ := ih (base + (f pc base).1)
    simp only [scanCalls, List.map_cons]
    rw [i1, i2, h]
    exact ⟨rfl, rfl⟩

/-- The calls of one task and its count. -/
theorem runTask_eq (f : Piece → Nat → Nat × List Nat) (base0 : Nat) (pieces : List Piece) :
    runTask f base0 pieces
      = (((scanCalls f base0 pieces).map (fun c => c.count)).sum, scanCalls f base0 pieces) := by
  have key : ∀ (l : List Piece) (n : Nat) (cs : List Call),
      l.foldl
        (fun (acc : Nat × List Call) pc =>
          ((acc.1 + (f pc (base0 + acc.1)).1,
            acc.2 ++ [⟨pc, base0 + acc.1, (f pc (base0 + acc.1)).1,
              (f pc (base0 + acc.1)).2⟩]) : Nat × List Call))
        (n, cs)
      = (n + ((scanCalls f (base0 + n) l).map (fun c => c.count)).sum,
          cs ++ scanCalls f (base0 + n) l) := by
    intro l
    induction l with
    | nil => intro n cs; simp [scanCalls]
    | cons pc l ih =>
      intro n cs
      simp only [List.foldl_cons, ih, scanCalls, List.map_cons, List.sum_cons, Nat.add_assoc,
        List.append_assoc, List.singleton_append]
  have := key pieces 0 []
  simpa [runTask] using this

/-- The calls of a run whose tasks start from the prefix sums of their counts
are the calls of one pass over all pieces. -/
theorem run_calls (f : Piece → Nat → Nat × List Nat) (cnt : Piece → Nat)
    (h : ∀ pc b, (f pc b).1 = cnt pc) (tasks : List (List Piece)) (base : Nat) :
    (((List.zip tasks (prefixSumsFrom base (tasks.map (fun t => (t.map cnt).sum)))).map
        (fun t => runTask f t.2 t.1)).map Prod.snd).flatten
      = scanCalls f base tasks.flatten := by
  induction tasks generalizing base with
  | nil => rfl
  | cons t tasks ih =>
    simp only [List.map_cons, prefixSumsFrom, List.zip_cons_cons, List.flatten_cons]
    rw [ih, scanCalls_append, (scanCalls_counts f cnt h base t).1, runTask_eq]

/-- The counts of the tasks of a run. -/
theorem run_counts (f : Piece → Nat → Nat × List Nat) (cnt : Piece → Nat)
    (h : ∀ pc b, (f pc b).1 = cnt pc) (tasks : List (List Piece)) (sums : List Nat)
    (hlen : sums.length = tasks.length) :
    ((List.zip tasks sums).map (fun t => runTask f t.2 t.1)).map Prod.fst
      = tasks.map (fun t => (t.map cnt).sum) := by
  induction tasks generalizing sums with
  | nil => simp
  | cons t tasks ih =>
    cases sums with
    | nil => simp at hlen
    | cons s sums =>
      simp only [List.zip_cons_cons, List.map_cons]
      rw [ih sums (by simpa using hlen), runTask_eq, (scanCalls_counts f cnt h s t).1]

theorem prefixSumsFrom_length (sum : Nat) (counts : List Nat) :
    (prefixSumsFrom sum counts).length = counts.length := by
  induction counts generalizing sum with
  | nil => rfl
  | cons c counts ih => simp [prefixSumsFrom, ih]

theorem sum_flatten_map (cnt : Piece → Nat) (tasks : List (List Piece)) :
    (tasks.map (fun t => (t.map cnt).sum)).sum = (tasks.flatten.map cnt).sum := by
  induction tasks with
  | nil => rfl
  | cons t tasks ih => simp [ih]

/-- What a run leaves and calls, for a user function whose counts do not
depend on the base, from a state with one base per task. -/
theorem run_spec (f : Piece → Nat → Nat × List Nat) (cnt : Piece → Nat)
    (h : ∀ pc b, (f pc b).1 = cnt pc) (tasks : List (List Piece)) (state : State)
    (hlen : state.sums.length = tasks.length) :
    (parallel_for_for_prefix_sum state tasks f).1
      = ⟨tasks.map (fun t => (t.map cnt).sum),
          prefixSumsFrom 0 (tasks.map (fun t => (t.map cnt).sum)),
          (tasks.flatten.map cnt).sum⟩ := by
  unfold parallel_for_for_prefix_sum
  simp only [run_counts f cnt h tasks state.sums hlen, sum_flatten_map]

/-- The output intervals `[base, base+count)` of the calls of one pass follow
each other without gap or overlap. -/
theorem scanCalls_intervals (f : Piece → Nat → Nat × List Nat) (base : Nat) (l : List Piece) :
    ((scanCalls f base l).map (fun c => List.range' c.base c.count)).flatten
      = List.range' base (((scanCalls f base l).map (fun c => c.count)).sum) := by
  induction l generalizing base with
  | nil => rfl
  | cons pc l ih =>
    simp only [scanCalls, List.map_cons, List.flatten_cons, List.sum_cons]
    rw [ih, List.range'_append_1, Nat.add_comm]

/-- The base of the call number `k` of one pass is the sum of the counts of
the calls before it. -/
theorem scanCalls_base (f : Piece → Nat → Nat × List Nat) (base : Nat) (l : List Piece)
    (k : Nat) (c : Call) (h : (scanCalls f base l)[k]? = some c) :
    c.base = base + (((scanCalls f base l).take k).map (fun c => c.count)).sum
    ∧ l[k]? = some c.piece ∧ c.count = (f c.piece c.base).1
    ∧ c.writes = (f c.piece c.base).2 := by
  induction l generalizing base k with
  | nil => simp [scanCalls] at h
  | cons pc l ih =>
    cases k with
    | zero =>
      simp only [scanCalls, List.getElem?_cons_zero, Option.some.injEq] at h
      subst h
      simp
    | succ k =>
      simp only [scanCalls, List.getElem?_cons_succ] at h
      obtain ⟨h1, h2, h3, h4⟩ := ih _ k h
      refine ⟨?_, by simpa using h2, h3, h4⟩
      rw [h1]
      simp only [scanCalls, List.take_succ_cons, List.map_cons, List.sum_cons, Nat.add_assoc]

/-- The two user functions of the regression test return the same count,
whatever the base, and the function that fills increments the indices
`base, ..., base+count-1`, each once. -/
theorem fill_spec (array2 : List (List Nat)) (pc : Piece) (base : Nat) :
    (fill array2 pc base).1 = (dryRun array2 pc 0).1
    ∧ (fill array2 pc base).2 = List.range' base (fill array2 pc base).1 := by
  have key : ∀ (l : List Nat) (s : Nat) (ws : List Nat),
      (l.foldl
        (fun (acc : Nat × List Nat) i =>
          ((acc.1 + (array2.getD pc.outer []).getD i 0,
            acc.2 ++ (List.range ((array2.getD pc.outer []).getD i 0)).map
              (fun j => base + acc.1 + j)) : Nat × List Nat))
        (s, ws)).1
        = l.foldl (fun s i => s + (array2.getD pc.outer []).getD i 0) s
      ∧ (l.foldl
        (fun (acc : Nat × List Nat) i =>
          ((acc.1 + (array2.getD pc.outer []).getD i 0,
            acc.2 ++ (List.range ((array2.getD pc.outer []).getD i 0)).map
              (fun j => base + acc.1 + j)) : Nat × List Nat))
        (s, ws)).2
        = ws ++ List.range' (base + s)
            (l.foldl (fun s i => s + (array2.getD pc.outer []).getD i 0) s - s)
      ∧ s ≤ l.foldl (fun s i => s + (array2.getD pc.outer []).getD i 0) s := by
    intro l
    induction l with
    | nil => intro s ws; simp
    | cons i l ih =>
      intro s ws
      obtain ⟨i1, i2, i3⟩ := ih (s + (array2.getD pc.outer []).getD i 0)
        (ws ++ (List.range ((array2.getD pc.outer []).getD i 0)).map (fun j => base + s + j))
      simp only [List.foldl_cons]
      refine ⟨i1, ?_, by omega⟩
      rw [i2, List.append_assoc]
      congr 1
      have hr : (List.range ((array2.getD pc.outer []).getD i 0)).map (fun j => base + s + j)
          = List.range' (base + s) ((array2.getD pc.outer []).getD i 0) := by
        rw [List.range_eq_range', List.map_add_range']
        simp
      rw [hr, ← Nat.add_assoc, List.range'_append_1]
      congr 1
      omega
  obtain ⟨k1, k2, -⟩ := key (List.range' pc.r0 (pc.r1 - pc.r0)) 0 []
  refine ⟨k1, ?_⟩
  have e : (fill array2 pc base).2 = _ := k2
  rw [e]
  simp only [List.nil_append, Nat.add_zero, Nat.sub_zero]
  congr 1
  exact k1.symm

/-- The output array after a list of calls of `atomic_add`: every element has
been incremented once for each occurrence of its index. -/
theorem atomic_add_fold (ws : List Nat) (fl : List Nat) :
    (ws.foldl atomic_add fl).length = fl.length
    ∧ ∀ i, i < fl.length → (ws.foldl atomic_add fl).getD i 0 = fl.getD i 0 + ws.count i := by
  induction ws generalizing fl with
  | nil => simp
  | cons w ws ih =>
    obtain ⟨i1, i2⟩ := ih (atomic_add fl w)
    have hlen : (atomic_add fl w).length = fl.length := by simp [atomic_add]
    simp only [List.foldl_cons]
    refine ⟨i1.trans hlen, ?_⟩
    intro i hi
    rw [i2 i (by rw [hlen]; exact hi)]
    by_cases hw : w = i
    · subst hw
      have e : (atomic_add fl w).getD w 0 = fl.getD w 0 + 1 := by
        unfold atomic_add
        rw [List.getD_eq_getElem?_getD, List.getElem?_set_self hi]
        rfl
      rw [e, List.count_cons_self]
      omega
    · have e : (atomic_add fl w).getD i 0 = fl.getD i 0 := by
        unfold atomic_add
        rw [List.getD_eq_getElem?_getD, List.getElem?_set_ne hw, ← List.getD_eq_getElem?_getD]
      rw [e, List.count_cons_of_ne (fun h => hw h.symm)]

/-- Incrementing the elements `0, ..., n-1` of an array of `n` zeros, each
once, leaves an array in which every element is 1. -/
theorem atomic_add_range (n : Nat) :
    ((List.range n).foldl atomic_add (List.replicate n 0)).all (fun x => x == 1) = true := by
  obtain ⟨h1, h2⟩ := atomic_add_fold (List.range n) (List.replicate n 0)
  rw [List.all_eq_true]
  intro x hx
  obtain ⟨i, hi, rfl⟩ := List.getElem_of_mem hx
  have hin : i < n := by simpa [h1] using hi
  have h3 := h2 i (by simpa using hin)
  rw [List.getD_eq_getElem?_getD, List.getElem?_eq_getElem hi] at h3
  have hc : (List.range n).count i = 1 :=
    List.count_eq_one_of_mem (List.nodup_range n) (List.mem_range.2 hin)
  have hz : (List.replicate n 0).getD i 0 = 0 := by
    rw [List.getD_eq_getElem?_getD]
    simp [List.getElem?_replicate, hin]
  rw [hz, hc] at h3
  simp only [Option.getD_some] at h3
  rw [h3]
  rfl

/-- C24. `parallel_for_for_prefix_sum`, for every list of sub-ranges of the
inner arrays and every pair of user functions that return the same count for
a sub-range, whatever the base: after the first run `size()` is the total
count; in the second run every call receives as base the sum of the counts of
the sub-ranges before it; the output intervals `[base, base+count)` follow each
other and are together `[0, size())`, each index once; and the regression
test, whose second function increments `flattened[base+s+j]`, finds every
element of the output array assigned exactly once. -/
theorem prefix_sum_bases (tasks : List (List Piece)) (f1 f2 : Piece → Nat → Nat × List Nat)
    (cnt : Piece → Nat) (h1 : ∀ pc b, (f1 pc b).1 = cnt pc)
    (h2 : ∀ pc b, (f2 pc b).1 = cnt pc) :
    (parallel_for_for_prefix_sum (State.init tasks.length) tasks f1).1.size
      = (tasks.flatten.map cnt).sum
    ∧ (parallel_for_for_prefix_sum
        (parallel_for_for_prefix_sum (State.init tasks.length) tasks f1).1 tasks f2).2
      = scanCalls f2 0 tasks.flatten
    ∧ (∀ (k : Nat) (c : Call),
        (parallel_for_for_prefix_sum
          (parallel_for_for_prefix_sum (State.init tasks.length) tasks f1).1 tasks f2).2[k]?
          = some c →
        tasks.flatten[k]? = some c.piece
        ∧ c.base = ((tasks.flatten.take k).map cnt).sum
        ∧ c.count = cnt c.piece)
    ∧ ((parallel_for_for_prefix_sum
        (parallel_for_for_prefix_sum (State.init tasks.length) tasks f1).1 tasks f2).2.map
          (fun c => List.range' c.base c.count)).flatten
      = List.range (parallel_for_for_prefix_sum (State.init tasks.length) tasks f1).1.size
    ∧ (parallel_for_for_prefix_sum
        (parallel_for_for_prefix_sum (State.init tasks.length) tasks f1).1 tasks f2).1.size
      = (parallel_for_for_prefix_sum (State.init tasks.length) tasks f1).1.size
    ∧ ∀ array2 : List (List Nat), regressionTest array2 tasks = true := by
  have key : ∀ (g1 g2 : Piece → Nat → Nat × List Nat) (cn : Piece → Nat),
      (∀ pc b, (g1 pc b).1 = cn pc) → (∀ pc b, (g2 pc b).1 = cn pc) →
      (parallel_for_for_prefix_sum (State.init tasks.length) tasks g1).1
        = ⟨tasks.map (fun t => (t.map cn).sum),
            prefixSumsFrom 0 (tasks.map (fun t => (t.map cn).sum)),
            (tasks.flatten.map cn).sum⟩
      ∧ (parallel_for_for_prefix_sum
          (parallel_for_for_prefix_sum (State.init tasks.length) tasks g1).1 tasks g2).2
        = scanCalls g2 0 tasks.flatten
      ∧ (parallel_for_for_prefix_sum
          (parallel_for_for_prefix_sum (State.init tasks.length) tasks g1).1 tasks g2).1.size
        = (tasks.flatten.map cn).sum := by
    intro g1 g2 cn hg1 hg2
    have e1 := run_spec g1 cn hg1 tasks (State.init tasks.length) (by simp [State.init])
    refine ⟨e1, ?_, ?_⟩
    · rw [e1]
      exact run_calls g2 cn hg2 tasks 0
    · rw [e1, run_spec g2 cn hg2 tasks _ (by simp [prefixSumsFrom_length])]
      rfl
  obtain ⟨e1, e2, e3⟩ := key f1 f2 cnt h1 h2
  have hsize : (parallel_for_for_prefix_sum (State.init tasks.length) tasks f1).1.size
      = (tasks.flatten.map cnt).sum := by rw [e1]; rfl
  refine ⟨hsize, e2, ?_, ?_, e3.trans hsize.symm, ?_⟩
  · intro k c hc
    rw [e2] at hc
    obtain ⟨b1, b2, b3, -⟩ := scanCalls_base f2 0 tasks.flatten k c hc
    refine ⟨b2, ?_, by rw [b3, h2]⟩
    rw [b1, Nat.zero_add, List.map_take, (scanCalls_counts f2 cnt h2 0 tasks.flatten).1,
      ← List.map_take]
  · rw [e2, hsize, scanCalls_intervals, (scanCalls_counts f2 cnt h2 0 tasks.flatten).1,
      List.range_eq_range']
  · intro array2
    obtain ⟨t1, t2, -⟩ := key (dryRun array2) (fill array2) (fun pc => (dryRun array2 pc 0).1)
      (fun _ _ => rfl) (fun pc b => (fill_spec array2 pc b).1)
    have hw : ((scanCalls (fill array2) 0 tasks.flatten).map (fun c => c.writes))
        = (scanCalls (fill array2) 0 tasks.flatten).map
            (fun c => List.range' c.base c.count) := by
      apply List.map_congr_left
      intro c hc
      obtain ⟨k, hk, hkc⟩ := List.getElem_of_mem hc
      have hget : (scanCalls (fill array2) 0 tasks.flatten)[k]? = some c := by
        rw [List.getElem?_eq_getElem hk, hkc]
      obtain ⟨-, -, b3, b4⟩ := scanCalls_base (fill array2) 0 tasks.flatten k c hget
      rw [b4, b3]
      exact (fill_spec array2 c.piece c.base).2
    unfold regressionTest
    simp only []
    rw [t2, t1, hw, scanCalls_intervals,
      (scanCalls_counts (fill array2) _ (fun pc b => (fill_spec array2 pc b).1) 0
        tasks.flatten).1, ← List.range_eq_range']
    exact atomic_add_range _

/-- Witness for C24: the array `sampleArray` split into the three pieces of
`sampleTasks`, with the two user functions of the regression test; the bases
of the second run are 0, 2 and 5 for the counts 2, 3 and 5. -/
theorem prefix_sum_bases_witness :
    ((parallel_for_for_prefix_sum
      (parallel_for_for_prefix_sum (State.init sampleTasks.length) sampleTasks
        (dryRun sampleArray)).1 sampleTasks (fill sampleArray)).2.map
        (fun c => (c.base, c.count))) = [(0, 2), (2, 3), (5, 5)]
    ∧ (parallel_for_for_prefix_sum (State.init sampleTasks.length) sampleTasks
        (dryRun sampleArray)).1.size = 10
    ∧ ((parallel_for_for_prefix_sum
        (parallel_for_for_prefix_sum (State.init sampleTasks.length) sampleTasks
          (dryRun sampleArray)).1 sampleTasks (fill sampleArray)).2.map
          (fun c => List.range' c.base c.count)).flatten
      = List.range (parallel_for_for_prefix_sum (State.init sampleTasks.length) sampleTasks
          (dryRun sampleArray)).1.size :=
  ⟨by decide, by decide,
    (prefix_sum_bases sampleTasks (dryRun sampleArray) (fill sampleArray)
      (fun pc => (dryRun sampleArray pc 0).1) (fun _ _ => rfl)
      (fun pc b => (fill_spec sampleArray pc b).1)).2.2.2.1⟩

end PrefixSum

/-! ## The subdivision patch: the corner blocks of `init` -/

namespace SubdivPatch1

/-- C39 (not met by the code).  `init` reads `v[0][1]` from the same
half-edge as `v[0][0]`, the half-edge `e10->next()`, for every mesh.  On the
grid of 3 x 3 quads with the vertex positions numbered as the vertices, the
patch of the centre face (first half-edge 16): the block (0,0) is filled from
the face 0 with the corners 0, 1, 5, 4; `v[1][1]`, `v[1][0]` and `v[0][0]` are
the vertices 5, 4 and 0, the successor of the half-edge that supplies
`v[0][0]` starts at the vertex 1, and `v[0][1]` is the vertex 0 again; the
vertex 1 appears nowhere in the patch.  In each of the other three blocks the
fourth control point is read from the third successor of the half-edge the
block starts with. -/
theorem init_block00_repeats_corner :
    (∀ (H V : Type) (ops : HalfEdgeOps H) (h : H) (vertices : Nat → V)
        (p : RegularCatmullClarkPatch V),
      (init ops h vertices p).v 0 0
          = vertices (ops.getStartVertexIndex (ops.next (ops.next (ops.half_circle h))))
        ∧ (init ops h vertices p).v 0 1 = (init ops h vertices p).v 0 0)
    ∧ gridOps.half_circle 16 = 2
    ∧ ((init gridOps 16 id blankPatch).v 1 1, (init gridOps 16 id blankPatch).v 1 0,
        (init gridOps 16 id blankPatch).v 0 0, (init gridOps 16 id blankPatch).v 0 1)
      = (5, 4, 0, 0)
    ∧ gridOps.getStartVertexIndex
        (gridOps.next (gridOps.next (gridOps.next (gridOps.half_circle 16)))) = 1
    ∧ (∀ i j, (init gridOps 16 id blankPatch).v i j ≠ 1)
    ∧ (∀ (H V : Type) (ops : HalfEdgeOps H) (h : H) (vertices : Nat → V)
        (p : RegularCatmullClarkPatch V),
      (init ops h vertices p).v 0 2 = vertices (ops.getStartVertexIndex
          (ops.next (ops.next (ops.next (ops.half_circle (ops.opposite h))))))
      ∧ (init ops h vertices p).v 2 0 = vertices (ops.getStartVertexIndex
          (ops.next (ops.next (ops.next (ops.half_circle (ops.prev h))))))
      ∧ (init ops h vertices p).v 2 3 = vertices (ops.getStartVertexIndex
          (ops.next (ops.next (ops.next (ops.half_circle (ops.opposite (ops.next h)))))))) := by
  refine ⟨fun H V ops h vertices p => ⟨rfl, rfl⟩, by decide, by decide, by decide, by decide,
    fun H V ops h vertices p => ⟨rfl, rfl, rfl⟩⟩

end SubdivPatch1

